import Mathlib

/-!
file-verse (OMNIFS single-file virtual filesystem): verification development

Shallow embedding of the filesystem core:

* `free_space_manager.h`  : `FreeSegment`, `FreeSpaceManager` and its operations
* `file_tree.h`           : `TreeNode`, `FileTree` path resolution and mutation, as a tree
  of values for the session facade and as objects with pointers (`HeapTree`) for the
  class on its own
* `helper_functions.h`    : slot search, block allocation helper, path helpers
* `file_operations.cpp`, `directory_operations.cpp`, `info_operations.cpp`,
  `user_management.cpp`, `fs_init.cpp` : the session facade

Machine integers are natural numbers; `uint32_t` arithmetic is reduced modulo `2^32`
where the source computes in 32 bits.  Wall-clock reads (`time(nullptr)`) are an explicit
`now` argument.  Records of the container are kept decoded (one value per slot / block),
so the byte layout inside a record is outside the model.
-/

namespace OFS

/-! ## Free-space manager (`data_structures/free_space_manager.h`) -/

/-- Modulus of `uint32_t` arithmetic. -/
def U32 : Nat := 4294967296

/-- `struct FreeSegment`. -/
structure FreeSegment where
  startBlock : Nat
  blockCount : Nat
deriving DecidableEq, Repr

/-- `FreeSegment::endBlock`: `startBlock + blockCount - 1` in 32 bits. -/
def FreeSegment.endBlock (s : FreeSegment) : Nat :=
  (s.startBlock + s.blockCount + (U32 - 1)) % U32

/-- `class FreeSpaceManager` (private fields). -/
structure FreeSpaceManager where
  freeSegments : List FreeSegment
  totalBlocks : Nat
  freeBlocks : Nat
deriving DecidableEq, Repr

/-- `compareSegments` as a non-strict order, the relation handed to the sort. -/
def segLE (a b : FreeSegment) : Prop := a.startBlock ≤ b.startBlock

instance : DecidableRel segLE := fun a b => inferInstanceAs (Decidable (a.startBlock ≤ b.startBlock))

instance : IsTrans FreeSegment segLE := ⟨fun _ _ _ h1 h2 => Nat.le_trans h1 h2⟩

instance : IsTotal FreeSegment segLE := ⟨fun a b => Nat.le_total a.startBlock b.startBlock⟩

/-- `sortSegments`: `std::sort` by `startBlock` (insertion sort; the order of equal starts,
which `std::sort` leaves open, is the insertion order here). -/
def sortSegments (segs : List FreeSegment) : List FreeSegment :=
  segs.insertionSort segLE

/-- The `for` loop of `mergeAdjacentSegments`: `last` is `merged.back()`, the list is the
not yet visited part of the sorted vector. -/
def mergeLoop : FreeSegment → List FreeSegment → List FreeSegment
  | last, [] => [last]
  | last, current :: rest =>
    if (last.endBlock + 1) % U32 = current.startBlock then
      mergeLoop { last with blockCount := (last.blockCount + current.blockCount) % U32 } rest
    else
      last :: mergeLoop current rest

/-- `FreeSpaceManager::mergeAdjacentSegments` on the segment vector. -/
def mergeAdjacentSegments (segs : List FreeSegment) : List FreeSegment :=
  if segs.length ≤ 1 then segs
  else
    match sortSegments segs with
    | [] => []
    | first :: rest => mergeLoop first rest

/-- `FreeSpaceManager::findSegmentForAllocation`: index of the first segment with
`blockCount >= blocksNeeded`, `none` for `-1`. -/
def findSegmentForAllocation : List FreeSegment → Nat → Option Nat
  | [], _ => none
  | s :: rest, blocksNeeded =>
    if blocksNeeded ≤ s.blockCount then some 0
    else (findSegmentForAllocation rest blocksNeeded).map (· + 1)

/-- `FreeSpaceManager::FreeSpaceManager(numBlocks)`. -/
def FreeSpaceManager.new (numBlocks : Nat) : FreeSpaceManager :=
  { freeSegments := if 1 < numBlocks then [⟨1, (numBlocks + (U32 - 1)) % U32⟩] else []
    totalBlocks := numBlocks
    freeBlocks := (numBlocks + (U32 - 1)) % U32 }

/-- Runs of consecutive ids in the sorted id vector of `freeBlockSegments`:
`segStart`, `segCount` are the loop variables, `prev` is `sortedBlocks[i - 1]`. -/
def buildRuns (segStart segCount prev : Nat) : List Nat → List FreeSegment
  | [] => [⟨segStart, segCount⟩]
  | b :: bs =>
    if b = (prev + 1) % U32 then buildRuns segStart ((segCount + 1) % U32) b bs
    else ⟨segStart, segCount⟩ :: buildRuns b 1 b bs

/-- `FreeSpaceManager::freeBlockSegments`. -/
def freeBlockSegments (m : FreeSpaceManager) (blocks : List Nat) : FreeSpaceManager :=
  match blocks with
  | [] => m
  | _ :: _ =>
    let sorted := blocks.insertionSort (· ≤ ·)
    let sortedBlocks := match sorted with
      | 0 :: t => t
      | l => l
    match sortedBlocks with
    | [] => m
    | b0 :: rest =>
      { m with
        freeSegments := mergeAdjacentSegments (m.freeSegments ++ buildRuns b0 1 b0 rest)
        freeBlocks := (m.freeBlocks + sortedBlocks.length) % U32 }

/-- The block-collecting `for` loop of `allocateBlocks`: `remaining` iterations are left,
`i` is the loop index.  `Except.error acc` is the early exit on block number `0` with the
ids collected so far. -/
def collectBlocks (startBlock : Nat) : Nat → Nat → List Nat → Except (List Nat) (List Nat)
  | 0, _, acc => .ok acc
  | remaining + 1, i, acc =>
    let blockNum := (startBlock + i) % U32
    if blockNum = 0 then .error acc
    else collectBlocks startBlock remaining (i + 1) (acc ++ [blockNum])

/-- The part of `allocateBlocks` after a segment index has been found. -/
def takeFromSegment (m : FreeSpaceManager) (segmentIndex count : Nat) :
    List Nat × FreeSpaceManager :=
  match m.freeSegments[segmentIndex]? with
  | none => ([], m)
  | some segment =>
    match collectBlocks segment.startBlock count 0 [] with
    | .error allocated =>
      (match allocated with
       | [] => ([], m)
       | _ :: _ => ([], freeBlockSegments m allocated))
    | .ok allocatedBlocks =>
      let segs :=
        if segment.blockCount = count then m.freeSegments.eraseIdx segmentIndex
        else m.freeSegments.set segmentIndex
          ⟨(segment.startBlock + count) % U32, segment.blockCount - count⟩
      (allocatedBlocks, { m with freeSegments := segs,
                                 freeBlocks := m.freeBlocks - count })

/-- `FreeSpaceManager::allocateBlocks`: the returned ids and the manager afterwards. -/
def allocateBlocks (m : FreeSpaceManager) (count : Nat) : List Nat × FreeSpaceManager :=
  if count = 0 ∨ m.freeBlocks < count then ([], m)
  else
    match findSegmentForAllocation m.freeSegments count with
    | some segmentIndex => takeFromSegment m segmentIndex count
    | none =>
      let m1 := { m with freeSegments := mergeAdjacentSegments m.freeSegments }
      match findSegmentForAllocation m1.freeSegments count with
      | none => ([], m1)
      | some segmentIndex => takeFromSegment m1 segmentIndex count

/-- `FreeSpaceManager::isFree`. -/
def FreeSpaceManager.isFree (m : FreeSpaceManager) (blockIndex : Nat) : Bool :=
  if blockIndex = 0 then false
  else m.freeSegments.any (fun seg => decide (seg.startBlock ≤ blockIndex ∧ blockIndex ≤ seg.endBlock))

/-- `FreeSpaceManager::getUsedBlocks` (32-bit subtraction). -/
def FreeSpaceManager.getUsedBlocks (m : FreeSpaceManager) : Nat :=
  (m.totalBlocks + (U32 - m.freeBlocks % U32)) % U32

/-! ## Directory tree (`data_structures/file_tree.h`) -/

/-- The scalar fields of `struct TreeNode` (everything but `parent` and `children`). -/
structure NodeInfo where
  name : List Char
  isFile : Bool
  entryIndex : Nat
  startBlockIndex : Nat
  size : Nat
  permissions : Nat
  owner : List Char
  created_time : Nat
  modified_time : Nat
deriving DecidableEq, Repr

/-- `struct TreeNode`: the scalar fields and the `children` vector.  The `parent` back
pointer is not stored; a node is addressed by the route of names leading to it. -/
inductive TreeNode where
  | mk (info : NodeInfo) (children : List TreeNode) : TreeNode
deriving Repr

/-- Scalar fields of a node. -/
def TreeNode.info : TreeNode → NodeInfo
  | .mk i _ => i

/-- The `children` vector of a node. -/
def TreeNode.children : TreeNode → List TreeNode
  | .mk _ c => c

/-- `TreeNode(n, file)`: the constructor defaults (`0644` is octal). -/
def TreeNode.new (n : List Char) (file : Bool) : TreeNode :=
  .mk { name := n, isFile := file, entryIndex := 0, startBlockIndex := 0, size := 0,
        permissions := 0o644, owner := [], created_time := 0, modified_time := 0 } []

/-- `TreeNode::findChild` on the `children` vector: the first child with that name. -/
def findChild : List TreeNode → List Char → Option TreeNode
  | [], _ => none
  | c :: cs, childName => if c.info.name = childName then some c else findChild cs childName

/-- `TreeNode::removeChild(TreeNode*)` for a child that was reached through `findChild`:
the first child carrying that name is taken out of the vector. -/
def removeChild : List TreeNode → List Char → List TreeNode
  | [], _ => []
  | c :: cs, childName => if c.info.name = childName then cs else c :: removeChild cs childName

/-- Replace the first child carrying `childName` by its image under `f` (a write through a
pointer obtained from `findChild`). -/
def modifyChild (f : TreeNode → TreeNode) : List TreeNode → List Char → List TreeNode
  | [], _ => []
  | c :: cs, childName =>
    if c.info.name = childName then f c :: cs else c :: modifyChild f cs childName

/-- The scanning loop of `FileTree::splitPath`: `cur` is the component being read. -/
def splitPathLoop : List Char → List Char → List (List Char)
  | [], cur => if cur = [] then [] else [cur]
  | c :: cs, cur =>
    if c = '/' then
      (if cur = [] then splitPathLoop cs [] else cur :: splitPathLoop cs [])
    else splitPathLoop cs (cur ++ [c])

/-- `FileTree::splitPath`: the non-empty components between the slashes. -/
def splitPath (path : List Char) : List (List Char) :=
  if path = [] ∨ path = ['/'] then [] else splitPathLoop path []

/-- Descent of `FileTree::findNode` along the components. -/
def findNodeParts : TreeNode → List (List Char) → Option TreeNode
  | t, [] => some t
  | t, p :: ps =>
    match findChild t.children p with
    | none => none
    | some c => findNodeParts c ps

/-- A write through a pointer that `findNode` returned for the route `parts`. -/
def modifyAt (f : TreeNode → TreeNode) : List (List Char) → TreeNode → TreeNode
  | [], t => f t
  | p :: ps, .mk i cs => .mk i (modifyChild (modifyAt f ps) cs p)

/-- `class FileTree`: the root pointer. -/
structure FileTree where
  root : TreeNode
deriving Repr

/-- `FileTree::FileTree()`. -/
def FileTree.new (now : Nat) : FileTree :=
  ⟨.mk { name := ['/'], isFile := false, entryIndex := 1, startBlockIndex := 0, size := 0,
         permissions := 0o755, owner := "admin".toList, created_time := now,
         modified_time := now } []⟩

/-- `FileTree::findNode`. -/
def FileTree.findNode (t : FileTree) (path : List Char) : Option TreeNode :=
  if path = ['/'] ∨ path = [] then some t.root
  else findNodeParts t.root (splitPath path)

/-- `FileTree::exists`. -/
def FileTree.exists (t : FileTree) (path : List Char) : Bool :=
  (t.findNode path).isSome

/-- `FileTree::isFile`. -/
def FileTree.isFile (t : FileTree) (path : List Char) : Bool :=
  match t.findNode path with
  | some n => n.info.isFile
  | none => false

/-- `FileTree::isDirectory`. -/
def FileTree.isDirectory (t : FileTree) (path : List Char) : Bool :=
  match t.findNode path with
  | some n => !n.info.isFile
  | none => false

/-- `std::string::find_last_of('/')`: position of the last slash, `none` for `npos`. -/
def findLastSlashLoop : List Char → Nat → Option Nat → Option Nat
  | [], _, last => last
  | c :: cs, i, last => findLastSlashLoop cs (i + 1) (if c = '/' then some i else last)

/-- `path.find_last_of('/')`. -/
def findLastSlash (path : List Char) : Option Nat :=
  findLastSlashLoop path 0 none

/-- The parent path and the name that `createNode` and `rename` cut out of a path.
Without any slash `find_last_of` gives `npos`, `substr(0, npos)` is the whole string and
`substr(npos + 1)` is `substr(0)`, again the whole string. -/
def splitParentName (path : List Char) : List Char × List Char :=
  match findLastSlash path with
  | some 0 => (['/'], path.drop 1)
  | some lastSlash => (path.take lastSlash, path.drop (lastSlash + 1))
  | none => (path, path)

/-- Route (component list) that `findNode` follows for a path. -/
def routeOf (path : List Char) : List (List Char) :=
  if path = ['/'] ∨ path = [] then [] else splitPath path

/-- `FileTree::createNode`.  `none` is the null pointer; on success the new tree and the
route to the new node (the returned pointer) are given. -/
def FileTree.createNode (t : FileTree) (path : List Char) (isFile : Bool) (owner : List Char)
    (now : Nat) : Option (FileTree × List (List Char)) :=
  if path = ['/'] then none
  else
    let (parentPath, name) := splitParentName path
    if name = [] ∨ '/' ∈ name then none
    else
      match t.findNode parentPath with
      | none => none
      | some parent =>
        if parent.info.isFile then none
        else if (findChild parent.children name).isSome then none
        else
          let newNode : TreeNode :=
            .mk { name := name, isFile := isFile, entryIndex := 0, startBlockIndex := 0,
                  size := 0, permissions := if isFile then 0o644 else 0o755, owner := owner,
                  created_time := now, modified_time := now } []
          let addChild : TreeNode → TreeNode := fun p =>
            .mk { p.info with modified_time := now } (p.children ++ [newNode])
          some (⟨modifyAt addChild (routeOf parentPath) t.root⟩, routeOf parentPath ++ [name])

/-- Write through a node pointer: update the scalar fields of the node at `route`. -/
def FileTree.update (t : FileTree) (route : List (List Char)) (f : NodeInfo → NodeInfo) :
    FileTree :=
  ⟨modifyAt (fun n => .mk (f n.info) n.children) route t.root⟩

/-- `FileTree::deleteNode`: `none` is `false`.  The root has no parent, so every path that
resolves to the root yields `false`. -/
def FileTree.deleteNode (t : FileTree) (path : List Char) : Option FileTree :=
  if path = ['/'] then none
  else
    match t.findNode path with
    | none => none
    | some node =>
      if node.info.isFile = false ∧ node.children.isEmpty = false then none
      else
        match (routeOf path).getLast?, (routeOf path).dropLast with
        | none, _ => none
        | some name, parentRoute =>
          some ⟨modifyAt (fun p => .mk p.info (removeChild p.children name)) parentRoute t.root⟩

/-- `FileTree::rename` on the tree that hangs below the root: `none` is `false`.  An old
path without a component (the empty path, `//`) resolves to the root and passes the test
`oldPath == "/"`; the source then hangs the root below the new parent, which closes a
cycle of pointers.  No `FileTree` value describes that heap: the case is the `none` of the
match on the route of the old path below, and `HeapTree.rename` is the function with that
case.  It does not arise from `file_rename`, which renames files only.  The new parent is
addressed by its route after the node has been detached, so a parent inside the moved
subtree receives nothing, as in the source where the subtree is then unreachable from the
root. -/
def FileTree.rename (t : FileTree) (oldPath newPath : List Char) (now : Nat) :
    Option FileTree :=
  match t.findNode oldPath with
  | none => none
  | some oldNode =>
    if oldPath = ['/'] then none
    else
      let (newParentPath, newName) := splitParentName newPath
      if newName = [] ∨ '/' ∈ newName then none
      else
        match t.findNode newParentPath with
        | none => none
        | some newParent =>
          if newParent.info.isFile then none
          else if (findChild newParent.children newName).isSome then none
          else
            match (routeOf oldPath).getLast?, (routeOf oldPath).dropLast with
            | none, _ => none
            | some oldName, oldParentRoute =>
              let detached := modifyAt
                (fun p => .mk { p.info with modified_time := now } (removeChild p.children oldName))
                oldParentRoute t.root
              let moved : TreeNode :=
                .mk { oldNode.info with name := newName, modified_time := now } oldNode.children
              some ⟨modifyAt
                (fun p => .mk { p.info with modified_time := now } (p.children ++ [moved]))
                (routeOf newParentPath) detached⟩

/-! ## AVL tree (`data_structures/avl_tree.h`) -/

/-- `struct AVLNode<T>`; `nil` is the null pointer. -/
inductive AVLNode (T : Type) where
  | nil : AVLNode T
  | node (value : List Char) (data : T) (left right : AVLNode T) (height : Int) : AVLNode T
deriving Repr

namespace AVLNode

variable {T : Type}

/-- `AVLTree::height`. -/
def heightOf : AVLNode T → Int
  | nil => 0
  | node _ _ _ _ h => h

/-- Left child (`nil` for the null pointer). -/
def leftOf : AVLNode T → AVLNode T
  | nil => nil
  | node _ _ l _ _ => l

/-- Right child (`nil` for the null pointer). -/
def rightOf : AVLNode T → AVLNode T
  | nil => nil
  | node _ _ _ r _ => r

/-- Key of a node (empty for the null pointer, which the source never dereferences). -/
def valueOf : AVLNode T → List Char
  | nil => []
  | node v _ _ _ _ => v

/-- `AVLTree::getBalance`. -/
def getBalance : AVLNode T → Int
  | nil => 0
  | node _ _ l r _ => heightOf l - heightOf r

/-- `AVLTree::updateHeight`. -/
def updateHeight : AVLNode T → AVLNode T
  | nil => nil
  | node v d l r _ =>
    node v d l r (if heightOf l > heightOf r then 1 + heightOf l else 1 + heightOf r)

/-- `AVLTree::rotateRight` (the argument has a left child wherever the source calls it). -/
def rotateRight : AVLNode T → AVLNode T
  | node yv yd (node xv xd xl t2 xh) yr yh =>
    updateHeight (node xv xd xl (updateHeight (node yv yd t2 yr yh)) xh)
  | y => y

/-- `AVLTree::rotateLeft` (the argument has a right child wherever the source calls it). -/
def rotateLeft : AVLNode T → AVLNode T
  | node xv xd xl (node yv yd t2 yr yh) xh =>
    updateHeight (node yv yd (updateHeight (node xv xd xl t2 xh)) yr yh)
  | x => x

/-- The rebalancing tail of `insertHelper`, after `updateHeight(node)`. -/
def rebalanceInsert (value : List Char) (n : AVLNode T) : AVLNode T :=
  match n with
  | nil => nil
  | node v d l r h =>
    let balance := getBalance n
    if balance > 1 ∧ value < valueOf l then rotateRight n
    else if balance < -1 ∧ value > valueOf r then rotateLeft n
    else if balance > 1 ∧ value > valueOf l then rotateRight (node v d (rotateLeft l) r h)
    else if balance < -1 ∧ value < valueOf r then rotateLeft (node v d l (rotateRight r) h)
    else n

/-- `AVLTree::insertHelper`. -/
def insertHelper : AVLNode T → List Char → T → AVLNode T
  | nil, value, data => node value data nil nil 1
  | node v d l r h, value, data =>
    if value < v then
      rebalanceInsert value (updateHeight (node v d (insertHelper l value data) r h))
    else if value > v then
      rebalanceInsert value (updateHeight (node v d l (insertHelper r value data) h))
    else node v data l r h

/-- `AVLTree::findMin`: key and data of the leftmost node. -/
def findMin : AVLNode T → Option (List Char × T)
  | nil => none
  | node v d l _ _ =>
    match findMin l with
    | some m => some m
    | none => some (v, d)

/-- The rebalancing tail of `deleteHelper`, after `updateHeight(node)`. -/
def rebalanceDelete (n : AVLNode T) : AVLNode T :=
  match n with
  | nil => nil
  | node v d l r h =>
    let balance := getBalance n
    if balance > 1 ∧ getBalance l ≥ 0 then rotateRight n
    else if balance > 1 ∧ getBalance l < 0 then rotateRight (node v d (rotateLeft l) r h)
    else if balance < -1 ∧ getBalance r ≤ 0 then rotateLeft n
    else if balance < -1 ∧ getBalance r > 0 then rotateLeft (node v d l (rotateRight r) h)
    else n

/-- `AVLTree::deleteHelper`. -/
def deleteHelper : AVLNode T → List Char → AVLNode T
  | nil, _ => nil
  | node v d l r h, value =>
    if value < v then
      rebalanceDelete (updateHeight (node v d (deleteHelper l value) r h))
    else if value > v then
      rebalanceDelete (updateHeight (node v d l (deleteHelper r value) h))
    else
      match l, r with
      | nil, nil => nil
      | node lv ld ll lr lh, nil => rebalanceDelete (updateHeight (node lv ld ll lr lh))
      | nil, node rv rd rl rr rh => rebalanceDelete (updateHeight (node rv rd rl rr rh))
      | node lv ld ll lr lh, node rv rd rl rr rh =>
        match findMin (node rv rd rl rr rh) with
        | none => node v d l r h
        | some (mv, md) =>
          rebalanceDelete (updateHeight
            (node mv md (node lv ld ll lr lh) (deleteHelper (node rv rd rl rr rh) mv) h))

/-- `AVLTree::searchHelper`: the data of the node found. -/
def searchHelper : AVLNode T → List Char → Option T
  | nil, _ => none
  | node v d l r _, value =>
    if v = value then some d
    else if value < v then searchHelper l value
    else searchHelper r value

/-- `AVLTree::inOrderHelper`. -/
def inOrderHelper : AVLNode T → List T
  | nil => []
  | node _ d l r _ => inOrderHelper l ++ [d] ++ inOrderHelper r

end AVLNode

/-- `class AVLTree<T>`. -/
structure AVLTree (T : Type) where
  root : AVLNode T
deriving Repr

namespace AVLTree

variable {T : Type}

/-- `AVLTree::AVLTree()`. -/
def empty : AVLTree T := ⟨.nil⟩

/-- `AVLTree::search`. -/
def search (t : AVLTree T) (value : List Char) : Option T :=
  t.root.searchHelper value

/-- `AVLTree::insert`. -/
def insert (t : AVLTree T) (value : List Char) (data : T) : AVLTree T :=
  ⟨t.root.insertHelper value data⟩

/-- `AVLTree::remove`: the flag returned and the tree afterwards. -/
def remove (t : AVLTree T) (value : List Char) : Bool × AVLTree T :=
  match t.search value with
  | none => (false, t)
  | some _ => (true, ⟨t.root.deleteHelper value⟩)

/-- `AVLTree::getAllSorted`. -/
def getAllSorted (t : AVLTree T) : List T :=
  t.root.inOrderHelper

/-- `AVLTree::size`. -/
def size (t : AVLTree T) : Nat :=
  t.getAllSorted.length

end AVLTree

/-- A write through the pointer returned by `AVLTree::search`: the data of the node that
`searchHelper` reaches for `value` is replaced by its image under `f`. -/
def AVLNode.modifyHelper {T : Type} (f : T → T) : AVLNode T → List Char → AVLNode T
  | .nil, _ => .nil
  | .node v d l r h, value =>
    if v = value then .node v (f d) l r h
    else if value < v then .node v d (modifyHelper f l value) r h
    else .node v d l (modifyHelper f r value) h

/-- Write through the pointer returned by `AVLTree::search`. -/
def AVLTree.modify {T : Type} (t : AVLTree T) (value : List Char) (f : T → T) : AVLTree T :=
  ⟨t.root.modifyHelper f value⟩

/-! ## Records, container and mounted instance
(`include/odf_types.hpp`, `include/config_parser.h`, `include/ofs_instance.h`,
`include/session_manager.h`) -/

/-- `enum class OFSErrorCodes`. -/
inductive OFSErrorCodes where
  | SUCCESS
  | ERROR_NOT_FOUND
  | ERROR_PERMISSION_DENIED
  | ERROR_IO_ERROR
  | ERROR_INVALID_PATH
  | ERROR_FILE_EXISTS
  | ERROR_NO_SPACE
  | ERROR_INVALID_CONFIG
  | ERROR_NOT_IMPLEMENTED
  | ERROR_INVALID_SESSION
  | ERROR_DIRECTORY_NOT_EMPTY
  | ERROR_INVALID_OPERATION
deriving DecidableEq, Repr

/-- `enum class UserRole`. -/
inductive UserRole where
  | NORMAL
  | ADMIN
deriving DecidableEq, Repr

/-- `enum class EntryType`. -/
inductive EntryType where
  | FILE
  | DIRECTORY
deriving DecidableEq, Repr

/-- Modelled from the spec: `struct UserInfo` of `odf_types.hpp`, which is not among the
sources.  Fields as listed in the data model: username, password hash, role, created-time,
last-login, active flag. -/
structure UserInfo where
  username : List Char
  password_hash : List Char
  role : UserRole
  created_time : Nat
  last_login : Nat
  is_active : Bool
deriving DecidableEq, Repr

/-- Modelled from the spec: capacity of the `username` field of `UserInfo`.  The user
record is fixed-width and its username is a "bounded string"; the spec names no width and
`odf_types.hpp` is not among the sources.  31 characters are taken (a 32-byte field with
its terminator); the general theorems refer to the capacity by this name only. -/
def UserInfo.usernameCapacity : Nat := 31

/-- Modelled from the spec: capacity of the `password_hash` field of `UserInfo`, a bounded
string as well; 63 characters are taken (a 64-byte field with its terminator). -/
def UserInfo.hashCapacity : Nat := 63

/-- Modelled from the spec: the `UserInfo(username, hash, role, created)` constructor of
`odf_types.hpp`; a new record is active and has never logged in.  The record holds the two
strings up to the capacity of their fields. -/
def UserInfo.new (username passwordHash : List Char) (role : UserRole) (created : Nat) :
    UserInfo :=
  { username := username.take UserInfo.usernameCapacity,
    password_hash := passwordHash.take UserInfo.hashCapacity, role := role,
    created_time := created, last_login := 0, is_active := true }

/-- A `memset`-zeroed `UserInfo`. -/
def UserInfo.zero : UserInfo :=
  { username := [], password_hash := [], role := .NORMAL, created_time := 0, last_login := 0,
    is_active := false }

/-- Modelled from the spec: `struct FileEntry` of `odf_types.hpp`, which is not among the
sources.  Fields as listed in the data model: name, type, size, permissions, owner,
created-time, modified-time, inode, parent_index, validity flag. -/
structure FileEntry where
  name : List Char
  type : EntryType
  size : Nat
  permissions : Nat
  owner : List Char
  created_time : Nat
  modified_time : Nat
  inode : Nat
  parent_index : Nat
  valid : Bool
deriving DecidableEq, Repr

/-- A `memset`-zeroed `FileEntry`: empty name, not valid. -/
def FileEntry.zero : FileEntry :=
  { name := [], type := .FILE, size := 0, permissions := 0, owner := [], created_time := 0,
    modified_time := 0, inode := 0, parent_index := 0, valid := false }

/-- Modelled from the spec: capacity of the `name` field of `FileEntry` ("typically 255"),
the `sizeof(name) - 1` of the `strncpy` calls. -/
def FileEntry.nameCapacity : Nat := 255

/-- Modelled from the spec: the seven-argument `FileEntry` constructor of `odf_types.hpp`.
Times are zero until assigned and the record is not yet marked valid. -/
def FileEntry.new (filename : List Char) (type : EntryType) (size permissions : Nat)
    (owner : List Char) (inode parentIndex : Nat) : FileEntry :=
  { name := filename.take FileEntry.nameCapacity, type := type, size := size,
    permissions := permissions, owner := owner, created_time := 0, modified_time := 0,
    inode := inode, parent_index := parentIndex, valid := false }

/-- Modelled from the spec: `FileEntry::isValid` reads the validity flag. -/
def FileEntry.isValid (e : FileEntry) : Bool := e.valid

/-- Modelled from the spec: `FileEntry::markValid` sets the validity flag. -/
def FileEntry.markValid (e : FileEntry) : FileEntry := { e with valid := true }

/-- Modelled from the spec: `FileEntry::markInvalid`; "deletion marks the slot invalid and
its name empty". -/
def FileEntry.markInvalid (e : FileEntry) : FileEntry := { e with valid := false, name := [] }

/-- The fields of `struct OMNIHeader` that the core reads. -/
structure OMNIHeader where
  magic : List Char
  format_version : Nat
  total_size : Nat
  header_size : Nat
  block_size : Nat
  user_table_offset : Nat
  max_users : Nat
deriving DecidableEq, Repr

/-- `struct FileSystemConfig`. -/
structure FileSystemConfig where
  total_size : Nat
  header_size : Nat
  block_size : Nat
  max_files : Nat
  max_filename_length : Nat
  max_users : Nat
  admin_username : List Char
  admin_password : List Char
  require_auth : Bool
  port : Nat
  max_connections : Nat
  queue_timeout : Nat
deriving DecidableEq, Repr

/-- `FileSystemConfig::FileSystemConfig()`: the defaults. -/
def FileSystemConfig.default : FileSystemConfig :=
  { total_size := 104857600, header_size := 512, block_size := 4096, max_files := 1000,
    max_filename_length := 255, max_users := 50, admin_username := "admin".toList,
    admin_password := "admin123".toList, require_auth := true, port := 8080,
    max_connections := 20, queue_timeout := 30 }

/-- The `sizeof` values of the three record types of `odf_types.hpp` (not among the
sources); they enter the offset computations only. -/
structure RecordSizes where
  sizeofHeader : Nat
  sizeofUserInfo : Nat
  sizeofFileEntry : Nat
deriving DecidableEq, Repr

/-- One block of the block area: the 4-byte next pointer and the content bytes. -/
structure Block where
  next : Nat
  content : List Nat
deriving DecidableEq, Repr

/-- The container file, seen through the offsets the core uses: the header, the user slots
from `user_table_offset`, the entry slots from the entry-table offset, the blocks from the
content offset and the bytes from the free-space offset to the end of the file.  `none` is
a read that hits the end of the file.  Records are kept decoded, so an entry index beyond
the table, whose bytes lie in the block area, is a slot of its own here. -/
structure Container where
  header : Option OMNIHeader
  users : Nat → Option UserInfo
  entries : Nat → Option FileEntry
  blocks : Nat → Option Block
  snapshot : List Nat

/-- `fseek` to a user slot followed by `fwrite`. -/
def Container.writeUser (c : Container) (i : Nat) (u : UserInfo) : Container :=
  { c with users := fun k => if k = i then some u else c.users k }

/-- `fseek` to an entry slot followed by `fwrite`. -/
def Container.writeEntry (c : Container) (i : Nat) (e : FileEntry) : Container :=
  { c with entries := fun k => if k = i then some e else c.entries k }

/-- `fseek` to a block followed by `fwrite` of the next pointer and the content. -/
def Container.writeBlock (c : Container) (b : Nat) (blk : Block) : Container :=
  { c with blocks := fun k => if k = b then some blk else c.blocks k }

/-- `struct SessionInfo` as far as the core reads it: the id, the user record copied at
login, and the two time stamps. -/
structure SessionInfo where
  session_id : List Char
  user : UserInfo
  login_time : Nat
  last_activity : Nat
deriving DecidableEq, Repr

/-- `struct OFSInstance`. -/
structure OFSInstance where
  omni_file : Container
  header : OMNIHeader
  users : AVLTree UserInfo
  sessions : AVLTree SessionInfo
  file_tree : FileTree
  free_manager : FreeSpaceManager
  total_files : Nat
  total_directories : Nat
  config : FileSystemConfig

/-- `struct ManagedSession`; the `instance` pointer is the one mounted instance, so only
its being non-null is recorded. -/
structure ManagedSession where
  session_id : List Char
  info : SessionInfo
  hasInstance : Bool
  is_active : Bool
deriving DecidableEq, Repr

/-- `ManagedSession()`: an unused slot of the session table. -/
def ManagedSession.empty : ManagedSession :=
  { session_id := [],
    info := { session_id := [], user := UserInfo.zero, login_time := 0, last_activity := 0 },
    hasInstance := false, is_active := false }

/-- The static state of `class SessionManager`: `sessions` (`none` for the null pointer),
`global_instance` being set, `session_count`, `max_sessions`. -/
structure SessionManager where
  sessions : Option (List ManagedSession)
  hasGlobalInstance : Bool
  session_count : Int
  max_sessions : Nat
deriving DecidableEq, Repr

/-! ## Helper functions (`include/helper_functions.h`) -/

/-- The scan of `findFreeEntryIndex`: `remaining` iterations are left, `i` is the loop
index.  A slot whose read fails is passed over. -/
def findFreeEntryLoop (entries : Nat → Option FileEntry) : Nat → Nat → Nat
  | 0, _ => 0
  | remaining + 1, i =>
    match entries i with
    | some entry =>
      if entry.name = [] ∨ entry.isValid = false then i
      else findFreeEntryLoop entries remaining (i + 1)
    | none => findFreeEntryLoop entries remaining (i + 1)

/-- `findFreeEntryIndex(fs, max_files)`: the loop runs over `2 <= i < max_files`;
`0` means that no slot was found. -/
def findFreeEntryIndex (fs : OFSInstance) (max_files : Nat) : Nat :=
  findFreeEntryLoop fs.omni_file.entries (max_files - 2) 2

/-- The default argument `max_files = 1000` of `findFreeEntryIndex`. -/
def findFreeEntryIndexDefaultMax : Nat := 1000

/-- `simple_hash`: every character plus one (in a byte), then `_hash`. -/
def simple_hash (password : List Char) : List Char :=
  password.map (fun c => Char.ofNat ((c.toNat + 1) % 256)) ++ "_hash".toList

/-- `calculateBlocksNeeded`. -/
def calculateBlocksNeeded (size usable_block_size : Nat) : Nat :=
  if size = 0 then 1 else ((size + usable_block_size - 1) / usable_block_size) % U32

/-- The single-block loop of `allocateFileBlocks`: `remaining` iterations are left and
`blocks` holds the ids collected so far. -/
def allocateSingles : Nat → FreeSpaceManager → List Nat → List Nat × FreeSpaceManager
  | 0, fm, blocks => (blocks, fm)
  | remaining + 1, fm, blocks =>
    match allocateBlocks fm 1 with
    | (b :: _, fm1) => allocateSingles remaining fm1 (blocks ++ [b])
    | ([], fm1) =>
      (match blocks with
       | [] => ([], fm1)
       | _ :: _ => ([], freeBlockSegments fm1 blocks))

/-- `allocateFileBlocks`: the ids handed out and the manager afterwards. -/
def allocateFileBlocks (free_manager : FreeSpaceManager) (blocks_needed : Nat) :
    List Nat × FreeSpaceManager :=
  if blocks_needed = 0 then ([], free_manager)
  else
    match allocateBlocks free_manager blocks_needed with
    | (b :: bs, fm1) => (b :: bs, fm1)
    | ([], fm1) => allocateSingles blocks_needed fm1 []

/-- The `while` loop of `reconstructPath`: `fuel` is `MAX_DEPTH - component_count`,
`components` are the names pushed so far.  `none` is the early `return ""`. -/
def reconstructLoop (entries : Nat → Option FileEntry) :
    Nat → Nat → List (List Char) → Option (List (List Char))
  | 0, _, components => some components
  | fuel + 1, current_index, components =>
    if current_index = 0 ∨ current_index = 1 then some components
    else
      match entries current_index with
      | none => none
      | some entry =>
        if entry.isValid = false then none
        else reconstructLoop entries fuel entry.parent_index (components ++ [entry.name])

/-- Concatenation of the components from the last pushed to the first, each preceded by a
slash: for a non-empty list this is the string the last loop of `reconstructPath` builds. -/
def joinComponents : List (List Char) → List Char
  | [] => []
  | c :: cs => joinComponents cs ++ '/' :: c

/-- `reconstructPath`; the empty string is the failure value. -/
def reconstructPath (fs : OFSInstance) (entry_index : Nat) : List Char :=
  if entry_index = 0 then []
  else if entry_index = 1 then ['/']
  else
    match reconstructLoop fs.omni_file.entries 100 entry_index [] with
    | none => []
    | some components =>
      if components.length = 0 then []
      else if components.length ≥ 100 then []
      else joinComponents components

/-- `getParentIndexFromPath`. -/
def getParentIndexFromPath (fs : OFSInstance) (path : List Char) : Nat :=
  if path = ['/'] ∨ path = [] then 0
  else
    match findLastSlash path with
    | some 0 => 1
    | some last_slash =>
      (match fs.file_tree.findNode (path.take last_slash) with
       | some parent_node => parent_node.info.entryIndex
       | none => 0)
    | none =>
      (match fs.file_tree.findNode path with
       | some parent_node => parent_node.info.entryIndex
       | none => 0)

/-- `extractFilename`. -/
def extractFilename (path : List Char) : List Char :=
  if path = ['/'] then ['/']
  else
    match findLastSlash path with
    | none => path
    | some last_slash => path.drop (last_slash + 1)

/-- `calculateContentOffset` (64-bit). -/
def calculateContentOffset (sz : RecordSizes) (header : OMNIHeader) (max_files : Nat) : Nat :=
  header.user_table_offset + header.max_users * sz.sizeofUserInfo
    + max_files * sz.sizeofFileEntry

/-- `calculateTotalBlocks`: 64-bit subtraction and division, the result cut to 32 bits. -/
def calculateTotalBlocks (total_size content_offset block_size : Nat) : Nat :=
  ((total_size + (18446744073709551616 - content_offset % 18446744073709551616))
      % 18446744073709551616 / block_size) % U32

/-! ## Session registry (`include/session_manager.h`) -/

namespace SessionManager

/-- The static `initialize(config)` of `SessionManager`: a fresh table of `max_connections`
unused slots. -/
def setup (sm : SessionManager) (config : FileSystemConfig) : SessionManager :=
  { sm with sessions := some (List.replicate config.max_connections ManagedSession.empty)
            session_count := 0
            max_sessions := config.max_connections }

/-- `SessionManager::findSessionIndex` over the table, `none` for `-1`. -/
def findSessionIndex (sm : SessionManager) (session_id : List Char) : Option Nat :=
  match sm.sessions with
  | none => none
  | some tbl =>
    let i := (tbl.take sm.max_sessions).findIdx
      (fun s => s.is_active && decide (s.session_id = session_id))
    if i < (tbl.take sm.max_sessions).length then some i else none

/-- `SessionManager::findFreeSlot`, `none` for `-1`. -/
def findFreeSlot (sm : SessionManager) : Option Nat :=
  match sm.sessions with
  | none => none
  | some tbl =>
    let i := (tbl.take sm.max_sessions).findIdx (fun s => !s.is_active)
    if i < (tbl.take sm.max_sessions).length then some i else none

/-- `SessionManager::getSession`: the session found (with `last_activity` stamped) and the
registry afterwards. -/
def getSession (sm : SessionManager) (session_id : List Char) (now : Nat) :
    Option ManagedSession × SessionManager :=
  match findSessionIndex sm session_id, sm.sessions with
  | some index, some tbl =>
    (match tbl[index]? with
     | some s =>
       let s1 := { s with info := { s.info with last_activity := now } }
       (some s1, { sm with sessions := some (tbl.set index s1) })
     | none => (none, sm))
  | _, _ => (none, sm)

/-- `SessionManager::createSession`: the id returned, the registry and the session index
of the instance afterwards. -/
def createSession (sm : SessionManager) (user : UserInfo) (instSessions : AVLTree SessionInfo)
    (now : Nat) : List Char × SessionManager × AVLTree SessionInfo :=
  match sm.sessions with
  | none => ([], sm, instSessions)
  | some tbl =>
    match (tbl.take sm.max_sessions).find?
        (fun s => s.is_active && decide (s.info.user.username = user.username)) with
    | some s => (s.session_id, sm, instSessions)
    | none =>
      let session_id := user.username ++ '_' :: (Nat.repr now).toList
      let info : SessionInfo :=
        { session_id := session_id, user := user, login_time := now, last_activity := now }
      match findFreeSlot sm with
      | some slot =>
        (session_id,
         { sm with sessions := some (tbl.set slot
                     { session_id := session_id, info := info, hasInstance := true,
                       is_active := true }),
                   session_count := sm.session_count + 1 },
         instSessions.insert session_id info)
      | none => ([], sm, instSessions)

/-- `SessionManager::removeSession`. -/
def removeSession (sm : SessionManager) (session_id : List Char)
    (instSessions : AVLTree SessionInfo) : Bool × SessionManager × AVLTree SessionInfo :=
  match findSessionIndex sm session_id, sm.sessions with
  | some index, some tbl =>
    (match tbl[index]? with
     | some s =>
       (true,
        { sm with sessions := some (tbl.set index { s with is_active := false }),
                  session_count := sm.session_count - 1 },
        if s.hasInstance then (instSessions.remove session_id).2 else instSessions)
     | none => (false, sm, instSessions))
  | _, _ => (false, sm, instSessions)

/-- `SessionManager::clearAll`. -/
def clearAll (sm : SessionManager) : SessionManager :=
  match sm.sessions with
  | none => sm
  | some tbl =>
    { sm with sessions := some (tbl.map (fun s => { s with is_active := false })),
              session_count := 0 }

/-- `SessionManager::cleanup`. -/
def cleanup (sm : SessionManager) : SessionManager :=
  { sm with sessions := none, session_count := 0, max_sessions := 0 }

end SessionManager

/-! ## File operations (`core/file_operations.cpp`)

Every operation receives `ms`, the result of `SessionManager::getSession(*session_str)`
(`none` for the null pointer).  An operation whose loops follow next pointers returns
`none` when such a loop does not come to an end (a cyclic chain); block ids are 32-bit, so
a walk that has not ended after `2^32` steps has met a block twice. -/

/-- The guard `!ms || !ms->instance`. -/
def sessionUsable (ms : Option ManagedSession) : Option ManagedSession :=
  match ms with
  | none => none
  | some s => if s.hasInstance then some s else none

/-- The test `strcmp(node->owner.c_str(), ms->info.user.username) != 0 &&
ms->info.user.role != UserRole::ADMIN`. -/
def notOwnerNorAdmin (node : TreeNode) (s : ManagedSession) : Bool :=
  decide (node.info.owner ≠ s.info.user.username) && decide (s.info.user.role ≠ UserRole.ADMIN)

/-- `fs->header.block_size - 4` stored in a `uint32_t`. -/
def usableBlockSize (fs : OFSInstance) : Nat :=
  (fs.header.block_size + (U32 - 4)) % U32

/-- The block list collected by the chain walks `while (current_block != 0)`: every block
visited, in order.  A failed read of the next pointer ends the walk after the block has
been recorded.  `none`: the walk did not end within `fuel` steps. -/
def chainFrom (blocks : Nat → Option Block) : Nat → Nat → Option (List Nat)
  | 0, current_block => if current_block = 0 then some [] else none
  | fuel + 1, current_block =>
    if current_block = 0 then some []
    else
      match blocks current_block with
      | none => some [current_block]
      | some blk => (chainFrom blocks fuel blk.next).map (current_block :: ·)

/-- The `to_write` bytes that `file_create` puts into a block after `written` bytes have
gone out: the slice `data + written`, or zeros for a null `data`. -/
def blockPayload (data : Option (List Nat)) (written to_write : Nat) : List Nat :=
  match data with
  | some d => (d.drop written).take to_write
  | none => List.replicate to_write 0

/-- The block-writing loop of `file_create`: for each allocated block the next pointer, the
slice of the data (zeros for a null `data`), and zero padding up to the usable size. -/
def writeFileBlocks (usable size : Nat) (data : Option (List Nat)) :
    List Nat → Nat → Container → Container
  | [], _, c => c
  | b :: rest, written, c =>
    let next_block := rest.head?.getD 0
    let to_write := min (size - written) usable
    let content := blockPayload data written to_write ++ List.replicate (usable - to_write) 0
    writeFileBlocks usable size data rest (written + to_write)
      (c.writeBlock b ⟨next_block, content⟩)

/-- The computation of `blocks_needed` in `file_create`: the rounded-up quotient in 32 bits
for `size > 0`, and `1` where that gives `0`. -/
def createBlocksNeeded (usable_block_size size : Nat) : Nat :=
  let blocks_needed :=
    if size > 0 then ((size + usable_block_size - 1) / usable_block_size) % U32 else 0
  if blocks_needed = 0 then 1 else blocks_needed

/-- `file_create`. -/
def file_create (fs : OFSInstance) (ms : Option ManagedSession) (path : List Char)
    (data : Option (List Nat)) (size : Nat) (now : Nat) : OFSErrorCodes × OFSInstance :=
  match sessionUsable ms with
  | none => (.ERROR_INVALID_SESSION, fs)
  | some s =>
    if path.head? ≠ some '/' then (.ERROR_INVALID_PATH, fs)
    else if fs.file_tree.exists path then (.ERROR_FILE_EXISTS, fs)
    else
      let parent_idx := getParentIndexFromPath fs path
      if parent_idx = 0 ∧ path ≠ ['/'] then (.ERROR_INVALID_PATH, fs)
      else
        let usable_block_size := usableBlockSize fs
        let blocks_needed := createBlocksNeeded usable_block_size size
        match allocateFileBlocks fs.free_manager blocks_needed with
        | ([], fm1) => (.ERROR_NO_SPACE, { fs with free_manager := fm1 })
        | (b0 :: bs, fm1) =>
          let blocks := b0 :: bs
          match fs.file_tree.createNode path true s.info.user.username now with
          | none =>
            (.ERROR_INVALID_PATH, { fs with free_manager := freeBlockSegments fm1 blocks })
          | some (tree1, node) =>
            let next_entry_index := findFreeEntryIndex fs fs.config.max_files
            if next_entry_index = 0 then
              (.ERROR_NO_SPACE,
               { fs with file_tree := (tree1.deleteNode path).getD tree1,
                         free_manager := freeBlockSegments fm1 blocks })
            else
              let permissions := if fs.config.require_auth then 0o644 else 0o666
              let tree2 := tree1.update node (fun i =>
                { i with entryIndex := next_entry_index, startBlockIndex := b0, size := size,
                         permissions := permissions, created_time := now,
                         modified_time := now })
              let disk1 := writeFileBlocks usable_block_size size data blocks 0 fs.omni_file
              let filename0 := extractFilename path
              let filename :=
                if filename0.length > fs.config.max_filename_length
                then filename0.take fs.config.max_filename_length else filename0
              let file_entry :=
                ({ FileEntry.new filename EntryType.FILE size permissions
                     s.info.user.username b0 parent_idx with
                   created_time := now, modified_time := now }).markValid
              (.SUCCESS,
               { fs with file_tree := tree2, free_manager := fm1,
                         omni_file := disk1.writeEntry next_entry_index file_entry,
                         total_files := (fs.total_files + 1) % U32 })

/-- The reading loop of `file_read`: `buf` holds the bytes delivered so far.  A block whose
read fails or falls short ends the loop.  `none`: the loop did not end within `fuel`
iterations. -/
def readLoop (blocks : Nat → Option Block) (usable size : Nat) :
    Nat → Nat → List Nat → Option (List Nat)
  | 0, current_block, buf =>
    if current_block = 0 ∨ size ≤ buf.length then some buf else none
  | fuel + 1, current_block, buf =>
    if current_block = 0 ∨ size ≤ buf.length then some buf
    else
      match blocks current_block with
      | none => some buf
      | some blk =>
        let to_read := min (size - buf.length) usable
        let got := blk.content.take to_read
        if got.length < to_read then some (buf ++ got)
        else readLoop blocks usable size fuel blk.next (buf ++ got)

/-- `file_read`: the code, the bytes placed in `*buffer` and `*size`.  `none`: the reading
loop does not come to an end. -/
def file_read (fs : OFSInstance) (ms : Option ManagedSession) (path : List Char) :
    Option (OFSErrorCodes × List Nat × Nat) :=
  match sessionUsable ms with
  | none => some (.ERROR_INVALID_SESSION, [], 0)
  | some s =>
    match fs.file_tree.findNode path with
    | none => some (.ERROR_NOT_FOUND, [], 0)
    | some node =>
      if node.info.isFile = false then some (.ERROR_NOT_FOUND, [], 0)
      else if fs.config.require_auth ∧ node.info.permissions &&& 0o444 = 0
              ∧ notOwnerNorAdmin node s then
        some (.ERROR_PERMISSION_DENIED, [], 0)
      else if node.info.size = 0 then some (.SUCCESS, [], 0)
      else
        match readLoop fs.omni_file.blocks (usableBlockSize fs) node.info.size
                (node.info.size + U32) node.info.startBlockIndex [] with
        | none => none
        | some buf => some (.SUCCESS, buf, node.info.size)

/-- `file_delete`.  `none`: the chain walk does not come to an end. -/
def file_delete (fs : OFSInstance) (ms : Option ManagedSession) (path : List Char) :
    Option (OFSErrorCodes × OFSInstance) :=
  match sessionUsable ms with
  | none => some (.ERROR_INVALID_SESSION, fs)
  | some s =>
    match fs.file_tree.findNode path with
    | none => some (.ERROR_NOT_FOUND, fs)
    | some node =>
      if node.info.isFile = false then some (.ERROR_NOT_FOUND, fs)
      else if fs.config.require_auth ∧ notOwnerNorAdmin node s then
        some (.ERROR_PERMISSION_DENIED, fs)
      else
        match chainFrom fs.omni_file.blocks U32 node.info.startBlockIndex with
        | none => none
        | some blocks_to_free =>
          let fm1 := freeBlockSegments fs.free_manager blocks_to_free
          let entry := (fs.omni_file.entries node.info.entryIndex).getD FileEntry.zero
          let disk1 := fs.omni_file.writeEntry node.info.entryIndex entry.markInvalid
          match fs.file_tree.deleteNode path with
          | some tree1 =>
            some (.SUCCESS,
              { fs with free_manager := fm1, omni_file := disk1, file_tree := tree1,
                        total_files := (fs.total_files + (U32 - 1)) % U32 })
          | none =>
            some (.ERROR_IO_ERROR, { fs with free_manager := fm1, omni_file := disk1 })

/-- `file_exists`. -/
def file_exists (fs : OFSInstance) (ms : Option ManagedSession) (path : List Char) :
    OFSErrorCodes :=
  match sessionUsable ms with
  | none => .ERROR_INVALID_SESSION
  | some _ => if fs.file_tree.isFile path then .SUCCESS else .ERROR_NOT_FOUND

/-- `file_rename`. -/
def file_rename (fs : OFSInstance) (ms : Option ManagedSession) (old_path new_path : List Char)
    (now : Nat) : OFSErrorCodes × OFSInstance :=
  match sessionUsable ms with
  | none => (.ERROR_INVALID_SESSION, fs)
  | some s =>
    match fs.file_tree.findNode old_path with
    | none => (.ERROR_NOT_FOUND, fs)
    | some node =>
      if node.info.isFile = false then (.ERROR_NOT_FOUND, fs)
      else if fs.config.require_auth ∧ notOwnerNorAdmin node s then
        (.ERROR_PERMISSION_DENIED, fs)
      else if fs.file_tree.exists new_path then (.ERROR_FILE_EXISTS, fs)
      else
        let new_parent_idx := getParentIndexFromPath fs new_path
        if new_parent_idx = 0 ∧ new_path ≠ ['/'] then (.ERROR_INVALID_PATH, fs)
        else
          let file_entry := (fs.omni_file.entries node.info.entryIndex).getD FileEntry.zero
          let new_name0 := extractFilename new_path
          let new_name :=
            if new_name0.length > fs.config.max_filename_length
            then new_name0.take fs.config.max_filename_length else new_name0
          let file_entry1 :=
            { file_entry with name := new_name.take FileEntry.nameCapacity,
                              parent_index := new_parent_idx, modified_time := now }
          let disk1 := fs.omni_file.writeEntry node.info.entryIndex file_entry1
          match fs.file_tree.rename old_path new_path now with
          | some tree1 => (.SUCCESS, { fs with omni_file := disk1, file_tree := tree1 })
          | none => (.ERROR_INVALID_PATH, { fs with omni_file := disk1 })

/-- `fwrite` of `d` at byte `off` of a block's content area; a gap before `off` reads as
zeros. -/
def writeAt (content : List Nat) (off : Nat) (d : List Nat) : List Nat :=
  content.take off ++ List.replicate (off - content.length) 0 ++ d
    ++ content.drop (off + d.length)

/-- `fwrite` of `d` into the content area of block `b` at byte `off`; a block past the end
of the file comes into being with a zero next pointer. -/
def Container.writeContent (c : Container) (b off : Nat) (d : List Nat) : Container :=
  match c.blocks b with
  | some blk => c.writeBlock b { blk with content := writeAt blk.content off d }
  | none => c.writeBlock b ⟨0, writeAt [] off d⟩

/-- `fwrite` of a next pointer into the first four bytes of block `b`. -/
def Container.writeNext (c : Container) (b next : Nat) : Container :=
  match c.blocks b with
  | some blk => c.writeBlock b { blk with next := next }
  | none => c.writeBlock b ⟨next, []⟩

/-- `fread` of the next pointer of block `b`; the source does not check the read, a failed
read is taken as the end of the chain. -/
def Container.readNext (c : Container) (b : Nat) : Nat :=
  match c.blocks b with
  | some blk => blk.next
  | none => 0

/-- The loop of `file_edit` that initialises the new blocks: next pointer and zeroed
content. -/
def initNewBlocks (usable : Nat) : List Nat → Container → Container
  | [], c => c
  | b :: rest, c =>
    initNewBlocks usable rest (c.writeBlock b ⟨rest.head?.getD 0, List.replicate usable 0⟩)

/-- The loop of `file_edit` that walks `block_index` blocks from the start block. -/
def walkBlocks (c : Container) : Nat → Nat → Nat
  | 0, current_block => current_block
  | steps + 1, current_block =>
    if current_block = 0 then 0 else walkBlocks c steps (c.readNext current_block)

/-- The writing loop of `file_edit`.  `none`: the loop did not end within `fuel`
iterations. -/
def editWriteLoop (usable size : Nat) (data : List Nat) :
    Nat → Nat → Nat → Nat → Container → Option Container
  | 0, current_block, _, written, c =>
    if written < size ∧ current_block ≠ 0 then none else some c
  | fuel + 1, current_block, offset_in_block, written, c =>
    if written < size ∧ current_block ≠ 0 then
      let to_write := min (size - written) (usable - offset_in_block)
      let c1 := if to_write > 0
        then c.writeContent current_block offset_in_block ((data.drop written).take to_write)
        else c
      editWriteLoop usable size data fuel (c1.readNext current_block) 0 (written + to_write) c1
    else some c

/-- The block `if (additional_blocks > 0)` of `file_edit`: walk the existing chain, allocate
the new blocks one at a time, hang the first new block behind the last existing one and
initialise the new blocks.  The flag is `false` for the `ERROR_NO_SPACE` exit; `none`: the
chain walk does not come to an end. -/
def editExpand (fs : OFSInstance) (startBlockIndex additional_blocks usable : Nat) :
    Option (Bool × FreeSpaceManager × Container) :=
  match chainFrom fs.omni_file.blocks U32 startBlockIndex with
  | none => none
  | some current_block_chain =>
    match allocateSingles additional_blocks fs.free_manager [] with
    | ([], fm1) => some (false, fm1, fs.omni_file)
    | (nb :: nbs, fm1) =>
      let disk1 := match current_block_chain.getLast? with
        | some last_existing_block => fs.omni_file.writeNext last_existing_block nb
        | none => fs.omni_file
      some (true, fm1, initNewBlocks usable (nb :: nbs) disk1)

/-- The part of `file_edit` after the expansion block: `node->size = new_size`, the walk to
the block holding byte `index`, the writing loop and the update of the entry record.
`fm1` and `disk1` are the manager and the container left by the expansion block. -/
def editFinish (fs : OFSInstance) (node : TreeNode) (path : List Char) (data : List Nat)
    (size index now : Nat) (fm1 : FreeSpaceManager) (disk1 : Container) :
    Option (OFSErrorCodes × OFSInstance) :=
  let usable_block_size := usableBlockSize fs
  let new_size := index + size
  let needs_expansion := decide (new_size > node.info.size)
  let tree1 := if needs_expansion
    then fs.file_tree.update (routeOf path) (fun i => { i with size := new_size })
    else fs.file_tree
  let node_size := if needs_expansion then new_size else node.info.size
  let block_index := (index / usable_block_size) % U32
  let offset_in_block := index % usable_block_size
  let current_block := walkBlocks disk1 block_index node.info.startBlockIndex
  if current_block = 0 then
    some (.ERROR_INVALID_OPERATION,
      { fs with free_manager := fm1, omni_file := disk1, file_tree := tree1 })
  else
    match editWriteLoop usable_block_size size data (size + U32) current_block
            offset_in_block 0 disk1 with
    | none => none
    | some disk2 =>
      let disk3 := if needs_expansion then
          let file_entry := (disk2.entries node.info.entryIndex).getD FileEntry.zero
          disk2.writeEntry node.info.entryIndex
            { file_entry with size := node_size, modified_time := now }
        else disk2
      some (.SUCCESS, { fs with free_manager := fm1, omni_file := disk3, file_tree := tree1 })

/-- `file_edit`.  `none`: a loop over the chain does not come to an end. -/
def file_edit (fs : OFSInstance) (ms : Option ManagedSession) (path : List Char)
    (data : List Nat) (size : Nat) (index : Nat) (now : Nat) :
    Option (OFSErrorCodes × OFSInstance) :=
  match sessionUsable ms with
  | none => some (.ERROR_INVALID_SESSION, fs)
  | some s =>
    match fs.file_tree.findNode path with
    | none => some (.ERROR_NOT_FOUND, fs)
    | some node =>
      if node.info.isFile = false then some (.ERROR_NOT_FOUND, fs)
      else if fs.config.require_auth ∧ notOwnerNorAdmin node s then
        some (.ERROR_PERMISSION_DENIED, fs)
      else if index > node.info.size then some (.ERROR_INVALID_OPERATION, fs)
      else
        let usable_block_size := usableBlockSize fs
        let new_size := index + size
        let current_blocks := ((node.info.size + usable_block_size - 1) / usable_block_size) % U32
        let needed_blocks := ((new_size + usable_block_size - 1) / usable_block_size) % U32
        let additional_blocks := (needed_blocks + (U32 - current_blocks)) % U32
        if new_size > node.info.size ∧ additional_blocks > 0 then
          match editExpand fs node.info.startBlockIndex additional_blocks usable_block_size with
          | none => none
          | some (false, fm1, _) => some (.ERROR_NO_SPACE, { fs with free_manager := fm1 })
          | some (true, fm1, disk1) => editFinish fs node path data size index now fm1 disk1
        else editFinish fs node path data size index now fs.free_manager fs.omni_file

/-- The literal `siruamr` of `file_truncate`, as bytes. -/
def truncateText : List Nat := "siruamr".toList.map Char.toNat

/-- The bytes `text[written % text_len]` for `bytes_to_write` consecutive positions. -/
def truncatePattern (written bytes_to_write : Nat) : List Nat :=
  (List.range bytes_to_write).map
    (fun i => truncateText.getD ((written + i) % truncateText.length) 0)

/-- The loop of `file_truncate`.  `none`: the loop did not end within `fuel` iterations. -/
def truncateLoop (usable total_to_write : Nat) : Nat → Nat → Nat → Container → Option Container
  | 0, current_block, written, c =>
    if current_block ≠ 0 ∧ written < total_to_write then none else some c
  | fuel + 1, current_block, written, c =>
    if current_block ≠ 0 ∧ written < total_to_write then
      let next_block := c.readNext current_block
      let bytes_to_write := min usable (total_to_write - written)
      truncateLoop usable total_to_write fuel next_block (written + bytes_to_write)
        (c.writeContent current_block 0 (truncatePattern written bytes_to_write))
    else some c

/-- `file_truncate`.  `none`: the loop over the chain does not come to an end. -/
def file_truncate (fs : OFSInstance) (ms : Option ManagedSession) (path : List Char) :
    Option (OFSErrorCodes × OFSInstance) :=
  match sessionUsable ms with
  | none => some (.ERROR_INVALID_SESSION, fs)
  | some s =>
    match fs.file_tree.findNode path with
    | none => some (.ERROR_NOT_FOUND, fs)
    | some node =>
      if node.info.isFile = false then some (.ERROR_NOT_FOUND, fs)
      else if fs.config.require_auth ∧ notOwnerNorAdmin node s then
        some (.ERROR_PERMISSION_DENIED, fs)
      else
        match truncateLoop (usableBlockSize fs) node.info.size (node.info.size + U32)
                node.info.startBlockIndex 0 fs.omni_file with
        | none => none
        | some disk1 => some (.SUCCESS, { fs with omni_file := disk1 })

/-! ## Directory operations (`core/directory_operations.cpp`) -/

/-- `dir_create`. -/
def dir_create (fs : OFSInstance) (ms : Option ManagedSession) (path : List Char) (now : Nat) :
    OFSErrorCodes × OFSInstance :=
  match sessionUsable ms with
  | none => (.ERROR_INVALID_SESSION, fs)
  | some s =>
    if path.head? ≠ some '/' then (.ERROR_INVALID_PATH, fs)
    else if fs.file_tree.exists path then (.ERROR_FILE_EXISTS, fs)
    else
      let parent_idx := getParentIndexFromPath fs path
      if parent_idx = 0 ∧ path ≠ ['/'] then (.ERROR_INVALID_PATH, fs)
      else
        match fs.file_tree.createNode path false s.info.user.username now with
        | none => (.ERROR_INVALID_PATH, fs)
        | some (tree1, node) =>
          let free_index := findFreeEntryIndex fs findFreeEntryIndexDefaultMax
          if free_index = 0 then
            (.ERROR_NO_SPACE, { fs with file_tree := (tree1.deleteNode path).getD tree1 })
          else
            let tree2 := tree1.update node (fun i =>
              { i with entryIndex := free_index, permissions := 0o755, created_time := now,
                       modified_time := now })
            let filename := extractFilename path
            let dir_entry :=
              ({ FileEntry.new filename EntryType.DIRECTORY 0 0o755 s.info.user.username
                   free_index parent_idx with
                 created_time := now, modified_time := now }).markValid
            (.SUCCESS,
             { fs with file_tree := tree2,
                       total_directories := (fs.total_directories + 1) % U32,
                       omni_file := fs.omni_file.writeEntry free_index dir_entry })

/-- `FileTree::listDirectory`: one zeroed record per child, filled from the node. -/
def FileTree.listDirectory (t : FileTree) (path : List Char) : List FileEntry :=
  match t.findNode path with
  | none => []
  | some dir =>
    if dir.info.isFile then []
    else dir.children.map (fun child =>
      { FileEntry.zero with
        name := child.info.name.take FileEntry.nameCapacity
        type := if child.info.isFile then EntryType.FILE else EntryType.DIRECTORY
        size := child.info.size
        permissions := child.info.permissions
        inode := child.info.entryIndex
        created_time := child.info.created_time
        modified_time := child.info.modified_time
        owner := child.info.owner })

/-- `dir_list`: the code and the entries handed back. -/
def dir_list (fs : OFSInstance) (ms : Option ManagedSession) (path : List Char) :
    OFSErrorCodes × List FileEntry :=
  match sessionUsable ms with
  | none => (.ERROR_INVALID_SESSION, [])
  | some _ =>
    if fs.file_tree.isDirectory path = false then (.ERROR_NOT_FOUND, [])
    else (.SUCCESS, fs.file_tree.listDirectory path)

/-- `dir_delete`. -/
def dir_delete (fs : OFSInstance) (ms : Option ManagedSession) (path : List Char) :
    OFSErrorCodes × OFSInstance :=
  match sessionUsable ms with
  | none => (.ERROR_INVALID_SESSION, fs)
  | some s =>
    if path = ['/'] then (.ERROR_INVALID_OPERATION, fs)
    else
      match fs.file_tree.findNode path with
      | none => (.ERROR_NOT_FOUND, fs)
      | some node =>
        if node.info.isFile then (.ERROR_INVALID_OPERATION, fs)
        else if node.children.isEmpty = false then (.ERROR_DIRECTORY_NOT_EMPTY, fs)
        else if notOwnerNorAdmin node s then (.ERROR_PERMISSION_DENIED, fs)
        else
          let entry := (fs.omni_file.entries node.info.entryIndex).getD FileEntry.zero
          let disk1 := fs.omni_file.writeEntry node.info.entryIndex entry.markInvalid
          match fs.file_tree.deleteNode path with
          | some tree1 =>
            (.SUCCESS,
             { fs with omni_file := disk1, file_tree := tree1,
                       total_directories := (fs.total_directories + (U32 - 1)) % U32 })
          | none => (.ERROR_IO_ERROR, { fs with omni_file := disk1 })

/-- `dir_exists`. -/
def dir_exists (fs : OFSInstance) (ms : Option ManagedSession) (path : List Char) :
    OFSErrorCodes :=
  match sessionUsable ms with
  | none => .ERROR_INVALID_SESSION
  | some _ => if fs.file_tree.isDirectory path then .SUCCESS else .ERROR_NOT_FOUND

/-! ## Metadata and statistics (`core/info_operations.cpp`) -/

/-- `set_permissions`. -/
def set_permissions (fs : OFSInstance) (ms : Option ManagedSession) (path : List Char)
    (permissions : Nat) (now : Nat) : OFSErrorCodes × OFSInstance :=
  match sessionUsable ms with
  | none => (.ERROR_INVALID_SESSION, fs)
  | some s =>
    match fs.file_tree.findNode path with
    | none => (.ERROR_NOT_FOUND, fs)
    | some node =>
      if notOwnerNorAdmin node s then (.ERROR_PERMISSION_DENIED, fs)
      else
        let tree1 := fs.file_tree.update (routeOf path)
          (fun i => { i with permissions := permissions })
        let file_entry := (fs.omni_file.entries node.info.entryIndex).getD FileEntry.zero
        (.SUCCESS,
         { fs with file_tree := tree1,
                   omni_file := fs.omni_file.writeEntry node.info.entryIndex
                     { file_entry with permissions := permissions, modified_time := now } })

/-- `FreeSpaceManager::getFragmentation`; the quotient is a `double` in the source and an
exact rational here. -/
def FreeSpaceManager.getFragmentation (m : FreeSpaceManager) : ℚ :=
  if m.freeBlocks = 0 ∨ m.freeBlocks = (m.totalBlocks + (U32 - 1)) % U32 then 0
  else if m.freeSegments.length ≤ 1 then 0
  else ((m.freeSegments.length - 1 : Nat) : ℚ) / (m.freeBlocks : ℚ) * 100

/-- The fields of `struct FSStats` that `get_stats` fills. -/
structure FSStats where
  total_size : Nat
  used_space : Nat
  free_space : Nat
  total_files : Nat
  total_directories : Nat
  total_users : Nat
  active_sessions : Int
  fragmentation : ℚ
deriving DecidableEq

/-- `get_stats`; `sessionCount` is `SessionManager::getSessionCount()`. -/
def get_stats (fs : OFSInstance) (ms : Option ManagedSession) (sessionCount : Int) :
    OFSErrorCodes × Option FSStats :=
  match sessionUsable ms with
  | none => (.ERROR_INVALID_SESSION, none)
  | some _ =>
    (.SUCCESS, some
      { total_size := fs.header.total_size
        used_space := fs.free_manager.getUsedBlocks * fs.header.block_size
        free_space := fs.free_manager.freeBlocks * fs.header.block_size
        total_files := fs.total_files
        total_directories := fs.total_directories
        total_users := fs.users.size
        active_sessions := sessionCount
        fragmentation := fs.free_manager.getFragmentation })

/-! ## User management (`core/user_management.cpp`) -/

/-- `user_login`: the code, the registry and the instance afterwards, and the session id
handed back.  `SessionManager::getInstance()` is the instance `fs` when the registry has
one set. -/
def user_login (sm : SessionManager) (fs : OFSInstance) (username password : List Char)
    (now : Nat) : OFSErrorCodes × SessionManager × OFSInstance × List Char :=
  if sm.hasGlobalInstance = false then (.ERROR_INVALID_OPERATION, sm, fs, [])
  else
    match fs.users.search username with
    | none => (.ERROR_NOT_FOUND, sm, fs, [])
    | some user =>
      if simple_hash password ≠ user.password_hash then
        (.ERROR_PERMISSION_DENIED, sm, fs, [])
      else
        let user1 := { user with last_login := now }
        let users1 := fs.users.modify username (fun u => { u with last_login := now })
        let (session_id, sm1, sessions1) := SessionManager.createSession sm user1 fs.sessions now
        (.SUCCESS, sm1, { fs with users := users1, sessions := sessions1 }, session_id)

/-- The slot search of `user_create`: the first slot `i < max_users` whose record is not
active or has an empty username (`remaining` iterations are left). -/
def findFreeUserSlot (users : Nat → Option UserInfo) : Nat → Nat → Option Nat
  | 0, _ => none
  | remaining + 1, i =>
    let existing := (users i).getD UserInfo.zero
    if existing.is_active = false ∨ existing.username = [] then some i
    else findFreeUserSlot users remaining (i + 1)

/-- `user_create`. -/
def user_create (fs : OFSInstance) (ms : Option ManagedSession) (username password : List Char)
    (role : UserRole) (now : Nat) : OFSErrorCodes × OFSInstance :=
  match sessionUsable ms with
  | none => (.ERROR_INVALID_SESSION, fs)
  | some s =>
    if s.info.user.role ≠ UserRole.ADMIN then (.ERROR_PERMISSION_DENIED, fs)
    else if (fs.users.search username).isSome then (.ERROR_FILE_EXISTS, fs)
    else
      let new_user := UserInfo.new username (simple_hash password) role now
      let users1 := fs.users.insert username new_user
      match findFreeUserSlot fs.omni_file.users fs.header.max_users 0 with
      | some i =>
        (.SUCCESS, { fs with users := users1, omni_file := fs.omni_file.writeUser i new_user })
      | none => (.ERROR_NO_SPACE, { fs with users := (users1.remove username).2 })

/-- The slot search of `user_delete`: the first slot `i < max_users` whose username equals
the one given. -/
def findUserSlot (users : Nat → Option UserInfo) (username : List Char) : Nat → Nat → Option Nat
  | 0, _ => none
  | remaining + 1, i =>
    let existing := (users i).getD UserInfo.zero
    if existing.username = username then some i
    else findUserSlot users username remaining (i + 1)

/-- `user_delete`. -/
def user_delete (fs : OFSInstance) (ms : Option ManagedSession) (username : List Char) :
    OFSErrorCodes × OFSInstance :=
  match sessionUsable ms with
  | none => (.ERROR_INVALID_SESSION, fs)
  | some s =>
    if s.info.user.role ≠ UserRole.ADMIN then (.ERROR_PERMISSION_DENIED, fs)
    else if username = s.info.user.username then (.ERROR_INVALID_OPERATION, fs)
    else
      match fs.users.remove username with
      | (false, _) => (.ERROR_NOT_FOUND, fs)
      | (true, users1) =>
        match findUserSlot fs.omni_file.users username fs.header.max_users 0 with
        | some i =>
          let existing := (fs.omni_file.users i).getD UserInfo.zero
          (.SUCCESS,
           { fs with users := users1,
                     omni_file := fs.omni_file.writeUser i { existing with is_active := false } })
        | none => (.SUCCESS, { fs with users := users1 })

/-- `user_list`: the code and the records handed back. -/
def user_list (fs : OFSInstance) (ms : Option ManagedSession) : OFSErrorCodes × List UserInfo :=
  match sessionUsable ms with
  | none => (.ERROR_INVALID_SESSION, [])
  | some s =>
    if s.info.user.role ≠ UserRole.ADMIN then (.ERROR_PERMISSION_DENIED, [])
    else (.SUCCESS, fs.users.getAllSorted)

/-- `user_logout`: the code, the registry and the instance afterwards. -/
def user_logout (sm : SessionManager) (fs : OFSInstance) (session_id : List Char) :
    OFSErrorCodes × SessionManager × OFSInstance :=
  match SessionManager.removeSession sm session_id fs.sessions with
  | (true, sm1, sessions1) => (.SUCCESS, sm1, { fs with sessions := sessions1 })
  | (false, _, _) => (.ERROR_INVALID_SESSION, sm, fs)

/-! ## Snapshot of the free-space manager (`serialize` / `deserialize`) -/

/-- The four bytes pushed for one 32-bit value, most significant first:
`(x >> 24) & 0xFF`, `(x >> 16) & 0xFF`, `(x >> 8) & 0xFF`, `x & 0xFF`. -/
def be32 (x : Nat) : List Nat :=
  [x / 16777216 % 256, x / 65536 % 256, x / 256 % 256, x % 256]

/-- `FreeSpaceManager::serialize`. -/
def FreeSpaceManager.serialize (m : FreeSpaceManager) : List Nat :=
  be32 m.totalBlocks ++ be32 m.freeBlocks ++ be32 (m.freeSegments.length % U32)
    ++ (m.freeSegments.map (fun seg => be32 seg.startBlock ++ be32 seg.blockCount)).flatten

/-- The 32-bit value assembled from the four bytes at `offset`. -/
def readBE32 (data : List Nat) (offset : Nat) : Nat :=
  (data.getD offset 0 % 256) * 16777216 + (data.getD (offset + 1) 0 % 256) * 65536
    + (data.getD (offset + 2) 0 % 256) * 256 + data.getD (offset + 3) 0 % 256

/-- The segment loop of `deserialize`: `remaining` iterations are left. -/
def deserializeSegments (data : List Nat) : Nat → Nat → List FreeSegment
  | 0, _ => []
  | remaining + 1, offset =>
    if offset + 8 > data.length then []
    else ⟨readBE32 data offset, readBE32 data (offset + 4)⟩
      :: deserializeSegments data remaining (offset + 8)

/-- `FreeSpaceManager::deserialize`; `none` is the null pointer. -/
def FreeSpaceManager.deserialize (data : List Nat) : Option FreeSpaceManager :=
  if data.length < 12 then none
  else
    some { totalBlocks := readBE32 data 0
           freeBlocks := readBE32 data 4
           freeSegments := deserializeSegments data (readBE32 data 8) 12 }

/-! ## Format, mount and shutdown (`core/fs_format.cpp`, `core/fs_init.cpp`) -/

/-- The bytes that `createNewFileSystem` and `fs_format` write in front of the snapshot,
seen through the offsets of the core: header, admin user in slot 0 and zeroed user slots,
the reserved entry, the root entry and zeroed entries, zeroed blocks.  Entry slots past the
table lie in the zeroed block area and read as zeroed records as long as they fit in. -/
def formattedContainer (sz : RecordSizes) (config : FileSystemConfig) (now : Nat)
    (snapshot : List Nat) : Container :=
  let user_table_offset := sz.sizeofHeader
  let file_entry_offset := user_table_offset + config.max_users * sz.sizeofUserInfo
  let content_offset := file_entry_offset + config.max_files * sz.sizeofFileEntry
  let total_content_blocks :=
    calculateTotalBlocks config.total_size content_offset config.block_size
  { header := some
      { magic := "OMNIFS01".toList, format_version := 65536, total_size := config.total_size,
        header_size := sz.sizeofHeader, block_size := config.block_size,
        user_table_offset := user_table_offset, max_users := config.max_users }
    users := fun i =>
      if i = 0 then some (UserInfo.new config.admin_username
        (simple_hash config.admin_password) UserRole.ADMIN now)
      else if i < config.max_users then some UserInfo.zero else none
    entries := fun i =>
      if i = 0 then some FileEntry.zero
      else if i = 1 then some
        { FileEntry.zero with
          type := EntryType.DIRECTORY, name := ['/'], owner := config.admin_username,
          permissions := 0o755, created_time := now, modified_time := now, inode := 1,
          valid := true }
      else if (i + 1) * sz.sizeofFileEntry
          ≤ max config.max_files 2 * sz.sizeofFileEntry
            + total_content_blocks * config.block_size
        then some FileEntry.zero
      else none
    blocks := fun b =>
      if b < total_content_blocks then some ⟨0, List.replicate (config.block_size - 4) 0⟩
      else none
    snapshot := snapshot }

/-- `createNewFileSystem`: the container written (no snapshot follows the blocks). -/
def createNewFileSystem (sz : RecordSizes) (config : FileSystemConfig) (now : Nat) :
    Container :=
  formattedContainer sz config now []

/-- `fs_format`: `fileExists` is the result of the existence test on `omni_path`, `disk`
the container behind that path.  The code and the container afterwards.  The admin record
and the two first entries are written whatever `max_users` and `max_files` are, so with
`max_users = 0` or `max_files < 2` the position reached differs from `content_offset` and
the call ends with `ERROR_IO_ERROR`; the records written so far are then out of step with
the offsets of the core, and the decoded view given for that case (the records as written,
no blocks, no snapshot) is an approximation.  A `block_size` of `0` is a division by zero
in the source; here the quotient is `0`. -/
def fs_format (sz : RecordSizes) (omni_path : List Char) (fileExists : Bool)
    (disk : Option Container) (config : FileSystemConfig) (now : Nat) :
    OFSErrorCodes × Option Container :=
  if fileExists = false then (.ERROR_NOT_FOUND, disk)
  else if omni_path.length < 5 ∨ omni_path.drop (omni_path.length - 5) ≠ ".omni".toList then
    (.ERROR_INVALID_PATH, disk)
  else
    let content_offset := sz.sizeofHeader + config.max_users * sz.sizeofUserInfo
      + config.max_files * sz.sizeofFileEntry
    let total_content_blocks :=
      calculateTotalBlocks config.total_size content_offset config.block_size
    let current_pos := sz.sizeofHeader + (1 + (config.max_users - 1)) * sz.sizeofUserInfo
      + (2 + (config.max_files - 2)) * sz.sizeofFileEntry
    if current_pos ≠ content_offset then
      (.ERROR_IO_ERROR,
       some { formattedContainer sz config now [] with blocks := fun _ => none })
    else
      (.SUCCESS, some (formattedContainer sz config now
        (FreeSpaceManager.new total_content_blocks).serialize))

/-- The state of the reconstruction loop of `fs_init`. -/
structure MountState where
  file_tree : FileTree
  processed : List Nat
  total_processed : Nat
  total_files : Nat
  total_directories : Nat
  progress : Bool

/-- One visit of the inner `for` loop of `fs_init` at `entry_idx`. -/
def mountVisit (fs : OFSInstance) (max_entries now : Nat) (st : MountState)
    (entry_idx : Nat) : MountState :=
  let loaded : FileEntry := (fs.omni_file.entries entry_idx).getD FileEntry.zero
  let entry_valid := (fs.omni_file.entries entry_idx).isSome && loaded.isValid
    && decide (loaded.name ≠ []) && decide (entry_idx < max_entries)
  if entry_valid = false ∨ entry_idx ∈ st.processed then st
  else if loaded.parent_index = 1 ∨ loaded.parent_index ∈ st.processed then
    let path := reconstructPath fs entry_idx
    if path = [] then st
    else
      let is_file := decide (loaded.type = EntryType.FILE)
      match st.file_tree.createNode path is_file loaded.owner now with
      | none => st
      | some (tree1, node) =>
        { file_tree := tree1.update node (fun i =>
            { i with entryIndex := entry_idx, size := loaded.size,
                     permissions := loaded.permissions, created_time := loaded.created_time,
                     modified_time := loaded.modified_time,
                     startBlockIndex := if is_file then loaded.inode else 0 })
          processed := entry_idx :: st.processed
          total_processed := st.total_processed + 1
          total_files := if is_file then (st.total_files + 1) % U32 else st.total_files
          total_directories :=
            if is_file then st.total_directories else (st.total_directories + 1) % U32
          progress := true }
  else st

/-- The inner `for` loop of `fs_init`: `entry_idx` runs from `2` below `max_entries`. -/
def mountPass (fs : OFSInstance) (max_entries now : Nat) (st : MountState) : MountState :=
  (List.range' 2 (max_entries - 2)).foldl (mountVisit fs max_entries now) st

/-- The outer `while (progress && total_processed < valid_count + 2)` loop of `fs_init`;
every pass that makes progress marks one more entry, so `max_entries + 1` passes are never
exceeded.  A `parent_index` outside the table is an out-of-bounds read of
`entry_processed` in the source and counts as not processed here. -/
def mountLoop (fs : OFSInstance) (max_entries valid_count now : Nat) :
    Nat → MountState → MountState
  | 0, st => st
  | fuel + 1, st =>
    if st.progress ∧ st.total_processed < valid_count + 2 then
      mountLoop fs max_entries valid_count now fuel
        (mountPass fs max_entries now { st with progress := false })
    else st

/-- The number of entries that the loading loop of `fs_init` marks valid. -/
def countValidEntries (entries : Nat → Option FileEntry) (max_entries : Nat) : Nat :=
  ((List.range max_entries).filter (fun i =>
    match entries i with
    | some e => e.isValid && decide (e.name ≠ [])
    | none => false)).length

/-- The user-loading loop of `fs_init`. -/
def loadUsers (users : Nat → Option UserInfo) (max_users : Nat) : AVLTree UserInfo :=
  (List.range max_users).foldl (fun t i =>
    match users i with
    | some user => if user.is_active ∧ user.username ≠ [] then t.insert user.username user else t
    | none => t) AVLTree.empty

/-- The snapshot-loading part of `fs_init`: the bytes from the free-space offset on.
`12 + (seg_count * 8)` is computed in 32 bits; the vector is zero-filled and takes the
bytes that can be read.  A wrapped size below 12 is a write past the vector in the source;
here the vector keeps that size and `deserialize` answers null. -/
def loadFreeManager (snapshot : List Nat) (total_blocks : Nat) : FreeSpaceManager :=
  if snapshot.length < 12 then FreeSpaceManager.new total_blocks
  else
    let seg_count := readBE32 snapshot 8
    let data_size := (12 + seg_count * 8) % U32
    let free_space_data :=
      snapshot.take data_size ++ List.replicate (data_size - snapshot.length) 0
    match FreeSpaceManager.deserialize free_space_data with
    | some m => m
    | none => FreeSpaceManager.new total_blocks

/-- `fs_init`: `disk` is the container behind `omni_path` (`none` when the file does not
exist), `config` the parsed configuration.  The code, the registry, the mounted instance
(`none` on failure) are returned. -/
def fs_init (sz : RecordSizes) (sm : SessionManager) (disk : Option Container)
    (config : FileSystemConfig) (now : Nat) :
    OFSErrorCodes × SessionManager × Option OFSInstance :=
  let sm1 := SessionManager.setup sm config
  let container := match disk with
    | some c => c
    | none => createNewFileSystem sz config now
  match container.header with
  | none => (.ERROR_IO_ERROR, sm1, none)
  | some header =>
    if header.magic.take 8 ≠ "OMNIFS01".toList then (.ERROR_IO_ERROR, sm1, none)
    else
      let fs0 : OFSInstance :=
        { omni_file := container, header := header
          users := loadUsers container.users header.max_users
          sessions := AVLTree.empty
          file_tree := FileTree.new now
          free_manager := FreeSpaceManager.new 0
          total_files := 0, total_directories := 1, config := config }
      let valid_count := countValidEntries container.entries config.max_files
      let st := mountLoop fs0 config.max_files valid_count now (config.max_files + 1)
        { file_tree := fs0.file_tree, processed := [0, 1], total_processed := 2,
          total_files := 0, total_directories := 1, progress := true }
      let content_offset := calculateContentOffset sz header config.max_files
      let total_blocks := calculateTotalBlocks header.total_size content_offset header.block_size
      (.SUCCESS, { sm1 with hasGlobalInstance := true },
       some { fs0 with file_tree := st.file_tree, total_files := st.total_files,
                       total_directories := st.total_directories,
                       free_manager := loadFreeManager container.snapshot total_blocks })

/-- `fs_shutdown` on a mounted instance: the code, the registry afterwards and the
container left on the host. -/
def fs_shutdown (sm : SessionManager) (fs : OFSInstance) :
    OFSErrorCodes × SessionManager × Container :=
  let free_space_data := fs.free_manager.serialize
  let disk1 := { fs.omni_file with
    snapshot := free_space_data ++ fs.omni_file.snapshot.drop free_space_data.length }
  (.SUCCESS,
   SessionManager.cleanup { (SessionManager.clearAll sm) with hasGlobalInstance := false },
   disk1)

/-- `fs_init` with its path argument, `host` giving the container behind each path of the
host file system.  The path serves the existence test, `createNewFileSystem` and `fopen`;
nothing in `fs_init` or `createNewFileSystem` looks at its extension. -/
def fs_init_at (sz : RecordSizes) (sm : SessionManager) (host : List Char → Option Container)
    (omni_path : List Char) (config : FileSystemConfig) (now : Nat) :
    OFSErrorCodes × SessionManager × Option OFSInstance :=
  fs_init sz sm (host omni_path) config now

/-! ## Predicates used in the statements -/

/-- Segment `a` ends before segment `b` starts, with at least one block in between. -/
def SegGap (a b : FreeSegment) : Prop := a.startBlock + a.blockCount < b.startBlock

instance : DecidableRel SegGap :=
  fun a b => inferInstanceAs (Decidable (a.startBlock + a.blockCount < b.startBlock))

/-- Segment `s` is non-empty and lies inside the ids `1 .. total - 1`. -/
def SegOK (total : Nat) (s : FreeSegment) : Prop :=
  1 ≤ s.startBlock ∧ 1 ≤ s.blockCount ∧ s.startBlock + s.blockCount ≤ total

instance (total : Nat) : DecidablePred (SegOK total) :=
  fun s => inferInstanceAs
    (Decidable (1 ≤ s.startBlock ∧ 1 ≤ s.blockCount ∧ s.startBlock + s.blockCount ≤ total))

/-- Sum of the block counts of a segment list. -/
def segSum (segs : List FreeSegment) : Nat := (segs.map (·.blockCount)).sum

/-- Block `b` lies in one of the segments. -/
def inSegments (segs : List FreeSegment) (b : Nat) : Prop :=
  ∃ s ∈ segs, s.startBlock ≤ b ∧ b < s.startBlock + s.blockCount

instance (segs : List FreeSegment) (b : Nat) : Decidable (inSegments segs b) :=
  inferInstanceAs (Decidable (∃ s ∈ segs, s.startBlock ≤ b ∧ b < s.startBlock + s.blockCount))

/-- A well-formed free-space manager: 32-bit block count, every segment non-empty and
inside `1 .. totalBlocks - 1`, the segments in ascending order with a gap between any two
(sorted, disjoint, fully coalesced), and `freeBlocks` equal to the sum of the counts. -/
def WellFormed (m : FreeSpaceManager) : Prop :=
  m.totalBlocks < U32 ∧ (∀ s ∈ m.freeSegments, SegOK m.totalBlocks s)
    ∧ m.freeSegments.Pairwise SegGap ∧ m.freeBlocks = segSum m.freeSegments

instance (m : FreeSpaceManager) : Decidable (WellFormed m) :=
  inferInstanceAs (Decidable (m.totalBlocks < U32 ∧ (∀ s ∈ m.freeSegments, SegOK m.totalBlocks s)
    ∧ m.freeSegments.Pairwise SegGap ∧ m.freeBlocks = segSum m.freeSegments))

/-- The managers reached from a freshly constructed one (`numBlocks >= 1`, 32-bit) by
`allocateBlocks` with any count and by `freeBlockSegments` on ids that are distinct,
inside `1 .. totalBlocks - 1` and not free at the time of the call. -/
inductive FsmReachable : FreeSpaceManager → Prop
  | fresh (numBlocks : Nat) (h1 : 1 ≤ numBlocks) (h2 : numBlocks < U32) :
      FsmReachable (FreeSpaceManager.new numBlocks)
  | alloc (m : FreeSpaceManager) (count : Nat) (h : FsmReachable m) :
      FsmReachable (allocateBlocks m count).2
  | free (m : FreeSpaceManager) (ids : List Nat) (h : FsmReachable m) (hnd : ids.Nodup)
      (hids : ∀ id ∈ ids, 1 ≤ id ∧ id < m.totalBlocks ∧ m.isFree id = false) :
      FsmReachable (freeBlockSegments m ids)

/-- The invariant of the free-space manager as the specification words it: segments sorted
by start; pairwise non-overlapping, each with a count of at least one; no two adjacent
(`a.endBlock() + 1 == b.startBlock` never holds); `freeBlocks` equal to the sum of the
counts; no segment containing block `0` (every segment starts at `1` or later and does not
run past the 32-bit range). -/
def FsmInvariant (m : FreeSpaceManager) : Prop :=
  m.freeSegments.Pairwise (fun a b => a.startBlock < b.startBlock)
  ∧ m.freeSegments.Pairwise (fun a b =>
      a.startBlock + a.blockCount ≤ b.startBlock ∨ b.startBlock + b.blockCount ≤ a.startBlock)
  ∧ (∀ s ∈ m.freeSegments, 1 ≤ s.blockCount)
  ∧ (∀ a ∈ m.freeSegments, ∀ b ∈ m.freeSegments, (a.endBlock + 1) % U32 ≠ b.startBlock)
  ∧ m.freeBlocks = segSum m.freeSegments
  ∧ (∀ s ∈ m.freeSegments, 1 ≤ s.startBlock ∧ s.startBlock + s.blockCount ≤ U32)

/-- The segment list after `count` blocks have been taken from the front of `seg`. -/
def shrunkSegments (pre : List FreeSegment) (seg : FreeSegment) (post : List FreeSegment)
    (count : Nat) : List FreeSegment :=
  pre ++ (if seg.blockCount = count then []
          else [⟨seg.startBlock + count, seg.blockCount - count⟩]) ++ post


/-- Segment `a` ends at or before the start of segment `b`. -/
def SegBefore (a b : FreeSegment) : Prop := a.startBlock + a.blockCount ≤ b.startBlock

/-- Segments `a` and `b` have no block in common. -/
def SegDisj (a b : FreeSegment) : Prop :=
  a.startBlock + a.blockCount ≤ b.startBlock ∨ b.startBlock + b.blockCount ≤ a.startBlock

/-- The authorization rule as the code applies it to an existing file `node` at `path` and
a usable session `s`: `file_delete`, `file_rename`, `file_edit` and `file_truncate` answer
`ERROR_PERMISSION_DENIED` exactly when `require_auth` is set and the session user is
neither the owner nor an administrator; `set_permissions` answers it exactly when the
session user is neither the owner nor an administrator, whatever `require_auth` is. -/
def AuthorizationRule (fs : OFSInstance) (s : ManagedSession) (path : List Char)
    (node : TreeNode) : Prop :=
  ((∃ fs1, file_delete fs (some s) path = some (OFSErrorCodes.ERROR_PERMISSION_DENIED, fs1))
      ↔ (fs.config.require_auth = true ∧ node.info.owner ≠ s.info.user.username
          ∧ s.info.user.role ≠ UserRole.ADMIN))
  ∧ (∀ new_path now,
      (file_rename fs (some s) path new_path now).1 = OFSErrorCodes.ERROR_PERMISSION_DENIED
      ↔ (fs.config.require_auth = true ∧ node.info.owner ≠ s.info.user.username
          ∧ s.info.user.role ≠ UserRole.ADMIN))
  ∧ (∀ data size index now,
      (∃ fs1, file_edit fs (some s) path data size index now
          = some (OFSErrorCodes.ERROR_PERMISSION_DENIED, fs1))
      ↔ (fs.config.require_auth = true ∧ node.info.owner ≠ s.info.user.username
          ∧ s.info.user.role ≠ UserRole.ADMIN))
  ∧ ((∃ fs1, file_truncate fs (some s) path
          = some (OFSErrorCodes.ERROR_PERMISSION_DENIED, fs1))
      ↔ (fs.config.require_auth = true ∧ node.info.owner ≠ s.info.user.username
          ∧ s.info.user.role ≠ UserRole.ADMIN))
  ∧ (∀ permissions now,
      (set_permissions fs (some s) path permissions now).1
          = OFSErrorCodes.ERROR_PERMISSION_DENIED
      ↔ (node.info.owner ≠ s.info.user.username ∧ s.info.user.role ≠ UserRole.ADMIN))

/-- What a successful allocation of the block list `blocks` out of manager `m` leaves:
`n` distinct blocks that were free in `m`, a well-formed manager `m1` over the same block
range whose free blocks are those of `m` without `blocks`. -/
def AllocatedFrom (m : FreeSpaceManager) (n : Nat) (blocks : List Nat)
    (m1 : FreeSpaceManager) : Prop :=
  blocks.length = n ∧ blocks.Nodup ∧ WellFormed m1 ∧ m1.totalBlocks = m.totalBlocks
    ∧ m1.freeBlocks + n = m.freeBlocks
    ∧ (∀ b ∈ blocks, inSegments m.freeSegments b)
    ∧ (∀ b, inSegments m1.freeSegments b ↔ inSegments m.freeSegments b ∧ b ∉ blocks)

/-- The length clause of the block-chain invariant for one file node: the chain of
next-pointers from its start block ends, and holds at least
`ceil(size / (block_size - 4))` blocks. -/
def chainCoversSize (fs : OFSInstance) (node : TreeNode) : Prop :=
  match chainFrom fs.omni_file.blocks U32 node.info.startBlockIndex with
  | none => False
  | some blocks =>
    (node.info.size + (fs.header.block_size - 4) - 1) / (fs.header.block_size - 4)
      ≤ blocks.length

instance (fs : OFSInstance) (node : TreeNode) : Decidable (chainCoversSize fs node) := by
  unfold chainCoversSize
  split <;> infer_instance

/-- The big-endian value of the four bytes at `offset`: the first byte is the most
significant one. -/
def bigEndianAt (data : List Nat) (offset : Nat) : Nat :=
  data.getD offset 0 * 2 ^ 24 + data.getD (offset + 1) 0 * 2 ^ 16
    + data.getD (offset + 2) 0 * 2 ^ 8 + data.getD (offset + 3) 0

/-- The blocks of the list form a chain on the disk: every block can be read and its next
pointer is the following block of the list, `0` after the last one. -/
def linkedChain (blocks : Nat → Option Block) : List Nat → Prop
  | [] => True
  | b :: rest =>
    (∃ blk, blocks b = some blk ∧ blk.next = rest.head?.getD 0) ∧ linkedChain blocks rest

/-- The first `n` bytes of the endless repetition of `siruamr`: the byte at position `i` is
the `i mod 7`-th character. -/
def siruamrStream (n : Nat) : List Nat :=
  (List.range n).map (fun i => ("siruamr".toList.getD (i % 7) ' ').toNat)

/-- The keys of an AVL tree with their data, in in-order. -/
def AVLNode.entries {T : Type} : AVLNode T → List (List Char × T)
  | .nil => []
  | .node v d l r _ => entries l ++ [(v, d)] ++ entries r

/-- The search-tree order: the in-order keys are strictly ascending. -/
def AVLNode.Ordered {T : Type} (n : AVLNode T) : Prop :=
  n.entries.Pairwise (fun a b => a.1 < b.1)

instance {T : Type} (n : AVLNode T) : Decidable n.Ordered :=
  inferInstanceAs
    (Decidable (n.entries.Pairwise (fun (a b : List Char × T) => a.1 < b.1)))

/-- The user index is a search tree and every record is stored under its own name. -/
def UsersOK (t : AVLTree UserInfo) : Prop :=
  t.root.Ordered ∧ ∀ e ∈ t.root.entries, e.2.username = e.1

/-- The instances reached from a mount (`fs_init` answering `SUCCESS`) by `user_create`
calls whose username fits the username field of the user record and by `user_delete`
calls, with any other arguments, successful or not. -/
inductive UsersReachable : OFSInstance → Prop
  | mounted (sz : RecordSizes) (sm : SessionManager) (disk : Option Container)
      (config : FileSystemConfig) (now : Nat) (sm1 : SessionManager) (fs : OFSInstance)
      (h : fs_init sz sm disk config now = (OFSErrorCodes.SUCCESS, sm1, some fs)) :
      UsersReachable fs
  | create (fs : OFSInstance) (ms : Option ManagedSession) (username password : List Char)
      (role : UserRole) (now : Nat) (hfit : username.length ≤ UserInfo.usernameCapacity)
      (h : UsersReachable fs) :
      UsersReachable (user_create fs ms username password role now).2
  | delete (fs : OFSInstance) (ms : Option ManagedSession) (username : List Char)
      (h : UsersReachable fs) :
      UsersReachable (user_delete fs ms username).2

/-- No directory of the subtree has two children with the same name. -/
inductive UniqueNames : TreeNode → Prop
  | mk (info : NodeInfo) (children : List TreeNode)
      (hnames : (children.map (fun c => c.info.name)).Nodup)
      (hsub : ∀ c ∈ children, UniqueNames c) : UniqueNames (.mk info children)

/-- Node `n` lies below `t` along the names of `route`, whichever child of that name is
taken at each step. -/
inductive Reaches : TreeNode → List (List Char) → TreeNode → Prop
  | here (t : TreeNode) : Reaches t [] t
  | step (t c n : TreeNode) (p : List Char) (ps : List (List Char)) (hc : c ∈ t.children)
      (hp : c.info.name = p) (h : Reaches c ps n) : Reaches t (p :: ps) n

/-! ## The facade as one call type, and small concrete containers -/

/-- The facade operations that can answer `ERROR_PERMISSION_DENIED`, with their
arguments. -/
inductive FacadeCall where
  | file_read (path : List Char)
  | file_delete (path : List Char)
  | file_rename (old_path new_path : List Char)
  | file_edit (path : List Char) (data : List Nat) (size index : Nat)
  | file_truncate (path : List Char)
  | dir_delete (path : List Char)
  | set_permissions (path : List Char) (permissions : Nat)
  | user_create (username password : List Char) (role : UserRole)
  | user_delete (username : List Char)
  | user_list
  | user_login (username password : List Char)

/-- One facade call on a mounted instance: the code, the instance and the session registry
afterwards (`none`: the call does not return). -/
def FacadeCall.run (c : FacadeCall) (sm : SessionManager) (fs : OFSInstance)
    (ms : Option ManagedSession) (now : Nat) :
    Option (OFSErrorCodes × OFSInstance × SessionManager) :=
  match c with
  | .file_read path => (OFS.file_read fs ms path).map (fun r => (r.1, fs, sm))
  | .file_delete path => (OFS.file_delete fs ms path).map (fun r => (r.1, r.2, sm))
  | .file_rename old_path new_path =>
    let r := OFS.file_rename fs ms old_path new_path now
    some (r.1, r.2, sm)
  | .file_edit path data size index =>
    (OFS.file_edit fs ms path data size index now).map (fun r => (r.1, r.2, sm))
  | .file_truncate path => (OFS.file_truncate fs ms path).map (fun r => (r.1, r.2, sm))
  | .dir_delete path =>
    let r := OFS.dir_delete fs ms path
    some (r.1, r.2, sm)
  | .set_permissions path permissions =>
    let r := OFS.set_permissions fs ms path permissions now
    some (r.1, r.2, sm)
  | .user_create username password role =>
    let r := OFS.user_create fs ms username password role now
    some (r.1, r.2, sm)
  | .user_delete username =>
    let r := OFS.user_delete fs ms username
    some (r.1, r.2, sm)
  | .user_list => some ((OFS.user_list fs ms).1, fs, sm)
  | .user_login username password =>
    let r := OFS.user_login sm fs username password now
    some (r.1, r.2.2.1, r.2.1)

/-- Record sizes of the worked examples. -/
def demoSizes : RecordSizes := ⟨512, 128, 400⟩

/-- A small configuration: four entry slots, two user slots, eight blocks of 64 bytes. -/
def demoConfig : FileSystemConfig :=
  { FileSystemConfig.default with
    total_size := 512 + 2 * 128 + 4 * 400 + 8 * 64, block_size := 64, max_files := 4,
    max_users := 2 }

/-- The session registry before the first `fs_init`. -/
def noSessions : SessionManager :=
  { sessions := none, hasGlobalInstance := false, session_count := 0, max_sessions := 0 }

/-- The session that `getSession` hands back for a logged-in user of the given role. -/
def sessionOf (username : List Char) (role : UserRole) : ManagedSession :=
  let user := UserInfo.new username (simple_hash "pw".toList) role 0
  let id := username ++ "_1".toList
  { session_id := id,
    info := { session_id := id, user := user, login_time := 1, last_activity := 1 },
    hasInstance := true, is_active := true }

/-- An instance with nothing in it, the value used where a mount has failed. -/
def emptyInstance (config : FileSystemConfig) : OFSInstance :=
  { omni_file := { header := none, users := fun _ => none, entries := fun _ => none,
                   blocks := fun _ => none, snapshot := [] }
    header := { magic := [], format_version := 0, total_size := 0, header_size := 0,
                block_size := 0, user_table_offset := 0, max_users := 0 }
    users := AVLTree.empty, sessions := AVLTree.empty, file_tree := FileTree.new 0
    free_manager := FreeSpaceManager.new 0, total_files := 0, total_directories := 0
    config := config }

/-- `fs_format` on an existing `a.omni` followed by `fs_init` with the same configuration:
the freshly formatted and mounted instance. -/
def freshMount (sz : RecordSizes) (config : FileSystemConfig) (now : Nat) : OFSInstance :=
  ((fs_init sz noSessions (fs_format sz "a.omni".toList true none config now).2 config now).2.2).getD
    (emptyInstance config)

/-- `fs_shutdown` followed by `fs_init` on the container left behind, same configuration. -/
def remount (sz : RecordSizes) (fs : OFSInstance) (now : Nat) : OFSInstance :=
  ((fs_init sz noSessions (some (fs_shutdown noSessions fs).2.2) fs.config now).2.2).getD
    (emptyInstance fs.config)

/-- The session of the administrator. -/
def adminSession : ManagedSession := sessionOf "admin".toList UserRole.ADMIN

/-- The session of the ordinary user `alice`. -/
def aliceSession : ManagedSession := sessionOf "alice".toList UserRole.NORMAL

/-- The session of the ordinary user `bob`. -/
def bobSession : ManagedSession := sessionOf "bob".toList UserRole.NORMAL

/-- A configuration whose entry table has three slots (`max_files = 3`). -/
def threeSlotConfig : FileSystemConfig :=
  { demoConfig with max_files := 3, total_size := 512 + 2 * 128 + 3 * 400 + 8 * 64 }

/-- Entry-slot scenario, step 1: format and mount with `max_files = 3`, then
`dir_create("/a")` by the administrator. -/
def slotScenario1 : OFSErrorCodes × OFSInstance :=
  dir_create (freshMount demoSizes threeSlotConfig 5) (some adminSession) "/a".toList 6

/-- Entry-slot scenario, step 2: `dir_create("/b")`. -/
def slotScenario2 : OFSErrorCodes × OFSInstance :=
  dir_create slotScenario1.2 (some adminSession) "/b".toList 7

/-- Rename scenario, step 1: format and mount, then `file_create("/f", "x", 1)`. -/
def renameScenario1 : OFSErrorCodes × OFSInstance :=
  file_create (freshMount demoSizes demoConfig 5) (some adminSession) "/f".toList
    (some [120]) 1 6

/-- Rename scenario, step 2: `file_create("/g", "y", 1)`. -/
def renameScenario2 : OFSErrorCodes × OFSInstance :=
  file_create renameScenario1.2 (some adminSession) "/g".toList (some [121]) 1 7

/-- Rename scenario, step 3: `file_rename("/g", "/f/x")`, a new path below the file `/f`. -/
def renameScenario3 : OFSErrorCodes × OFSInstance :=
  file_rename renameScenario2.2 (some adminSession) "/g".toList "/f/x".toList 8

/-- Full-table scenario: with both free slots of `demoConfig` taken by `/f` and `/g`,
`file_create("/h", "z", 1)` at a later time. -/
def fullTableScenario : OFSErrorCodes × OFSInstance :=
  file_create renameScenario2.2 (some adminSession) "/h".toList (some [122]) 1 9

/-- A configuration that stores at most three bytes of a file name. -/
def shortNameConfig : FileSystemConfig := { demoConfig with max_filename_length := 3 }

/-- Persistence scenario, step 1: format and mount, then `file_create("/abcd", "X", 1)`. -/
def persistScenario1 : OFSErrorCodes × OFSInstance :=
  file_create (freshMount demoSizes shortNameConfig 5) (some adminSession) "/abcd".toList
    (some [88]) 1 6

/-- Persistence scenario, step 2: `file_create("/abc", "Y", 1)`. -/
def persistScenario2 : OFSErrorCodes × OFSInstance :=
  file_create persistScenario1.2 (some adminSession) "/abc".toList (some [89]) 1 7

/-- Persistence scenario, step 3: `fs_shutdown`, then `fs_init` on the same container with
the same configuration. -/
def persistScenario3 : OFSInstance := remount demoSizes persistScenario2.2 8

/-- Authorization scenario: mounted with `require_auth = false`, `alice` creates
`/a.txt`. -/
def openAuthScenario : OFSErrorCodes × OFSInstance :=
  file_create (freshMount demoSizes { demoConfig with require_auth := false } 5)
    (some aliceSession) "/a.txt".toList (some [104, 105]) 2 6

/-- Authorization scenario with `require_auth = true`: `alice` creates `/a.txt`. -/
def closedAuthScenario : OFSErrorCodes × OFSInstance :=
  file_create (freshMount demoSizes demoConfig 5)
    (some aliceSession) "/a.txt".toList (some [104, 105]) 2 6

/-- The tree node of `/a.txt` in the two authorization scenarios. -/
def aliceFileNode : TreeNode :=
  .mk { name := "a.txt".toList, isFile := true, entryIndex := 2, startBlockIndex := 1,
        size := 2, permissions := 0o644, owner := "alice".toList, created_time := 6,
        modified_time := 6 } []

/-- The freshly formatted and mounted container of the worked examples. -/
def demoMount : OFSInstance := freshMount demoSizes demoConfig 5

/-- 130 bytes `0xAA`: three blocks of 60 usable bytes. -/
def demoData : List Nat := List.replicate 130 170

/-- On the fresh demo mount (blocks of 64 bytes, 60 usable) the administrator calls
`file_create("/big", NULL, 60 * 2^32)`. -/
def hugeCreate : OFSErrorCodes × OFSInstance :=
  file_create demoMount (some adminSession) "/big".toList none 257698037760 6

/-- Mount-time scenario, step 1: `dir_create("/d")` on the fresh demo mount at time 6. -/
def mountTimeScenario1 : OFSErrorCodes × OFSInstance :=
  dir_create demoMount (some adminSession) "/d".toList 6

/-- Mount-time scenario, step 2: `file_create("/d/f", "x", 1)` at time 7. -/
def mountTimeScenario2 : OFSErrorCodes × OFSInstance :=
  file_create mountTimeScenario1.2 (some adminSession) "/d/f".toList (some [120]) 1 7

/-- Mount-time scenario, step 3: `fs_shutdown`, then `fs_init` at time 9. -/
def mountTimeScenario3 : OFSInstance := remount demoSizes mountTimeScenario2.2 9

/-- The demo container as `fs_format` leaves it, with the trailing snapshot replaced by
the given bytes. -/
def diskWithSnapshot (snapshot : List Nat) : Container :=
  { formattedContainer demoSizes demoConfig 5 [] with snapshot := snapshot }

/-- A malformed manager: `totalBlocks` 9 where the container has 8 blocks, `freeBlocks` 100
where the counts add up to 8, segments unsorted and overlapping, block 0 in a segment. -/
def malformedManager : FreeSpaceManager := ⟨[⟨5, 2⟩, ⟨0, 3⟩, ⟨4, 3⟩], 9, 100⟩

/-- A snapshot that announces two segments and ends after four bytes of the first. -/
def shortSnapshot : List Nat := [0, 0, 0, 8, 0, 0, 0, 7, 0, 0, 0, 2, 0, 0, 0, 1]

/-- The demo configuration with an empty administrator name. -/
def namelessAdminConfig : FileSystemConfig := { demoConfig with admin_username := [] }

/-- Edit scenario, step 1: `file_create("/f", d, 60)` with 60 bytes, exactly one block of
the demo mount. -/
def editBoundaryScenario1 : OFSErrorCodes × OFSInstance :=
  file_create demoMount (some adminSession) "/f".toList (some (List.replicate 60 120)) 60 6

/-- Edit scenario, step 2: `file_edit("/f", "", 0, 60)`, an empty write at the end of the
file. -/
def editBoundaryScenario2 : Option (OFSErrorCodes × OFSInstance) :=
  file_edit editBoundaryScenario1.2 (some adminSession) "/f".toList [] 0 60 7

/-- The tree with the files `/x` and `/y`, created in this order. -/
def twoFileTree : FileTree :=
  (((FileTree.new 1).createNode "/x".toList true "admin".toList 2).bind
    (fun r => r.1.createNode "/y".toList true "admin".toList 3)).elim (FileTree.new 1)
    (fun r => r.1)

/-- The names that `listDirectory` gives for a directory, in order. -/
def listedNames (t : FileTree) (path : List Char) : List (List Char) :=
  (t.listDirectory path).map (fun e => e.name)

/-- The tree with the directory `/d` and the file `/f`. -/
def dirAndFileTree : FileTree :=
  (((FileTree.new 1).createNode "/d".toList false "admin".toList 2).bind
    (fun r => r.1.createNode "/f".toList true "admin".toList 3)).elim (FileTree.new 1)
    (fun r => r.1)

/-- `fs_format` and `fs_init` with the nameless-administrator configuration. -/
def namelessMount : OFSErrorCodes × SessionManager × Option OFSInstance :=
  fs_init demoSizes noSessions
    (fs_format demoSizes "a.omni".toList true none namelessAdminConfig 5).2
    namelessAdminConfig 6

/-- Truncate scenario: `file_create("/t", d, 10)` with ten bytes `X` on the demo mount. -/
def truncateScenario : OFSErrorCodes × OFSInstance :=
  file_create demoMount (some adminSession) "/t".toList (some (List.replicate 10 88)) 10 6

/-- The tree node of `/t` in the truncate scenario. -/
def truncateFileNode : TreeNode :=
  .mk { name := "t".toList, isFile := true, entryIndex := 2, startBlockIndex := 1,
        size := 10, permissions := 0o644, owner := "admin".toList, created_time := 6,
        modified_time := 6 } []

/-- The tree with the directory `/d` and the file `/d/x`. -/
def nestedTree : FileTree :=
  (((FileTree.new 1).createNode "/d".toList false "admin".toList 2).bind
    (fun r => r.1.createNode "/d/x".toList true "admin".toList 3)).elim (FileTree.new 1)
    (fun r => r.1)

/-- The session registry after `fs_format` and `fs_init` of the demo container. -/
def demoRegistry : SessionManager :=
  (fs_init demoSizes noSessions (fs_format demoSizes "a.omni".toList true none demoConfig 5).2
    demoConfig 5).2.1

/-- Logout scenario, step 1: the administrator logs in at clock value 7. -/
def logoutScenario1 : OFSErrorCodes × SessionManager × OFSInstance × List Char :=
  user_login demoRegistry demoMount "admin".toList "admin123".toList 7

/-- Logout scenario, step 2: `user_logout` with the id just handed out. -/
def logoutScenario2 : OFSErrorCodes × SessionManager × OFSInstance :=
  user_logout logoutScenario1.2.1 logoutScenario1.2.2.1 logoutScenario1.2.2.2

/-- Logout scenario, step 3: the administrator logs in again at the same clock value. -/
def logoutScenario3 : OFSErrorCodes × SessionManager × OFSInstance × List Char :=
  user_login logoutScenario2.2.1 logoutScenario2.2.2 "admin".toList "admin123".toList 7

/-- User scenario: the administrator creates `bob` on the demo mount, which fills the second
and last user slot. -/
def fullUsersScenario : OFSErrorCodes × OFSInstance :=
  user_create demoMount (some adminSession) "bob".toList "pw".toList UserRole.NORMAL 6

/-! ## Further worked examples -/

/-- The demo configuration with a session table of one slot (`max_connections = 1`). -/
def oneConnConfig : FileSystemConfig :=
  { demoConfig with max_connections := 1 }

/-- The session registry after `fs_format` and `fs_init` with one session slot. -/
def oneConnRegistry : SessionManager :=
  (fs_init demoSizes noSessions (fs_format demoSizes "a.omni".toList true none oneConnConfig 5).2
    oneConnConfig 5).2.1

/-- Full-table scenario, step 1: the administrator logs in at clock value 7 and takes the
only session slot. -/
def fullSessions1 : OFSErrorCodes × SessionManager × OFSInstance × List Char :=
  user_login oneConnRegistry (freshMount demoSizes oneConnConfig 5) "admin".toList
    "admin123".toList 7

/-- Full-table scenario, step 2: with that session the administrator creates the user
`bob` with password `pw`. -/
def fullSessions2 : OFSErrorCodes × OFSInstance :=
  user_create fullSessions1.2.2.1
    (SessionManager.getSession fullSessions1.2.1 fullSessions1.2.2.2 8).1
    "bob".toList "pw".toList UserRole.NORMAL 8

/-- Full-table scenario, step 3: `bob` logs in with the right password at clock value 9. -/
def fullSessions3 : OFSErrorCodes × SessionManager × OFSInstance × List Char :=
  user_login (SessionManager.getSession fullSessions1.2.1 fullSessions1.2.2.2 8).2
    fullSessions2.2 "bob".toList "pw".toList 9

/-- Root-alias scenario: on the fresh demo mount the administrator calls
`dir_delete("//")`. -/
def rootAliasScenario : OFSErrorCodes × OFSInstance :=
  dir_delete demoMount (some adminSession) "//".toList

/-- The demo configuration with three user slots. -/
def threeUserConfig : FileSystemConfig :=
  { demoConfig with max_users := 3, total_size := 512 + 3 * 128 + 4 * 400 + 8 * 64 }

/-- A username one character longer than the username field, ending in `b`. -/
def longNameB : List Char := List.replicate UserInfo.usernameCapacity 'u' ++ ['b']

/-- A username one character longer than the username field, ending in `c`. -/
def longNameC : List Char := List.replicate UserInfo.usernameCapacity 'u' ++ ['c']

/-- Long-name scenario, step 1: format and mount with three user slots, then the
administrator creates the user `longNameB`. -/
def longNamesScenario1 : OFSErrorCodes × OFSInstance :=
  user_create (freshMount demoSizes threeUserConfig 5) (some adminSession) longNameB
    "pw".toList UserRole.NORMAL 6

/-- Long-name scenario, step 2: the administrator creates the user `longNameC`. -/
def longNamesScenario2 : OFSErrorCodes × OFSInstance :=
  user_create longNamesScenario1.2 (some adminSession) longNameC "pw".toList
    UserRole.NORMAL 7

/-- The demo configuration with an administrator name one character longer than the
username field. -/
def longAdminConfig : FileSystemConfig :=
  { demoConfig with admin_username := List.replicate (UserInfo.usernameCapacity + 1) 'a' }

/-- `fs_format` and `fs_init` with the long-administrator-name configuration. -/
def longAdminMount : OFSErrorCodes × SessionManager × Option OFSInstance :=
  fs_init demoSizes noSessions
    (fs_format demoSizes "a.omni".toList true none longAdminConfig 5).2
    longAdminConfig 6

/-! ## Call sequences on the AVL tree and its shape invariant -/

/-- One call of a sequence on an `AVLTree`: `insert(value, data)` or `remove(value)`. -/
inductive AVLOp (T : Type) where
  | insert (value : List Char) (data : T)
  | remove (value : List Char)
deriving Repr

/-- The key a call names. -/
def AVLOp.key {T : Type} : AVLOp T → List Char
  | .insert value _ => value
  | .remove value => value

/-- One call on the tree: `insert`, or `remove` with its flag dropped. -/
def AVLTree.step {T : Type} (t : AVLTree T) : AVLOp T → AVLTree T
  | .insert value data => t.insert value data
  | .remove value => (t.remove value).2

/-- The calls of a sequence, one after the other, first call first. -/
def AVLTree.runOps {T : Type} (t : AVLTree T) (ops : List (AVLOp T)) : AVLTree T :=
  ops.foldl AVLTree.step t

/-- The finite map the specification speaks of: the data of the most recent
`insert(k, _)` that no `remove(k)` follows, nothing otherwise.  It looks at the last call
of the sequence that names `k`. -/
def specSearch {T : Type} (ops : List (AVLOp T)) (k : List Char) : Option T :=
  match ops.reverse.find? (fun op => decide (op.key = k)) with
  | some (.insert _ data) => some data
  | _ => none

namespace AVLNode

variable {T : Type}

/-- Number of nodes on the longest path from the node down to a leaf. -/
def depth : AVLNode T → Nat
  | nil => 0
  | node _ _ l r _ => 1 + max (depth l) (depth r)

/-- Every node's stored height is 1 + the maximum of its children's heights, and the
heights of the two subtrees of every node differ by at most 1. -/
def Balanced : AVLNode T → Prop
  | nil => True
  | node _ _ l r h =>
    Balanced l ∧ Balanced r ∧ h = 1 + max (heightOf l) (heightOf r)
      ∧ heightOf l - heightOf r ≤ 1 ∧ heightOf r - heightOf l ≤ 1

/-- The search-tree property node by node: every key of the left subtree is below the key
of the node, every key of the right subtree above it. -/
def IsBST : AVLNode T → Prop
  | nil => True
  | node v _ l r _ =>
    IsBST l ∧ IsBST r ∧ (∀ e ∈ l.entries, e.1 < v) ∧ (∀ e ∈ r.entries, v < e.1)

/-- The shape of a tree that has just grown by an insertion of `value`: a single leaf, or
a node whose subtree on the side of `value` is the higher one. -/
def GrewAt (value : List Char) : AVLNode T → Prop
  | nil => False
  | node v _ l r _ =>
    (heightOf l = 0 ∧ heightOf r = 0) ∨ (value < v ∧ heightOf l = heightOf r + 1)
      ∨ (v < value ∧ heightOf r = heightOf l + 1)

end AVLNode

/-! ## The user index and the on-disk user table -/

/-- The record that `fread` delivers for user slot `i` (zeroed where nothing is read). -/
def slotUser (users : Nat → Option UserInfo) (i : Nat) : UserInfo :=
  (users i).getD UserInfo.zero

/-- An occupied slot: `is_active` is set and the username is not empty. -/
def UserInfo.Occupied (u : UserInfo) : Prop :=
  u.is_active = true ∧ u.username ≠ []

instance (u : UserInfo) : Decidable u.Occupied :=
  inferInstanceAs (Decidable (u.is_active = true ∧ u.username ≠ []))

/-- The on-disk user table is in order: no slot in front of an occupied slot carries the
same username, occupied or not. -/
def DiskUsersOK (users : Nat → Option UserInfo) (max_users : Nat) : Prop :=
  ∀ i, i < max_users → (slotUser users i).Occupied →
    ∀ j, j < i → (slotUser users j).username ≠ (slotUser users i).username

/-- The user index mirrors the user table of the container: the index is a search tree,
the header in memory is the one on disk, the keys of the index are the usernames of the
occupied slots, and the table is in order. -/
def UsersMirror (fs : OFSInstance) : Prop :=
  fs.users.root.Ordered
  ∧ fs.omni_file.header = some fs.header
  ∧ (∀ k, (fs.users.search k).isSome = true ↔
      ∃ i, i < fs.header.max_users ∧ (slotUser fs.omni_file.users i).Occupied
        ∧ (slotUser fs.omni_file.users i).username = k)
  ∧ DiskUsersOK fs.omni_file.users fs.header.max_users

/-- The instances reached from the mount of a container whose user table is in order (a
formatted container is one) by `user_create` calls with a non-empty username that fits the
username field and `user_delete` calls, with any session and any other argument,
successful or not. -/
inductive MirrorReachable : OFSInstance → Prop
  | mounted (sz : RecordSizes) (sm : SessionManager) (c : Container)
      (config : FileSystemConfig) (now : Nat) (sm1 : SessionManager) (fs : OFSInstance)
      (hd : ∀ header, c.header = some header → DiskUsersOK c.users header.max_users)
      (h : fs_init sz sm (some c) config now = (OFSErrorCodes.SUCCESS, sm1, some fs)) :
      MirrorReachable fs
  | create (fs : OFSInstance) (ms : Option ManagedSession) (username password : List Char)
      (role : UserRole) (now : Nat) (hname : username ≠ [])
      (hfit : username.length ≤ UserInfo.usernameCapacity) (h : MirrorReachable fs) :
      MirrorReachable (user_create fs ms username password role now).2
  | delete (fs : OFSInstance) (ms : Option ManagedSession) (username : List Char)
      (h : MirrorReachable fs) :
      MirrorReachable (user_delete fs ms username).2

/-! ## The reconstruction loop of `fs_init`: passes and parent chains -/

/-- The state with which `fs_init` enters its reconstruction loop: the root-only tree,
slots 0 and 1 marked processed. -/
def mountStart (now : Nat) : MountState :=
  { file_tree := FileTree.new now, processed := [0, 1], total_processed := 2,
    total_files := 0, total_directories := 1, progress := true }

/-- The loop condition `progress && total_processed < valid_count + 2`. -/
def MountState.continues (st : MountState) (valid_count : Nat) : Bool :=
  st.progress && decide (st.total_processed < valid_count + 2)

/-- The reconstruction loop together with its pass counter (`int pass` of the source,
incremented at the head of every pass). -/
def mountLoopPasses (fs : OFSInstance) (max_entries valid_count now : Nat) :
    Nat → MountState → Nat → MountState × Nat
  | 0, st, pass => (st, pass)
  | fuel + 1, st, pass =>
    if st.progress ∧ st.total_processed < valid_count + 2 then
      mountLoopPasses fs max_entries valid_count now fuel
        (mountPass fs max_entries now { st with progress := false }) (pass + 1)
    else (st, pass)

/-- The `n`-th member of the parent chain of entry `e`: `e` itself, its `parent_index`,
the `parent_index` of that slot, and so on (a slot that cannot be read counts as zeroed). -/
def ancestorAt (entries : Nat → Option FileEntry) (e : Nat) : Nat → Nat
  | 0 => e
  | n + 1 => ((entries (ancestorAt entries e n)).getD FileEntry.zero).parent_index

/-- The validity flag of an entry slot (`false` where nothing can be read). -/
def slotValid (entries : Nat → Option FileEntry) (i : Nat) : Bool :=
  match entries i with
  | some e => e.isValid
  | none => false

/-- The parent chain of `e` arrives at slot 0 or slot 1 through valid slots. -/
def RootedChain (entries : Nat → Option FileEntry) (e : Nat) : Prop :=
  ∃ n, (ancestorAt entries e (n + 1) = 0 ∨ ancestorAt entries e (n + 1) = 1)
    ∧ ∀ m, m ≤ n → slotValid entries (ancestorAt entries e m) = true
        ∧ ancestorAt entries e m ≠ 0 ∧ ancestorAt entries e m ≠ 1

/-- The parent chain of `e` is cyclic (it never arrives at slot 0 or slot 1) or passes
through an invalid slot before it arrives at slot 0 or slot 1. -/
def UnrootedChain (entries : Nat → Option FileEntry) (e : Nat) : Prop :=
  (∀ n, ancestorAt entries e n ≠ 0 ∧ ancestorAt entries e n ≠ 1)
  ∨ ∃ n, (∀ m, m ≤ n → ancestorAt entries e m ≠ 0 ∧ ancestorAt entries e m ≠ 1)
      ∧ slotValid entries (ancestorAt entries e n) = false

/-- Some node of the subtree carries the entry index `e`. -/
inductive HasEntryIndex (e : Nat) : TreeNode → Prop
  | atNode (info : NodeInfo) (children : List TreeNode) (h : info.entryIndex = e) :
      HasEntryIndex e (.mk info children)
  | inChild (info : NodeInfo) (children : List TreeNode) (c : TreeNode) (hc : c ∈ children)
      (h : HasEntryIndex e c) : HasEntryIndex e (.mk info children)

/-- What the reconstruction loop keeps true: slots 0 and 1 are marked, every other marked
entry has a parent chain that arrives at slot 0 or 1 through valid slots, and the entry
index of every node of the tree is marked. -/
def MountInv (entries : Nat → Option FileEntry) (st : MountState) : Prop :=
  0 ∈ st.processed ∧ 1 ∈ st.processed
  ∧ (∀ x ∈ st.processed, x = 0 ∨ x = 1 ∨ RootedChain entries x)
  ∧ (∀ e, HasEntryIndex e st.file_tree.root → e ∈ st.processed)

/-- Root-entry scenario, step 1: after `dir_delete("//")` has marked the root entry invalid
on disk, the administrator calls `dir_create("/d")` at time 6. -/
def rootInvalidScenario1 : OFSErrorCodes × OFSInstance :=
  dir_create rootAliasScenario.2 (some adminSession) "/d".toList 6

/-- Root-entry scenario, step 2: `fs_shutdown`, then `fs_init` at time 7. -/
def rootInvalidScenario2 : OFSInstance := remount demoSizes rootInvalidScenario1.2 7

/-! ## The directory tree as objects on the heap (`data_structures/file_tree.h`)

`TreeNode` objects carry a `parent` pointer and a vector of `children` pointers.  The
inductive `TreeNode` above describes the part of the heap that hangs below the root as long
as it is a tree; here the objects are kept by address, so that a `rename` which hangs a
node below itself, the root included, has its effect.

A read through a pointer to a freed object is undefined in the source.  The functions below
answer `none` where nothing lives at the address they read; the only pointer that ever
dangles is `root` (after a `deleteNode` of the re-hung root), and `HeapReachable` admits no
call in that state.  `splitPath` yields no empty component, so the `continue` of
`findNode` is never taken. -/

/-- A `TreeNode` object: the scalar fields, the `parent` pointer (`none` for the null
pointer) and the `children` vector of pointers. -/
structure HeapNode where
  info : NodeInfo
  parent : Option Nat
  children : List Nat
deriving DecidableEq, Repr

/-- `class FileTree` with its objects: what lives at each address (`none`: nothing
allocated there, or freed), the `root` pointer, and the address that `new` hands out
next.  Addresses are handed out in ascending order and not again after a `delete`. -/
structure HeapTree where
  objects : Nat → Option HeapNode
  root : Nat
  next : Nat

namespace HeapTree

/-- A write through the pointer `a`: the object there, if alive, is replaced by its image. -/
def update (h : HeapTree) (a : Nat) (f : HeapNode → HeapNode) : HeapTree :=
  { h with objects := fun k => if k = a then (h.objects k).map f else h.objects k }

/-- `FileTree::FileTree()`: the root object at address 0. -/
def new (now : Nat) : HeapTree :=
  { objects := fun k =>
      if k = 0 then some
        { info := { name := ['/'], isFile := false, entryIndex := 1, startBlockIndex := 0,
                    size := 0, permissions := 0o755, owner := "admin".toList,
                    created_time := now, modified_time := now }
          parent := none, children := [] }
      else none
    root := 0, next := 1 }

/-- The `name` of the object behind a pointer. -/
def nameAt (h : HeapTree) (c : Nat) : Option (List Char) :=
  (h.objects c).map (fun n => n.info.name)

/-- The loop of `TreeNode::findChild` over the `children` vector. -/
def findChildIn (h : HeapTree) : List Nat → List Char → Option Nat
  | [], _ => none
  | c :: cs, childName =>
    if h.nameAt c = some childName then some c else findChildIn h cs childName

/-- `TreeNode::findChild` called on the object at `p`. -/
def findChild (h : HeapTree) (p : Nat) (childName : List Char) : Option Nat :=
  match h.objects p with
  | none => none
  | some n => h.findChildIn n.children childName

/-- The descent of `FileTree::findNode` along the components. -/
def walk (h : HeapTree) : Nat → List (List Char) → Option Nat
  | current, [] => some current
  | current, part :: rest =>
    match h.findChild current part with
    | none => none
    | some c => walk h c rest

/-- `FileTree::findNode`: the pointer returned (`none` for the null pointer). -/
def findNode (h : HeapTree) (path : List Char) : Option Nat :=
  if path = ['/'] ∨ path = [] then some h.root else h.walk h.root (splitPath path)

/-- The pointer writes of `FileTree::createNode` after its checks: `new TreeNode` at the
fresh address with the fields set, `parent->addChild(newNode)` (parent pointer, then
`push_back`), `parent->modified_time`. -/
def attach (h : HeapTree) (parent : Nat) (name : List Char) (isFile : Bool)
    (owner : List Char) (now : Nat) : HeapTree :=
  let newNode : HeapNode :=
    { info := { name := name, isFile := isFile, entryIndex := 0, startBlockIndex := 0,
                size := 0, permissions := if isFile then 0o644 else 0o755, owner := owner,
                created_time := now, modified_time := now }
      parent := none, children := [] }
  let h1 : HeapTree :=
    { objects := fun k => if k = h.next then some newNode else h.objects k
      root := h.root, next := h.next + 1 }
  let h2 := h1.update h.next (fun n => { n with parent := some parent })
  let h3 := h2.update parent (fun n => { n with children := n.children ++ [h.next] })
  h3.update parent (fun n => { n with info := { n.info with modified_time := now } })

/-- `FileTree::createNode`: `none` is the null pointer; on success the heap afterwards and
the pointer returned. -/
def createNode (h : HeapTree) (path : List Char) (isFile : Bool) (owner : List Char)
    (now : Nat) : Option (HeapTree × Nat) :=
  if path = ['/'] then none
  else
    let (parentPath, name) := splitParentName path
    if name = [] ∨ '/' ∈ name then none
    else
      match h.findNode parentPath with
      | none => none
      | some parent =>
        match h.objects parent with
        | none => none
        | some pn =>
          if pn.info.isFile then none
          else if (h.findChild parent name).isSome then none
          else some (h.attach parent name isFile owner now, h.next)

/-- `delete node`: `~TreeNode` deletes the children, then the object is freed.  `fuel`
bounds the depth of the recursion. -/
def destroy : Nat → HeapTree → Nat → HeapTree
  | 0, h, _ => h
  | fuel + 1, h, a =>
    match h.objects a with
    | none => h
    | some n =>
      let h1 := n.children.foldl (fun acc c => destroy fuel acc c) h
      { h1 with objects := fun k => if k = a then none else h1.objects k }

/-- `FileTree::deleteNode`: `none` is `false`. -/
def deleteNode (h : HeapTree) (path : List Char) : Option HeapTree :=
  if path = ['/'] then none
  else
    match h.findNode path with
    | none => none
    | some node =>
      match h.objects node with
      | none => none
      | some n =>
        if n.info.isFile = false ∧ n.children.isEmpty = false then none
        else
          match n.parent with
          | none => none
          | some p =>
            match h.objects p with
            | none => none
            | some pn =>
              if node ∈ pn.children then
                some (destroy (h.next + 1)
                  (h.update p (fun x => { x with children := x.children.erase node })) node)
              else none

/-- The pointer writes of `FileTree::rename` after its checks, in the order of the source:
`oldParent->removeChild(oldNode)` and `oldParent->modified_time` when `oldNode->parent` is
not null, `oldNode->name`, `newParent->addChild(oldNode)` (parent pointer, then
`push_back`), `newParent->modified_time`, `oldNode->modified_time`. -/
def relink (h : HeapTree) (oldNode newParent : Nat) (oldParent : Option Nat)
    (newName : List Char) (now : Nat) : HeapTree :=
  let h1 := match oldParent with
    | none => h
    | some p =>
      (h.update p (fun x => { x with children := x.children.erase oldNode })).update p
        (fun x => { x with info := { x.info with modified_time := now } })
  let h2 := h1.update oldNode (fun x => { x with info := { x.info with name := newName } })
  let h3 := h2.update oldNode (fun x => { x with parent := some newParent })
  let h4 := h3.update newParent (fun x => { x with children := x.children ++ [oldNode] })
  let h5 := h4.update newParent
    (fun x => { x with info := { x.info with modified_time := now } })
  h5.update oldNode (fun x => { x with info := { x.info with modified_time := now } })

/-- `FileTree::rename`: `none` is `false`.  An old path that resolves to the root without
being `/` passes the test `oldPath == "/"`; the root has no parent to be removed from and
becomes a child of the new parent. -/
def rename (h : HeapTree) (oldPath newPath : List Char) (now : Nat) : Option HeapTree :=
  match h.findNode oldPath with
  | none => none
  | some oldNode =>
    if oldPath = ['/'] then none
    else
      let (newParentPath, newName) := splitParentName newPath
      if newName = [] ∨ '/' ∈ newName then none
      else
        match h.findNode newParentPath with
        | none => none
        | some newParent =>
          match h.objects newParent, h.objects oldNode with
          | some newObj, some oldObj =>
            if newObj.info.isFile then none
            else if (h.findChild newParent newName).isSome then none
            else some (h.relink oldNode newParent oldObj.parent newName now)
          | _, _ => none

/-- The heap after a `createNode` call, successful or not. -/
def afterCreate (h : HeapTree) (path : List Char) (isFile : Bool) (owner : List Char)
    (now : Nat) : HeapTree :=
  match h.createNode path isFile owner now with
  | some r => r.1
  | none => h

/-- The heap after a `deleteNode` call, successful or not. -/
def afterDelete (h : HeapTree) (path : List Char) : HeapTree :=
  (h.deleteNode path).getD h

/-- The heap after a `rename` call, successful or not. -/
def afterRename (h : HeapTree) (oldPath newPath : List Char) (now : Nat) : HeapTree :=
  (h.rename oldPath newPath now).getD h

end HeapTree

/-- The heaps reached from the root-only tree by `createNode`, `deleteNode` and `rename`
calls with any arguments, successful or not, as long as the root object is alive when a
call is made: every call dereferences the root pointer, and a call after the root object
has been deleted is undefined in the source. -/
inductive HeapReachable : HeapTree → Prop
  | init (now : Nat) : HeapReachable (HeapTree.new now)
  | create (h : HeapTree) (path : List Char) (isFile : Bool) (owner : List Char) (now : Nat)
      (hr : HeapReachable h) (hroot : (h.objects h.root).isSome = true) :
      HeapReachable (h.afterCreate path isFile owner now)
  | delete (h : HeapTree) (path : List Char)
      (hr : HeapReachable h) (hroot : (h.objects h.root).isSome = true) :
      HeapReachable (h.afterDelete path)
  | rename (h : HeapTree) (oldPath newPath : List Char) (now : Nat)
      (hr : HeapReachable h) (hroot : (h.objects h.root).isSome = true) :
      HeapReachable (h.afterRename oldPath newPath now)

/-- What the calls keep true of the heap: nothing lives at or past the next fresh address;
every child pointer leads to a live object whose parent pointer leads back; every parent
pointer leads to a live object that holds the node among its children; the children of
an object carry pairwise different names; a file has no children. -/
def HeapInv (h : HeapTree) : Prop :=
  (∀ a, h.next ≤ a → h.objects a = none)
  ∧ (∀ p pn, h.objects p = some pn → ∀ c ∈ pn.children,
      ∃ cn, h.objects c = some cn ∧ cn.parent = some p)
  ∧ (∀ c cn p, h.objects c = some cn → cn.parent = some p →
      ∃ pn, h.objects p = some pn ∧ c ∈ pn.children)
  ∧ (∀ p pn, h.objects p = some pn → (pn.children.map h.nameAt).Nodup)
  ∧ (∀ p pn, h.objects p = some pn → pn.info.isFile = true → pn.children = [])

/-- The object at `n` is reached from the object at `current` along the names of `parts`,
whichever child of that name is taken at each step. -/
inductive HeapReaches (h : HeapTree) : Nat → List (List Char) → Nat → Prop
  | here (current : Nat) : HeapReaches h current [] current
  | step (current c n : Nat) (part : List Char) (rest : List (List Char))
      (pn : HeapNode) (hp : h.objects current = some pn) (hc : c ∈ pn.children)
      (hname : h.nameAt c = some part) (hrest : HeapReaches h c rest n) :
      HeapReaches h current (part :: rest) n

/-- Heap scenario, step 1: `createNode("/d", directory)` on the root-only tree. -/
def heapScenario1 : HeapTree :=
  (HeapTree.new 1).afterCreate "/d".toList false "admin".toList 2

/-- Heap scenario, step 2: `createNode("/x", file)`. -/
def heapScenario2 : HeapTree := heapScenario1.afterCreate "/x".toList true "admin".toList 3

/-- Heap scenario, step 3: `rename("", "/d/r")`; the old path resolves to the root. -/
def heapScenario3 : HeapTree := heapScenario2.afterRename [] "/d/r".toList 4

/-- Heap scenario, step 4: `createNode("/d/r/y", file)` through the re-hung root. -/
def heapScenario4 : HeapTree :=
  heapScenario3.afterCreate "/d/r/y".toList true "admin".toList 5

/-- Heap scenario, step 5: `rename("/x", "/y")`, refused because the root has a child
`y`. -/
def heapScenario5 : HeapTree := heapScenario4.afterRename "/x".toList "/y".toList 6

/-- Heap scenario, step 6: `deleteNode("/x")`. -/
def heapScenario6 : HeapTree := heapScenario5.afterDelete "/x".toList

/-- Root-deletion scenario: `createNode("/d")`, `rename("", "/d/r")`,
`rename("/d", "/d/z")`, `deleteNode("")`. -/
def heapRootDeleted : HeapTree :=
  ((((HeapTree.new 1).afterCreate "/d".toList false "admin".toList 2).afterRename []
    "/d/r".toList 3).afterRename "/d".toList "/d/z".toList 4).afterDelete []

namespace HeapTree

/-- The object at address `k` after `relink`, from the object `n` that was there. -/
def relinked (oldNode newParent : Nat) (oldParent : Option Nat) (newName : List Char)
    (now : Nat) (k : Nat) (n : HeapNode) : HeapNode :=
  { info :=
      { n.info with
        name := if k = oldNode then newName else n.info.name
        modified_time :=
          if k = oldNode ∨ k = newParent ∨ oldParent = some k then now
          else n.info.modified_time }
    parent := if k = oldNode then some newParent else n.parent
    children :=
      (if oldParent = some k then n.children.erase oldNode else n.children)
        ++ (if k = newParent then [oldNode] else []) }

end HeapTree

/-! ## Free-space manager: facts about single steps -/

theorem segGap_trans {a b c : FreeSegment} (h1 : SegGap a b) (h2 : SegGap b c) :
    SegGap a c := by
  unfold SegGap at *
  omega

theorem endBlock_succ {T : Nat} {s : FreeSegment} (hT : T < U32) (h : SegOK T s) :
    (s.endBlock + 1) % U32 = s.startBlock + s.blockCount := by
  unfold FreeSegment.endBlock SegOK U32 at *
  omega

theorem segSum_cons (s : FreeSegment) (l : List FreeSegment) :
    segSum (s :: l) = s.blockCount + segSum l := by
  simp [segSum]

theorem segSum_append (l1 l2 : List FreeSegment) :
    segSum (l1 ++ l2) = segSum l1 + segSum l2 := by
  simp [segSum]

theorem segSum_nil : segSum [] = 0 := rfl

theorem inSegments_nil (b : Nat) : ¬ inSegments [] b := by
  simp [inSegments]

theorem inSegments_cons (s : FreeSegment) (l : List FreeSegment) (b : Nat) :
    inSegments (s :: l) b ↔
      (s.startBlock ≤ b ∧ b < s.startBlock + s.blockCount) ∨ inSegments l b := by
  simp [inSegments]

theorem inSegments_append (l1 l2 : List FreeSegment) (b : Nat) :
    inSegments (l1 ++ l2) b ↔ inSegments l1 b ∨ inSegments l2 b := by
  simp only [inSegments, List.mem_append]
  constructor
  · rintro ⟨s, hs | hs, h⟩
    · exact Or.inl ⟨s, hs, h⟩
    · exact Or.inr ⟨s, hs, h⟩
  · rintro (⟨s, hs, h⟩ | ⟨s, hs, h⟩)
    · exact ⟨s, Or.inl hs, h⟩
    · exact ⟨s, Or.inr hs, h⟩

theorem inSegments_perm {l1 l2 : List FreeSegment} (h : l1.Perm l2) (b : Nat) :
    inSegments l1 b ↔ inSegments l2 b := by
  simp only [inSegments]
  constructor
  · rintro ⟨s, hs, hb⟩
    exact ⟨s, h.mem_iff.mp hs, hb⟩
  · rintro ⟨s, hs, hb⟩
    exact ⟨s, h.mem_iff.mpr hs, hb⟩

theorem segSum_perm {l1 l2 : List FreeSegment} (h : l1.Perm l2) : segSum l1 = segSum l2 := by
  unfold segSum
  exact (h.map _).sum_eq

/-- A list with gaps between its segments is sorted in the order used by the sort. -/
theorem sorted_of_gaps {l : List FreeSegment} (h : l.Pairwise SegGap) : l.Sorted segLE := by
  refine List.Pairwise.imp ?_ h
  intro a b hab
  unfold SegGap at hab
  unfold segLE
  omega

theorem sortSegments_of_gaps {l : List FreeSegment} (h : l.Pairwise SegGap) :
    sortSegments l = l :=
  List.Sorted.insertionSort_eq (sorted_of_gaps h)

/-- On a well-formed list the merge loop changes nothing. -/
theorem mergeLoop_of_gaps {T : Nat} (hT : T < U32) :
    ∀ (rest : List FreeSegment) (last : FreeSegment),
      (∀ s ∈ last :: rest, SegOK T s) → (last :: rest).Pairwise SegGap →
      mergeLoop last rest = last :: rest := by
  intro rest
  induction rest with
  | nil => intro last _ _; rfl
  | cons cur rest ih =>
    intro last hok hg
    have hlast : SegOK T last := hok last (List.mem_cons_self _ _)
    have hgap : SegGap last cur := (List.pairwise_cons.mp hg).1 cur (List.mem_cons_self _ _)
    have hne : (last.endBlock + 1) % U32 ≠ cur.startBlock := by
      rw [endBlock_succ hT hlast]
      unfold SegGap at hgap
      omega
    rw [mergeLoop, if_neg hne]
    rw [ih cur (fun s hs => hok s (List.mem_cons_of_mem _ hs)) (List.pairwise_cons.mp hg).2]

theorem mergeAdjacentSegments_of_gaps {T : Nat} (hT : T < U32) {l : List FreeSegment}
    (hok : ∀ s ∈ l, SegOK T s) (hg : l.Pairwise SegGap) : mergeAdjacentSegments l = l := by
  unfold mergeAdjacentSegments
  split
  · rfl
  · rw [sortSegments_of_gaps hg]
    cases l with
    | nil => rfl
    | cons a t => exact mergeLoop_of_gaps hT t a hok hg

/-- Inside the 32-bit range and away from `0` the collecting loop returns the whole run. -/
theorem collectBlocks_ok (start : Nat) :
    ∀ (k i : Nat) (acc : List Nat), 1 ≤ start → start + i + k ≤ U32 →
      collectBlocks start k i acc = .ok (acc ++ List.range' (start + i) k) := by
  intro k
  induction k with
  | zero => intro i acc _ _; simp [collectBlocks]
  | succ k ih =>
    intro i acc h1 h2
    have hmod : (start + i) % U32 = start + i := Nat.mod_eq_of_lt (by omega)
    have hne : (start + i) % U32 ≠ 0 := by omega
    simp only [collectBlocks, if_neg hne]
    rw [ih (i + 1) _ h1 (by omega), hmod]
    simp [List.range'_succ, Nat.add_assoc]

/-- The decomposition behind a successful `findSegmentForAllocation`. -/
theorem findSegment_some {n : Nat} :
    ∀ {l : List FreeSegment} {i : Nat}, findSegmentForAllocation l n = some i →
      ∃ pre seg post, l = pre ++ seg :: post ∧ pre.length = i ∧ n ≤ seg.blockCount
        ∧ ∀ p ∈ pre, p.blockCount < n := by
  intro l
  induction l with
  | nil => intro i h; simp [findSegmentForAllocation] at h
  | cons a t ih =>
    intro i h
    unfold findSegmentForAllocation at h
    split at h
    · rename_i hle
      simp only [Option.some.injEq] at h
      exact ⟨[], a, t, rfl, by simpa using h, hle, by simp⟩
    · rename_i hlt
      cases hf : findSegmentForAllocation t n with
      | none => simp [hf] at h
      | some j =>
        simp only [hf, Option.map_some', Option.some.injEq] at h
        obtain ⟨pre, seg, post, hl, hlen, hle, hpre⟩ := ih hf
        refine ⟨a :: pre, seg, post, by simp [hl], by simp [hlen, h], hle, ?_⟩
        intro p hp
        rcases List.mem_cons.mp hp with rfl | hp
        · omega
        · exact hpre p hp

theorem findSegment_none {n : Nat} :
    ∀ {l : List FreeSegment}, findSegmentForAllocation l n = none →
      ∀ s ∈ l, s.blockCount < n := by
  intro l
  induction l with
  | nil => intro _ s hs; simp at hs
  | cons a t ih =>
    intro h s hs
    unfold findSegmentForAllocation at h
    split at h
    · simp at h
    · rename_i hlt
      have hf : findSegmentForAllocation t n = none := by
        cases hf : findSegmentForAllocation t n with
        | none => rfl
        | some j => simp [hf] at h
      rcases List.mem_cons.mp hs with rfl | hs
      · omega
      · exact ih hf s hs

theorem takeFromSegment_eq {m : FreeSpaceManager} (hwf : WellFormed m)
    {pre : List FreeSegment} {seg : FreeSegment} {post : List FreeSegment}
    (hl : m.freeSegments = pre ++ seg :: post) {n : Nat} (hn : n ≤ seg.blockCount) :
    takeFromSegment m pre.length n
      = (List.range' seg.startBlock n,
         { m with freeSegments := shrunkSegments pre seg post n,
                  freeBlocks := m.freeBlocks - n }) := by
  obtain ⟨hT, hok, _, _⟩ := hwf
  have hseg : SegOK m.totalBlocks seg := hok seg (by simp [hl])
  have hget : m.freeSegments[pre.length]? = some seg := by
    rw [hl, List.getElem?_append_right (Nat.le_refl _)]
    simp
  have hcol : collectBlocks seg.startBlock n 0 [] = .ok (List.range' seg.startBlock n) := by
    have := collectBlocks_ok seg.startBlock n 0 [] hseg.1
      (by unfold SegOK at hseg; omega)
    simpa using this
  unfold takeFromSegment
  simp only [hget, hcol]
  have hmod : (seg.startBlock + n) % U32 = seg.startBlock + n :=
    Nat.mod_eq_of_lt (by unfold SegOK at hseg; omega)
  by_cases hc : seg.blockCount = n
  · simp [hc, hl, shrunkSegments, List.eraseIdx_append_of_length_le]
  · simp [hc, hl, shrunkSegments, hmod]

/-- Taking `n` blocks from the front of a segment keeps the manager well formed; the free
blocks afterwards are the former ones without the run taken. -/
theorem shrunk_wellFormed {m : FreeSpaceManager} (hwf : WellFormed m)
    {pre : List FreeSegment} {seg : FreeSegment} {post : List FreeSegment}
    (hl : m.freeSegments = pre ++ seg :: post) {n : Nat} (hn : n ≤ seg.blockCount) :
    WellFormed { m with freeSegments := shrunkSegments pre seg post n,
                        freeBlocks := m.freeBlocks - n }
    ∧ ∀ b, inSegments (shrunkSegments pre seg post n) b ↔
        inSegments m.freeSegments b ∧ ¬ (seg.startBlock ≤ b ∧ b < seg.startBlock + n) := by
  obtain ⟨hT, hok, hg, hcnt⟩ := hwf
  rw [hl] at hok hg hcnt
  have hseg : SegOK m.totalBlocks seg := hok seg (by simp)
  have hpre : ∀ p ∈ pre, SegGap p seg := fun p hp =>
    (List.pairwise_append.mp hg).2.2 p hp seg (List.mem_cons_self _ _)
  have hpost : ∀ q ∈ post, SegGap seg q := fun q hq =>
    (List.pairwise_cons.mp (List.pairwise_append.mp hg).2.1).1 q hq
  have hprepost : ∀ p ∈ pre, ∀ q ∈ post, SegGap p q := fun p hp q hq =>
    (List.pairwise_append.mp hg).2.2 p hp q (List.mem_cons_of_mem _ hq)
  have hgpre : pre.Pairwise SegGap := (List.pairwise_append.mp hg).1
  have hgpost : post.Pairwise SegGap :=
    (List.pairwise_cons.mp (List.pairwise_append.mp hg).2.1).2
  refine ⟨⟨hT, ?_, ?_, ?_⟩, ?_⟩
  · intro s hs
    simp only [shrunkSegments, List.mem_append] at hs
    rcases hs with (hs | hs) | hs
    · exact hok s (by simp [hs])
    · split at hs
      · simp at hs
      · rename_i hne
        simp only [List.mem_singleton] at hs
        subst hs
        unfold SegOK at hseg ⊢
        simp only
        omega
    · exact hok s (by simp [hs])
  · simp only [shrunkSegments]
    split
    · simp only [List.append_nil]
      exact List.pairwise_append.mpr ⟨hgpre, hgpost, hprepost⟩
    · rw [List.append_assoc]
      refine List.pairwise_append.mpr ⟨hgpre, ?_, ?_⟩
      · simp only [List.singleton_append]
        refine List.pairwise_cons.mpr ⟨?_, hgpost⟩
        intro q hq
        have := hpost q hq
        unfold SegGap at this ⊢
        simp only
        omega
      · intro p hp q hq
        simp only [List.singleton_append, List.mem_cons] at hq
        rcases hq with rfl | hq
        · have := hpre p hp
          unfold SegGap at this ⊢
          simp only
          omega
        · exact hprepost p hp q hq
  · simp only [shrunkSegments]
    rw [hcnt]
    split
    · rename_i hc
      simp only [segSum_append, segSum_cons, segSum_nil]
      omega
    · simp only [segSum_append, segSum_cons, segSum_nil]
      omega
  · intro b
    simp only [shrunkSegments, hl, inSegments_append, inSegments_cons]
    have hb1 : inSegments pre b → b < seg.startBlock := by
      rintro ⟨p, hp, hb⟩
      have := hpre p hp
      unfold SegGap at this
      omega
    have hb2 : inSegments post b → seg.startBlock + seg.blockCount < b := by
      rintro ⟨q, hq, hb⟩
      have := hpost q hq
      unfold SegGap at this
      omega
    split
    · rename_i hc
      simp only [inSegments_nil, or_false]
      constructor
      · rintro (h | h)
        · exact ⟨Or.inl h, by have := hb1 h; omega⟩
        · exact ⟨Or.inr (Or.inr h), by have := hb2 h; omega⟩
      · rintro ⟨h | h | h, hnot⟩
        · exact Or.inl h
        · omega
        · exact Or.inr h
    · simp only [inSegments_cons, inSegments_nil, or_false]
      unfold SegOK at hseg
      constructor
      · rintro ((h | h) | h)
        · exact ⟨Or.inl h, by have := hb1 h; omega⟩
        · exact ⟨Or.inr (Or.inl (by omega)), by omega⟩
        · exact ⟨Or.inr (Or.inr h), by have := hb2 h; omega⟩
      · rintro ⟨h | h | h, hnot⟩
        · exact Or.inl (Or.inl h)
        · exact Or.inl (Or.inr (by omega))
        · exact Or.inr h

/-- The two outcomes of `allocateBlocks` on a well-formed manager: nothing is handed out
and nothing changes, or the first segment that is long enough gives up its first `n`
blocks. -/
theorem allocateBlocks_cases {m : FreeSpaceManager} (hwf : WellFormed m) (n : Nat) :
    (allocateBlocks m n = ([], m)
      ∧ (n = 0 ∨ m.freeBlocks < n ∨ ∀ s ∈ m.freeSegments, s.blockCount < n))
    ∨ ∃ pre seg post, m.freeSegments = pre ++ seg :: post ∧ 1 ≤ n ∧ n ≤ seg.blockCount
        ∧ (∀ p ∈ pre, p.blockCount < n)
        ∧ allocateBlocks m n = (List.range' seg.startBlock n,
            { m with freeSegments := shrunkSegments pre seg post n,
                     freeBlocks := m.freeBlocks - n }) := by
  unfold allocateBlocks
  by_cases h0 : n = 0 ∨ m.freeBlocks < n
  · left
    simp only [if_pos h0, true_and]
    tauto
  · simp only [if_neg h0]
    cases hf : findSegmentForAllocation m.freeSegments n with
    | some i =>
      right
      obtain ⟨pre, seg, post, hl, hlen, hle, hpre⟩ := findSegment_some hf
      refine ⟨pre, seg, post, hl, by omega, hle, hpre, ?_⟩
      simp only
      rw [← hlen]
      exact takeFromSegment_eq hwf hl hle
    | none =>
      left
      have hm : mergeAdjacentSegments m.freeSegments = m.freeSegments :=
        mergeAdjacentSegments_of_gaps hwf.1 hwf.2.1 hwf.2.2.1
      simp only [hm, hf]
      exact ⟨trivial, Or.inr (Or.inr (findSegment_none hf))⟩

theorem allocateBlocks_wellFormed {m : FreeSpaceManager} (hwf : WellFormed m) (n : Nat) :
    WellFormed (allocateBlocks m n).2 := by
  rcases allocateBlocks_cases hwf n with ⟨h, _⟩ | ⟨pre, seg, post, hl, _, hle, _, h⟩
  · rw [h]; exact hwf
  · rw [h]; exact (shrunk_wellFormed hwf hl hle).1

theorem allocateBlocks_totalBlocks {m : FreeSpaceManager} (hwf : WellFormed m) (n : Nat) :
    (allocateBlocks m n).2.totalBlocks = m.totalBlocks := by
  rcases allocateBlocks_cases hwf n with ⟨h, _⟩ | ⟨pre, seg, post, hl, _, hle, _, h⟩
  · rw [h]
  · rw [h]

/-! ## Free-space manager: returning blocks -/

theorem segSum_le_of_before {T : Nat} :
    ∀ (l : List FreeSegment) (lo : Nat), (∀ s ∈ l, SegOK T s) → l.Pairwise SegBefore →
      (∀ s ∈ l, lo ≤ s.startBlock) → lo ≤ T → lo + segSum l ≤ T := by
  intro l
  induction l with
  | nil => intro lo _ _ _ h; simpa [segSum] using h
  | cons a t ih =>
    intro lo hok hp hlo hT
    have ha : SegOK T a := hok a (List.mem_cons_self _ _)
    have h1 := ih (a.startBlock + a.blockCount)
      (fun s hs => hok s (List.mem_cons_of_mem _ hs)) (List.pairwise_cons.mp hp).2
      (fun s hs => (List.pairwise_cons.mp hp).1 s hs) ha.2.2
    have h2 := hlo a (List.mem_cons_self _ _)
    rw [segSum_cons]
    omega

theorem segSum_lt_of_wellFormed {m : FreeSpaceManager} (h : WellFormed m) :
    segSum m.freeSegments ≤ m.totalBlocks := by
  have := segSum_le_of_before m.freeSegments 0 h.2.1
    (List.Pairwise.imp (fun {a b} hab => by unfold SegGap at hab; unfold SegBefore; omega)
      h.2.2.1)
    (fun _ _ => Nat.zero_le _) (Nat.zero_le _)
  omega

/-- The merge loop on a sorted list of pairwise disjoint segments: the result has a gap
between any two segments and covers the same blocks. -/
theorem mergeLoop_spec {T : Nat} (hT : T < U32) :
    ∀ (rest : List FreeSegment) (last : FreeSegment),
      (∀ s ∈ last :: rest, SegOK T s) → (last :: rest).Pairwise SegBefore →
      (∀ s ∈ mergeLoop last rest, SegOK T s)
      ∧ (mergeLoop last rest).Pairwise SegGap
      ∧ segSum (mergeLoop last rest) = segSum (last :: rest)
      ∧ (∀ s ∈ mergeLoop last rest, last.startBlock ≤ s.startBlock)
      ∧ (∀ b, inSegments (mergeLoop last rest) b ↔ inSegments (last :: rest) b) := by
  intro rest
  induction rest with
  | nil =>
    intro last hok _
    refine ⟨by simpa [mergeLoop] using hok, by simp [mergeLoop], by simp [mergeLoop],
      by simp [mergeLoop], by simp [mergeLoop]⟩
  | cons cur rest ih =>
    intro last hok hp
    have hlast : SegOK T last := hok last (List.mem_cons_self _ _)
    have hcur : SegOK T cur := hok cur (by simp)
    have hlc : SegBefore last cur := (List.pairwise_cons.mp hp).1 cur (List.mem_cons_self _ _)
    have hp2 : (cur :: rest).Pairwise SegBefore := (List.pairwise_cons.mp hp).2
    unfold SegBefore at hlc
    rw [mergeLoop, endBlock_succ hT hlast]
    by_cases hadj : last.startBlock + last.blockCount = cur.startBlock
    · rw [if_pos hadj]
      have hmod : (last.blockCount + cur.blockCount) % U32 = last.blockCount + cur.blockCount :=
        Nat.mod_eq_of_lt (by unfold SegOK at hlast hcur; omega)
      rw [hmod]
      have hok' : ∀ s ∈ ({ last with blockCount := last.blockCount + cur.blockCount }
          : FreeSegment) :: rest, SegOK T s := by
        intro s hs
        rcases List.mem_cons.mp hs with rfl | hs
        · unfold SegOK at hlast hcur ⊢
          simp only
          omega
        · exact hok s (by simp [hs])
      have hp' : (({ last with blockCount := last.blockCount + cur.blockCount }
          : FreeSegment) :: rest).Pairwise SegBefore := by
        refine List.pairwise_cons.mpr ⟨?_, (List.pairwise_cons.mp hp2).2⟩
        intro s hs
        have := (List.pairwise_cons.mp hp2).1 s hs
        unfold SegBefore at this ⊢
        simp only
        omega
      obtain ⟨i1, i2, i3, i4, i5⟩ := ih _ hok' hp'
      refine ⟨i1, i2, ?_, i4, ?_⟩
      · rw [i3]
        simp only [segSum_cons]
        omega
      · intro b
        rw [i5 b]
        simp only [inSegments_cons]
        constructor
        · rintro (h | h)
          · by_cases hb : b < last.startBlock + last.blockCount
            · exact Or.inl ⟨h.1, hb⟩
            · exact Or.inr (Or.inl ⟨by omega, by omega⟩)
          · exact Or.inr (Or.inr h)
        · rintro (h | h | h)
          · exact Or.inl ⟨h.1, by omega⟩
          · exact Or.inl ⟨by omega, by omega⟩
          · exact Or.inr h
    · rw [if_neg hadj]
      obtain ⟨i1, i2, i3, i4, i5⟩ := ih cur (fun s hs => hok s (List.mem_cons_of_mem _ hs)) hp2
      refine ⟨?_, ?_, ?_, ?_, ?_⟩
      · intro s hs
        rcases List.mem_cons.mp hs with rfl | hs
        · exact hlast
        · exact i1 s hs
      · refine List.pairwise_cons.mpr ⟨?_, i2⟩
        intro s hs
        have := i4 s hs
        unfold SegGap
        omega
      · simp only [segSum_cons] at i3 ⊢
        omega
      · intro s hs
        rcases List.mem_cons.mp hs with rfl | hs
        · exact Nat.le_refl _
        · have := i4 s hs
          omega
      · intro b
        rw [inSegments_cons, i5 b, inSegments_cons last]

/-- `mergeAdjacentSegments` on pairwise disjoint segments inside the block range. -/
theorem mergeAdjacentSegments_spec {T : Nat} (hT : T < U32) {l : List FreeSegment}
    (hok : ∀ s ∈ l, SegOK T s) (hd : l.Pairwise SegDisj) :
    (∀ s ∈ mergeAdjacentSegments l, SegOK T s)
    ∧ (mergeAdjacentSegments l).Pairwise SegGap
    ∧ segSum (mergeAdjacentSegments l) = segSum l
    ∧ (∀ b, inSegments (mergeAdjacentSegments l) b ↔ inSegments l b) := by
  unfold mergeAdjacentSegments
  split
  · rename_i hlen
    refine ⟨hok, ?_, rfl, fun _ => Iff.rfl⟩
    match l, hlen with
    | [], _ => exact List.Pairwise.nil
    | [a], _ => exact List.pairwise_singleton _ _
    | _ :: _ :: _, h => simp at h
  · have hperm : (sortSegments l).Perm l := List.perm_insertionSort _ l
    have hsorted : (sortSegments l).Sorted segLE := List.sorted_insertionSort _ l
    have hok' : ∀ s ∈ sortSegments l, SegOK T s := fun s hs => hok s (hperm.mem_iff.mp hs)
    have hd' : (sortSegments l).Pairwise SegDisj :=
      hperm.symm.pairwise hd (fun {a b} h => by unfold SegDisj at h ⊢; omega)
    have hbefore : (sortSegments l).Pairwise SegBefore := by
      have hboth := List.Pairwise.and hsorted hd'
      refine List.Pairwise.imp_of_mem ?_ hboth
      intro a b ha hb hab
      have h1 := hok' a ha
      have h2 := hok' b hb
      obtain ⟨hle, hdis⟩ := hab
      unfold segLE at hle
      unfold SegDisj at hdis
      unfold SegOK at h1 h2
      unfold SegBefore
      omega
    cases hs : sortSegments l with
    | nil =>
      rw [hs] at hperm
      have hl : l = [] := List.nil_perm.mp hperm
      subst hl
      simp [inSegments_nil]
    | cons a t =>
      rw [hs] at hok' hbefore hperm
      obtain ⟨i1, i2, i3, _, i5⟩ := mergeLoop_spec hT t a hok' hbefore
      refine ⟨i1, i2, ?_, ?_⟩
      · rw [i3]; exact segSum_perm hperm
      · intro b
        rw [i5 b]
        exact inSegments_perm hperm b

/-- The run-building loop on strictly ascending ids. -/
theorem buildRuns_spec {T : Nat} (hT : T < U32) :
    ∀ (rest : List Nat) (segStart segCount prev : Nat),
      1 ≤ segStart → 1 ≤ segCount → segStart + segCount = prev + 1 →
      (prev :: rest).Sorted (· < ·) → (∀ x ∈ prev :: rest, x < T) →
      (∀ s ∈ buildRuns segStart segCount prev rest, SegOK T s)
      ∧ (buildRuns segStart segCount prev rest).Pairwise SegGap
      ∧ segSum (buildRuns segStart segCount prev rest) = segCount + rest.length
      ∧ (∀ s ∈ buildRuns segStart segCount prev rest, segStart ≤ s.startBlock)
      ∧ (∀ b, inSegments (buildRuns segStart segCount prev rest) b ↔
          (segStart ≤ b ∧ b ≤ prev) ∨ b ∈ rest) := by
  intro rest
  induction rest with
  | nil =>
    intro segStart segCount prev h1 h2 h3 _ hlt
    have hp := hlt prev (List.mem_cons_self _ _)
    refine ⟨?_, by simp [buildRuns], by simp [buildRuns, segSum], by simp [buildRuns], ?_⟩
    · intro s hs
      simp only [buildRuns, List.mem_singleton] at hs
      subst hs
      unfold SegOK
      simp only
      omega
    · intro b
      simp only [buildRuns, inSegments_cons, inSegments_nil, or_false, List.not_mem_nil]
      constructor
      · rintro ⟨h, h'⟩; exact ⟨h, by omega⟩
      · rintro ⟨h, h'⟩; exact ⟨h, by omega⟩
  | cons b bs ih =>
    intro segStart segCount prev h1 h2 h3 hs hlt
    have hpb : prev < b := (List.pairwise_cons.mp hs).1 b (List.mem_cons_self _ _)
    have hs2 : (b :: bs).Sorted (· < ·) := (List.pairwise_cons.mp hs).2
    have hbT : b < T := hlt b (by simp)
    have hprevT : prev < T := hlt prev (List.mem_cons_self _ _)
    have hlt2 : ∀ x ∈ b :: bs, x < T := fun x hx => hlt x (List.mem_cons_of_mem _ hx)
    have hmod : (prev + 1) % U32 = prev + 1 := Nat.mod_eq_of_lt (by omega)
    have hbs : ∀ x ∈ bs, b < x := fun x hx => (List.pairwise_cons.mp hs2).1 x hx
    rw [buildRuns, hmod]
    by_cases hadj : b = prev + 1
    · rw [if_pos hadj]
      have hmod2 : (segCount + 1) % U32 = segCount + 1 := Nat.mod_eq_of_lt (by omega)
      rw [hmod2]
      obtain ⟨i1, i2, i3, i4, i5⟩ := ih segStart (segCount + 1) b h1 (by omega) (by omega)
        hs2 hlt2
      refine ⟨i1, i2, ?_, i4, ?_⟩
      · rw [i3]; simp only [List.length_cons]; omega
      · intro x
        rw [i5 x]
        simp only [List.mem_cons]
        constructor
        · rintro (h | h)
          · by_cases hx : x = b
            · exact Or.inr (Or.inl hx)
            · exact Or.inl ⟨h.1, by omega⟩
          · exact Or.inr (Or.inr h)
        · rintro (h | h | h)
          · exact Or.inl ⟨h.1, by omega⟩
          · exact Or.inl ⟨by omega, by omega⟩
          · exact Or.inr h
    · rw [if_neg hadj]
      obtain ⟨i1, i2, i3, i4, i5⟩ := ih b 1 b (by omega) (Nat.le_refl _) rfl hs2 hlt2
      refine ⟨?_, ?_, ?_, ?_, ?_⟩
      · intro s hs'
        rcases List.mem_cons.mp hs' with rfl | hs'
        · unfold SegOK; simp only; omega
        · exact i1 s hs'
      · refine List.pairwise_cons.mpr ⟨?_, i2⟩
        intro s hs'
        have := i4 s hs'
        unfold SegGap
        simp only
        omega
      · rw [segSum_cons, i3]; simp only [List.length_cons]; omega
      · intro s hs'
        rcases List.mem_cons.mp hs' with rfl | hs'
        · exact Nat.le_refl _
        · have := i4 s hs'
          omega
      · intro x
        rw [inSegments_cons, i5 x]
        simp only [List.mem_cons]
        constructor
        · rintro (h | h | h)
          · exact Or.inl ⟨h.1, by omega⟩
          · exact Or.inr (Or.inl (by omega))
          · exact Or.inr (Or.inr h)
        · rintro (h | h | h)
          · exact Or.inl ⟨h.1, by omega⟩
          · exact Or.inr (Or.inl ⟨by omega, by omega⟩)
          · exact Or.inr (Or.inr h)

theorem isFree_iff {m : FreeSpaceManager} (hwf : WellFormed m) (b : Nat) :
    m.isFree b = true ↔ inSegments m.freeSegments b := by
  obtain ⟨hT, hok, _, _⟩ := hwf
  unfold FreeSpaceManager.isFree inSegments
  by_cases hb : b = 0
  · subst hb
    simp only [if_true]
    constructor
    · intro h; cases h
    · rintro ⟨s, hs, h1, _⟩
      have := (hok s hs).1
      omega
  · simp only [if_neg hb, List.any_eq_true, decide_eq_true_eq]
    constructor
    · rintro ⟨s, hs, h1, h2⟩
      refine ⟨s, hs, h1, ?_⟩
      have := hok s hs
      unfold FreeSegment.endBlock at h2
      unfold SegOK at this
      unfold U32 at h2 hT
      omega
    · rintro ⟨s, hs, h1, h2⟩
      refine ⟨s, hs, h1, ?_⟩
      have := hok s hs
      unfold FreeSegment.endBlock
      unfold SegOK at this
      unfold U32 at hT ⊢
      omega

theorem segDisj_of_gap {a b : FreeSegment} (h : SegGap a b) : SegDisj a b := by
  unfold SegGap at h
  unfold SegDisj
  omega

/-- Returning distinct, allocated ids of the block range keeps the manager well formed and
adds exactly these ids to the free blocks. -/
theorem freeBlockSegments_spec {m : FreeSpaceManager} (hwf : WellFormed m) {ids : List Nat}
    (hnd : ids.Nodup)
    (hids : ∀ id ∈ ids, 1 ≤ id ∧ id < m.totalBlocks ∧ ¬ inSegments m.freeSegments id) :
    WellFormed (freeBlockSegments m ids)
    ∧ (freeBlockSegments m ids).totalBlocks = m.totalBlocks
    ∧ (freeBlockSegments m ids).freeBlocks = m.freeBlocks + ids.length
    ∧ ∀ b, inSegments (freeBlockSegments m ids).freeSegments b ↔
        inSegments m.freeSegments b ∨ b ∈ ids := by
  cases ids with
  | nil => exact ⟨hwf, rfl, rfl, fun b => by simp [freeBlockSegments]⟩
  | cons i0 it =>
    obtain ⟨hT, hok, hg, hcnt⟩ := hwf
    have hperm : ((i0 :: it).insertionSort (· ≤ ·)).Perm (i0 :: it) :=
      List.perm_insertionSort _ _
    have hsorted : ((i0 :: it).insertionSort (· ≤ ·)).Sorted (· < ·) :=
      (List.sorted_insertionSort (· ≤ ·) (i0 :: it)).lt_of_le (hperm.nodup_iff.mpr hnd)
    have hmem : ∀ x, x ∈ (i0 :: it).insertionSort (· ≤ ·) ↔ x ∈ i0 :: it :=
      fun x => hperm.mem_iff
    unfold freeBlockSegments
    simp only
    generalize hsd : (i0 :: it).insertionSort (· ≤ ·) = sorted at hperm hsorted hmem
    cases sorted with
    | nil => exact absurd hperm.length_eq (by simp)
    | cons b0 rest =>
      have hb0 : 1 ≤ b0 := (hids b0 ((hmem b0).mp (List.mem_cons_self _ _))).1
      obtain ⟨k, rfl⟩ : ∃ k, b0 = k + 1 := ⟨b0 - 1, by omega⟩
      simp only
      have hltT : ∀ x ∈ (k + 1) :: rest, x < m.totalBlocks :=
        fun x hx => (hids x ((hmem x).mp hx)).2.1
      obtain ⟨r1, r2, r3, _, r5⟩ := buildRuns_spec hT rest (k + 1) 1 (k + 1) (by omega)
        (Nat.le_refl _) rfl hsorted hltT
      have hruns : ∀ b, inSegments (buildRuns (k + 1) 1 (k + 1) rest) b ↔ b ∈ i0 :: it := by
        intro b
        rw [r5 b, ← hmem b]
        simp only [List.mem_cons]
        constructor
        · rintro (h | h)
          · exact Or.inl (by omega)
          · exact Or.inr h
        · rintro (h | h)
          · exact Or.inl (by omega)
          · exact Or.inr h
      have hokAll : ∀ s ∈ m.freeSegments ++ buildRuns (k + 1) 1 (k + 1) rest,
          SegOK m.totalBlocks s := by
        intro s hs
        rcases List.mem_append.mp hs with hs | hs
        · exact hok s hs
        · exact r1 s hs
      have hdAll : (m.freeSegments ++ buildRuns (k + 1) 1 (k + 1) rest).Pairwise SegDisj := by
        refine List.pairwise_append.mpr ⟨hg.imp segDisj_of_gap, r2.imp segDisj_of_gap, ?_⟩
        intro s hs r hr
        have h1 := hok s hs
        have h2 := r1 r hr
        unfold SegOK at h1 h2
        by_contra hcon
        unfold SegDisj at hcon
        have hin : inSegments (buildRuns (k + 1) 1 (k + 1) rest)
            (max s.startBlock r.startBlock) := ⟨r, hr, by omega, by omega⟩
        have hfree : inSegments m.freeSegments (max s.startBlock r.startBlock) :=
          ⟨s, hs, by omega, by omega⟩
        exact (hids _ ((hruns _).mp hin)).2.2 hfree
      obtain ⟨m1, m2, m3, m4⟩ := mergeAdjacentSegments_spec hT hokAll hdAll
      have hlen : ((k + 1) :: rest).length = (i0 :: it).length := hperm.length_eq
      have hsum : segSum (mergeAdjacentSegments
          (m.freeSegments ++ buildRuns (k + 1) 1 (k + 1) rest))
          = m.freeBlocks + (i0 :: it).length := by
        rw [m3, segSum_append, r3, hcnt, ← hlen]
        simp only [List.length_cons]
        omega
      have hbound := segSum_le_of_before _ 0 m1
        (m2.imp (fun {a b} hab => by unfold SegGap at hab; unfold SegBefore; omega))
        (fun _ _ => Nat.zero_le _) (Nat.zero_le _)
      have hmod : (m.freeBlocks + ((k + 1) :: rest).length) % U32
          = m.freeBlocks + (i0 :: it).length := by
        rw [hlen]
        exact Nat.mod_eq_of_lt (by omega)
      refine ⟨⟨hT, m1, m2, ?_⟩, trivial, hmod, ?_⟩
      · show (m.freeBlocks + ((k + 1) :: rest).length) % U32 = _
        rw [hmod, hsum]
      · intro b
        rw [m4 b, inSegments_append, hruns b]

theorem wellFormed_new {n : Nat} (h1 : 1 ≤ n) (h2 : n < U32) :
    WellFormed (FreeSpaceManager.new n) := by
  have hmod : (n + (U32 - 1)) % U32 = n - 1 := by unfold U32 at *; omega
  unfold WellFormed FreeSpaceManager.new
  simp only [hmod]
  refine ⟨h2, ?_, ?_, ?_⟩
  · intro s hs
    split at hs
    · simp only [List.mem_singleton] at hs
      subst hs
      unfold SegOK
      simp only
      omega
    · simp at hs
  · split
    · exact List.pairwise_singleton _ _
    · exact List.Pairwise.nil
  · split
    · simp [segSum]
    · simp only [segSum_nil]
      omega

theorem wellFormed_of_reachable {m : FreeSpaceManager} (h : FsmReachable m) :
    WellFormed m := by
  induction h with
  | fresh n h1 h2 => exact wellFormed_new h1 h2
  | alloc m n _ ih => exact allocateBlocks_wellFormed ih n
  | free m ids _ hnd hids ih =>
    refine (freeBlockSegments_spec ih hnd ?_).1
    intro id hid
    obtain ⟨h1, h2, h3⟩ := hids id hid
    refine ⟨h1, h2, ?_⟩
    intro hin
    rw [(isFree_iff ih id).mpr hin] at h3
    cases h3

theorem fsmInvariant_of_wellFormed {m : FreeSpaceManager} (h : WellFormed m) :
    FsmInvariant m := by
  obtain ⟨hT, hok, hg, hcnt⟩ := h
  refine ⟨?_, ?_, ?_, ?_, hcnt, ?_⟩
  · exact hg.imp (fun {a b} hab => by unfold SegGap at hab; omega)
  · exact hg.imp (fun {a b} hab => by unfold SegGap at hab; omega)
  · exact fun s hs => (hok s hs).2.1
  · intro a ha b hb
    rw [endBlock_succ hT (hok a ha)]
    by_cases hab : a = b
    · subst hab
      have := (hok a ha).2.1
      omega
    · have hsym : (m.freeSegments).Pairwise (fun x y : FreeSegment =>
          x.startBlock + x.blockCount ≠ y.startBlock
            ∧ y.startBlock + y.blockCount ≠ x.startBlock) :=
        List.Pairwise.imp_of_mem (fun {x y} hx hy hxy => by
          have := (hok y hy).2.1
          unfold SegGap at hxy
          omega) hg
      exact (hsym.forall (fun x y hxy => ⟨hxy.2, hxy.1⟩) ha hb hab).1
  · intro s hs
    have := hok s hs
    unfold SegOK at this
    omega

/-- C4: every free-space manager reached from a freshly constructed one (`numBlocks >= 1`)
by `allocateBlocks` with any count and by `freeBlockSegments` on distinct, currently
allocated ids of `1 .. totalBlocks - 1` has its segment list sorted by start, pairwise
non-overlapping with counts of at least one, without adjacent segments, with `freeBlocks`
equal to the sum of the counts, and without block `0` in any segment. -/
theorem fsm_invariant_of_reachable (m : FreeSpaceManager) (h : FsmReachable m) :
    FsmInvariant m :=
  fsmInvariant_of_wellFormed (wellFormed_of_reachable h)

/-- Witness for C4: allocate three blocks of an eight-block manager, give block `2` back. -/
theorem fsm_invariant_of_reachable_witness :
    FsmReachable (freeBlockSegments (allocateBlocks (FreeSpaceManager.new 8) 3).2 [2])
    ∧ FsmInvariant (freeBlockSegments (allocateBlocks (FreeSpaceManager.new 8) 3).2 [2]) :=
  ⟨FsmReachable.free _ [2]
      (FsmReachable.alloc _ 3 (FsmReachable.fresh 8 (by decide) (by decide)))
      (by decide) (by decide),
   fsm_invariant_of_reachable _
    (FsmReachable.free _ [2]
      (FsmReachable.alloc _ 3 (FsmReachable.fresh 8 (by decide) (by decide)))
      (by decide) (by decide))⟩

/-! ## Free-space manager: the segment list is determined by the set of free blocks -/

theorem inSegments_lower {a : FreeSegment} {t : List FreeSegment} {b : Nat}
    (hg : ∀ s ∈ t, SegGap a s) (h : inSegments t b) : a.startBlock + a.blockCount < b := by
  obtain ⟨s, hs, h1, _⟩ := h
  have := hg s hs
  unfold SegGap at this
  omega

/-- Two gap-separated lists of non-empty segments that cover the same blocks are equal. -/
theorem segments_ext :
    ∀ (l1 l2 : List FreeSegment), l1.Pairwise SegGap → (∀ s ∈ l1, 1 ≤ s.blockCount) →
      l2.Pairwise SegGap → (∀ s ∈ l2, 1 ≤ s.blockCount) →
      (∀ b, inSegments l1 b ↔ inSegments l2 b) → l1 = l2 := by
  intro l1
  induction l1 with
  | nil =>
    intro l2 _ _ _ h2 hb
    cases l2 with
    | nil => rfl
    | cons c t2 =>
      have hc := h2 c (List.mem_cons_self _ _)
      have : inSegments (c :: t2) c.startBlock :=
        (inSegments_cons _ _ _).mpr (Or.inl ⟨Nat.le_refl _, by omega⟩)
      exact absurd ((hb _).mpr this) (inSegments_nil _)
  | cons a t1 ih =>
    intro l2 hg1 h1 hg2 h2 hb
    have ha := h1 a (List.mem_cons_self _ _)
    have hga : ∀ s ∈ t1, SegGap a s := (List.pairwise_cons.mp hg1).1
    cases l2 with
    | nil =>
      have : inSegments (a :: t1) a.startBlock :=
        (inSegments_cons _ _ _).mpr (Or.inl ⟨Nat.le_refl _, by omega⟩)
      exact absurd ((hb _).mp this) (inSegments_nil _)
    | cons c t2 =>
      have hc := h2 c (List.mem_cons_self _ _)
      have hgc : ∀ s ∈ t2, SegGap c s := (List.pairwise_cons.mp hg2).1
      -- membership of a block in either list, unfolded
      have key : ∀ b, ((a.startBlock ≤ b ∧ b < a.startBlock + a.blockCount) ∨ inSegments t1 b)
          ↔ ((c.startBlock ≤ b ∧ b < c.startBlock + c.blockCount) ∨ inSegments t2 b) := by
        intro b
        rw [← inSegments_cons, ← inSegments_cons]
        exact hb b
      have lo1 : ∀ b, inSegments t1 b → a.startBlock + a.blockCount < b :=
        fun b h => inSegments_lower hga h
      have lo2 : ∀ b, inSegments t2 b → c.startBlock + c.blockCount < b :=
        fun b h => inSegments_lower hgc h
      have hstart : a.startBlock = c.startBlock := by
        have e1 := (key a.startBlock).mp (Or.inl ⟨Nat.le_refl _, by omega⟩)
        have e2 := (key c.startBlock).mpr (Or.inl ⟨Nat.le_refl _, by omega⟩)
        rcases e1 with e1 | e1 <;> rcases e2 with e2 | e2
        · omega
        · have := lo1 _ e2; omega
        · have := lo2 _ e1; omega
        · have := lo1 _ e2; have := lo2 _ e1; omega
      have hcount : a.blockCount = c.blockCount := by
        by_contra hne
        rcases Nat.lt_or_gt_of_ne hne with hlt | hgt
        · have e := (key (a.startBlock + a.blockCount)).mpr (Or.inl ⟨by omega, by omega⟩)
          rcases e with e | e
          · omega
          · have := lo1 _ e; omega
        · have e := (key (c.startBlock + c.blockCount)).mp (Or.inl ⟨by omega, by omega⟩)
          rcases e with e | e
          · omega
          · have := lo2 _ e; omega
      have hac : a = c := by
        cases a; cases c
        simp only [FreeSegment.mk.injEq]
        exact ⟨hstart, hcount⟩
      subst hac
      have htail : t1 = t2 := by
        refine ih t2 (List.pairwise_cons.mp hg1).2 (fun s hs => h1 s (List.mem_cons_of_mem _ hs))
          (List.pairwise_cons.mp hg2).2 (fun s hs => h2 s (List.mem_cons_of_mem _ hs)) ?_
        intro b
        constructor
        · intro h
          have hlo := lo1 b h
          rcases (key b).mp (Or.inr h) with e | e
          · omega
          · exact e
        · intro h
          have hlo := lo2 b h
          rcases (key b).mpr (Or.inr h) with e | e
          · omega
          · exact e
      rw [htail]

/-- Two well-formed managers with the same block count and the same free blocks are
equal. -/
theorem wellFormed_ext {m1 m2 : FreeSpaceManager} (h1 : WellFormed m1) (h2 : WellFormed m2)
    (ht : m1.totalBlocks = m2.totalBlocks)
    (hb : ∀ b, inSegments m1.freeSegments b ↔ inSegments m2.freeSegments b) : m1 = m2 := by
  have hsegs : m1.freeSegments = m2.freeSegments :=
    segments_ext _ _ h1.2.2.1 (fun s hs => (h1.2.1 s hs).2.1) h2.2.2.1
      (fun s hs => (h2.2.1 s hs).2.1) hb
  have hfree : m1.freeBlocks = m2.freeBlocks := by rw [h1.2.2.2, h2.2.2.2, hsegs]
  cases m1; cases m2
  simp only [FreeSpaceManager.mk.injEq]
  exact ⟨hsegs, ht, hfree⟩

/-- Blocks that a well-formed manager reports free lie in `1 .. totalBlocks - 1`. -/
theorem inSegments_range {m : FreeSpaceManager} (h : WellFormed m) {b : Nat}
    (hb : inSegments m.freeSegments b) : 1 ≤ b ∧ b < m.totalBlocks := by
  obtain ⟨s, hs, h1, h2⟩ := hb
  have := h.2.1 s hs
  unfold SegOK at this
  omega

/-! ## Scattered allocation (`allocateFileBlocks`) -/

theorem allocateBlocks_one {m : FreeSpaceManager} (hwf : WellFormed m)
    (hfree : 1 ≤ m.freeBlocks) :
    ∃ s m1, allocateBlocks m 1 = ([s], m1) ∧ AllocatedFrom m 1 [s] m1 := by
  rcases allocateBlocks_cases hwf 1 with ⟨_, h0 | h0 | h0⟩ | ⟨pre, seg, post, hl, _, hle, _, h⟩
  · omega
  · omega
  · exfalso
    have hempty : m.freeSegments = [] := by
      cases hsegs : m.freeSegments with
      | nil => rfl
      | cons a t =>
        have h1 := h0 a (by simp [hsegs])
        have h2 := (hwf.2.1 a (by simp [hsegs])).2.1
        omega
    have := hwf.2.2.2
    rw [hempty, segSum_nil] at this
    omega
  · refine ⟨seg.startBlock, _, by simpa using h, ?_⟩
    obtain ⟨w1, w2⟩ := shrunk_wellFormed hwf hl hle
    have hcnt := hwf.2.2.2
    have hsegpos : 1 ≤ seg.blockCount := hle
    refine ⟨rfl, List.nodup_singleton _, w1, rfl, ?_, ?_, ?_⟩
    · show m.freeBlocks - 1 + 1 = m.freeBlocks
      omega
    · intro b hb
      simp only [List.mem_singleton] at hb
      subst hb
      exact ⟨seg, by simp [hl], Nat.le_refl _, by omega⟩
    · intro b
      rw [w2 b]
      simp only [List.mem_singleton]
      constructor
      · rintro ⟨h1, h2⟩; exact ⟨h1, by omega⟩
      · rintro ⟨h1, h2⟩; exact ⟨h1, by omega⟩

/-- With enough free blocks the single-block loop hands out `k` further distinct free
blocks. -/
theorem allocateSingles_spec :
    ∀ (k : Nat) (fm : FreeSpaceManager) (acc : List Nat), WellFormed fm →
      k ≤ fm.freeBlocks →
      ∃ new fm1, allocateSingles k fm acc = (acc ++ new, fm1) ∧ AllocatedFrom fm k new fm1 := by
  intro k
  induction k with
  | zero =>
    intro fm acc hwf _
    refine ⟨[], fm, by simp [allocateSingles], rfl, List.nodup_nil, hwf, rfl, rfl, ?_, ?_⟩
    · intro b hb; cases hb
    · intro b; simp
  | succ k ih =>
    intro fm acc hwf hk
    obtain ⟨s, m1, h1, a1, a2, a3, a4, a5, a6, a7⟩ := allocateBlocks_one hwf (by omega)
    obtain ⟨new, fm2, h2, b1, b2, b3, b4, b5, b6, b7⟩ := ih m1 (acc ++ [s]) a3 (by omega)
    refine ⟨s :: new, fm2, ?_, ?_⟩
    · simp only [allocateSingles, h1, h2, List.append_assoc, List.singleton_append]
    · refine ⟨by simp [b1], ?_, b3, by rw [b4, a4], by omega, ?_, ?_⟩
      · refine List.nodup_cons.mpr ⟨?_, b2⟩
        intro hs
        have := (a7 s).mp (b6 s hs)
        simp at this
      · intro b hb
        rcases List.mem_cons.mp hb with rfl | hb
        · exact a6 _ (List.mem_singleton.mpr rfl)
        · exact ((a7 b).mp (b6 b hb)).1
      · intro b
        rw [b7 b, a7 b]
        simp only [List.mem_singleton, List.mem_cons, not_or]
        tauto

theorem allocateSingles_short :
    ∀ (k : Nat) (fm : FreeSpaceManager) (acc : List Nat), WellFormed fm →
      fm.freeBlocks < k → (allocateSingles k fm acc).1 = [] := by
  intro k
  induction k with
  | zero => intro fm acc _ h; omega
  | succ k ih =>
    intro fm acc hwf hk
    by_cases hfree : 1 ≤ fm.freeBlocks
    · obtain ⟨s, m1, h1, _, _, a3, _, a5, _, _⟩ := allocateBlocks_one hwf hfree
      simp only [allocateSingles, h1]
      exact ih m1 _ a3 (by omega)
    · rcases allocateBlocks_cases hwf 1 with ⟨h, _⟩ | ⟨pre, seg, post, hl, _, hle, _, h⟩
      · simp only [allocateSingles, h]
        cases acc <;> rfl
      · exfalso
        have hcnt := hwf.2.2.2
        rw [hl, segSum_append, segSum_cons] at hcnt
        omega

/-- `allocateFileBlocks` on a well-formed manager: either nothing is handed out, or exactly
`n` distinct blocks that were free, and the manager stays well formed. -/
theorem allocateFileBlocks_spec {m : FreeSpaceManager} (hwf : WellFormed m) (n : Nat) :
    ((allocateFileBlocks m n).1 = [] ∧ (n = 0 ∨ m.freeBlocks < n))
    ∨ (1 ≤ n ∧ AllocatedFrom m n (allocateFileBlocks m n).1 (allocateFileBlocks m n).2) := by
  unfold allocateFileBlocks
  by_cases hn : n = 0
  · left; simp [hn]
  · simp only [if_neg hn]
    rcases allocateBlocks_cases hwf n with ⟨h, _⟩ | ⟨pre, seg, post, hl, hn1, hle, _, h⟩
    · rw [h]
      simp only
      by_cases hfit : n ≤ m.freeBlocks
      · obtain ⟨new, fm1, h2, hA⟩ := allocateSingles_spec n m [] hwf hfit
        right
        rw [h2]
        exact ⟨by omega, by simpa using hA⟩
      · left
        exact ⟨allocateSingles_short n m [] hwf (by omega), Or.inr (by omega)⟩
    · right
      obtain ⟨w1, w2⟩ := shrunk_wellFormed hwf hl hle
      have hcnt := hwf.2.2.2
      have hseg := hwf.2.1 seg (by simp [hl])
      have hsum : n ≤ m.freeBlocks := by
        rw [hcnt, hl, segSum_append, segSum_cons]
        omega
      have hr : List.range' seg.startBlock n = seg.startBlock :: List.range' (seg.startBlock + 1) (n - 1) := by
        obtain ⟨j, rfl⟩ : ∃ j, n = j + 1 := ⟨n - 1, by omega⟩
        simp [List.range'_succ]
      rw [h, hr]
      simp only
      rw [← hr]
      refine ⟨hn1, List.length_range' _ _ _, List.nodup_range' _ _, w1, rfl, ?_, ?_, ?_⟩
      · show m.freeBlocks - n + n = m.freeBlocks
        omega
      · intro b hb
        rw [List.mem_range'_1] at hb
        exact ⟨seg, by simp [hl], hb.1, by omega⟩
      · intro b
        show inSegments (shrunkSegments pre seg post n) b ↔ _
        rw [w2 b, List.mem_range'_1]

/-- Giving back the blocks of a successful allocation restores the manager exactly. -/
theorem free_restores {m m1 : FreeSpaceManager} {n : Nat} {blocks : List Nat}
    (hwf : WellFormed m) (hA : AllocatedFrom m n blocks m1) :
    freeBlockSegments m1 blocks = m := by
  obtain ⟨a1, a2, a3, a4, a5, a6, a7⟩ := hA
  have hids : ∀ id ∈ blocks, 1 ≤ id ∧ id < m1.totalBlocks ∧ ¬ inSegments m1.freeSegments id := by
    intro id hid
    have hr := inSegments_range hwf (a6 id hid)
    refine ⟨hr.1, by rw [a4]; exact hr.2, ?_⟩
    intro hin
    exact ((a7 id).mp hin).2 hid
  obtain ⟨f1, f2, f3, f4⟩ := freeBlockSegments_spec a3 a2 hids
  refine wellFormed_ext f1 hwf (by rw [f2, a4]) ?_
  intro b
  rw [f4 b, a7 b]
  constructor
  · rintro (⟨h, _⟩ | h)
    · exact h
    · exact a6 b h
  · intro h
    by_cases hb : b ∈ blocks
    · exact Or.inr hb
    · exact Or.inl ⟨h, hb⟩

/-! ## Paths and the directory tree -/

theorem children_mk (i : NodeInfo) (cs : List TreeNode) : (TreeNode.mk i cs).children = cs :=
  rfl

theorem info_mk (i : NodeInfo) (cs : List TreeNode) : (TreeNode.mk i cs).info = i := rfl

theorem splitPathLoop_nil_nil : splitPathLoop [] [] = [] := by
  simp [splitPathLoop]

theorem splitPathLoop_slash : splitPathLoop ['/'] [] = [] := by
  simp [splitPathLoop]

theorem splitPath_eq (path : List Char) : splitPath path = splitPathLoop path [] := by
  unfold splitPath
  split
  · rename_i h
    rcases h with h | h <;> subst h <;> simp [splitPathLoop]
  · rfl

theorem routeOf_eq (path : List Char) : routeOf path = splitPathLoop path [] := by
  unfold routeOf
  split
  · rename_i h
    rcases h with h | h <;> subst h <;> simp [splitPathLoop]
  · exact splitPath_eq path

theorem findNode_eq (t : FileTree) (path : List Char) :
    t.findNode path = findNodeParts t.root (splitPathLoop path []) := by
  unfold FileTree.findNode
  split
  · rename_i h
    rcases h with h | h <;> subst h <;> simp [splitPathLoop, findNodeParts]
  · rw [splitPath_eq]

/-- A slash-free tail closes the component being read. -/
theorem splitPathLoop_noSlash :
    ∀ (name cur : List Char), '/' ∉ name →
      splitPathLoop name cur = if cur ++ name = [] then [] else [cur ++ name] := by
  intro name
  induction name with
  | nil => intro cur _; simp [splitPathLoop]
  | cons c cs ih =>
    intro cur h
    have hc : c ≠ '/' := fun e => h (by simp [e])
    have hcs : '/' ∉ cs := fun e => h (List.mem_cons_of_mem _ e)
    rw [splitPathLoop, if_neg hc, ih _ hcs]
    simp

/-- The components of `pre ++ "/" ++ post` are those of `pre` followed by those of
`post`. -/
theorem splitPathLoop_append :
    ∀ (pre post cur : List Char),
      splitPathLoop (pre ++ '/' :: post) cur = splitPathLoop pre cur ++ splitPathLoop post [] := by
  intro pre
  induction pre with
  | nil =>
    intro post cur
    simp only [List.nil_append, splitPathLoop, if_true]
    split <;> simp
  | cons c cs ih =>
    intro post cur
    simp only [List.cons_append, splitPathLoop]
    split
    · split <;> simp [ih]
    · exact ih post _

theorem findLastSlashLoop_some :
    ∀ (l : List Char) (i j : Nat), findLastSlashLoop l i (some j) ≠ none := by
  intro l
  induction l with
  | nil => intro i j; simp [findLastSlashLoop]
  | cons c cs ih =>
    intro i j
    rw [findLastSlashLoop]
    split
    · exact ih _ _
    · exact ih _ _

theorem findLastSlashLoop_spec :
    ∀ (l : List Char) (i : Nat) (last : Option Nat) (k : Nat),
      findLastSlashLoop l i last = some k →
      (last = some k ∧ '/' ∉ l)
      ∨ ∃ pre post, l = pre ++ '/' :: post ∧ '/' ∉ post ∧ k = i + pre.length := by
  intro l
  induction l with
  | nil =>
    intro i last k h
    left
    simpa [findLastSlashLoop] using h
  | cons c cs ih =>
    intro i last k h
    rw [findLastSlashLoop] at h
    rcases ih _ _ _ h with ⟨h1, h2⟩ | ⟨pre, post, h1, h2, h3⟩
    · by_cases hc : c = '/'
      · right
        simp only [hc, if_true, Option.some.injEq] at h1
        exact ⟨[], cs, by simp [hc], h2, by simp [h1]⟩
      · left
        simp only [hc, if_false] at h1
        refine ⟨h1, ?_⟩
        intro hm
        rcases List.mem_cons.mp hm with e | e
        · exact hc e.symm
        · exact h2 e
    · right
      exact ⟨c :: pre, post, by simp [h1], h2, by simp [h3]; omega⟩

/-- The cut that `createNode` makes in an absolute path: the name has no slash, and the
route of the path is the route of the parent path followed by the name (if any). -/
theorem splitParentName_spec (path : List Char) (habs : path.head? = some '/') :
    '/' ∉ (splitParentName path).2
    ∧ splitPathLoop path [] = splitPathLoop (splitParentName path).1 []
        ++ (if (splitParentName path).2 = [] then [] else [(splitParentName path).2]) := by
  cases path with
  | nil => simp at habs
  | cons c cs =>
    simp only [List.head?_cons, Option.some.injEq] at habs
    subst habs
    cases hk : findLastSlash ('/' :: cs) with
    | none =>
      exfalso
      unfold findLastSlash at hk
      rw [findLastSlashLoop] at hk
      simp only [if_true] at hk
      exact findLastSlashLoop_some _ _ _ hk
    | some k =>
      have hspec := findLastSlashLoop_spec _ _ _ _ hk
      rcases hspec with ⟨h, _⟩ | ⟨pre, post, h1, h2, h3⟩
      · cases h
      · simp only [Nat.zero_add] at h3
        have htake : ('/' :: cs).take k = pre := by rw [h1, h3]; simp
        have hdrop : ('/' :: cs).drop (k + 1) = post := by
          rw [h1, h3]
          simp [List.drop_append_eq_append_drop]
        have hpost : splitPathLoop post [] = if post = [] then [] else [post] := by
          have := splitPathLoop_noSlash post [] h2
          simpa using this
        cases k with
        | zero =>
          have hpre : pre = [] := by
            cases pre with
            | nil => rfl
            | cons a t => simp at h3
          subst hpre
          simp only [List.nil_append, List.cons.injEq, true_and] at h1
          subst h1
          simp only [splitParentName, hk, List.drop_succ_cons, List.drop_zero]
          refine ⟨h2, ?_⟩
          rw [splitPathLoop_slash, List.nil_append, ← hpost]
          simp [splitPathLoop]
        | succ j =>
          simp only [splitParentName, hk, htake, hdrop]
          refine ⟨h2, ?_⟩
          rw [h1, splitPathLoop_append, hpost]

theorem findNodeParts_append :
    ∀ (r1 r2 : List (List Char)) (t : TreeNode),
      findNodeParts t (r1 ++ r2) = (findNodeParts t r1).bind (fun n => findNodeParts n r2) := by
  intro r1
  induction r1 with
  | nil => intro r2 t; simp [findNodeParts]
  | cons p ps ih =>
    intro r2 t
    simp only [List.cons_append, findNodeParts]
    cases findChild t.children p with
    | none => rfl
    | some c => exact ih r2 c

theorem findChild_modifyChild (g : TreeNode → TreeNode)
    (hg : ∀ c, (g c).info.name = c.info.name) :
    ∀ (cs : List TreeNode) (p : List Char),
      findChild (modifyChild g cs p) p = (findChild cs p).map g := by
  intro cs
  induction cs with
  | nil => intro p; rfl
  | cons c cs ih =>
    intro p
    by_cases hc : c.info.name = p
    · simp [modifyChild, findChild, hc, hg]
    · simp [modifyChild, findChild, hc, ih]

theorem modifyAt_name (f : TreeNode → TreeNode) (hf : ∀ c, (f c).info.name = c.info.name) :
    ∀ (route : List (List Char)) (c : TreeNode), (modifyAt f route c).info.name = c.info.name := by
  intro route
  cases route with
  | nil => intro c; exact hf c
  | cons p ps => intro c; cases c; rfl

/-- After a write through the pointer for `route`, the route leads to the written node. -/
theorem findNodeParts_modifyAt (f : TreeNode → TreeNode)
    (hf : ∀ c, (f c).info.name = c.info.name) :
    ∀ (route rest : List (List Char)) (t n : TreeNode), findNodeParts t route = some n →
      findNodeParts (modifyAt f route t) (route ++ rest) = findNodeParts (f n) rest := by
  intro route
  induction route with
  | nil =>
    intro rest t n h
    simp only [findNodeParts, Option.some.injEq] at h
    subst h
    rfl
  | cons p ps ih =>
    intro rest t n h
    cases t with
    | mk i cs =>
      simp only [findNodeParts, TreeNode.children] at h
      cases hc : findChild cs p with
      | none => simp [hc] at h
      | some c =>
        simp only [hc] at h
        simp only [modifyAt, List.cons_append, findNodeParts, TreeNode.children,
          findChild_modifyChild _ (modifyAt_name f hf ps), hc, Option.map_some']
        exact ih rest c n h

theorem findChild_append_new (cs : List TreeNode) (x : TreeNode) (n : List Char)
    (h : findChild cs n = none) (hx : x.info.name = n) : findChild (cs ++ [x]) n = some x := by
  induction cs with
  | nil => simp [findChild, hx]
  | cons c cs ih =>
    simp only [findChild] at h
    split at h
    · cases h
    · rename_i hc
      simp only [List.cons_append, findChild, if_neg hc]
      exact ih h

/-! ## Block chains on the container -/

theorem writeFileBlocks_frame (usable size : Nat) (data : Option (List Nat)) :
    ∀ (bl : List Nat) (written : Nat) (c : Container) (b : Nat), b ∉ bl →
      (writeFileBlocks usable size data bl written c).blocks b = c.blocks b := by
  intro bl
  induction bl with
  | nil => intro written c b _; rfl
  | cons x rest ih =>
    intro written c b hb
    have hbx : b ≠ x := fun e => hb (by simp [e])
    have hbr : b ∉ rest := fun e => hb (List.mem_cons_of_mem _ e)
    simp only [writeFileBlocks]
    rw [ih _ _ _ hbr]
    simp [Container.writeBlock, hbx]

theorem writeFileBlocks_entries (usable size : Nat) (data : Option (List Nat)) :
    ∀ (bl : List Nat) (written : Nat) (c : Container),
      (writeFileBlocks usable size data bl written c).entries = c.entries := by
  intro bl
  induction bl with
  | nil => intro written c; rfl
  | cons x rest ih =>
    intro written c
    simp only [writeFileBlocks]
    rw [ih]
    rfl

/-- The chain walk over freshly written blocks returns exactly the block list. -/
theorem chainFrom_written (usable size : Nat) (data : Option (List Nat)) :
    ∀ (bl : List Nat) (written : Nat) (c : Container) (fuel : Nat), bl.Nodup → 0 ∉ bl →
      bl.length ≤ fuel →
      chainFrom (writeFileBlocks usable size data bl written c).blocks fuel (bl.head?.getD 0)
        = some bl := by
  intro bl
  induction bl with
  | nil =>
    intro written c fuel _ _ _
    cases fuel <;> simp [chainFrom]
  | cons b rest ih =>
    intro written c fuel hnd h0 hfuel
    have hb0 : b ≠ 0 := fun e => h0 (by simp [e])
    have hbr : b ∉ rest := (List.nodup_cons.mp hnd).1
    obtain ⟨f, rfl⟩ : ∃ f, fuel = f + 1 := ⟨fuel - 1, by simp at hfuel; omega⟩
    have hblk : (writeFileBlocks usable size data (b :: rest) written c).blocks b
        = some ⟨rest.head?.getD 0,
            blockPayload data written (min (size - written) usable)
            ++ List.replicate (usable - min (size - written) usable) 0⟩ := by
      simp only [writeFileBlocks]
      rw [writeFileBlocks_frame _ _ _ _ _ _ _ hbr]
      simp [Container.writeBlock]
    simp only [List.head?_cons, Option.getD_some, chainFrom, if_neg hb0, hblk]
    have := ih (written + min (size - written) usable)
      (c.writeBlock b ⟨rest.head?.getD 0,
            blockPayload data written (min (size - written) usable)
            ++ List.replicate (usable - min (size - written) usable) 0⟩) f
      (List.nodup_cons.mp hnd).2 (fun e => h0 (List.mem_cons_of_mem _ e))
      (by simp at hfuel; omega)
    simp only [writeFileBlocks] at this ⊢
    rw [this]
    rfl

/-- Reading the chain that `file_create` has just written returns the data. -/
theorem readLoop_written (usable : Nat) (d : List Nat) :
    ∀ (bl : List Nat) (written : Nat) (c : Container) (fuel : Nat), bl.Nodup → 0 ∉ bl →
      bl ≠ [] → written < d.length → d.length ≤ written + bl.length * usable →
      bl.length ≤ fuel →
      readLoop (writeFileBlocks usable d.length (some d) bl written c).blocks usable d.length
        fuel (bl.head?.getD 0) (d.take written) = some d := by
  intro bl
  induction bl with
  | nil => intro written c fuel _ _ hne; exact absurd rfl hne
  | cons b rest ih =>
    intro written c fuel hnd h0 _ hw hsize hfuel
    have hb0 : b ≠ 0 := fun e => h0 (by simp [e])
    have hbr : b ∉ rest := (List.nodup_cons.mp hnd).1
    obtain ⟨f, rfl⟩ : ∃ f, fuel = f + 1 := ⟨fuel - 1, by simp at hfuel; omega⟩
    have hblk : (writeFileBlocks usable d.length (some d) (b :: rest) written c).blocks b
        = some ⟨rest.head?.getD 0,
            (d.drop written).take (min (d.length - written) usable)
            ++ List.replicate (usable - min (d.length - written) usable) 0⟩ := by
      simp only [writeFileBlocks]
      rw [writeFileBlocks_frame _ _ _ _ _ _ _ hbr]
      simp [Container.writeBlock, blockPayload]
    have hlen : (d.take written).length = written := by
      simp only [List.length_take]
      omega
    have hcond : ¬ (b = 0 ∨ d.length ≤ (d.take written).length) := by
      rw [hlen]
      omega
    have hgot : (((d.drop written).take (min (d.length - written) usable)
            ++ List.replicate (usable - min (d.length - written) usable) 0).take
              (min (d.length - (d.take written).length) usable))
        = (d.drop written).take (min (d.length - written) usable) := by
      rw [hlen]
      rw [List.take_append_of_le_length (by simp)]
      rw [List.take_take]
      simp
    have hgotlen : ((d.drop written).take (min (d.length - written) usable)).length
        = min (d.length - written) usable := by
      simp only [List.length_take, List.length_drop]
      omega
    have hbuf : d.take written ++ (d.drop written).take (min (d.length - written) usable)
        = d.take (written + min (d.length - written) usable) := by
      rw [List.take_add]
    simp only [List.head?_cons, Option.getD_some]
    rw [readLoop, if_neg hcond, hblk]
    simp only
    rw [hgot, hgotlen, hlen, if_neg (Nat.lt_irrefl _), hbuf]
    by_cases hdone : d.length ≤ written + min (d.length - written) usable
    · have hall : d.take (written + min (d.length - written) usable) = d :=
        List.take_of_length_le hdone
      rw [hall]
      cases f with
      | zero => simp [readLoop]
      | succ f => simp [readLoop]
    · have hmin : min (d.length - written) usable = usable := by omega
      cases rest with
      | nil =>
        exfalso
        simp only [List.length_singleton, Nat.one_mul] at hsize
        omega
      | cons b2 rest2 =>
        have := ih (written + min (d.length - written) usable)
          (c.writeBlock b ⟨(b2 :: rest2).head?.getD 0,
            (d.drop written).take (min (d.length - written) usable)
            ++ List.replicate (usable - min (d.length - written) usable) 0⟩) f
          (List.nodup_cons.mp hnd).2 (fun e => h0 (List.mem_cons_of_mem _ e))
          (by simp) (by omega)
          (by
            simp only [List.length_cons] at hsize ⊢
            rw [hmin]
            have : (rest2.length + 1 + 1) * usable = (rest2.length + 1) * usable + usable := by
              ring
            omega)
          (by simp at hfuel ⊢; omega)
        simp only [writeFileBlocks, blockPayload] at this ⊢
        exact this

theorem findFreeEntryLoop_ne_zero (entries : Nat → Option FileEntry) :
    ∀ (k i : Nat), 1 ≤ i →
      (∃ j, i ≤ j ∧ j < i + k ∧ ∃ e, entries j = some e ∧ (e.name = [] ∨ e.isValid = false)) →
      findFreeEntryLoop entries k i ≠ 0 := by
  intro k
  induction k with
  | zero =>
    rintro i _ ⟨j, h1, h2, _⟩
    omega
  | succ k ih =>
    rintro i hi ⟨j, h1, h2, e, he, hfree⟩
    rw [findFreeEntryLoop]
    by_cases hji : j = i
    · subst hji
      simp only [he, if_pos hfree]
      omega
    · have hrec : findFreeEntryLoop entries k (i + 1) ≠ 0 :=
        ih (i + 1) (by omega) ⟨j, by omega, by omega, e, he, hfree⟩
      cases hent : entries i with
      | none => simpa using hrec
      | some e2 =>
        simp only
        split
        · omega
        · exact hrec

/-! ## `file_create`: what a successful call leaves behind -/

/-- After a successful `createNode` on an absolute path and any write to the scalar fields
of the new node that keeps its name, `findNode` resolves the path to the new node. -/
theorem createNode_findNode (t : FileTree) (path owner : List Char) (isFile : Bool)
    (now : Nat) (tree1 : FileTree) (node : List (List Char))
    (habs : path.head? = some '/')
    (h : t.createNode path isFile owner now = some (tree1, node))
    (f : NodeInfo → NodeInfo) (hf : ∀ i, (f i).name = i.name) :
    (tree1.update node f).findNode path
      = some (.mk (f { name := (splitParentName path).2, isFile := isFile, entryIndex := 0,
                       startBlockIndex := 0, size := 0,
                       permissions := if isFile then 0o644 else 0o755, owner := owner,
                       created_time := now, modified_time := now }) [])
    ∧ node = splitPathLoop path [] ∧ node ≠ [] := by
  obtain ⟨hslash, hroute⟩ := splitParentName_spec path habs
  unfold FileTree.createNode at h
  split at h
  · cases h
  · simp only at h
    split at h
    · cases h
    · rename_i hname
      have hne : (splitParentName path).2 ≠ [] := fun e => hname (Or.inl e)
      cases hp : t.findNode (splitParentName path).1 with
      | none => simp [hp] at h
      | some parent =>
        simp only [hp] at h
        split at h
        · cases h
        · split at h
          · cases h
          · rename_i hchild
            simp only [Option.some.injEq, Prod.mk.injEq] at h
            obtain ⟨h1, h2⟩ := h
            have hnone : findChild parent.children (splitParentName path).2 = none := by
              cases hc : findChild parent.children (splitParentName path).2 with
              | none => rfl
              | some c => simp [hc] at hchild
            rw [if_neg hne] at hroute
            have hnode : node = splitPathLoop path [] := by
              rw [← h2, hroute, routeOf_eq]
            have hparent : findNodeParts t.root (routeOf (splitParentName path).1)
                = some parent := by
              rw [routeOf_eq, ← findNode_eq]
              exact hp
            refine ⟨?_, hnode, ?_⟩
            · rw [findNode_eq, ← hnode]
              unfold FileTree.update
              simp only
              rw [← h1]
              simp only
              have step1 := findNodeParts_modifyAt
                (fun p : TreeNode => TreeNode.mk { p.info with modified_time := now }
                  (p.children ++ [TreeNode.mk
                    { name := (splitParentName path).2, isFile := isFile, entryIndex := 0,
                      startBlockIndex := 0, size := 0,
                      permissions := if isFile then 0o644 else 0o755, owner := owner,
                      created_time := now, modified_time := now } []]))
                (fun c => rfl) (routeOf (splitParentName path).1) [(splitParentName path).2]
                t.root parent hparent
              simp only [findNodeParts, children_mk] at step1
              rw [findChild_append_new _ _ _ hnone (info_mk _ _ ▸ rfl)] at step1
              simp only at step1
              rw [h2] at step1
              have step2 := findNodeParts_modifyAt
                (fun n : TreeNode => TreeNode.mk (f n.info) n.children)
                (fun c => hf c.info) node [] _ _ step1
              rw [List.append_nil] at step2
              rw [step2]
              simp only [findNodeParts, info_mk, children_mk]
            · rw [← h2]
              simp

/-- The shape of a successful `file_create`. -/
theorem file_create_success_inv (fs : OFSInstance) (ms : Option ManagedSession)
    (path : List Char) (data : Option (List Nat)) (size now : Nat)
    (h : (file_create fs ms path data size now).1 = OFSErrorCodes.SUCCESS) :
    ∃ s b0 bs fm1 tree1 node,
      sessionUsable ms = some s ∧ path.head? = some '/'
      ∧ allocateFileBlocks fs.free_manager (createBlocksNeeded (usableBlockSize fs) size)
          = (b0 :: bs, fm1)
      ∧ fs.file_tree.createNode path true s.info.user.username now = some (tree1, node)
      ∧ findFreeEntryIndex fs fs.config.max_files ≠ 0
      ∧ (file_create fs ms path data size now).2.file_tree
          = tree1.update node (fun i =>
              { i with entryIndex := findFreeEntryIndex fs fs.config.max_files,
                       startBlockIndex := b0, size := size,
                       permissions := if fs.config.require_auth then 0o644 else 0o666,
                       created_time := now, modified_time := now })
      ∧ (file_create fs ms path data size now).2.free_manager = fm1
      ∧ (file_create fs ms path data size now).2.omni_file.blocks
          = (writeFileBlocks (usableBlockSize fs) size data (b0 :: bs) 0 fs.omni_file).blocks
      ∧ (file_create fs ms path data size now).2.total_files = (fs.total_files + 1) % U32
      ∧ (file_create fs ms path data size now).2.config = fs.config
      ∧ (file_create fs ms path data size now).2.header = fs.header := by
  cases hsu : sessionUsable ms with
  | none => simp [file_create, hsu] at h
  | some s =>
    by_cases habs : path.head? = some '/'
    swap
    · simp [file_create, hsu, habs] at h
    by_cases hex : fs.file_tree.exists path = true
    · simp [file_create, hsu, habs, hex] at h
    by_cases hpi : getParentIndexFromPath fs path = 0 ∧ path ≠ ['/']
    · simp [file_create, hsu, habs, hex, hpi] at h
    cases ha : allocateFileBlocks fs.free_manager (createBlocksNeeded (usableBlockSize fs) size)
      with
    | mk bl fm1 =>
      cases bl with
      | nil => simp [file_create, hsu, habs, hex, hpi, ha] at h
      | cons b0 bs =>
        cases hc : fs.file_tree.createNode path true s.info.user.username now with
        | none => simp [file_create, hsu, habs, hex, hpi, ha, hc] at h
        | some tn =>
          obtain ⟨tree1, node⟩ := tn
          by_cases hidx : findFreeEntryIndex fs fs.config.max_files = 0
          · simp [file_create, hsu, habs, hex, hpi, ha, hc, hidx] at h
          · refine ⟨s, b0, bs, fm1, tree1, node, rfl, habs, rfl, hc, hidx, ?_, ?_, ?_, ?_, ?_, ?_⟩
              <;> simp [file_create, hsu, habs, hex, hpi, ha, hc, hidx, Container.writeEntry]

/-! ## Create / read round trip -/

theorem usableBlockSize_eq (fs : OFSInstance) (h1 : 4 < fs.header.block_size)
    (h2 : fs.header.block_size < U32) : usableBlockSize fs = fs.header.block_size - 4 := by
  unfold usableBlockSize U32 at *
  omega

theorem ceil_mul_ge (size usable : Nat) (hu : 0 < usable) :
    size ≤ (size + usable - 1) / usable * usable := by
  have h1 := Nat.div_add_mod (size + usable - 1) usable
  have h2 := Nat.mod_lt (size + usable - 1) hu
  have h3 : usable * ((size + usable - 1) / usable) = (size + usable - 1) / usable * usable :=
    Nat.mul_comm _ _
  generalize (size + usable - 1) / usable * usable = p at *
  generalize usable * ((size + usable - 1) / usable) = q at *
  omega

/-- The number of blocks `file_create` asks for covers the data. -/
theorem createBlocksNeeded_spec (usable size : Nat) (hu : 0 < usable)
    (hfit : max 1 ((size + usable - 1) / usable) < U32) :
    createBlocksNeeded usable size = max 1 ((size + usable - 1) / usable)
    ∧ size ≤ createBlocksNeeded usable size * usable := by
  have hceil := ceil_mul_ge size usable hu
  have hmod : (size + usable - 1) / usable % U32 = (size + usable - 1) / usable :=
    Nat.mod_eq_of_lt (by omega)
  unfold createBlocksNeeded
  simp only [hmod]
  by_cases hs : size > 0
  · have hpos : 1 ≤ (size + usable - 1) / usable := by
      rcases Nat.eq_zero_or_pos ((size + usable - 1) / usable) with h | h
      · rw [h] at hceil; omega
      · exact h
    simp only [hs, if_true]
    have hne : (size + usable - 1) / usable ≠ 0 := by omega
    rw [if_neg hne]
    exact ⟨by omega, hceil⟩
  · have h0 : size = 0 := by omega
    subst h0
    simp only [gt_iff_lt, Nat.lt_irrefl, if_false, if_true]
    constructor
    · have : (0 + usable - 1) / usable = 0 := by
        apply Nat.div_eq_of_lt
        omega
      rw [this]
      rfl
    · omega

theorem createNode_some (t : FileTree) (path owner : List Char) (isFile : Bool) (now : Nat)
    (habs : path.head? = some '/') (hnew : t.exists path = false)
    (hdir : t.isDirectory (splitParentName path).1 = true)
    (hname : (splitParentName path).2 ≠ []) :
    ∃ tree1 node, t.createNode path isFile owner now = some (tree1, node) := by
  obtain ⟨hslash, hroute⟩ := splitParentName_spec path habs
  rw [if_neg hname] at hroute
  have hroot : path ≠ ['/'] := by
    intro e
    subst e
    exact hname (by decide)
  unfold FileTree.isDirectory at hdir
  cases hp : t.findNode (splitParentName path).1 with
  | none => simp [hp] at hdir
  | some parent =>
    simp only [hp, Bool.not_eq_true'] at hdir
    have hnone : findChild parent.children (splitParentName path).2 = none := by
      unfold FileTree.exists at hnew
      rw [findNode_eq, hroute, findNodeParts_append] at hnew
      rw [findNode_eq] at hp
      rw [hp] at hnew
      simp only [Option.some_bind, findNodeParts] at hnew
      cases hc : findChild parent.children (splitParentName path).2 with
      | none => rfl
      | some c => simp [hc] at hnew
    unfold FileTree.createNode
    simp [hroot, hname, hslash, hp, hdir, hnone]

/-- C1: on a mounted state with a well-formed free-space manager (block size above 4 and
32-bit), for a usable session, an absolute path that does not exist yet, whose parent is an
existing directory (holding an entry slot, as every directory of a mounted tree does) and
whose last component is non-empty, and for data `d` that needs at most `freeBlocks` blocks
(`ceil(|d| / (block_size - 4))`, at least one) while an entry slot below `max_files` is
free: `file_create(p, d, |d|)` answers `SUCCESS`, and `file_read(p)` by any usable session
then answers `SUCCESS` with size `|d|` and exactly the bytes `d`. -/
theorem create_read_roundtrip (fs : OFSInstance) (s : ManagedSession) (path : List Char)
    (d : List Nat) (now : Nat)
    (hs : s.hasInstance = true)
    (hwf : WellFormed fs.free_manager)
    (hbs : 4 < fs.header.block_size ∧ fs.header.block_size < U32)
    (habs : path.head? = some '/')
    (hnew : fs.file_tree.exists path = false)
    (hdir : fs.file_tree.isDirectory (splitParentName path).1 = true)
    (hidx : getParentIndexFromPath fs path ≠ 0)
    (hname : (splitParentName path).2 ≠ [])
    (hfit : max 1 ((d.length + (fs.header.block_size - 4) - 1) / (fs.header.block_size - 4))
        ≤ fs.free_manager.freeBlocks)
    (hslot : ∃ i, 2 ≤ i ∧ i < fs.config.max_files ∧ ∃ e, fs.omni_file.entries i = some e
        ∧ (e.name = [] ∨ e.isValid = false)) :
    (file_create fs (some s) path (some d) d.length now).1 = OFSErrorCodes.SUCCESS
    ∧ ∀ reader : ManagedSession, reader.hasInstance = true →
        file_read (file_create fs (some s) path (some d) d.length now).2 (some reader) path
          = some (OFSErrorCodes.SUCCESS, d, d.length) := by
  have husable := usableBlockSize_eq fs hbs.1 hbs.2
  have hupos : 0 < usableBlockSize fs := by omega
  rw [← husable] at hfit
  have hfreeT := segSum_lt_of_wellFormed hwf
  have hfreelt : fs.free_manager.freeBlocks < U32 := by
    have := hwf.1
    have := hwf.2.2.2
    omega
  obtain ⟨hN, hcover⟩ := createBlocksNeeded_spec (usableBlockSize fs) d.length hupos
    (by omega)
  -- the allocation succeeds
  have hA : 1 ≤ createBlocksNeeded (usableBlockSize fs) d.length
      ∧ AllocatedFrom fs.free_manager (createBlocksNeeded (usableBlockSize fs) d.length)
          (allocateFileBlocks fs.free_manager
            (createBlocksNeeded (usableBlockSize fs) d.length)).1
          (allocateFileBlocks fs.free_manager
            (createBlocksNeeded (usableBlockSize fs) d.length)).2 := by
    rcases allocateFileBlocks_spec hwf (createBlocksNeeded (usableBlockSize fs) d.length)
      with ⟨_, h | h⟩ | h
    · omega
    · omega
    · exact h
  obtain ⟨tree0, node0, hc0⟩ := createNode_some fs.file_tree path s.info.user.username true now
    habs hnew hdir hname
  have hslotne : findFreeEntryIndex fs fs.config.max_files ≠ 0 := by
    obtain ⟨i, h1, h2, e, he, hfree⟩ := hslot
    exact findFreeEntryLoop_ne_zero _ _ 2 (by omega) ⟨i, h1, by omega, e, he, hfree⟩
  have hcode : (file_create fs (some s) path (some d) d.length now).1
      = OFSErrorCodes.SUCCESS := by
    cases ha : allocateFileBlocks fs.free_manager
        (createBlocksNeeded (usableBlockSize fs) d.length) with
    | mk bl fm1 =>
      cases bl with
      | nil =>
        exfalso
        rw [ha] at hA
        have := hA.2.1
        simp at this
        omega
      | cons b0 bs =>
        simp [file_create, sessionUsable, hs, habs, hnew, hidx, ha, hc0, hslotne]
  refine ⟨hcode, ?_⟩
  intro reader hreader
  obtain ⟨s1, b0, bs, fm1, tree1, node, e1, _, e3, e4, _, e6, _, e8, _, e10, e11⟩ :=
    file_create_success_inv fs (some s) path (some d) d.length now hcode
  rw [e3] at hA
  obtain ⟨_, a1, a2, a3, _, _, a6, _⟩ := hA
  have hfind := (createNode_findNode fs.file_tree path _ true now tree1 node habs e4
    (fun i => { i with entryIndex := findFreeEntryIndex fs fs.config.max_files,
                       startBlockIndex := b0, size := d.length,
                       permissions := if fs.config.require_auth then 0o644 else 0o666,
                       created_time := now, modified_time := now })
    (fun _ => rfl)).1
  rw [← e6] at hfind
  have hzero : (0 : Nat) ∉ b0 :: bs := by
    intro h0
    have := (inSegments_range hwf (a6 0 h0)).1
    omega
  have husable1 : usableBlockSize (file_create fs (some s) path (some d) d.length now).2
      = usableBlockSize fs := by
    unfold usableBlockSize
    rw [e11]
  have hperm : ¬ ((if fs.config.require_auth = true then 0o644 else 0o666) &&& 0o444 = 0) := by
    cases fs.config.require_auth <;> decide
  unfold file_read
  simp only [sessionUsable, hreader, if_true, hfind, info_mk]
  rw [if_neg (by simp), if_neg (fun h => hperm h.2.1)]
  by_cases hsize : d.length = 0
  · have hd : d = [] := List.length_eq_zero.mp hsize
    subst hd
    simp
  · rw [if_neg hsize, husable1, e8]
    have hread := readLoop_written (usableBlockSize fs) d (b0 :: bs) 0 fs.omni_file
      (d.length + U32) a2 hzero (by simp) (by omega)
      (by rw [a1]; simpa using hcover)
      (by rw [a1]; omega)
    simp only [List.head?_cons, Option.getD_some, List.take_zero] at hread
    rw [hread]

set_option maxRecDepth 100000 in
/-- Witness for C1: 130 bytes `0xAA` (three blocks of 60 usable bytes) written to
`/hello.bin` on a fresh mount by the administrator and read back by `bob`. -/
theorem create_read_roundtrip_witness :
    WellFormed demoMount.free_manager
    ∧ demoMount.file_tree.exists "/hello.bin".toList = false
    ∧ max 1 ((demoData.length + (demoMount.header.block_size - 4) - 1)
          / (demoMount.header.block_size - 4)) = 3
    ∧ (file_create demoMount (some adminSession) "/hello.bin".toList (some demoData)
          demoData.length 6).1 = OFSErrorCodes.SUCCESS
    ∧ file_read (file_create demoMount (some adminSession) "/hello.bin".toList (some demoData)
          demoData.length 6).2 (some bobSession) "/hello.bin".toList
        = some (OFSErrorCodes.SUCCESS, demoData, demoData.length) :=
  ⟨by decide, by decide, by decide,
   (create_read_roundtrip demoMount adminSession "/hello.bin".toList demoData 6 rfl
      (by decide) (by decide) (by decide) (by decide) (by decide) (by decide) (by decide)
      (by decide) ⟨2, by decide, by decide, FileEntry.zero, by decide, Or.inl rfl⟩).1,
   (create_read_roundtrip demoMount adminSession "/hello.bin".toList demoData 6 rfl
      (by decide) (by decide) (by decide) (by decide) (by decide) (by decide) (by decide)
      (by decide) ⟨2, by decide, by decide, FileEntry.zero, by decide, Or.inl rfl⟩).2
      bobSession rfl⟩

/-! ## Create followed by delete -/

theorem deleteNode_some (t : FileTree) (path : List Char) (n : TreeNode)
    (hfind : t.findNode path = some n) (hfile : n.info.isFile = true)
    (hroute : splitPathLoop path [] ≠ []) :
    ∃ t1, t.deleteNode path = some t1 := by
  have hroot : path ≠ ['/'] := by
    intro e
    subst e
    exact hroute splitPathLoop_slash
  have hlast : ∃ name, (routeOf path).getLast? = some name := by
    rw [routeOf_eq]
    cases hl : (splitPathLoop path []).getLast? with
    | none => exact absurd (List.getLast?_eq_none_iff.mp hl) hroute
    | some name => exact ⟨name, rfl⟩
  obtain ⟨name, hname⟩ := hlast
  unfold FileTree.deleteNode
  simp [hroot, hfind, hfile, hname]

/-- C5: on a mounted state with a well-formed free-space manager (and a 32-bit file
counter), whenever `file_create(p, d, n)` answers `SUCCESS`, an immediately following
`file_delete(p)` by the same session answers `SUCCESS` and leaves the free-space manager
(segment list and `freeBlocks`) and `total_files` exactly as they were before the create;
so `used_space`, `free_space`, `fragmentation` and `total_files` of `get_stats` are as
before. -/
theorem create_delete_restores (fs : OFSInstance) (ms : Option ManagedSession)
    (path : List Char) (data : Option (List Nat)) (n now : Nat)
    (hwf : WellFormed fs.free_manager) (htf : fs.total_files < U32)
    (hc : (file_create fs ms path data n now).1 = OFSErrorCodes.SUCCESS) :
    ∃ fs2, file_delete (file_create fs ms path data n now).2 ms path
        = some (OFSErrorCodes.SUCCESS, fs2)
      ∧ fs2.free_manager = fs.free_manager
      ∧ fs2.total_files = fs.total_files
      ∧ ∀ k, (get_stats fs2 ms k).2.map
            (fun st => (st.used_space, st.free_space, st.fragmentation, st.total_files))
          = (get_stats fs ms k).2.map
            (fun st => (st.used_space, st.free_space, st.fragmentation, st.total_files)) := by
  obtain ⟨s, b0, bs, fm1, tree1, node, e1, habs, e3, e4, _, e6, e7, e8, e9, e10, e11⟩ :=
    file_create_success_inv fs ms path data n now hc
  have hA : AllocatedFrom fs.free_manager (createBlocksNeeded (usableBlockSize fs) n)
      (b0 :: bs) fm1 := by
    rcases allocateFileBlocks_spec hwf (createBlocksNeeded (usableBlockSize fs) n)
      with ⟨h, _⟩ | ⟨_, h⟩
    · rw [e3] at h
      cases h
    · rw [e3] at h
      exact h
  obtain ⟨hfind, hnode, hnodene⟩ := createNode_findNode fs.file_tree path _ true now tree1
    node habs e4
    (fun i => { i with entryIndex := findFreeEntryIndex fs fs.config.max_files,
                       startBlockIndex := b0, size := n,
                       permissions := if fs.config.require_auth then 0o644 else 0o666,
                       created_time := now, modified_time := now })
    (fun _ => rfl)
  rw [← e6] at hfind
  have hzero : (0 : Nat) ∉ b0 :: bs := by
    intro h0
    have := (inSegments_range hwf (hA.2.2.2.2.2.1 0 h0)).1
    omega
  have hlen : (b0 :: bs).length ≤ U32 := by
    have h1 := hA.1
    have h2 := hA.2.2.2.2.1
    have h3 := segSum_lt_of_wellFormed hwf
    have h4 := hwf.1
    have h5 := hwf.2.2.2
    omega
  have hchain := chainFrom_written (usableBlockSize fs) n data (b0 :: bs) 0 fs.omni_file U32
    hA.2.1 hzero hlen
  simp only [List.head?_cons, Option.getD_some] at hchain
  rw [← e8] at hchain
  have hrestore : freeBlockSegments fm1 (b0 :: bs) = fs.free_manager := free_restores hwf hA
  obtain ⟨t2, hdel⟩ := deleteNode_some (file_create fs ms path data n now).2.file_tree path _
    hfind rfl (by rw [← hnode]; exact hnodene)
  have hauth : notOwnerNorAdmin
      (TreeNode.mk
        { name := (splitParentName path).2, isFile := true,
          entryIndex := findFreeEntryIndex fs fs.config.max_files, startBlockIndex := b0,
          size := n, permissions := if fs.config.require_auth = true then 0o644 else 0o666,
          owner := s.info.user.username, created_time := now, modified_time := now } []) s
      = false := by
    simp [notOwnerNorAdmin, info_mk]
  have hcount : ((fs.total_files + 1) % U32 + (U32 - 1)) % U32 = fs.total_files := by
    unfold U32 at *
    omega
  have hres : file_delete (file_create fs ms path data n now).2 ms path
      = some (OFSErrorCodes.SUCCESS,
          { (file_create fs ms path data n now).2 with
            free_manager := fs.free_manager,
            omni_file := (file_create fs ms path data n now).2.omni_file.writeEntry
              (findFreeEntryIndex fs fs.config.max_files)
              (((file_create fs ms path data n now).2.omni_file.entries
                (findFreeEntryIndex fs fs.config.max_files)).getD FileEntry.zero).markInvalid,
            file_tree := t2,
            total_files := fs.total_files }) := by
    unfold file_delete
    simp only [e1, hfind, info_mk, hauth, hchain, hdel, e7, e9, hrestore, hcount]
    simp
  refine ⟨_, hres, rfl, rfl, ?_⟩
  intro k
  simp [get_stats, e11, e1]

set_option maxRecDepth 100000 in
/-- Witness for C5: on the fresh demo mount the administrator creates `/hello.bin` with
130 bytes and deletes it again. -/
theorem create_delete_restores_witness :
    ∃ fs2, file_delete (file_create demoMount (some adminSession) "/hello.bin".toList
          (some demoData) 130 9).2 (some adminSession) "/hello.bin".toList
        = some (OFSErrorCodes.SUCCESS, fs2)
      ∧ fs2.free_manager = demoMount.free_manager
      ∧ fs2.total_files = demoMount.total_files
      ∧ ∀ k, (get_stats fs2 (some adminSession) k).2.map
            (fun st => (st.used_space, st.free_space, st.fragmentation, st.total_files))
          = (get_stats demoMount (some adminSession) k).2.map
            (fun st => (st.used_space, st.free_space, st.fragmentation, st.total_files)) :=
  create_delete_restores demoMount (some adminSession) "/hello.bin".toList (some demoData)
    130 9 (by decide) (by decide) (by decide)

/-! ## Block chains and the 32-bit block count -/

set_option maxRecDepth 100000 in
/-- C3 fails in the code: one `file_create("/big", NULL, 60 * 2^32)` on a freshly formatted
and mounted container with 60 usable bytes per block answers `SUCCESS`, because the block
count `2^32` is cut to 32 bits (giving 0, then 1); the new file node has size `60 * 2^32`
while the chain from its start block is the single block 1, fewer than
`ceil(size / (block_size - 4)) = 2^32` blocks. -/
theorem huge_create_short_chain :
    demoMount.header.block_size - 4 = 60
    ∧ hugeCreate.1 = OFSErrorCodes.SUCCESS
    ∧ (hugeCreate.2.file_tree.findNode "/big".toList).map
        (fun node => (node.info.isFile, node.info.size, node.info.startBlockIndex))
        = some (true, 257698037760, 1)
    ∧ chainFrom hugeCreate.2.omni_file.blocks U32 1 = some [1]
    ∧ (∀ node, hugeCreate.2.file_tree.findNode "/big".toList = some node →
        ¬ chainCoversSize hugeCreate.2 node) := by
  refine ⟨by decide, by decide, by decide, by decide, ?_⟩
  intro node h
  have hall : (hugeCreate.2.file_tree.findNode "/big".toList).all
      (fun node => decide (¬ chainCoversSize hugeCreate.2 node)) = true := by decide
  rw [h] at hall
  simpa using hall

/-! ## Evaluations at concrete containers -/

/-- C10 (defect of the code): on a container formatted and mounted with `max_files = 3`,
after `dir_create("/a")` has taken slot 2 the search bounded by `max_files` finds no free
slot, yet `dir_create("/b")` succeeds and writes its entry record at index 3, past the
entry table: `dir_create` searches with the default bound `1000`. -/
theorem dir_create_writes_past_entry_table :
    slotScenario1.1 = OFSErrorCodes.SUCCESS
    ∧ slotScenario1.2.config.max_files = 3
    ∧ findFreeEntryIndex slotScenario1.2 slotScenario1.2.config.max_files = 0
    ∧ slotScenario2.1 = OFSErrorCodes.SUCCESS
    ∧ (slotScenario1.2.omni_file.entries 3).map (·.isValid) = some false
    ∧ (slotScenario2.2.omni_file.entries 3).map (fun e => (e.name, e.type, e.isValid))
        = some ("b".toList, EntryType.DIRECTORY, true) := by
  decide

/-- C9 (defect of the code): after `file_create("/f")` and `file_create("/g")` on a fresh
mount, `file_rename("/g", "/f/x")` answers `ERROR_INVALID_PATH`, the tree still has `/g` and
no `/f/x`, but the entry record of `/g` (slot 3) is left valid with the name `x` and a
`parent_index` of 2, the slot of the FILE entry `/f`. -/
theorem failed_rename_leaves_file_parent :
    renameScenario1.1 = OFSErrorCodes.SUCCESS
    ∧ renameScenario2.1 = OFSErrorCodes.SUCCESS
    ∧ renameScenario3.1 = OFSErrorCodes.ERROR_INVALID_PATH
    ∧ renameScenario3.2.file_tree.isFile "/g".toList = true
    ∧ renameScenario3.2.file_tree.exists "/f/x".toList = false
    ∧ (renameScenario3.2.omni_file.entries 3).map
        (fun e => (e.name, e.isValid, e.parent_index)) = some ("x".toList, true, 2)
    ∧ (renameScenario3.2.omni_file.entries 2).map (fun e => (e.name, e.isValid, e.type))
        = some ("f".toList, true, EntryType.FILE) := by
  decide

/-- C6 (defect of the code): with every entry slot taken, `file_create("/h")` answers
`ERROR_NO_SPACE`; the blocks and the node are rolled back (manager, counter and entry
slots as before), but the `modified_time` of the parent directory has moved from 7 to the
time of the failed call. -/
theorem failed_create_touches_parent_time :
    fullTableScenario.1 = OFSErrorCodes.ERROR_NO_SPACE
    ∧ fullTableScenario.2.free_manager = renameScenario2.2.free_manager
    ∧ fullTableScenario.2.total_files = renameScenario2.2.total_files
    ∧ renameScenario2.2.file_tree.root.info.modified_time = 7
    ∧ fullTableScenario.2.file_tree.root.info.modified_time = 9 := by
  decide

/-- C2 (defect of the code): with `max_filename_length = 3`, `file_create("/abcd", "X")` and
then `file_create("/abc", "Y")` both succeed and `/abc` reads back as `Y`; both entry
records carry the stored name `abc`, and after `fs_shutdown` and `fs_init` on the same
container `file_read("/abc")` returns `X`. -/
theorem remount_reads_other_file :
    persistScenario1.1 = OFSErrorCodes.SUCCESS
    ∧ persistScenario2.1 = OFSErrorCodes.SUCCESS
    ∧ file_read persistScenario2.2 (some adminSession) "/abc".toList
        = some (OFSErrorCodes.SUCCESS, [89], 1)
    ∧ (persistScenario2.2.omni_file.entries 2).map (·.name) = some "abc".toList
    ∧ (persistScenario2.2.omni_file.entries 3).map (·.name) = some "abc".toList
    ∧ persistScenario3.free_manager = persistScenario2.2.free_manager
    ∧ file_read persistScenario3 (some adminSession) "/abc".toList
        = some (OFSErrorCodes.SUCCESS, [88], 1) := by
  decide

/-! ## Authorization -/

theorem file_delete_denied_iff (fs : OFSInstance) (s : ManagedSession)
    (hs : s.hasInstance = true) (path : List Char) (node : TreeNode)
    (hnode : fs.file_tree.findNode path = some node) (hfile : node.info.isFile = true) :
    (∃ fs1, file_delete fs (some s) path = some (OFSErrorCodes.ERROR_PERMISSION_DENIED, fs1))
      ↔ (fs.config.require_auth = true ∧ notOwnerNorAdmin node s = true) := by
  by_cases hc : fs.config.require_auth = true ∧ notOwnerNorAdmin node s = true
  · simp only [hc, and_self, iff_true]
    exact ⟨fs, by simp [file_delete, sessionUsable, hs, hnode, hfile, hc]⟩
  · simp only [hc, iff_false]
    rintro ⟨fs1, h⟩
    simp only [file_delete, sessionUsable, hs, hnode, hfile, if_true, if_false,
      Bool.true_eq_false, hc] at h
    repeat' split at h
    all_goals simp at h

theorem file_rename_denied_iff (fs : OFSInstance) (s : ManagedSession)
    (hs : s.hasInstance = true) (path new_path : List Char) (now : Nat) (node : TreeNode)
    (hnode : fs.file_tree.findNode path = some node) (hfile : node.info.isFile = true) :
    (file_rename fs (some s) path new_path now).1 = OFSErrorCodes.ERROR_PERMISSION_DENIED
      ↔ (fs.config.require_auth = true ∧ notOwnerNorAdmin node s = true) := by
  by_cases hc : fs.config.require_auth = true ∧ notOwnerNorAdmin node s = true
  · simp [file_rename, sessionUsable, hs, hnode, hfile, hc]
  · simp only [hc, iff_false]
    intro h
    simp only [file_rename, sessionUsable, hs, hnode, hfile, if_true, if_false,
      Bool.true_eq_false, hc] at h
    repeat' split at h
    all_goals simp at h

theorem editFinish_code (fs : OFSInstance) (node : TreeNode) (path : List Char)
    (data : List Nat) (size index now : Nat) (fm1 : FreeSpaceManager) (disk1 : Container)
    (r : OFSErrorCodes × OFSInstance)
    (h : editFinish fs node path data size index now fm1 disk1 = some r) :
    r.1 = OFSErrorCodes.ERROR_INVALID_OPERATION ∨ r.1 = OFSErrorCodes.SUCCESS := by
  unfold editFinish at h
  simp only at h
  split at h
  · simp only [Option.some.injEq] at h
    rw [← h]
    exact Or.inl rfl
  · split at h
    · cases h
    · simp only [Option.some.injEq] at h
      rw [← h]
      exact Or.inr rfl

theorem file_edit_denied_iff (fs : OFSInstance) (s : ManagedSession)
    (hs : s.hasInstance = true) (path : List Char) (data : List Nat) (size index now : Nat)
    (node : TreeNode)
    (hnode : fs.file_tree.findNode path = some node) (hfile : node.info.isFile = true) :
    (∃ fs1, file_edit fs (some s) path data size index now
        = some (OFSErrorCodes.ERROR_PERMISSION_DENIED, fs1))
      ↔ (fs.config.require_auth = true ∧ notOwnerNorAdmin node s = true) := by
  by_cases hc : fs.config.require_auth = true ∧ notOwnerNorAdmin node s = true
  · simp only [hc, and_self, iff_true]
    exact ⟨fs, by simp [file_edit, sessionUsable, hs, hnode, hfile, hc]⟩
  · simp only [hc, iff_false]
    rintro ⟨fs1, h⟩
    simp only [file_edit, sessionUsable, hs, hnode, hfile, if_true, if_false,
      Bool.true_eq_false, hc] at h
    split at h
    · simp at h
    · split at h
      · split at h
        · cases h
        · simp at h
        · have := editFinish_code _ _ _ _ _ _ _ _ _ _ h
          simp at this
      · have := editFinish_code _ _ _ _ _ _ _ _ _ _ h
        simp at this

theorem file_truncate_denied_iff (fs : OFSInstance) (s : ManagedSession)
    (hs : s.hasInstance = true) (path : List Char) (node : TreeNode)
    (hnode : fs.file_tree.findNode path = some node) (hfile : node.info.isFile = true) :
    (∃ fs1, file_truncate fs (some s) path
        = some (OFSErrorCodes.ERROR_PERMISSION_DENIED, fs1))
      ↔ (fs.config.require_auth = true ∧ notOwnerNorAdmin node s = true) := by
  by_cases hc : fs.config.require_auth = true ∧ notOwnerNorAdmin node s = true
  · simp only [hc, and_self, iff_true]
    exact ⟨fs, by simp [file_truncate, sessionUsable, hs, hnode, hfile, hc]⟩
  · simp only [hc, iff_false]
    rintro ⟨fs1, h⟩
    simp only [file_truncate, sessionUsable, hs, hnode, hfile, if_true, if_false,
      Bool.true_eq_false, hc] at h
    repeat' split at h
    all_goals simp at h

theorem set_permissions_denied_iff (fs : OFSInstance) (s : ManagedSession)
    (hs : s.hasInstance = true) (path : List Char) (permissions now : Nat) (node : TreeNode)
    (hnode : fs.file_tree.findNode path = some node) :
    (set_permissions fs (some s) path permissions now).1
        = OFSErrorCodes.ERROR_PERMISSION_DENIED
      ↔ notOwnerNorAdmin node s = true := by
  by_cases hc : notOwnerNorAdmin node s = true
  · simp [set_permissions, sessionUsable, hs, hnode, hc]
  · simp [set_permissions, sessionUsable, hs, hnode, hc]

theorem notOwnerNorAdmin_iff (node : TreeNode) (s : ManagedSession) :
    notOwnerNorAdmin node s = true
      ↔ (node.info.owner ≠ s.info.user.username ∧ s.info.user.role ≠ UserRole.ADMIN) := by
  simp [notOwnerNorAdmin]

/-- C7 (as amended): for a usable session and an existing file, `file_delete`,
`file_rename`, `file_edit` and `file_truncate` answer `ERROR_PERMISSION_DENIED` if and only
if `require_auth` is set and the session user is neither the owner of the node nor an
administrator; `set_permissions` answers it if and only if the session user is neither the
owner nor an administrator, for every value of `require_auth`. -/
theorem authorization_rule_gated (fs : OFSInstance) (s : ManagedSession)
    (hs : s.hasInstance = true) (path : List Char) (node : TreeNode)
    (hnode : fs.file_tree.findNode path = some node) (hfile : node.info.isFile = true) :
    AuthorizationRule fs s path node := by
  unfold AuthorizationRule
  simp only [← notOwnerNorAdmin_iff]
  exact ⟨file_delete_denied_iff fs s hs path node hnode hfile,
    fun new_path now => file_rename_denied_iff fs s hs path new_path now node hnode hfile,
    fun data size index now =>
      file_edit_denied_iff fs s hs path data size index now node hnode hfile,
    file_truncate_denied_iff fs s hs path node hnode hfile,
    fun permissions now => set_permissions_denied_iff fs s hs path permissions now node hnode⟩

/-- Witness for C7 (as amended): `bob` against the file `/a.txt` of `alice`, with
`require_auth` set. -/
theorem authorization_rule_gated_witness :
    bobSession.hasInstance = true
    ∧ closedAuthScenario.2.file_tree.findNode "/a.txt".toList = some aliceFileNode
    ∧ aliceFileNode.info.isFile = true
    ∧ AuthorizationRule closedAuthScenario.2 bobSession "/a.txt".toList aliceFileNode :=
  ⟨rfl, rfl, rfl,
   authorization_rule_gated closedAuthScenario.2 bobSession rfl "/a.txt".toList
     aliceFileNode rfl rfl⟩

/-- Counterexample to C7 as stated: with `require_auth = false` the ordinary user `bob`,
who is not the owner of `/a.txt`, holds a usable session, and `file_delete`, `file_rename`,
`file_edit` and `file_truncate` all answer `SUCCESS` instead of
`ERROR_PERMISSION_DENIED`. -/
theorem stranger_not_denied_without_auth :
    openAuthScenario.1 = OFSErrorCodes.SUCCESS
    ∧ openAuthScenario.2.config.require_auth = false
    ∧ (sessionUsable (some bobSession)).isSome = true
    ∧ openAuthScenario.2.file_tree.isFile "/a.txt".toList = true
    ∧ (openAuthScenario.2.file_tree.findNode "/a.txt".toList).map (·.info.owner)
        = some "alice".toList
    ∧ bobSession.info.user.username = "bob".toList
    ∧ bobSession.info.user.role = UserRole.NORMAL
    ∧ (file_delete openAuthScenario.2 (some bobSession) "/a.txt".toList).map (·.1)
        = some OFSErrorCodes.SUCCESS
    ∧ (file_rename openAuthScenario.2 (some bobSession) "/a.txt".toList "/b.txt".toList 7).1
        = OFSErrorCodes.SUCCESS
    ∧ (file_edit openAuthScenario.2 (some bobSession) "/a.txt".toList [33] 1 0 7).map (·.1)
        = some OFSErrorCodes.SUCCESS
    ∧ (file_truncate openAuthScenario.2 (some bobSession) "/a.txt".toList).map (·.1)
        = some OFSErrorCodes.SUCCESS := by
  decide

/-! ## Authorization failures leave the state alone -/

theorem file_delete_denied_state (fs : OFSInstance) (ms : Option ManagedSession)
    (path : List Char) (r : OFSErrorCodes × OFSInstance)
    (h : file_delete fs ms path = some r)
    (hd : r.1 = OFSErrorCodes.ERROR_PERMISSION_DENIED) : r.2 = fs := by
  simp only [file_delete] at h
  repeat' split at h
  all_goals (cases h <;> first | rfl | cases hd)

theorem file_rename_denied_state (fs : OFSInstance) (ms : Option ManagedSession)
    (old_path new_path : List Char) (now : Nat) (r : OFSErrorCodes × OFSInstance)
    (h : file_rename fs ms old_path new_path now = r)
    (hd : r.1 = OFSErrorCodes.ERROR_PERMISSION_DENIED) : r.2 = fs := by
  simp only [file_rename] at h
  repeat' split at h
  all_goals (subst h; first | rfl | cases hd)

theorem file_edit_denied_state (fs : OFSInstance) (ms : Option ManagedSession)
    (path : List Char) (data : List Nat) (size index now : Nat)
    (r : OFSErrorCodes × OFSInstance)
    (h : file_edit fs ms path data size index now = some r)
    (hd : r.1 = OFSErrorCodes.ERROR_PERMISSION_DENIED) : r.2 = fs := by
  simp only [file_edit] at h
  repeat' split at h
  all_goals first
    | exact absurd (editFinish_code _ _ _ _ _ _ _ _ _ _ h) (by rw [hd]; simp)
    | (cases h <;> first | rfl | cases hd)

theorem file_truncate_denied_state (fs : OFSInstance) (ms : Option ManagedSession)
    (path : List Char) (r : OFSErrorCodes × OFSInstance)
    (h : file_truncate fs ms path = some r)
    (hd : r.1 = OFSErrorCodes.ERROR_PERMISSION_DENIED) : r.2 = fs := by
  simp only [file_truncate] at h
  repeat' split at h
  all_goals (cases h <;> first | rfl | cases hd)

theorem dir_delete_denied_state (fs : OFSInstance) (ms : Option ManagedSession)
    (path : List Char) (r : OFSErrorCodes × OFSInstance)
    (h : dir_delete fs ms path = r)
    (hd : r.1 = OFSErrorCodes.ERROR_PERMISSION_DENIED) : r.2 = fs := by
  simp only [dir_delete] at h
  repeat' split at h
  all_goals (subst h; first | rfl | cases hd)

theorem set_permissions_denied_state (fs : OFSInstance) (ms : Option ManagedSession)
    (path : List Char) (permissions now : Nat) (r : OFSErrorCodes × OFSInstance)
    (h : set_permissions fs ms path permissions now = r)
    (hd : r.1 = OFSErrorCodes.ERROR_PERMISSION_DENIED) : r.2 = fs := by
  simp only [set_permissions] at h
  repeat' split at h
  all_goals (subst h; first | rfl | cases hd)

theorem user_create_denied_state (fs : OFSInstance) (ms : Option ManagedSession)
    (username password : List Char) (role : UserRole) (now : Nat)
    (r : OFSErrorCodes × OFSInstance)
    (h : user_create fs ms username password role now = r)
    (hd : r.1 = OFSErrorCodes.ERROR_PERMISSION_DENIED) : r.2 = fs := by
  simp only [user_create] at h
  repeat' split at h
  all_goals (subst h; first | rfl | cases hd)

theorem user_delete_denied_state (fs : OFSInstance) (ms : Option ManagedSession)
    (username : List Char) (r : OFSErrorCodes × OFSInstance)
    (h : user_delete fs ms username = r)
    (hd : r.1 = OFSErrorCodes.ERROR_PERMISSION_DENIED) : r.2 = fs := by
  simp only [user_delete] at h
  repeat' split at h
  all_goals (subst h; first | rfl | cases hd)

theorem user_login_denied_state (sm : SessionManager) (fs : OFSInstance)
    (username password : List Char) (now : Nat)
    (r : OFSErrorCodes × SessionManager × OFSInstance × List Char)
    (h : user_login sm fs username password now = r)
    (hd : r.1 = OFSErrorCodes.ERROR_PERMISSION_DENIED) : r.2.2.1 = fs ∧ r.2.1 = sm := by
  simp only [user_login] at h
  repeat' split at h
  all_goals (subst h; first | exact ⟨rfl, rfl⟩ | cases hd)

/-- C8: whenever one of `file_read`, `file_delete`, `file_rename`, `file_edit`,
`file_truncate`, `dir_delete`, `set_permissions`, `user_create`, `user_delete`, `user_list`
or `user_login` answers `ERROR_PERMISSION_DENIED`, the mounted instance afterwards
(container, tree, free-space manager, user index, counters) is the one before the call,
and so is the session registry. -/
theorem permission_denied_changes_nothing (c : FacadeCall) (sm : SessionManager)
    (fs : OFSInstance) (ms : Option ManagedSession) (now : Nat)
    (r : OFSErrorCodes × OFSInstance × SessionManager)
    (h : c.run sm fs ms now = some r)
    (hd : r.1 = OFSErrorCodes.ERROR_PERMISSION_DENIED) :
    r.2.1 = fs ∧ r.2.2 = sm := by
  cases c with
  | file_read path =>
    simp only [FacadeCall.run, Option.map_eq_some'] at h
    obtain ⟨x, _, rfl⟩ := h
    exact ⟨rfl, rfl⟩
  | file_delete path =>
    simp only [FacadeCall.run, Option.map_eq_some'] at h
    obtain ⟨x, hx, rfl⟩ := h
    exact ⟨file_delete_denied_state fs ms path x hx hd, rfl⟩
  | file_rename old_path new_path =>
    simp only [FacadeCall.run, Option.some.injEq] at h
    subst h
    exact ⟨file_rename_denied_state fs ms old_path new_path now _ rfl hd, rfl⟩
  | file_edit path data size index =>
    simp only [FacadeCall.run, Option.map_eq_some'] at h
    obtain ⟨x, hx, rfl⟩ := h
    exact ⟨file_edit_denied_state fs ms path data size index now x hx hd, rfl⟩
  | file_truncate path =>
    simp only [FacadeCall.run, Option.map_eq_some'] at h
    obtain ⟨x, hx, rfl⟩ := h
    exact ⟨file_truncate_denied_state fs ms path x hx hd, rfl⟩
  | dir_delete path =>
    simp only [FacadeCall.run, Option.some.injEq] at h
    subst h
    exact ⟨dir_delete_denied_state fs ms path _ rfl hd, rfl⟩
  | set_permissions path permissions =>
    simp only [FacadeCall.run, Option.some.injEq] at h
    subst h
    exact ⟨set_permissions_denied_state fs ms path permissions now _ rfl hd, rfl⟩
  | user_create username password role =>
    simp only [FacadeCall.run, Option.some.injEq] at h
    subst h
    exact ⟨user_create_denied_state fs ms username password role now _ rfl hd, rfl⟩
  | user_delete username =>
    simp only [FacadeCall.run, Option.some.injEq] at h
    subst h
    exact ⟨user_delete_denied_state fs ms username _ rfl hd, rfl⟩
  | user_list =>
    simp only [FacadeCall.run, Option.some.injEq] at h
    subst h
    exact ⟨rfl, rfl⟩
  | user_login username password =>
    simp only [FacadeCall.run, Option.some.injEq] at h
    subst h
    exact user_login_denied_state sm fs username password now _ rfl hd

/-- Witness for C8: `bob` tries to delete the file `/a.txt` of `alice` while `require_auth`
is set. -/
theorem permission_denied_changes_nothing_witness :
    (FacadeCall.file_delete "/a.txt".toList).run noSessions closedAuthScenario.2
        (some bobSession) 7
      = some (OFSErrorCodes.ERROR_PERMISSION_DENIED, closedAuthScenario.2, noSessions)
    ∧ (OFSErrorCodes.ERROR_PERMISSION_DENIED, closedAuthScenario.2, noSessions).2.1
        = closedAuthScenario.2
    ∧ (OFSErrorCodes.ERROR_PERMISSION_DENIED, closedAuthScenario.2, noSessions).2.2
        = noSessions :=
  ⟨rfl,
   permission_denied_changes_nothing (FacadeCall.file_delete "/a.txt".toList) noSessions
     closedAuthScenario.2 (some bobSession) 7
     (OFSErrorCodes.ERROR_PERMISSION_DENIED, closedAuthScenario.2, noSessions) rfl rfl⟩

/-! ## Snapshot encoding -/

theorem be32_length (x : Nat) : (be32 x).length = 4 := rfl

theorem getD_be32 (pre post : List Nat) (x j : Nat) (hj : j < 4) :
    (pre ++ be32 x ++ post).getD (pre.length + j) 0 = (be32 x).getD j 0 := by
  rw [List.append_assoc, List.getD_eq_getElem?_getD,
    List.getElem?_append_right (by omega)]
  simp only [Nat.add_sub_cancel_left]
  rw [List.getElem?_append_left (by rw [be32_length]; exact hj), List.getD_eq_getElem?_getD]

theorem readBE32_be32 (pre post : List Nat) (x : Nat) :
    readBE32 (pre ++ be32 x ++ post) pre.length = x % U32 := by
  have h0 := getD_be32 pre post x 0 (by omega)
  have h1 := getD_be32 pre post x 1 (by omega)
  have h2 := getD_be32 pre post x 2 (by omega)
  have h3 := getD_be32 pre post x 3 (by omega)
  simp only [Nat.add_zero] at h0
  unfold readBE32
  rw [h0, h1, h2, h3]
  simp only [be32, List.getD_cons_zero, List.getD_cons_succ, U32]
  omega

theorem bigEndianAt_be32 (pre post : List Nat) (x : Nat) :
    bigEndianAt (pre ++ be32 x ++ post) pre.length = x % U32 := by
  have h0 := getD_be32 pre post x 0 (by omega)
  have h1 := getD_be32 pre post x 1 (by omega)
  have h2 := getD_be32 pre post x 2 (by omega)
  have h3 := getD_be32 pre post x 3 (by omega)
  simp only [Nat.add_zero] at h0
  unfold bigEndianAt
  rw [h0, h1, h2, h3]
  simp only [be32, List.getD_cons_zero, List.getD_cons_succ, U32]
  omega

theorem be32_lt (x : Nat) : ∀ b ∈ be32 x, b < 256 := by
  intro b hb
  simp only [be32, List.mem_cons, List.mem_singleton, List.not_mem_nil, or_false] at hb
  rcases hb with h | h | h | h <;> omega

/-- The bytes of the segment part of a snapshot. -/
theorem segmentBytes_length (segs : List FreeSegment) :
    (segs.map (fun seg => be32 seg.startBlock ++ be32 seg.blockCount)).flatten.length
      = 8 * segs.length := by
  induction segs with
  | nil => rfl
  | cons s rest ih =>
    simp only [List.map_cons, List.flatten_cons, List.length_append, be32_length, ih,
      List.length_cons]
    omega

theorem deserializeSegments_encoded (segs : List FreeSegment) :
    ∀ pre : List Nat, (∀ s ∈ segs, s.startBlock < U32 ∧ s.blockCount < U32) →
      deserializeSegments
        (pre ++ (segs.map (fun seg => be32 seg.startBlock ++ be32 seg.blockCount)).flatten)
        segs.length pre.length = segs := by
  induction segs with
  | nil => intro pre _; rfl
  | cons s rest ih =>
    intro pre h
    have hs := h s (List.mem_cons_self _ _)
    have hlen : ¬ pre.length + 8 > (pre ++ ((s :: rest).map
        (fun seg => be32 seg.startBlock ++ be32 seg.blockCount)).flatten).length := by
      rw [List.length_append, segmentBytes_length, List.length_cons]
      omega
    simp only [List.length_cons, deserializeSegments]
    rw [if_neg hlen]
    have e1 : readBE32 (pre ++ ((s :: rest).map
        (fun seg => be32 seg.startBlock ++ be32 seg.blockCount)).flatten) pre.length
        = s.startBlock := by
      have := readBE32_be32 pre (be32 s.blockCount ++ (rest.map
        (fun seg => be32 seg.startBlock ++ be32 seg.blockCount)).flatten) s.startBlock
      rw [Nat.mod_eq_of_lt hs.1] at this
      simpa [List.append_assoc] using this
    have e2 : readBE32 (pre ++ ((s :: rest).map
        (fun seg => be32 seg.startBlock ++ be32 seg.blockCount)).flatten) (pre.length + 4)
        = s.blockCount := by
      have := readBE32_be32 (pre ++ be32 s.startBlock) ((rest.map
        (fun seg => be32 seg.startBlock ++ be32 seg.blockCount)).flatten) s.blockCount
      rw [Nat.mod_eq_of_lt hs.2, List.length_append, be32_length] at this
      simpa [List.append_assoc] using this
    have e3 := ih (pre ++ (be32 s.startBlock ++ be32 s.blockCount))
      (fun x hx => h x (List.mem_cons_of_mem _ hx))
    rw [List.length_append, List.length_append, be32_length, be32_length] at e3
    rw [e1, e2]
    congr 1
    simpa [List.append_assoc] using e3

theorem serialize_length (m : FreeSpaceManager) :
    m.serialize.length = 12 + 8 * m.freeSegments.length := by
  simp only [FreeSpaceManager.serialize, List.length_append, be32_length,
    segmentBytes_length]

theorem readBE32_serialize_count (m : FreeSpaceManager) (hk : m.freeSegments.length < U32) :
    readBE32 m.serialize 8 = m.freeSegments.length := by
  have := readBE32_be32 (be32 m.totalBlocks ++ be32 m.freeBlocks)
    ((m.freeSegments.map
      (fun seg => be32 seg.startBlock ++ be32 seg.blockCount)).flatten)
    (m.freeSegments.length % U32)
  rw [Nat.mod_mod, Nat.mod_eq_of_lt hk, List.length_append, be32_length, be32_length] at this
  unfold FreeSpaceManager.serialize
  rw [Nat.mod_eq_of_lt hk]
  exact this

theorem deserialize_serialize (m : FreeSpaceManager)
    (ht : m.totalBlocks < U32) (hf : m.freeBlocks < U32) (hk : m.freeSegments.length < U32)
    (hsegs : ∀ s ∈ m.freeSegments, s.startBlock < U32 ∧ s.blockCount < U32) :
    FreeSpaceManager.deserialize m.serialize = some m := by
  have hlen : ¬ m.serialize.length < 12 := by
    simp only [FreeSpaceManager.serialize, List.length_append, be32_length]
    omega
  have e0 : readBE32 m.serialize 0 = m.totalBlocks := by
    have := readBE32_be32 [] (be32 m.freeBlocks ++ be32 (m.freeSegments.length % U32)
      ++ (m.freeSegments.map
        (fun seg => be32 seg.startBlock ++ be32 seg.blockCount)).flatten) m.totalBlocks
    rw [Nat.mod_eq_of_lt ht] at this
    simpa [FreeSpaceManager.serialize, List.append_assoc] using this
  have e4 : readBE32 m.serialize 4 = m.freeBlocks := by
    have := readBE32_be32 (be32 m.totalBlocks) (be32 (m.freeSegments.length % U32)
      ++ (m.freeSegments.map
        (fun seg => be32 seg.startBlock ++ be32 seg.blockCount)).flatten) m.freeBlocks
    rw [Nat.mod_eq_of_lt hf, be32_length] at this
    simpa [FreeSpaceManager.serialize, List.append_assoc] using this
  have e8 : readBE32 m.serialize 8 = m.freeSegments.length := by
    have := readBE32_be32 (be32 m.totalBlocks ++ be32 m.freeBlocks)
      ((m.freeSegments.map
        (fun seg => be32 seg.startBlock ++ be32 seg.blockCount)).flatten)
      (m.freeSegments.length % U32)
    rw [Nat.mod_mod, Nat.mod_eq_of_lt hk, List.length_append, be32_length, be32_length] at this
    unfold FreeSpaceManager.serialize
    rw [Nat.mod_eq_of_lt hk]
    exact this
  have es := deserializeSegments_encoded m.freeSegments
    (be32 m.totalBlocks ++ be32 m.freeBlocks ++ be32 (m.freeSegments.length % U32)) hsegs
  rw [List.length_append, List.length_append, be32_length, be32_length, be32_length] at es
  unfold FreeSpaceManager.deserialize
  rw [if_neg hlen, e0, e4, e8]
  have es2 : deserializeSegments m.serialize m.freeSegments.length 12 = m.freeSegments := by
    simpa [FreeSpaceManager.serialize] using es
  rw [es2]

/-- C18: for every free-space manager whose `totalBlocks`, `freeBlocks`, segment count and
segment fields are 32-bit values, `deserialize(serialize(m))` is a manager with the same
`totalBlocks`, the same `freeBlocks` and the same segment list in the same order. -/
theorem snapshot_round_trip (m : FreeSpaceManager)
    (ht : m.totalBlocks < U32) (hf : m.freeBlocks < U32) (hk : m.freeSegments.length < U32)
    (hsegs : ∀ s ∈ m.freeSegments, s.startBlock < U32 ∧ s.blockCount < U32) :
    FreeSpaceManager.deserialize m.serialize = some m :=
  deserialize_serialize m ht hf hk hsegs

/-- Witness for C18: a manager with two segments. -/
theorem snapshot_round_trip_witness :
    FreeSpaceManager.deserialize
        (FreeSpaceManager.serialize ⟨[⟨3, 2⟩, ⟨70000, 300⟩], 100000, 302⟩)
      = some ⟨[⟨3, 2⟩, ⟨70000, 300⟩], 100000, 302⟩ :=
  snapshot_round_trip ⟨[⟨3, 2⟩, ⟨70000, 300⟩], 100000, 302⟩ (by simp [U32]) (by simp [U32])
    (by simp [U32]) (by simp [U32])

theorem bigEndianAt_segment (segs : List FreeSegment) :
    ∀ (pre : List Nat) (i : Nat) (s : FreeSegment), segs[i]? = some s →
      bigEndianAt
          (pre ++ (segs.map (fun seg => be32 seg.startBlock ++ be32 seg.blockCount)).flatten)
          (pre.length + 8 * i) = s.startBlock % U32
      ∧ bigEndianAt
          (pre ++ (segs.map (fun seg => be32 seg.startBlock ++ be32 seg.blockCount)).flatten)
          (pre.length + 8 * i + 4) = s.blockCount % U32 := by
  induction segs with
  | nil => intro pre i s h; simp at h
  | cons x rest ih =>
    intro pre i s h
    cases i with
    | zero =>
      simp only [List.getElem?_cons_zero, Option.some.injEq] at h
      subst h
      constructor
      · have := bigEndianAt_be32 pre (be32 x.blockCount ++ (rest.map
          (fun seg => be32 seg.startBlock ++ be32 seg.blockCount)).flatten) x.startBlock
        simpa [List.append_assoc] using this
      · have := bigEndianAt_be32 (pre ++ be32 x.startBlock) ((rest.map
          (fun seg => be32 seg.startBlock ++ be32 seg.blockCount)).flatten) x.blockCount
        rw [List.length_append, be32_length] at this
        simpa [List.append_assoc] using this
    | succ j =>
      simp only [List.getElem?_cons_succ] at h
      have := ih (pre ++ (be32 x.startBlock ++ be32 x.blockCount)) j s h
      rw [List.length_append, List.length_append, be32_length, be32_length] at this
      have e : pre.length + 8 * (j + 1) = pre.length + (4 + 4) + 8 * j := by omega
      rw [e]
      simpa [List.append_assoc] using this

/-- C19: for every free-space manager with `k` segments, `serialize` returns exactly
`12 + 8k` bytes (every one below 256); read big-endian (most significant byte first), the
bytes at offsets 0, 4 and 8 are `totalBlocks`, `freeBlocks` and `k` as 32-bit values, and
for the `i`-th segment in list order the bytes at `12 + 8i` are its `startBlock` and the
bytes at `12 + 8i + 4` its `blockCount`. -/
theorem serialize_layout (m : FreeSpaceManager) :
    m.serialize.length = 12 + 8 * m.freeSegments.length
    ∧ (∀ b ∈ m.serialize, b < 256)
    ∧ bigEndianAt m.serialize 0 = m.totalBlocks % U32
    ∧ bigEndianAt m.serialize 4 = m.freeBlocks % U32
    ∧ bigEndianAt m.serialize 8 = m.freeSegments.length % U32
    ∧ ∀ (i : Nat) (s : FreeSegment), m.freeSegments[i]? = some s →
        bigEndianAt m.serialize (12 + 8 * i) = s.startBlock % U32
        ∧ bigEndianAt m.serialize (12 + 8 * i + 4) = s.blockCount % U32 := by
  refine ⟨?_, ?_, ?_, ?_, ?_, ?_⟩
  · simp only [FreeSpaceManager.serialize, List.length_append, be32_length,
      segmentBytes_length]
  · intro b hb
    simp only [FreeSpaceManager.serialize, List.mem_append, List.mem_flatten, List.mem_map]
      at hb
    rcases hb with ((hb | hb) | hb) | ⟨l, ⟨seg, _, rfl⟩, hb⟩
    · exact be32_lt _ b hb
    · exact be32_lt _ b hb
    · exact be32_lt _ b hb
    · rcases List.mem_append.mp hb with hb | hb
      · exact be32_lt _ b hb
      · exact be32_lt _ b hb
  · have := bigEndianAt_be32 [] (be32 m.freeBlocks ++ be32 (m.freeSegments.length % U32)
      ++ (m.freeSegments.map
        (fun seg => be32 seg.startBlock ++ be32 seg.blockCount)).flatten) m.totalBlocks
    simpa [FreeSpaceManager.serialize, List.append_assoc] using this
  · have := bigEndianAt_be32 (be32 m.totalBlocks) (be32 (m.freeSegments.length % U32)
      ++ (m.freeSegments.map
        (fun seg => be32 seg.startBlock ++ be32 seg.blockCount)).flatten) m.freeBlocks
    rw [be32_length] at this
    simpa [FreeSpaceManager.serialize, List.append_assoc] using this
  · have := bigEndianAt_be32 (be32 m.totalBlocks ++ be32 m.freeBlocks)
      ((m.freeSegments.map
        (fun seg => be32 seg.startBlock ++ be32 seg.blockCount)).flatten)
      (m.freeSegments.length % U32)
    rw [Nat.mod_mod, List.length_append, be32_length, be32_length] at this
    exact this
  · intro i s h
    have := bigEndianAt_segment m.freeSegments
      (be32 m.totalBlocks ++ be32 m.freeBlocks ++ be32 (m.freeSegments.length % U32)) i s h
    rw [List.length_append, List.length_append, be32_length, be32_length, be32_length]
      at this
    exact this

/-- Witness for C19: the snapshot of a manager with the two segments `(3, 2)` and
`(70000, 300)` has 28 bytes; the second segment is found at offsets 20 and 24. -/
theorem serialize_layout_witness :
    (FreeSpaceManager.serialize ⟨[⟨3, 2⟩, ⟨70000, 300⟩], 100000, 302⟩).length = 28
    ∧ bigEndianAt (FreeSpaceManager.serialize ⟨[⟨3, 2⟩, ⟨70000, 300⟩], 100000, 302⟩) 20
        = 70000 % U32
    ∧ bigEndianAt (FreeSpaceManager.serialize ⟨[⟨3, 2⟩, ⟨70000, 300⟩], 100000, 302⟩) 24
        = 300 % U32 :=
  ⟨(serialize_layout ⟨[⟨3, 2⟩, ⟨70000, 300⟩], 100000, 302⟩).1,
   ((serialize_layout ⟨[⟨3, 2⟩, ⟨70000, 300⟩], 100000, 302⟩).2.2.2.2.2 1 ⟨70000, 300⟩ rfl).1,
   ((serialize_layout ⟨[⟨3, 2⟩, ⟨70000, 300⟩], 100000, 302⟩).2.2.2.2.2 1 ⟨70000, 300⟩ rfl).2⟩

/-! ## Block 0 and block accounting -/

theorem collectBlocks_no_zero (start : Nat) :
    ∀ (k i : Nat) (acc r : List Nat), 0 ∉ acc → collectBlocks start k i acc = .ok r →
      0 ∉ r := by
  intro k
  induction k with
  | zero =>
    intro i acc r hacc h
    simp only [collectBlocks, Except.ok.injEq] at h
    subst h
    exact hacc
  | succ k ih =>
    intro i acc r hacc h
    simp only [collectBlocks] at h
    split at h
    · cases h
    · rename_i hne
      refine ih (i + 1) _ r ?_ h
      simp only [List.mem_append, List.mem_singleton, not_or]
      exact ⟨hacc, fun e => hne e.symm⟩

theorem takeFromSegment_no_zero (m : FreeSpaceManager) (segmentIndex count : Nat) :
    0 ∉ (takeFromSegment m segmentIndex count).1 := by
  unfold takeFromSegment
  split
  · simp
  · split
    · split <;> simp
    · rename_i hok
      exact collectBlocks_no_zero _ _ _ _ _ (by simp) hok

theorem allocateBlocks_no_zero (m : FreeSpaceManager) (count : Nat) :
    0 ∉ (allocateBlocks m count).1 := by
  unfold allocateBlocks
  split
  · simp
  · split
    · exact takeFromSegment_no_zero _ _ _
    · dsimp only
      split
      · simp
      · exact takeFromSegment_no_zero _ _ _

theorem allocateSingles_no_zero :
    ∀ (k : Nat) (m : FreeSpaceManager) (acc : List Nat), 0 ∉ acc →
      0 ∉ (allocateSingles k m acc).1 := by
  intro k
  induction k with
  | zero => intro m acc h; exact h
  | succ k ih =>
    intro m acc h
    simp only [allocateSingles]
    split
    · rename_i b rest fm1 hb
      refine ih fm1 _ ?_
      have h0 := allocateBlocks_no_zero m 1
      rw [hb] at h0
      simp only [List.mem_cons, not_or] at h0
      simp only [List.mem_append, List.mem_singleton, not_or]
      exact ⟨h, h0.1⟩
    · split <;> simp

/-- C16: for every state of the free-space manager whatsoever (no well-formedness is
assumed, so states decoded from arbitrary snapshot bytes are included) and every count,
the list returned by `allocateBlocks` does not contain block 0, and neither does the list
returned by `allocateFileBlocks` (contiguous attempt followed by the block-by-block
loop). -/
theorem block_zero_never_allocated (m : FreeSpaceManager) (n : Nat) :
    0 ∉ (allocateBlocks m n).1 ∧ 0 ∉ (allocateFileBlocks m n).1 := by
  refine ⟨allocateBlocks_no_zero m n, ?_⟩
  unfold allocateFileBlocks
  split
  · simp
  · split
    · rename_i b bs fm1 hb
      have h0 := allocateBlocks_no_zero m n
      rw [hb] at h0
      exact h0
    · exact allocateSingles_no_zero _ _ _ (by simp)

/-- C17 as the code has it: in every manager reached from a fresh one by `allocateBlocks`
and `freeBlockSegments`, `getFreeBlocks() + getUsedBlocks()` is `totalBlocks` (block 0 is
counted as used), not `totalBlocks - 1`. -/
theorem free_plus_used_is_total (m : FreeSpaceManager) (h : FsmReachable m) :
    m.freeBlocks + m.getUsedBlocks = m.totalBlocks := by
  have hwf := wellFormed_of_reachable h
  have h1 := segSum_lt_of_wellFormed hwf
  have h2 := hwf.1
  have h3 := hwf.2.2.2
  unfold FreeSpaceManager.getUsedBlocks
  unfold U32 at *
  omega

/-- Witness for the amended C17: a manager of 8 blocks after three blocks were taken. -/
theorem free_plus_used_is_total_witness :
    (allocateBlocks (FreeSpaceManager.new 8) 3).2.freeBlocks
      + (allocateBlocks (FreeSpaceManager.new 8) 3).2.getUsedBlocks = 8 :=
  free_plus_used_is_total (allocateBlocks (FreeSpaceManager.new 8) 3).2
    (FsmReachable.alloc _ 3 (FsmReachable.fresh 8 (by decide) (by decide)))

/-- Counterexample to C17 as stated: the fresh manager over 8 blocks is reachable and has
7 free and 1 used block, so the sum is 8 and not `totalBlocks - 1 = 7`. -/
theorem fresh_manager_counts_block_zero :
    FsmReachable (FreeSpaceManager.new 8)
    ∧ (FreeSpaceManager.new 8).freeBlocks = 7
    ∧ (FreeSpaceManager.new 8).getUsedBlocks = 1
    ∧ (FreeSpaceManager.new 8).freeBlocks + (FreeSpaceManager.new 8).getUsedBlocks
        ≠ (FreeSpaceManager.new 8).totalBlocks - 1 :=
  ⟨FsmReachable.fresh 8 (by decide) (by decide), by decide, by decide, by decide⟩

/-! ## Divergences found by evaluation: mount, snapshot, edit, rename -/

set_option maxRecDepth 100000 in
/-- C11 fails in the code: the entry table holds the directory `d` (slot 2, parent 1,
modified at time 6) and the file `f` (slot 3, parent 2); it meets every condition of the
claim.  After `fs_init` at time 9 the node `/d` has entry index 2, but its modified time is
9, the time of the mount, not the 6 of its entry: `createNode` for the child `/d/f` stamps
the parent after the parent's metadata has been copied. -/
theorem mount_overwrites_directory_time :
    mountTimeScenario1.1 = OFSErrorCodes.SUCCESS
    ∧ mountTimeScenario2.1 = OFSErrorCodes.SUCCESS
    ∧ ((fs_shutdown noSessions mountTimeScenario2.2).2.2.entries 2).map
        (fun e => (e.valid, e.type, e.name, e.parent_index, e.created_time, e.modified_time))
        = some (true, EntryType.DIRECTORY, "d".toList, 1, 6, 6)
    ∧ ((fs_shutdown noSessions mountTimeScenario2.2).2.2.entries 3).map
        (fun e => (e.valid, e.type, e.name, e.parent_index))
        = some (true, EntryType.FILE, "f".toList, 2)
    ∧ (fs_init demoSizes noSessions (some (fs_shutdown noSessions mountTimeScenario2.2).2.2)
        demoConfig 9).1 = OFSErrorCodes.SUCCESS
    ∧ (mountTimeScenario3.file_tree.findNode "/d".toList).map
        (fun n => (n.info.entryIndex, n.info.created_time, n.info.modified_time))
        = some (2, 6, 9) := by
  refine ⟨?_, ?_, ?_, ?_, ?_, ?_⟩ <;> decide

set_option maxRecDepth 100000 in
/-- C12 fails in the code: a container of 8 blocks whose snapshot decodes to a manager with
`totalBlocks = 9`, `freeBlocks = 100`, unsorted overlapping segments and a segment holding
block 0 is mounted with exactly that manager, and a snapshot that announces two segments
but ends after 16 bytes is mounted zero-padded; in neither case is the fresh manager with
the single segment `(1, 7)` installed. -/
theorem malformed_snapshot_is_installed :
    calculateTotalBlocks demoConfig.total_size
        (demoSizes.sizeofHeader + demoConfig.max_users * demoSizes.sizeofUserInfo
          + demoConfig.max_files * demoSizes.sizeofFileEntry) demoConfig.block_size = 8
    ∧ FreeSpaceManager.new 8 = ⟨[⟨1, 7⟩], 8, 7⟩
    ∧ (fs_init demoSizes noSessions (some (diskWithSnapshot malformedManager.serialize))
        demoConfig 6).1 = OFSErrorCodes.SUCCESS
    ∧ (fs_init demoSizes noSessions (some (diskWithSnapshot malformedManager.serialize))
        demoConfig 6).2.2.map (fun fs => fs.free_manager) = some malformedManager
    ∧ (fs_init demoSizes noSessions (some (diskWithSnapshot shortSnapshot))
        demoConfig 6).2.2.map (fun fs => fs.free_manager) = some ⟨[⟨1, 0⟩, ⟨0, 0⟩], 8, 7⟩ := by
  refine ⟨?_, ?_, ?_, ?_, ?_⟩ <;> decide

set_option maxRecDepth 100000 in
/-- C14 fails in the code: `/f` holds 60 bytes in one block of 60 usable bytes;
`file_edit("/f", "", 0, 60)` (index equal to the size, no data) answers
`ERROR_INVALID_OPERATION`, because the walk of `index / usable = 1` blocks runs off the
one-block chain. -/
theorem empty_edit_at_block_end_rejected :
    editBoundaryScenario1.1 = OFSErrorCodes.SUCCESS
    ∧ file_read editBoundaryScenario1.2 (some adminSession) "/f".toList
        = some (OFSErrorCodes.SUCCESS, List.replicate 60 120, 60)
    ∧ editBoundaryScenario2.map (fun r => r.1) = some OFSErrorCodes.ERROR_INVALID_OPERATION := by
  refine ⟨?_, ?_, ?_⟩ <;> decide

set_option maxRecDepth 100000 in
/-- C20 fails in the code: with `/x` and `/y` listed in this order, `rename("/x", "/z")`
followed by `rename("/z", "/x")` both succeed and leave the listing `y, x`; and with the
directory `/d` and the file `/f`, `rename("/f", "d")` followed by `rename("d", "/f")` both
succeed and leave a directory `/f` that holds a file `d`. -/
theorem rename_round_trip_reorders :
    listedNames twoFileTree ['/'] = ["x".toList, "y".toList]
    ∧ ((twoFileTree.rename "/x".toList "/z".toList 4).bind
        (fun t => t.rename "/z".toList "/x".toList 5)).map (fun t => listedNames t ['/'])
        = some ["y".toList, "x".toList]
    ∧ (listedNames dirAndFileTree ['/'], dirAndFileTree.isDirectory "/d".toList,
        dirAndFileTree.isFile "/f".toList) = (["d".toList, "f".toList], true, true)
    ∧ ((dirAndFileTree.rename "/f".toList "d".toList 4).bind
        (fun t => t.rename "d".toList "/f".toList 5)).map
          (fun t => (listedNames t ['/'], t.isDirectory "/f".toList,
            listedNames t "/f".toList))
        = some (["f".toList], true, ["d".toList]) := by
  refine ⟨?_, ?_, ?_, ?_⟩ <;> decide

theorem linkedChain_congr (blocks1 blocks2 : Nat → Option Block) :
    ∀ bl : List Nat, (∀ b ∈ bl, blocks1 b = blocks2 b) → linkedChain blocks1 bl →
      linkedChain blocks2 bl := by
  intro bl
  induction bl with
  | nil => intro _ _; trivial
  | cons b rest ih =>
    intro heq h
    obtain ⟨⟨blk, hb, hn⟩, hrest⟩ := h
    refine ⟨⟨blk, ?_, hn⟩, ih (fun x hx => heq x (List.mem_cons_of_mem _ hx)) hrest⟩
    rw [← heq b (List.mem_cons_self _ _)]
    exact hb

theorem chainFrom_linked (blocks : Nat → Option Block) :
    ∀ (fuel cur : Nat) (bl : List Nat), chainFrom blocks fuel cur = some bl →
      (∀ b ∈ bl, (blocks b).isSome = true) →
      cur = bl.head?.getD 0 ∧ 0 ∉ bl ∧ bl.length ≤ fuel ∧ linkedChain blocks bl := by
  intro fuel
  induction fuel with
  | zero =>
    intro cur bl h _
    simp only [chainFrom] at h
    split at h
    · rename_i h0
      cases h
      exact ⟨h0, by simp, by simp, trivial⟩
    · cases h
  | succ fuel ih =>
    intro cur bl h hp
    simp only [chainFrom] at h
    split at h
    · rename_i h0
      cases h
      exact ⟨h0, by simp, by simp, trivial⟩
    · rename_i h0
      split at h
      · rename_i hnone
        cases h
        have := hp cur (List.mem_singleton_self _)
        rw [hnone] at this
        cases this
      · rename_i blk hsome
        cases hr : chainFrom blocks fuel blk.next with
        | none => rw [hr] at h; cases h
        | some rest =>
          rw [hr] at h
          simp only [Option.map_some', Option.some.injEq] at h
          subst h
          obtain ⟨e1, e2, e3, e4⟩ := ih blk.next rest hr
            (fun x hx => hp x (List.mem_cons_of_mem _ hx))
          refine ⟨by simp, ?_, by simp; omega, ⟨blk, hsome, e1⟩, e4⟩
          simp only [List.mem_cons, not_or]
          exact ⟨fun e => h0 e.symm, e2⟩

theorem truncatePattern_length (written n : Nat) : (truncatePattern written n).length = n := by
  simp [truncatePattern]

theorem truncatePattern_add (written a b : Nat) :
    truncatePattern written (a + b)
      = truncatePattern written a ++ truncatePattern (written + a) b := by
  simp only [truncatePattern, List.range_add, List.map_append, List.map_map]
  congr 1
  apply List.map_congr_left
  intro i _
  simp only [Function.comp, Nat.add_assoc]

theorem writeContent_blocks (c : Container) (b : Nat) (blk : Block) (d : List Nat)
    (h : c.blocks b = some blk) (k : Nat) :
    (c.writeContent b 0 d).blocks k
      = if k = b then some { blk with content := writeAt blk.content 0 d } else c.blocks k := by
  simp only [Container.writeContent, h, Container.writeBlock]

theorem writeAt_zero_take (content d : List Nat) : (writeAt content 0 d).take d.length = d := by
  simp [writeAt]

theorem truncate_then_read (usable total : Nat) :
    ∀ (bl : List Nat) (c : Container) (written fuel : Nat),
      linkedChain c.blocks bl → bl.Nodup → 0 ∉ bl → total ≤ written + bl.length * usable →
      bl.length ≤ fuel →
      ∃ c1, truncateLoop usable total fuel (bl.head?.getD 0) written c = some c1
        ∧ (∀ b, (c1.blocks b).map (fun blk => blk.next) = (c.blocks b).map (fun blk => blk.next))
        ∧ (∀ b, b ∉ bl → c1.blocks b = c.blocks b)
        ∧ ∀ (fuel2 : Nat) (buf : List Nat), buf.length = written → bl.length ≤ fuel2 →
            readLoop c1.blocks usable total fuel2 (bl.head?.getD 0) buf
              = some (buf ++ truncatePattern written (total - written)) := by
  intro bl
  induction bl with
  | nil =>
    intro c written fuel _ _ _ hcov _
    have hz : total - written = 0 := by simp at hcov; omega
    refine ⟨c, ?_, fun _ => rfl, fun _ _ => rfl, ?_⟩
    · cases fuel <;> simp [truncateLoop]
    · intro fuel2 buf _ _
      rw [hz]
      cases fuel2 <;> simp [readLoop, truncatePattern]
  | cons b rest ih =>
    intro c written fuel hlink hnd hzero hcov hfuel
    obtain ⟨⟨blk, hb, hnext⟩, hrest⟩ := hlink
    have hb0 : b ≠ 0 := fun e => hzero (by simp [e])
    have hbrest : b ∉ rest := (List.nodup_cons.mp hnd).1
    cases fuel with
    | zero => simp at hfuel
    | succ f =>
      by_cases hw : written < total
      · have hread : c.readNext b = rest.head?.getD 0 := by
          simp only [Container.readNext, hb, hnext]
        have hlink2 : linkedChain
            (c.writeContent b 0
              (truncatePattern written (min usable (total - written)))).blocks rest := by
          refine linkedChain_congr c.blocks _ rest ?_ hrest
          intro x hx
          rw [writeContent_blocks c b blk _ hb x, if_neg (by rintro rfl; exact hbrest hx)]
        have hmin : min usable (total - written) ≤ total - written := Nat.min_le_right _ _
        have hcov2 : total ≤ written + min usable (total - written) + rest.length * usable := by
          simp only [List.length_cons, Nat.add_mul, Nat.one_mul] at hcov
          rcases Nat.le_total usable (total - written) with h | h
          · rw [Nat.min_eq_left h]; omega
          · rw [Nat.min_eq_right h]; omega
        obtain ⟨c1, h1, h2, h3, h4⟩ := ih
          (c.writeContent b 0 (truncatePattern written (min usable (total - written))))
          (written + min usable (total - written)) f hlink2 (List.nodup_cons.mp hnd).2
          (fun h0 => hzero (List.mem_cons_of_mem _ h0)) hcov2
          (by simp only [List.length_cons] at hfuel; omega)
        refine ⟨c1, ?_, ?_, ?_, ?_⟩
        · simp only [List.head?_cons, Option.getD_some, truncateLoop]
          rw [if_pos ⟨hb0, hw⟩, hread]
          exact h1
        · intro k
          rw [h2 k, writeContent_blocks c b blk _ hb k]
          by_cases hk : k = b
          · rw [if_pos hk, hk, hb]; rfl
          · rw [if_neg hk]
        · intro k hk
          simp only [List.mem_cons, not_or] at hk
          rw [h3 k hk.2, writeContent_blocks c b blk _ hb k, if_neg hk.1]
        · intro fuel2 buf hbuf hf2
          cases fuel2 with
          | zero => simp at hf2
          | succ g =>
            have hcond : ¬ (b = 0 ∨ total ≤ buf.length) := by
              rw [hbuf]
              intro h
              rcases h with h | h
              · exact hb0 h
              · omega
            have hblk : c1.blocks b = some { blk with content := (writeAt blk.content 0
                (truncatePattern written (min usable (total - written)))) } := by
              rw [h3 b hbrest, writeContent_blocks c b blk _ hb b, if_pos rfl]
            have htake : (writeAt blk.content 0
                (truncatePattern written (min usable (total - written)))).take
                  (min (total - buf.length) usable)
                = truncatePattern written (min usable (total - written)) := by
              have := writeAt_zero_take blk.content
                (truncatePattern written (min usable (total - written)))
              rw [truncatePattern_length] at this
              rw [hbuf, Nat.min_comm]
              exact this
            simp only [List.head?_cons, Option.getD_some, readLoop]
            rw [if_neg hcond, hblk]
            simp only [htake, truncatePattern_length]
            rw [if_neg (by rw [hbuf, Nat.min_comm]; omega), hnext]
            rw [h4 g (buf ++ truncatePattern written (min usable (total - written)))
              (by rw [List.length_append, truncatePattern_length, hbuf])
              (by simp only [List.length_cons] at hf2; omega)]
            have hsplit : total - written
                = min usable (total - written)
                  + (total - (written + min usable (total - written))) := by omega
            rw [List.append_assoc, ← truncatePattern_add, ← hsplit]
      · have hz : total - written = 0 := by omega
        refine ⟨c, ?_, fun _ => rfl, fun _ _ => rfl, ?_⟩
        · simp only [List.head?_cons, Option.getD_some, truncateLoop]
          rw [if_neg (fun h => hw h.2)]
        · intro fuel2 buf hbuf _
          have hcond : b = 0 ∨ total ≤ buf.length := Or.inr (by omega)
          rw [hz]
          cases fuel2 <;> simp [readLoop, hcond, truncatePattern]

theorem truncatePattern_stream (n : Nat) : truncatePattern 0 n = siruamrStream n := by
  simp only [truncatePattern, siruamrStream]
  apply List.map_congr_left
  intro i _
  have h7 : i % 7 < 7 := Nat.mod_lt _ (by decide)
  have hlen : truncateText.length = 7 := by decide
  rw [Nat.zero_add, hlen]
  generalize i % 7 = j at h7
  interval_cases j <;> decide

theorem chainFrom_congr_next (blocks1 blocks2 : Nat → Option Block)
    (h : ∀ b, (blocks1 b).map (fun blk => blk.next) = (blocks2 b).map (fun blk => blk.next)) :
    ∀ fuel cur, chainFrom blocks1 fuel cur = chainFrom blocks2 fuel cur := by
  intro fuel
  induction fuel with
  | zero => intro cur; rfl
  | succ fuel ih =>
    intro cur
    simp only [chainFrom]
    have hc := h cur
    cases h1 : blocks1 cur with
    | none =>
      cases h2 : blocks2 cur with
      | none => rfl
      | some b2 => rw [h1, h2] at hc; cases hc
    | some b1 =>
      cases h2 : blocks2 cur with
      | none => rw [h1, h2] at hc; cases hc
      | some b2 =>
        rw [h1, h2] at hc
        simp only [Option.map_some', Option.some.injEq] at hc
        simp only [hc, ih]

/-- C15: for every existing file whose chain is well formed (the walk from the start block
ends, visits no block twice, every block of it can be read, and the blocks hold at least
`size` usable bytes) and every session allowed to change the file, `file_truncate` answers
`SUCCESS`, leaves the tree (hence the size), the free-space manager and every next pointer
(hence the chain) unchanged, and `file_read` then answers `SUCCESS` with `size` bytes, the
byte at position `i` being the `i mod 7`-th character of `siruamr`. -/
theorem truncate_writes_pattern (fs : OFSInstance) (s : ManagedSession) (path : List Char)
    (node : TreeNode) (bl : List Nat)
    (hs : s.hasInstance = true)
    (hfind : fs.file_tree.findNode path = some node) (hfile : node.info.isFile = true)
    (hauth : fs.config.require_auth = true → notOwnerNorAdmin node s = false)
    (hchain : chainFrom fs.omni_file.blocks U32 node.info.startBlockIndex = some bl)
    (hpresent : ∀ b ∈ bl, (fs.omni_file.blocks b).isSome = true)
    (hnodup : bl.Nodup)
    (hcover : node.info.size ≤ bl.length * usableBlockSize fs) :
    ∃ fs1, file_truncate fs (some s) path = some (OFSErrorCodes.SUCCESS, fs1)
      ∧ fs1.file_tree = fs.file_tree
      ∧ fs1.free_manager = fs.free_manager
      ∧ (∀ b, (fs1.omni_file.blocks b).map (fun blk => blk.next)
            = (fs.omni_file.blocks b).map (fun blk => blk.next))
      ∧ chainFrom fs1.omni_file.blocks U32 node.info.startBlockIndex = some bl
      ∧ file_read fs1 (some s) path
          = some (OFSErrorCodes.SUCCESS, siruamrStream node.info.size, node.info.size) := by
  obtain ⟨hstart, hzero, hlen, hlink⟩ :=
    chainFrom_linked fs.omni_file.blocks U32 node.info.startBlockIndex bl hchain hpresent
  obtain ⟨c1, h1, h2, _, h4⟩ := truncate_then_read (usableBlockSize fs) node.info.size bl
    fs.omni_file 0 (node.info.size + U32) hlink hnodup hzero (by omega) (by omega)
  rw [← hstart] at h1 h4
  have hsess : sessionUsable (some s) = some s := by simp [sessionUsable, hs]
  have hden : ¬ (fs.config.require_auth = true ∧ notOwnerNorAdmin node s = true) := by
    intro h
    rw [hauth h.1] at h
    exact Bool.false_ne_true h.2
  have hden2 : ¬ (fs.config.require_auth = true ∧ node.info.permissions &&& 0o444 = 0
      ∧ notOwnerNorAdmin node s = true) := fun h => hden ⟨h.1, h.2.2⟩
  have hfile2 : ¬ node.info.isFile = false := by rw [hfile]; simp
  have htr : file_truncate fs (some s) path
      = some (OFSErrorCodes.SUCCESS, { fs with omni_file := c1 }) := by
    simp only [file_truncate, hsess, hfind, if_neg hfile2, if_neg hden, h1]
  refine ⟨{ fs with omni_file := c1 }, htr, rfl, rfl, h2, ?_, ?_⟩
  · rw [chainFrom_congr_next c1.blocks fs.omni_file.blocks h2]
    exact hchain
  · have hu : usableBlockSize { fs with omni_file := c1 } = usableBlockSize fs := rfl
    simp only [file_read, hsess, hfind, if_neg hfile2, if_neg hden2, hu]
    by_cases hz : node.info.size = 0
    · rw [if_pos hz, hz]
      rfl
    · rw [if_neg hz, h4 (node.info.size + U32) [] rfl (by omega)]
      simp only [List.nil_append, Nat.sub_zero, truncatePattern_stream]

set_option maxRecDepth 100000 in
/-- Witness for C15: `/t` with ten bytes `X` in one block; after `file_truncate` the read
gives the ten bytes `siruamrsir`. -/
theorem truncate_writes_pattern_witness :
    ∃ fs1, file_truncate truncateScenario.2 (some adminSession) "/t".toList
        = some (OFSErrorCodes.SUCCESS, fs1)
      ∧ fs1.file_tree = truncateScenario.2.file_tree
      ∧ fs1.free_manager = truncateScenario.2.free_manager
      ∧ (∀ b, (fs1.omni_file.blocks b).map (fun blk => blk.next)
            = (truncateScenario.2.omni_file.blocks b).map (fun blk => blk.next))
      ∧ chainFrom fs1.omni_file.blocks U32 truncateFileNode.info.startBlockIndex = some [1]
      ∧ file_read fs1 (some adminSession) "/t".toList
          = some (OFSErrorCodes.SUCCESS, siruamrStream truncateFileNode.info.size,
              truncateFileNode.info.size) :=
  truncate_writes_pattern truncateScenario.2 adminSession "/t".toList truncateFileNode [1]
    rfl (by rfl) rfl (fun _ => by decide) (by decide) (by decide) (by decide) (by decide)

/-! ## Format followed by mount -/

theorem foldl_fixed {α β : Type} (f : α → β → α) (l : List β) (a : α)
    (h : ∀ x ∈ l, ∀ a1, f a1 x = a1) : l.foldl f a = a := by
  induction l generalizing a with
  | nil => rfl
  | cons x rest ih =>
    rw [List.foldl_cons, h x (List.mem_cons_self _ _) a]
    exact ih a (fun y hy => h y (List.mem_cons_of_mem _ hy))

theorem mountVisit_invalid (fs : OFSInstance) (max_entries now : Nat) (st : MountState)
    (i : Nat) (h : ∀ e, fs.omni_file.entries i = some e → e.valid = false) :
    mountVisit fs max_entries now st i = st := by
  unfold mountVisit
  cases he : fs.omni_file.entries i with
  | none => simp
  | some e => simp [FileEntry.isValid, h e he]

theorem mountPass_invalid (fs : OFSInstance) (max_entries now : Nat) (st : MountState)
    (h : ∀ i, 2 ≤ i → ∀ e, fs.omni_file.entries i = some e → e.valid = false) :
    mountPass fs max_entries now st = st := by
  unfold mountPass
  apply foldl_fixed
  intro i hi a1
  exact mountVisit_invalid fs max_entries now a1 i
    (h i (by rw [List.mem_range'_1] at hi; exact hi.1))

theorem mountLoop_invalid (fs : OFSInstance) (max_entries valid_count now : Nat)
    (h : ∀ i, 2 ≤ i → ∀ e, fs.omni_file.entries i = some e → e.valid = false) :
    ∀ (fuel : Nat) (st : MountState),
      (mountLoop fs max_entries valid_count now fuel st).file_tree = st.file_tree
      ∧ (mountLoop fs max_entries valid_count now fuel st).total_files = st.total_files
      ∧ (mountLoop fs max_entries valid_count now fuel st).total_directories
          = st.total_directories := by
  intro fuel
  induction fuel with
  | zero => intro st; exact ⟨rfl, rfl, rfl⟩
  | succ fuel ih =>
    intro st
    simp only [mountLoop]
    split
    · rw [mountPass_invalid fs max_entries now _ h]
      exact ih { st with progress := false }
    · exact ⟨rfl, rfl, rfl⟩

theorem loadUsers_formatted (users : Nat → Option UserInfo) (n : Nat) (admin : UserInfo)
    (hn : 1 ≤ n) (h0 : users 0 = some admin) (hact : admin.is_active = true)
    (hname : admin.username ≠ [])
    (hrest : ∀ i, 1 ≤ i → ∀ u, users i = some u → u.is_active = false) :
    loadUsers users n = AVLTree.empty.insert admin.username admin := by
  obtain ⟨m, rfl⟩ : ∃ m, n = m + 1 := ⟨n - 1, by omega⟩
  unfold loadUsers
  rw [List.range_succ_eq_map, List.foldl_cons]
  simp only [h0, hact, hname, ne_eq, not_false_eq_true, and_self, if_true]
  apply foldl_fixed
  intro i hi t
  obtain ⟨j, _, rfl⟩ := List.mem_map.mp hi
  cases hu : users (j + 1) with
  | none => rfl
  | some u => simp [hrest (j + 1) (by omega) u hu]

theorem loadFreeManager_fresh (n total : Nat) (hn : n < U32) :
    loadFreeManager (FreeSpaceManager.new n).serialize total = FreeSpaceManager.new n := by
  have hk : (FreeSpaceManager.new n).freeSegments.length ≤ 1 := by
    simp only [FreeSpaceManager.new]
    split <;> simp
  have hmod : (n + (U32 - 1)) % U32 < U32 := Nat.mod_lt _ (by unfold U32; omega)
  have hlen := serialize_length (FreeSpaceManager.new n)
  have hcount := readBE32_serialize_count (FreeSpaceManager.new n) (by unfold U32; omega)
  have hsize : (12 + (FreeSpaceManager.new n).freeSegments.length * 8) % U32
      = (FreeSpaceManager.new n).serialize.length := by
    rw [hlen, Nat.mod_eq_of_lt (by unfold U32; omega)]
    omega
  have hrt := deserialize_serialize (FreeSpaceManager.new n) hn hmod (by unfold U32; omega)
    (by
      intro s hs
      simp only [FreeSpaceManager.new] at hs
      split at hs
      · simp only [List.mem_singleton] at hs
        subst hs
        exact ⟨by simp [U32], hmod⟩
      · simp at hs)
  unfold loadFreeManager
  rw [if_neg (by omega)]
  simp only [hcount, hsize, List.take_length, Nat.sub_self, List.replicate_zero,
    List.append_nil, hrt]

theorem calculateTotalBlocks_eq (total_size content_offset block_size : Nat)
    (hC : content_offset ≤ total_size) (hT : total_size < 18446744073709551616)
    (hq : (total_size - content_offset) / block_size < U32) :
    calculateTotalBlocks total_size content_offset block_size
      = (total_size - content_offset) / block_size := by
  unfold calculateTotalBlocks
  have e : (total_size + (18446744073709551616 - content_offset % 18446744073709551616))
      % 18446744073709551616 = total_size - content_offset := by omega
  rw [e, Nat.mod_eq_of_lt hq]

theorem fs_init_mounts (sz : RecordSizes) (sm : SessionManager) (c : Container)
    (config : FileSystemConfig) (now : Nat) (header : OMNIHeader)
    (hh : c.header = some header) (hm : header.magic.take 8 = "OMNIFS01".toList)
    (hinv : ∀ i, 2 ≤ i → ∀ e, c.entries i = some e → e.valid = false) :
    ∃ sm1 fs, fs_init sz sm (some c) config now = (OFSErrorCodes.SUCCESS, sm1, some fs)
      ∧ sm1.hasGlobalInstance = true
      ∧ fs.users = loadUsers c.users header.max_users
      ∧ fs.free_manager = loadFreeManager c.snapshot
          (calculateTotalBlocks header.total_size
            (calculateContentOffset sz header config.max_files) header.block_size)
      ∧ fs.file_tree = FileTree.new now
      ∧ fs.total_files = 0
      ∧ fs.total_directories = 1 := by
  simp only [fs_init, hh, hm, ne_eq, not_true_eq_false, if_false]
  refine ⟨_, _, rfl, rfl, rfl, rfl, ?_, ?_, ?_⟩
  · exact (mountLoop_invalid _ _ _ _ hinv _ _).1
  · exact (mountLoop_invalid _ _ _ _ hinv _ _).2.1
  · exact (mountLoop_invalid _ _ _ _ hinv _ _).2.2

theorem formatted_entries_invalid (sz : RecordSizes) (config : FileSystemConfig) (now : Nat)
    (snapshot : List Nat) :
    ∀ i, 2 ≤ i → ∀ e, (formattedContainer sz config now snapshot).entries i = some e →
      e.valid = false := by
  intro i hi e he
  simp only [formattedContainer] at he
  rw [if_neg (by omega), if_neg (by omega)] at he
  split at he
  · cases he
    rfl
  · cases he

theorem formatted_users_inactive (sz : RecordSizes) (config : FileSystemConfig) (now : Nat)
    (snapshot : List Nat) :
    ∀ i, 1 ≤ i → ∀ u, (formattedContainer sz config now snapshot).users i = some u →
      u.is_active = false := by
  intro i hi u hu
  simp only [formattedContainer] at hu
  rw [if_neg (by omega)] at hu
  split at hu
  · cases hu
    rfl
  · cases hu

theorem new_freeSegments (n : Nat) (h2 : 2 ≤ n) (h : n < U32) :
    (FreeSpaceManager.new n).freeSegments = [⟨1, n - 1⟩] := by
  have e : (n + (U32 - 1)) % U32 = n - 1 := by
    unfold U32 at *
    omega
  simp only [FreeSpaceManager.new]
  rw [if_pos (by omega), e]

theorem fs_format_success (sz : RecordSizes) (config : FileSystemConfig)
    (omni_path : List Char) (disk : Option Container) (now : Nat)
    (hpath : 5 ≤ omni_path.length ∧ omni_path.drop (omni_path.length - 5) = ".omni".toList)
    (hu : 1 ≤ config.max_users) (hf : 2 ≤ config.max_files) :
    fs_format sz omni_path true disk config now
      = (OFSErrorCodes.SUCCESS, some (formattedContainer sz config now
          (FreeSpaceManager.new (calculateTotalBlocks config.total_size
            (sz.sizeofHeader + config.max_users * sz.sizeofUserInfo
              + config.max_files * sz.sizeofFileEntry) config.block_size)).serialize)) := by
  have h1 : ¬ (omni_path.length < 5
      ∨ omni_path.drop (omni_path.length - 5) ≠ ".omni".toList) := by
    intro h
    rcases h with h | h
    · omega
    · exact h hpath.2
  have h2 : 1 + (config.max_users - 1) = config.max_users := by omega
  have h3 : 2 + (config.max_files - 2) = config.max_files := by omega
  simp only [fs_format, if_neg h1, h2, h3, ne_eq, not_true_eq_false, if_false,
    Bool.true_eq_false]

/-- A record whose name and hash fit their fields holds them whole. -/
theorem userInfo_new_fit (username passwordHash : List Char) (role : UserRole)
    (created : Nat) (hu : username.length ≤ UserInfo.usernameCapacity)
    (hh : passwordHash.length ≤ UserInfo.hashCapacity) :
    UserInfo.new username passwordHash role created
      = { username := username, password_hash := passwordHash, role := role,
          created_time := created, last_login := 0, is_active := true } := by
  unfold UserInfo.new
  rw [List.take_of_length_le hu, List.take_of_length_le hh]

set_option maxRecDepth 100000 in
/-- The fit condition of C13 is needed: with an administrator name one character longer
than the username field, `fs_format` and `fs_init` succeed, the user index holds the
administrator under the stored name, which is cut to the field, and the login under the
configured name answers `ERROR_NOT_FOUND`. -/
theorem long_admin_name_cannot_login :
    (fs_format demoSizes "a.omni".toList true none longAdminConfig 5).1
        = OFSErrorCodes.SUCCESS
    ∧ longAdminMount.1 = OFSErrorCodes.SUCCESS
    ∧ longAdminMount.2.2.map (fun fs =>
        ((user_login longAdminMount.2.1 fs longAdminConfig.admin_username
            longAdminConfig.admin_password 7).1,
          fs.users.getAllSorted.map (fun u => u.username)))
        = some (OFSErrorCodes.ERROR_NOT_FOUND,
            [List.replicate UserInfo.usernameCapacity 'a']) := by
  refine ⟨?_, ?_, ?_⟩ <;> decide

/-! ## Divergences found by evaluation: rename, names, extension, sessions, block 0 -/

set_option maxRecDepth 100000 in
/-- C21 fails in the code: with the directory `/d` holding the file `/d/x`,
`rename("/d", "/d/e")` returns true (the new parent `/d` exists, is a directory and has no
child `e`); the node is taken out of the root and hung below itself, so afterwards
`findNode("/d/e")` finds nothing and the subtree with `x` is no longer reachable from the
root. -/
theorem rename_into_own_subtree_loses_node :
    (nestedTree.isDirectory "/d".toList, nestedTree.isFile "/d/x".toList) = (true, true)
    ∧ (nestedTree.rename "/d".toList "/d/e".toList 4).isSome = true
    ∧ (nestedTree.rename "/d".toList "/d/e".toList 4).map
        (fun t => ((t.findNode "/d/e".toList).isSome, (t.findNode "/d/e/x".toList).isSome,
          (t.findNode "/d".toList).isSome, listedNames t ['/']))
        = some (false, false, false, []) := by
  refine ⟨?_, ?_, ?_⟩ <;> decide

set_option maxRecDepth 100000 in
/-- C23 fails in the code: with `max_filename_length = 3`, `file_create("/abcd", ...)`
answers `SUCCESS`; in the same mount the file is listed as `abcd` and found under `/abcd`,
not under `/abc`; only after shutdown and re-mount is it listed and found as `abc`. -/
theorem long_name_kept_until_remount :
    persistScenario1.1 = OFSErrorCodes.SUCCESS
    ∧ (dir_list persistScenario1.2 (some adminSession) ['/']).2.map (fun e => e.name)
        = ["abcd".toList]
    ∧ file_exists persistScenario1.2 (some adminSession) "/abc".toList
        = OFSErrorCodes.ERROR_NOT_FOUND
    ∧ file_exists persistScenario1.2 (some adminSession) "/abcd".toList
        = OFSErrorCodes.SUCCESS
    ∧ (dir_list (remount demoSizes persistScenario1.2 8) (some adminSession) ['/']).2.map
        (fun e => e.name) = ["abc".toList]
    ∧ file_exists (remount demoSizes persistScenario1.2 8) (some adminSession) "/abc".toList
        = OFSErrorCodes.SUCCESS := by
  refine ⟨?_, ?_, ?_, ?_, ?_, ?_⟩ <;> decide

set_option maxRecDepth 100000 in
/-- C24 fails in the code for `fs_init`: `fs_format` rejects the existing file `notes.txt`
with `ERROR_INVALID_PATH` and leaves it alone, but `fs_init` on the path `notes.txt` answers
`SUCCESS`, both when nothing exists at that path (a container is created there and
mounted) and when a container lies behind it (it is mounted). -/
theorem fs_init_ignores_extension :
    (fs_format demoSizes "notes.txt".toList true none demoConfig 5).1
        = OFSErrorCodes.ERROR_INVALID_PATH
    ∧ (fs_format demoSizes "notes.txt".toList true none demoConfig 5).2.isNone = true
    ∧ (fs_init_at demoSizes noSessions (fun _ => none) "notes.txt".toList demoConfig 5).1
        = OFSErrorCodes.SUCCESS
    ∧ (fs_init_at demoSizes noSessions (fun _ => none) "notes.txt".toList
        demoConfig 5).2.2.isSome = true
    ∧ (fs_init_at demoSizes noSessions
        (fun p => if p = "notes.txt".toList
          then some (formattedContainer demoSizes demoConfig 4 []) else none)
        "notes.txt".toList demoConfig 5).1 = OFSErrorCodes.SUCCESS
    ∧ (fs_init_at demoSizes noSessions (fun _ => none) "notes.txt".toList
        demoConfig 5).2.1.hasGlobalInstance = true := by
  refine ⟨?_, ?_, ?_, ?_, ?_, ?_⟩ <;> decide

set_option maxRecDepth 100000 in
/-- C25 fails in the code: the administrator logs in at clock value 7 and gets the id
`admin_7`; `user_logout("admin_7")` answers `SUCCESS` and the id is then unknown; a new
login of the administrator at the same clock value gets the id `admin_7` again, and a
call with the closed id (here `dir_list`) is served with `SUCCESS`. -/
theorem closed_session_id_is_reused :
    logoutScenario1.1 = OFSErrorCodes.SUCCESS
    ∧ logoutScenario1.2.2.2 = "admin_7".toList
    ∧ logoutScenario2.1 = OFSErrorCodes.SUCCESS
    ∧ (SessionManager.getSession logoutScenario2.2.1 "admin_7".toList 7).1 = none
    ∧ logoutScenario3.1 = OFSErrorCodes.SUCCESS
    ∧ logoutScenario3.2.2.2 = "admin_7".toList
    ∧ dir_list logoutScenario3.2.2.1
        (SessionManager.getSession logoutScenario3.2.1 "admin_7".toList 8).1 ['/']
        = (OFSErrorCodes.SUCCESS, []) := by
  refine ⟨?_, ?_, ?_, ?_, ?_, ?_, ?_⟩ <;> decide

/-- C30 fails in the code: on the manager of 8 blocks with all 7 blocks allocated,
`freeBlockSegments([0, 0, 5])` removes only the first `0` of the sorted list; the result
has the segment `(0, 1)`, which holds block 0, and `freeBlocks` has grown by 2 although
the list has one non-zero id. -/
theorem second_zero_is_freed :
    (allocateBlocks (FreeSpaceManager.new 8) 7).2 = ⟨[], 8, 0⟩
    ∧ freeBlockSegments (allocateBlocks (FreeSpaceManager.new 8) 7).2 [0, 0, 5]
        = ⟨[⟨0, 1⟩, ⟨5, 1⟩], 8, 2⟩
    ∧ inSegments
        (freeBlockSegments (allocateBlocks (FreeSpaceManager.new 8) 7).2 [0, 0, 5]).freeSegments
        0
    ∧ ([0, 0, 5].filter (fun id => decide (id ≠ 0))).length = 1 := by
  refine ⟨?_, ?_, ?_, ?_⟩ <;> decide

/-! ## First fit -/

/-- C29: for every well-formed free-space manager and every `n`: if `n >= 1` and some
segment has at least `n` blocks, `allocateBlocks(n)` returns `[s, s+1, ..., s+n-1]` where
`s` is the start of the lowest-start segment with at least `n` blocks; that segment is
shrunk from the front by `n` (removed when its count is `n`), the other segments stay,
`freeBlocks` drops by `n`, and a block is free afterwards exactly when it was free before
and is not one of the returned ids; if `n = 0` or no segment has `n` blocks, the empty list
is returned and the manager is unchanged. -/
theorem first_fit_allocation (m : FreeSpaceManager) (hwf : WellFormed m) (n : Nat) :
    ((1 ≤ n ∧ ∃ s ∈ m.freeSegments, n ≤ s.blockCount) →
      ∃ pre seg post, m.freeSegments = pre ++ seg :: post ∧ n ≤ seg.blockCount
        ∧ (∀ q ∈ m.freeSegments, n ≤ q.blockCount → seg.startBlock ≤ q.startBlock)
        ∧ (allocateBlocks m n).1 = List.range' seg.startBlock n
        ∧ (allocateBlocks m n).2.freeSegments
            = pre ++ (if seg.blockCount = n then []
                else [⟨seg.startBlock + n, seg.blockCount - n⟩]) ++ post
        ∧ (allocateBlocks m n).2.freeBlocks + n = m.freeBlocks
        ∧ (allocateBlocks m n).2.totalBlocks = m.totalBlocks
        ∧ ∀ b, inSegments (allocateBlocks m n).2.freeSegments b
            ↔ inSegments m.freeSegments b ∧ b ∉ List.range' seg.startBlock n)
    ∧ ((n = 0 ∨ ∀ s ∈ m.freeSegments, s.blockCount < n) → allocateBlocks m n = ([], m)) := by
  constructor
  · rintro ⟨hn, s, hs, hsn⟩
    rcases allocateBlocks_cases hwf n with ⟨_, h0 | h0 | h0⟩ | ⟨pre, seg, post, hl, _, hle, hpre, h⟩
    · omega
    · exfalso
      have hsum : s.blockCount ≤ segSum m.freeSegments := by
        unfold segSum
        exact List.single_le_sum (fun _ _ => Nat.zero_le _) _
          (List.mem_map_of_mem (fun x : FreeSegment => x.blockCount) hs)
      have := hwf.2.2.2
      omega
    · have := h0 s hs
      omega
    · refine ⟨pre, seg, post, hl, hle, ?_, ?_, ?_, ?_, ?_, ?_⟩
      · intro q hq hqn
        rw [hl] at hq
        rcases List.mem_append.mp hq with hq | hq
        · have := hpre q hq
          omega
        · rcases List.mem_cons.mp hq with hq | hq
          · rw [hq]
          · have hg := hwf.2.2.1
            rw [hl] at hg
            have := (List.pairwise_cons.mp (List.pairwise_append.mp hg).2.1).1 q hq
            unfold SegGap at this
            omega
      · rw [h]
      · rw [h]
        rfl
      · rw [h]
        have hsum : seg.blockCount ≤ segSum m.freeSegments := by
          unfold segSum
          exact List.single_le_sum (fun _ _ => Nat.zero_le _) _
            (List.mem_map_of_mem (fun x : FreeSegment => x.blockCount) (by rw [hl]; simp))
        have := hwf.2.2.2
        show m.freeBlocks - n + n = m.freeBlocks
        omega
      · rw [h]
      · intro b
        rw [h]
        have := (shrunk_wellFormed hwf hl hle).2 b
        show inSegments (shrunkSegments pre seg post n) b ↔ _
        rw [this, List.mem_range'_1]
  · intro h0
    rcases allocateBlocks_cases hwf n with ⟨h, _⟩ | ⟨pre, seg, post, hl, hn, hle, _, _⟩
    · exact h
    · exfalso
      rcases h0 with h0 | h0
      · omega
      · have := h0 seg (by rw [hl]; simp)
        omega

/-- Witness for C29: in the manager of 10 blocks with the free segments `(1, 2)` and
`(5, 4)`, three blocks come from the second segment. -/
theorem first_fit_allocation_witness :
    ∃ pre seg post, (⟨[⟨1, 2⟩, ⟨5, 4⟩], 10, 6⟩ : FreeSpaceManager).freeSegments
        = pre ++ seg :: post ∧ 3 ≤ seg.blockCount
      ∧ (∀ q ∈ (⟨[⟨1, 2⟩, ⟨5, 4⟩], 10, 6⟩ : FreeSpaceManager).freeSegments,
          3 ≤ q.blockCount → seg.startBlock ≤ q.startBlock)
      ∧ (allocateBlocks ⟨[⟨1, 2⟩, ⟨5, 4⟩], 10, 6⟩ 3).1 = List.range' seg.startBlock 3
      ∧ (allocateBlocks ⟨[⟨1, 2⟩, ⟨5, 4⟩], 10, 6⟩ 3).2.freeSegments
          = pre ++ (if seg.blockCount = 3 then []
              else [⟨seg.startBlock + 3, seg.blockCount - 3⟩]) ++ post
      ∧ (allocateBlocks ⟨[⟨1, 2⟩, ⟨5, 4⟩], 10, 6⟩ 3).2.freeBlocks + 3 = 6
      ∧ (allocateBlocks ⟨[⟨1, 2⟩, ⟨5, 4⟩], 10, 6⟩ 3).2.totalBlocks = 10
      ∧ ∀ b, inSegments (allocateBlocks ⟨[⟨1, 2⟩, ⟨5, 4⟩], 10, 6⟩ 3).2.freeSegments b
          ↔ inSegments (⟨[⟨1, 2⟩, ⟨5, 4⟩], 10, 6⟩ : FreeSpaceManager).freeSegments b
            ∧ b ∉ List.range' seg.startBlock 3 :=
  (first_fit_allocation ⟨[⟨1, 2⟩, ⟨5, 4⟩], 10, 6⟩ (by decide) 3).1
    ⟨by decide, ⟨5, 4⟩, by decide, by decide⟩

/-! ## The AVL tree as an ordered index -/

namespace AVLNode

variable {T : Type}

theorem entries_updateHeight (n : AVLNode T) : (updateHeight n).entries = n.entries := by
  cases n <;> rfl

theorem entries_rotateRight (n : AVLNode T) : (rotateRight n).entries = n.entries := by
  cases n with
  | nil => rfl
  | node yv yd yl yr yh =>
    cases yl with
    | nil => rfl
    | node xv xd xl t2 xh =>
      simp only [rotateRight, entries_updateHeight, entries, List.append_assoc]

theorem entries_rotateLeft (n : AVLNode T) : (rotateLeft n).entries = n.entries := by
  cases n with
  | nil => rfl
  | node xv xd xl xr xh =>
    cases xr with
    | nil => rfl
    | node yv yd t2 yr yh =>
      simp only [rotateLeft, entries_updateHeight, entries, List.append_assoc]

theorem entries_rebalanceInsert (value : List Char) (n : AVLNode T) :
    (rebalanceInsert value n).entries = n.entries := by
  cases n with
  | nil => rfl
  | node v d l r h =>
    simp only [rebalanceInsert]
    split
    · exact entries_rotateRight _
    · split
      · exact entries_rotateLeft _
      · split
        · rw [entries_rotateRight]
          simp only [entries, entries_rotateLeft]
        · split
          · rw [entries_rotateLeft]
            simp only [entries, entries_rotateRight]
          · rfl

theorem entries_rebalanceDelete (n : AVLNode T) : (rebalanceDelete n).entries = n.entries := by
  cases n with
  | nil => rfl
  | node v d l r h =>
    simp only [rebalanceDelete]
    split
    · exact entries_rotateRight _
    · split
      · rw [entries_rotateRight]
        simp only [entries, entries_rotateLeft]
      · split
        · exact entries_rotateLeft _
        · split
          · rw [entries_rotateLeft]
            simp only [entries, entries_rotateRight]
          · rfl

theorem ordered_node {v : List Char} {d : T} {l r : AVLNode T} {h : Int} :
    (node v d l r h).Ordered ↔
      l.Ordered ∧ r.Ordered ∧ (∀ a ∈ l.entries, a.1 < v) ∧ (∀ b ∈ r.entries, v < b.1) := by
  unfold Ordered
  simp only [entries, List.append_assoc, List.singleton_append, List.pairwise_append,
    List.pairwise_cons, List.mem_cons]
  constructor
  · rintro ⟨hl, ⟨hv, hr⟩, hlr⟩
    exact ⟨hl, hr, fun a ha => hlr a ha _ (Or.inl rfl), hv⟩
  · rintro ⟨hl, hr, hlv, hvr⟩
    refine ⟨hl, ⟨hvr, hr⟩, ?_⟩
    intro a ha b hb
    rcases hb with hb | hb
    · rw [hb]
      exact hlv a ha
    · exact lt_trans (hlv a ha) (hvr b hb)

theorem mem_entries_node {v : List Char} {d : T} {l r : AVLNode T} {h : Int}
    (e : List Char × T) :
    e ∈ (node v d l r h).entries ↔ e ∈ l.entries ∨ e = (v, d) ∨ e ∈ r.entries := by
  simp only [entries, List.mem_append, List.mem_singleton, or_assoc]

theorem insertHelper_spec (k : List Char) (d : T) :
    ∀ t : AVLNode T, t.Ordered →
      (insertHelper t k d).Ordered
      ∧ ∀ e, e ∈ (insertHelper t k d).entries ↔ e = (k, d) ∨ (e ∈ t.entries ∧ e.1 ≠ k) := by
  intro t
  induction t with
  | nil =>
    intro _
    refine ⟨?_, ?_⟩
    · simp [insertHelper, Ordered, entries]
    · intro e
      simp [insertHelper, entries]
  | node v dv l r h ihl ihr =>
    intro ho
    obtain ⟨hl, hr, hlv, hvr⟩ := ordered_node.mp ho
    by_cases h1 : k < v
    · obtain ⟨il, ml⟩ := ihl hl
      have hent : (insertHelper (node v dv l r h) k d).entries
          = (node v dv (insertHelper l k d) r h).entries := by
        simp only [insertHelper, if_pos h1, entries_rebalanceInsert, entries_updateHeight]
      unfold Ordered
      rw [hent]
      refine ⟨ordered_node.mpr ⟨il, hr, ?_, hvr⟩, ?_⟩
      · intro a ha
        rcases (ml a).mp ha with h | h
        · rw [h]
          exact h1
        · exact hlv a h.1
      · intro e
        rw [mem_entries_node, mem_entries_node, ml e]
        constructor
        · rintro ((h | h) | h | h)
          · exact Or.inl h
          · exact Or.inr ⟨Or.inl h.1, h.2⟩
          · exact Or.inr ⟨Or.inr (Or.inl h), by rw [h]; exact (ne_of_lt h1).symm⟩
          · exact Or.inr ⟨Or.inr (Or.inr h), (ne_of_lt (lt_trans h1 (hvr e h))).symm⟩
        · rintro (h | ⟨h | h | h, hne⟩)
          · exact Or.inl (Or.inl h)
          · exact Or.inl (Or.inr ⟨h, hne⟩)
          · exact Or.inr (Or.inl h)
          · exact Or.inr (Or.inr h)
    · by_cases h2 : k > v
      · obtain ⟨ir, mr⟩ := ihr hr
        have hent : (insertHelper (node v dv l r h) k d).entries
            = (node v dv l (insertHelper r k d) h).entries := by
          simp only [insertHelper, if_neg h1, if_pos h2, entries_rebalanceInsert,
            entries_updateHeight]
        unfold Ordered
        rw [hent]
        refine ⟨ordered_node.mpr ⟨hl, ir, hlv, ?_⟩, ?_⟩
        · intro b hb
          rcases (mr b).mp hb with h | h
          · rw [h]
            exact h2
          · exact hvr b h.1
        · intro e
          rw [mem_entries_node, mem_entries_node, mr e]
          constructor
          · rintro (h | h | h | h)
            · exact Or.inr ⟨Or.inl h, ne_of_lt (lt_trans (hlv e h) h2)⟩
            · exact Or.inr ⟨Or.inr (Or.inl h), by rw [h]; exact ne_of_lt h2⟩
            · exact Or.inl h
            · exact Or.inr ⟨Or.inr (Or.inr h.1), h.2⟩
          · rintro (h | ⟨h | h | h, hne⟩)
            · exact Or.inr (Or.inr (Or.inl h))
            · exact Or.inl h
            · exact Or.inr (Or.inl h)
            · exact Or.inr (Or.inr (Or.inr ⟨h, hne⟩))
      · have hkv : k = v := by
          rcases lt_trichotomy k v with h | h | h
          · exact absurd h h1
          · exact h
          · exact absurd h h2
        subst hkv
        have hent : (insertHelper (node k dv l r h) k d).entries
            = (node k d l r h).entries := by
          simp only [insertHelper, if_neg h1, if_neg h2]
        unfold Ordered
        rw [hent]
        refine ⟨ordered_node.mpr ⟨hl, hr, hlv, hvr⟩, ?_⟩
        intro e
        rw [mem_entries_node, mem_entries_node]
        constructor
        · rintro (h | h | h)
          · exact Or.inr ⟨Or.inl h, ne_of_lt (hlv e h)⟩
          · exact Or.inl h
          · exact Or.inr ⟨Or.inr (Or.inr h), (ne_of_lt (hvr e h)).symm⟩
        · rintro (h | ⟨h | h | h, hne⟩)
          · exact Or.inr (Or.inl h)
          · exact Or.inl h
          · exact absurd (by rw [h]) hne
          · exact Or.inr (Or.inr h)

theorem findMin_spec :
    ∀ (t : AVLNode T) (m : List Char × T), t.Ordered → findMin t = some m →
      m ∈ t.entries ∧ ∀ e ∈ t.entries, e = m ∨ m.1 < e.1 := by
  intro t
  induction t with
  | nil => intro m _ h; simp [findMin] at h
  | node v dv l r h ihl _ =>
    intro m ho hm
    obtain ⟨hl, hr, hlv, hvr⟩ := ordered_node.mp ho
    simp only [findMin] at hm
    cases hfl : findMin l with
    | some ml =>
      rw [hfl] at hm
      simp only [Option.some.injEq] at hm
      subst hm
      obtain ⟨h1, h2⟩ := ihl ml hl hfl
      refine ⟨(mem_entries_node _).mpr (Or.inl h1), ?_⟩
      intro e he
      rcases (mem_entries_node e).mp he with h | h | h
      · exact h2 e h
      · right
        rw [h]
        exact hlv ml h1
      · right
        exact lt_trans (hlv ml h1) (hvr e h)
    | none =>
      rw [hfl] at hm
      simp only [Option.some.injEq] at hm
      subst hm
      have hlnil : l.entries = [] := by
        cases l with
        | nil => rfl
        | node lv ld ll lr lh =>
          simp only [findMin] at hfl
          split at hfl <;> cases hfl
      refine ⟨(mem_entries_node _).mpr (Or.inr (Or.inl rfl)), ?_⟩
      intro e he
      rcases (mem_entries_node e).mp he with h | h | h
      · rw [hlnil] at h
        cases h
      · exact Or.inl h
      · exact Or.inr (hvr e h)

theorem findMin_node_ne_none (v : List Char) (d : T) (l r : AVLNode T) (h : Int) :
    findMin (node v d l r h) ≠ none := by
  simp only [findMin]
  split <;> simp

theorem deleteHelper_spec :
    ∀ (t : AVLNode T) (k : List Char), t.Ordered →
      (deleteHelper t k).Ordered
      ∧ ∀ e, e ∈ (deleteHelper t k).entries ↔ e ∈ t.entries ∧ e.1 ≠ k := by
  intro t
  induction t with
  | nil =>
    intro k _
    refine ⟨?_, ?_⟩
    · simp [deleteHelper, Ordered, entries]
    · intro e
      simp [deleteHelper, entries]
  | node v dv l r h ihl ihr =>
    intro k ho
    obtain ⟨hl, hr, hlv, hvr⟩ := ordered_node.mp ho
    by_cases h1 : k < v
    · obtain ⟨il, ml⟩ := ihl k hl
      have hent : (deleteHelper (node v dv l r h) k).entries
          = (node v dv (deleteHelper l k) r h).entries := by
        cases l <;> cases r <;>
          simp only [deleteHelper, if_pos h1, entries_rebalanceDelete, entries_updateHeight]
      unfold Ordered
      rw [hent]
      refine ⟨ordered_node.mpr ⟨il, hr, fun a ha => hlv a ((ml a).mp ha).1, hvr⟩, ?_⟩
      intro e
      rw [mem_entries_node, mem_entries_node, ml e]
      constructor
      · rintro (h | h | h)
        · exact ⟨Or.inl h.1, h.2⟩
        · exact ⟨Or.inr (Or.inl h), by rw [h]; exact (ne_of_lt h1).symm⟩
        · exact ⟨Or.inr (Or.inr h), (ne_of_lt (lt_trans h1 (hvr e h))).symm⟩
      · rintro ⟨h | h | h, hne⟩
        · exact Or.inl ⟨h, hne⟩
        · exact Or.inr (Or.inl h)
        · exact Or.inr (Or.inr h)
    · by_cases h2 : k > v
      · obtain ⟨ir, mr⟩ := ihr k hr
        have hent : (deleteHelper (node v dv l r h) k).entries
            = (node v dv l (deleteHelper r k) h).entries := by
          cases l <;> cases r <;>
            simp only [deleteHelper, if_neg h1, if_pos h2, entries_rebalanceDelete,
              entries_updateHeight]
        unfold Ordered
        rw [hent]
        refine ⟨ordered_node.mpr ⟨hl, ir, hlv, fun b hb => hvr b ((mr b).mp hb).1⟩, ?_⟩
        intro e
        rw [mem_entries_node, mem_entries_node, mr e]
        constructor
        · rintro (h | h | h)
          · exact ⟨Or.inl h, ne_of_lt (lt_trans (hlv e h) h2)⟩
          · exact ⟨Or.inr (Or.inl h), by rw [h]; exact ne_of_lt h2⟩
          · exact ⟨Or.inr (Or.inr h.1), h.2⟩
        · rintro ⟨h | h | h, hne⟩
          · exact Or.inl h
          · exact Or.inr (Or.inl h)
          · exact Or.inr (Or.inr ⟨h, hne⟩)
      · have hkv : k = v := by
          rcases lt_trichotomy k v with h | h | h
          · exact absurd h h1
          · exact h
          · exact absurd h h2
        subst hkv
        cases l with
        | nil =>
          cases r with
          | nil =>
            refine ⟨?_, ?_⟩
            · simp [deleteHelper, Ordered, entries]
            · intro e
              simp only [deleteHelper, if_neg h1, if_neg h2, entries, List.nil_append,
                List.append_nil, List.mem_singleton, List.not_mem_nil, false_iff, not_and,
                not_not]
              intro h
              rw [h]
          | node rv rd rl rr rh =>
            have hent : (deleteHelper (node k dv nil (node rv rd rl rr rh) h) k).entries
                = (node rv rd rl rr rh).entries := by
              simp only [deleteHelper, if_neg h1, if_neg h2, entries_rebalanceDelete,
                entries_updateHeight]
            unfold Ordered
            rw [hent]
            refine ⟨hr, ?_⟩
            intro e
            rw [mem_entries_node (v := k)]
            constructor
            · intro h
              exact ⟨Or.inr (Or.inr h), (ne_of_lt (hvr e h)).symm⟩
            · rintro ⟨h | h | h, hne⟩
              · cases h
              · exact absurd (by rw [h]) hne
              · exact h
        | node lv ld ll lr lh =>
          cases r with
          | nil =>
            have hent : (deleteHelper (node k dv (node lv ld ll lr lh) nil h) k).entries
                = (node lv ld ll lr lh).entries := by
              simp only [deleteHelper, if_neg h1, if_neg h2, entries_rebalanceDelete,
                entries_updateHeight]
            unfold Ordered
            rw [hent]
            refine ⟨hl, ?_⟩
            intro e
            rw [mem_entries_node (v := k)]
            constructor
            · intro h
              exact ⟨Or.inl h, ne_of_lt (hlv e h)⟩
            · rintro ⟨h | h | h, hne⟩
              · exact h
              · exact absurd (by rw [h]) hne
              · cases h
          | node rv rd rl rr rh =>
            cases hm : findMin (node rv rd rl rr rh) with
            | none => exact absurd hm (findMin_node_ne_none _ _ _ _ _)
            | some m =>
              obtain ⟨mv, md⟩ := m
              obtain ⟨hm1, hm2⟩ := findMin_spec _ _ hr hm
              obtain ⟨ir, mr⟩ := ihr mv hr
              have hent : (deleteHelper
                  (node k dv (node lv ld ll lr lh) (node rv rd rl rr rh) h) k).entries
                  = (node mv md (node lv ld ll lr lh)
                      (deleteHelper (node rv rd rl rr rh) mv) h).entries := by
                simp only [deleteHelper, if_neg h1, if_neg h2, hm, entries_rebalanceDelete,
                  entries_updateHeight]
              have hkm : k < mv := hvr _ hm1
              unfold Ordered
              rw [hent]
              refine ⟨ordered_node.mpr ⟨hl, ir, fun a ha => lt_trans (hlv a ha) hkm, ?_⟩, ?_⟩
              · intro b hb
                obtain ⟨hb1, hb2⟩ := (mr b).mp hb
                rcases hm2 b hb1 with h | h
                · exact absurd (by rw [h]) hb2
                · exact h
              · intro e
                rw [mem_entries_node, mem_entries_node (v := k), mr e]
                constructor
                · rintro (h | h | h)
                  · exact ⟨Or.inl h, ne_of_lt (hlv e h)⟩
                  · exact ⟨Or.inr (Or.inr (h ▸ hm1)), by rw [h]; exact (ne_of_lt hkm).symm⟩
                  · exact ⟨Or.inr (Or.inr h.1), (ne_of_lt (hvr e h.1)).symm⟩
                · rintro ⟨h | h | h, hne⟩
                  · exact Or.inl h
                  · exact absurd (by rw [h]) hne
                  · rcases hm2 e h with h3 | h3
                    · exact Or.inr (Or.inl h3)
                    · exact Or.inr (Or.inr ⟨h, (ne_of_lt h3).symm⟩)

theorem searchHelper_spec (k : List Char) :
    ∀ (t : AVLNode T) (d : T), t.Ordered →
      (searchHelper t k = some d ↔ (k, d) ∈ t.entries) := by
  intro t
  induction t with
  | nil => intro d _; simp [searchHelper, entries]
  | node v dv l r h ihl ihr =>
    intro d ho
    obtain ⟨hl, hr, hlv, hvr⟩ := ordered_node.mp ho
    rw [mem_entries_node]
    simp only [searchHelper]
    by_cases h0 : v = k
    · subst h0
      rw [if_pos rfl]
      constructor
      · intro h
        simp only [Option.some.injEq] at h
        rw [h]
        exact Or.inr (Or.inl rfl)
      · rintro (h | h | h)
        · exact absurd (hlv _ h) (lt_irrefl _)
        · simp only [Prod.mk.injEq, true_and] at h
          rw [h]
        · exact absurd (hvr _ h) (lt_irrefl _)
    · rw [if_neg h0]
      by_cases h1 : k < v
      · rw [if_pos h1, ihl d hl]
        constructor
        · exact Or.inl
        · rintro (h | h | h)
          · exact h
          · simp only [Prod.mk.injEq] at h
            exact absurd h.1.symm h0
          · exact absurd (lt_trans h1 (hvr _ h)) (lt_irrefl _)
      · rw [if_neg h1, ihr d hr]
        constructor
        · exact fun h => Or.inr (Or.inr h)
        · rintro (h | h | h)
          · exact absurd (hlv _ h) h1
          · simp only [Prod.mk.injEq] at h
            exact absurd h.1.symm h0
          · exact h

theorem entries_ext :
    ∀ l1 l2 : List (List Char × T), l1.Pairwise (fun a b => a.1 < b.1) →
      l2.Pairwise (fun a b => a.1 < b.1) → (∀ e, e ∈ l1 ↔ e ∈ l2) → l1 = l2 := by
  intro l1
  induction l1 with
  | nil =>
    intro l2 _ _ h
    cases l2 with
    | nil => rfl
    | cons b t => exact absurd ((h b).mpr (List.mem_cons_self _ _)) (List.not_mem_nil _)
  | cons a t ih =>
    intro l2 h1 h2 h
    cases l2 with
    | nil => exact absurd ((h a).mp (List.mem_cons_self _ _)) (List.not_mem_nil _)
    | cons b t2 =>
      obtain ⟨ha, ht⟩ := List.pairwise_cons.mp h1
      obtain ⟨hb, ht2⟩ := List.pairwise_cons.mp h2
      have hab : a = b := by
        rcases List.mem_cons.mp ((h a).mp (List.mem_cons_self _ _)) with e | e
        · exact e
        · rcases List.mem_cons.mp ((h b).mpr (List.mem_cons_self _ _)) with e2 | e2
          · exact e2.symm
          · exact absurd (lt_trans (ha b e2) (hb a e)) (lt_irrefl _)
      subst hab
      congr 1
      apply ih t2 ht ht2
      intro e
      constructor
      · intro he
        rcases List.mem_cons.mp ((h e).mp (List.mem_cons_of_mem _ he)) with e1 | e1
        · rw [e1] at he
          exact absurd (ha a he) (lt_irrefl _)
        · exact e1
      · intro he
        rcases List.mem_cons.mp ((h e).mpr (List.mem_cons_of_mem _ he)) with e1 | e1
        · rw [e1] at he
          exact absurd (hb a he) (lt_irrefl _)
        · exact e1

theorem inOrderHelper_eq (t : AVLNode T) : inOrderHelper t = t.entries.map Prod.snd := by
  induction t with
  | nil => rfl
  | node v d l r h ihl ihr =>
    simp only [inOrderHelper, entries, List.map_append, ihl, ihr, List.map_cons, List.map_nil]

end AVLNode

/-! ## The user index -/

theorem usersOK_empty : UsersOK AVLTree.empty := by
  constructor
  · simp [AVLTree.empty, AVLNode.Ordered, AVLNode.entries]
  · intro e he
    simp [AVLTree.empty, AVLNode.entries] at he

theorem usersOK_insert (t : AVLTree UserInfo) (k : List Char) (u : UserInfo)
    (h : UsersOK t) (hk : u.username = k) : UsersOK (t.insert k u) := by
  obtain ⟨h1, h2⟩ := AVLNode.insertHelper_spec k u t.root h.1
  refine ⟨h1, ?_⟩
  intro e he
  rcases (h2 e).mp he with h3 | h3
  · rw [h3]
    exact hk
  · exact h.2 e h3.1

theorem usersOK_remove (t : AVLTree UserInfo) (k : List Char) (h : UsersOK t) :
    UsersOK (t.remove k).2 := by
  unfold AVLTree.remove
  split
  · exact h
  · obtain ⟨h1, h2⟩ := AVLNode.deleteHelper_spec t.root k h.1
    exact ⟨h1, fun e he => h.2 e ((h2 e).mp he).1⟩

theorem foldl_invariant {α β : Type} (P : α → Prop) (f : α → β → α)
    (hf : ∀ a b, P a → P (f a b)) : ∀ (l : List β) (a : α), P a → P (l.foldl f a) := by
  intro l
  induction l with
  | nil => intro a h; exact h
  | cons x rest ih => intro a h; exact ih _ (hf a x h)

theorem usersOK_loadUsers (users : Nat → Option UserInfo) (n : Nat) :
    UsersOK (loadUsers users n) := by
  unfold loadUsers
  apply foldl_invariant UsersOK
  · intro t i ht
    split
    · split
      · exact usersOK_insert _ _ _ ht rfl
      · exact ht
    · exact ht
  · exact usersOK_empty

theorem fs_init_users (sz : RecordSizes) (sm sm1 : SessionManager) (disk : Option Container)
    (config : FileSystemConfig) (now : Nat) (code : OFSErrorCodes) (fs : OFSInstance)
    (h : fs_init sz sm disk config now = (code, sm1, some fs)) : UsersOK fs.users := by
  simp only [fs_init] at h
  split at h
  · cases h
  · split at h
    · cases h
    · simp only [Prod.mk.injEq, Option.some.injEq] at h
      rw [← h.2.2]
      exact usersOK_loadUsers _ _

/-- A name that fits the username field is stored whole. -/
theorem new_username_fit (username passwordHash : List Char) (role : UserRole)
    (created : Nat) (hfit : username.length ≤ UserInfo.usernameCapacity) :
    (UserInfo.new username passwordHash role created).username = username :=
  List.take_of_length_le hfit

theorem usersOK_user_create (fs : OFSInstance) (ms : Option ManagedSession)
    (username password : List Char) (role : UserRole) (now : Nat)
    (hfit : username.length ≤ UserInfo.usernameCapacity) (h : UsersOK fs.users) :
    UsersOK (user_create fs ms username password role now).2.users := by
  have hn := new_username_fit username (simple_hash password) role now hfit
  unfold user_create
  split
  · exact h
  · split
    · exact h
    · split
      · exact h
      · dsimp only
        split
        · exact usersOK_insert _ _ _ h hn
        · exact usersOK_remove _ _ (usersOK_insert _ _ _ h hn)

/-- The key order of the user index is kept by `user_create` with any name. -/
theorem ordered_user_create (fs : OFSInstance) (ms : Option ManagedSession)
    (username password : List Char) (role : UserRole) (now : Nat)
    (h : fs.users.root.Ordered) :
    (user_create fs ms username password role now).2.users.root.Ordered := by
  unfold user_create
  split
  · exact h
  · split
    · exact h
    · split
      · exact h
      · dsimp only
        have h1 := (AVLNode.insertHelper_spec username
          (UserInfo.new username (simple_hash password) role now) fs.users.root h).1
        split
        · exact h1
        · unfold AVLTree.remove
          split
          · exact h1
          · exact (AVLNode.deleteHelper_spec _ username h1).1

theorem usersOK_user_delete (fs : OFSInstance) (ms : Option ManagedSession)
    (username : List Char) (h : UsersOK fs.users) :
    UsersOK (user_delete fs ms username).2.users := by
  have hr := usersOK_remove fs.users username h
  unfold user_delete
  split
  · exact h
  · split
    · exact h
    · split
      · exact h
      · split
        · exact h
        · rename_i users1 heq
          rw [heq] at hr
          split <;> exact hr

/-- The key order of the user index is kept by `user_delete` with any name. -/
theorem ordered_user_delete (fs : OFSInstance) (ms : Option ManagedSession)
    (username : List Char) (h : fs.users.root.Ordered) :
    (user_delete fs ms username).2.users.root.Ordered := by
  have hr : (fs.users.remove username).2.root.Ordered := by
    unfold AVLTree.remove
    split
    · exact h
    · exact (AVLNode.deleteHelper_spec fs.users.root username h).1
  unfold user_delete
  split
  · exact h
  · split
    · exact h
    · split
      · exact h
      · split
        · exact h
        · rename_i users1 heq
          rw [heq] at hr
          split <;> exact hr

theorem usersOK_of_reachable {fs : OFSInstance} (h : UsersReachable fs) : UsersOK fs.users := by
  induction h with
  | mounted sz sm disk config now sm1 fs h => exact fs_init_users sz sm sm1 disk config now _ fs h
  | create fs ms username password role now hfit _ ih =>
    exact usersOK_user_create fs ms username password role now hfit ih
  | delete fs ms username _ ih => exact usersOK_user_delete fs ms username ih

theorem getAllSorted_names (t : AVLTree UserInfo) (h : UsersOK t) :
    t.getAllSorted.map (fun u => u.username) = t.root.entries.map Prod.fst := by
  unfold AVLTree.getAllSorted
  rw [AVLNode.inOrderHelper_eq, List.map_map]
  apply List.map_congr_left
  intro e he
  exact h.2 e he

theorem mem_getAllSorted (t : AVLTree UserInfo) (h : UsersOK t) (u : UserInfo) :
    u ∈ t.getAllSorted ↔ t.search u.username = some u := by
  unfold AVLTree.getAllSorted AVLTree.search
  rw [AVLNode.inOrderHelper_eq, AVLNode.searchHelper_spec _ _ _ h.1, List.mem_map]
  constructor
  · rintro ⟨e, he, rfl⟩
    have := h.2 e he
    rw [this]
    exact he
  · intro he
    exact ⟨_, he, rfl⟩

/-- C28 as the code has it: in every instance reached from a mount by `user_create` calls
whose username fits the username field of the user record and by `user_delete` calls (with
any other arguments, successful or not), `user_list` called by an administrator answers
`SUCCESS` with the records of the user index; their user names are in strictly ascending
lexicographic order (so each occurs once), and a record is in the list exactly when the
index holds it under its name. -/
theorem user_list_sorted (fs : OFSInstance) (h : UsersReachable fs) (s : ManagedSession)
    (hs : s.hasInstance = true) (hadmin : s.info.user.role = UserRole.ADMIN) :
    user_list fs (some s) = (OFSErrorCodes.SUCCESS, fs.users.getAllSorted)
    ∧ (fs.users.getAllSorted.map (fun u => u.username)).Pairwise (fun a b => a < b)
    ∧ ∀ u, u ∈ fs.users.getAllSorted ↔ fs.users.search u.username = some u := by
  have hok := usersOK_of_reachable h
  refine ⟨?_, ?_, mem_getAllSorted fs.users hok⟩
  · simp [user_list, sessionUsable, hs, hadmin]
  · rw [getAllSorted_names fs.users hok, List.pairwise_map]
    exact hok.1

set_option maxRecDepth 100000 in
/-- Witness for the amended C28: the demo mount after `user_create("bob")`. -/
theorem user_list_sorted_witness :
    user_list fullUsersScenario.2 (some adminSession)
      = (OFSErrorCodes.SUCCESS, fullUsersScenario.2.users.getAllSorted)
    ∧ (fullUsersScenario.2.users.getAllSorted.map (fun u => u.username)).Pairwise
        (fun a b => a < b)
    ∧ ∀ u, u ∈ fullUsersScenario.2.users.getAllSorted
        ↔ fullUsersScenario.2.users.search u.username = some u :=
  user_list_sorted fullUsersScenario.2
    (UsersReachable.create demoMount (some adminSession) "bob".toList "pw".toList
      UserRole.NORMAL 6 (by decide)
      (UsersReachable.mounted demoSizes noSessions
        (fs_format demoSizes "a.omni".toList true none demoConfig 5).2 demoConfig 5
        demoRegistry demoMount rfl))
    adminSession rfl rfl

set_option maxRecDepth 100000 in
/-- C28, the sentence as written fails: with three user slots the administrator creates two
users whose names are one character longer than the username field and differ in that last
character only.  Both calls answer `SUCCESS`, the index holds two keys, and `user_list`
returns the administrator and two records with the same username: the usernames are not
in strictly ascending order and one of them occurs twice. -/
theorem long_names_listed_twice :
    longNameB ≠ longNameC
    ∧ longNamesScenario1.1 = OFSErrorCodes.SUCCESS
    ∧ longNamesScenario2.1 = OFSErrorCodes.SUCCESS
    ∧ (user_list longNamesScenario2.2 (some adminSession)).1 = OFSErrorCodes.SUCCESS
    ∧ (user_list longNamesScenario2.2 (some adminSession)).2.map (fun u => u.username)
        = ["admin".toList, List.replicate UserInfo.usernameCapacity 'u',
            List.replicate UserInfo.usernameCapacity 'u']
    ∧ ¬ ((user_list longNamesScenario2.2 (some adminSession)).2.map
          (fun u => u.username)).Pairwise (fun a b => a < b) := by
  refine ⟨?_, ?_, ?_, ?_, ?_, ?_⟩ <;> decide

theorem findFreeUserSlot_full (users : Nat → Option UserInfo) :
    ∀ (remaining i : Nat),
      (∀ j, i ≤ j → j < i + remaining →
        (users j).elim false (fun u => u.is_active && !u.username.isEmpty) = true) →
      findFreeUserSlot users remaining i = none := by
  intro remaining
  induction remaining with
  | zero => intro i _; rfl
  | succ n ih =>
    intro i h
    have hi := h i (Nat.le_refl _) (by omega)
    simp only [findFreeUserSlot]
    cases hu : users i with
    | none => rw [hu] at hi; cases hi
    | some u =>
      rw [hu] at hi
      simp only [Option.elim, Bool.and_eq_true, Bool.not_eq_true', List.isEmpty_eq_false] at hi
      have hne : ¬ (u.is_active = false ∨ u.username = []) := by
        intro hc
        rcases hc with hc | hc
        · rw [hi.1] at hc
          cases hc
        · exact hi.2 hc
      simp only [Option.getD_some, if_neg hne]
      exact ih (i + 1) (fun j h1 h2 => h j (by omega) (by omega))

theorem search_congr (t1 t2 : AVLNode UserInfo) (h1 : t1.Ordered) (h2 : t2.Ordered)
    (he : t1.entries = t2.entries) (k : List Char) :
    t1.searchHelper k = t2.searchHelper k := by
  apply Option.ext
  intro d
  rw [Option.mem_def, Option.mem_def, AVLNode.searchHelper_spec k t1 d h1,
    AVLNode.searchHelper_spec k t2 d h2, he]

theorem insert_remove_entries (t : AVLTree UserInfo) (k : List Char) (u : UserInfo)
    (ho : t.root.Ordered) (hk : t.search k = none) :
    ((t.insert k u).remove k).2.root.Ordered
    ∧ ((t.insert k u).remove k).2.root.entries = t.root.entries := by
  obtain ⟨h1, h2⟩ := AVLNode.insertHelper_spec k u t.root ho
  have hfind : (t.insert k u).search k = some u := by
    unfold AVLTree.search AVLTree.insert
    rw [AVLNode.searchHelper_spec k _ u h1]
    exact (h2 (k, u)).mpr (Or.inl rfl)
  obtain ⟨h3, h4⟩ := AVLNode.deleteHelper_spec (t.insert k u).root k h1
  have hrem : ((t.insert k u).remove k).2 = ⟨(t.insert k u).root.deleteHelper k⟩ := by
    unfold AVLTree.remove
    rw [hfind]
  rw [hrem]
  refine ⟨h3, AVLNode.entries_ext _ _ h3 ho ?_⟩
  intro e
  rw [h4 e]
  show e ∈ (t.root.insertHelper k u).entries ∧ e.1 ≠ k ↔ _
  rw [h2 e]
  constructor
  · rintro ⟨h5 | h5, hne⟩
    · exact absurd (by rw [h5]) hne
    · exact h5.1
  · intro h5
    refine ⟨Or.inr ⟨h5, ?_⟩, ?_⟩ <;>
    · intro hek
      have : t.search k = some e.2 := by
        unfold AVLTree.search
        rw [AVLNode.searchHelper_spec k _ _ ho, ← hek]
        exact h5
      rw [hk] at this
      cases this

/-- C27: for every administrator session and every instance whose user index is a search
tree: `user_create` with a name that the index already holds answers `ERROR_FILE_EXISTS`
and leaves the whole instance (index and on-disk user table included) unchanged; and with
a new name, when every one of the `max_users` slots of the on-disk table holds an active
record with a name, it answers `ERROR_NO_SPACE`, the index lists and finds the same
records as before and the container is unchanged. -/
theorem user_create_failure_cases (fs : OFSInstance) (s : ManagedSession)
    (username password : List Char) (role : UserRole) (now : Nat)
    (hs : s.hasInstance = true) (hadmin : s.info.user.role = UserRole.ADMIN)
    (hok : fs.users.root.Ordered) :
    ((fs.users.search username).isSome = true →
      user_create fs (some s) username password role now
        = (OFSErrorCodes.ERROR_FILE_EXISTS, fs))
    ∧ (fs.users.search username = none →
      (∀ i, i < fs.header.max_users →
        (fs.omni_file.users i).elim false (fun u => u.is_active && !u.username.isEmpty)
          = true) →
      (user_create fs (some s) username password role now).1 = OFSErrorCodes.ERROR_NO_SPACE
      ∧ (user_create fs (some s) username password role now).2.users.getAllSorted
          = fs.users.getAllSorted
      ∧ (∀ name, (user_create fs (some s) username password role now).2.users.search name
          = fs.users.search name)
      ∧ (user_create fs (some s) username password role now).2.omni_file = fs.omni_file) := by
  have hsess : sessionUsable (some s) = some s := by simp [sessionUsable, hs]
  constructor
  · intro hdup
    simp [user_create, hsess, hadmin, hdup]
  · intro hnew hfull
    have hslot := findFreeUserSlot_full fs.omni_file.users fs.header.max_users 0
      (fun j _ h2 => hfull j (by omega))
    have hres : user_create fs (some s) username password role now
        = (OFSErrorCodes.ERROR_NO_SPACE,
            { fs with users := ((fs.users.insert username
                (UserInfo.new username (simple_hash password) role now)).remove username).2 }) := by
      simp [user_create, hsess, hadmin, hnew, hslot]
    obtain ⟨h1, h2⟩ := insert_remove_entries fs.users username
      (UserInfo.new username (simple_hash password) role now) hok hnew
    rw [hres]
    refine ⟨rfl, ?_, ?_, rfl⟩
    · show AVLTree.getAllSorted _ = _
      unfold AVLTree.getAllSorted
      rw [AVLNode.inOrderHelper_eq, AVLNode.inOrderHelper_eq, h2]
    · intro name
      exact search_congr _ _ h1 hok h2 name

set_option maxRecDepth 100000 in
/-- Witness for C27: on the demo mount with both user slots taken (`admin`, `bob`),
`user_create("bob")` answers `ERROR_FILE_EXISTS` and `user_create("carol")` answers
`ERROR_NO_SPACE`. -/
theorem user_create_failure_cases_witness :
    user_create fullUsersScenario.2 (some adminSession) "bob".toList "x".toList
        UserRole.NORMAL 7 = (OFSErrorCodes.ERROR_FILE_EXISTS, fullUsersScenario.2)
    ∧ (user_create fullUsersScenario.2 (some adminSession) "carol".toList "x".toList
        UserRole.NORMAL 7).1 = OFSErrorCodes.ERROR_NO_SPACE
    ∧ (user_create fullUsersScenario.2 (some adminSession) "carol".toList "x".toList
        UserRole.NORMAL 7).2.users.getAllSorted = fullUsersScenario.2.users.getAllSorted :=
  ⟨(user_create_failure_cases fullUsersScenario.2 adminSession "bob".toList "x".toList
      UserRole.NORMAL 7 rfl rfl (by decide)).1 (by decide),
   ((user_create_failure_cases fullUsersScenario.2 adminSession "carol".toList "x".toList
      UserRole.NORMAL 7 rfl rfl (by decide)).2 (by decide) (by decide)).1,
   ((user_create_failure_cases fullUsersScenario.2 adminSession "carol".toList "x".toList
      UserRole.NORMAL 7 rfl rfl (by decide)).2 (by decide) (by decide)).2.1⟩

/-- C26: when the session table holds an active session of a user (the only active one
with that user name), a further `user_login` with that name and the right password answers
`SUCCESS` with the id of that session and leaves the session registry (table, count) and
the session index of the instance unchanged. -/
theorem login_is_idempotent (sm : SessionManager) (fs : OFSInstance)
    (username password : List Char) (now : Nat) (tbl : List ManagedSession)
    (user : UserInfo) (s : ManagedSession)
    (hg : sm.hasGlobalInstance = true) (htbl : sm.sessions = some tbl)
    (huser : fs.users.search username = some user)
    (hpw : simple_hash password = user.password_hash)
    (hs : s ∈ tbl.take sm.max_sessions) (hact : s.is_active = true)
    (hname : s.info.user.username = user.username)
    (huniq : ∀ s1 ∈ tbl.take sm.max_sessions, s1.is_active = true →
      s1.info.user.username = user.username → s1 = s) :
    (user_login sm fs username password now).1 = OFSErrorCodes.SUCCESS
    ∧ (user_login sm fs username password now).2.1 = sm
    ∧ (user_login sm fs username password now).2.2.1.sessions = fs.sessions
    ∧ (user_login sm fs username password now).2.2.2 = s.session_id := by
  have hfind : (tbl.take sm.max_sessions).find?
      (fun x => x.is_active && decide (x.info.user.username = user.username)) = some s := by
    cases hf : (tbl.take sm.max_sessions).find?
        (fun x => x.is_active && decide (x.info.user.username = user.username)) with
    | none =>
      have := List.find?_eq_none.mp hf s hs
      simp [hact, hname] at this
    | some s1 =>
      have hp := List.find?_some hf
      simp only [Bool.and_eq_true, decide_eq_true_eq] at hp
      rw [huniq s1 (List.mem_of_find?_eq_some hf) hp.1 hp.2]
  have hcs : SessionManager.createSession sm { user with last_login := now } fs.sessions now
      = (s.session_id, sm, fs.sessions) := by
    simp only [SessionManager.createSession, htbl, hfind]
  simp only [user_login, hg, huser, hpw, hcs, Bool.true_eq_false, if_false, ne_eq,
    not_true_eq_false]
  refine ⟨?_, ?_, ?_, ?_⟩ <;> trivial

set_option maxRecDepth 100000 in
/-- Witness for C26: after the administrator's login at clock value 7 a second login at
clock value 9 hands back the id `admin_7` and leaves the registry as it is. -/
theorem login_is_idempotent_witness :
    (user_login logoutScenario1.2.1 logoutScenario1.2.2.1 "admin".toList "admin123".toList
        9).1 = OFSErrorCodes.SUCCESS
    ∧ (user_login logoutScenario1.2.1 logoutScenario1.2.2.1 "admin".toList
        "admin123".toList 9).2.1 = logoutScenario1.2.1
    ∧ (user_login logoutScenario1.2.1 logoutScenario1.2.2.1 "admin".toList
        "admin123".toList 9).2.2.1.sessions = logoutScenario1.2.2.1.sessions
    ∧ (user_login logoutScenario1.2.1 logoutScenario1.2.2.1 "admin".toList
        "admin123".toList 9).2.2.2 = "admin_7".toList :=
  login_is_idempotent logoutScenario1.2.1 logoutScenario1.2.2.1 "admin".toList
    "admin123".toList 9 (logoutScenario1.2.1.sessions.getD [])
    ((logoutScenario1.2.2.1.users.search "admin".toList).getD UserInfo.zero)
    ((logoutScenario1.2.1.sessions.getD []).headD ManagedSession.empty)
    (by decide) (by decide) (by decide) (by decide) (by decide) (by decide) (by decide)
    (by decide)

/-! ## Sibling names -/

theorem uniqueNames_inv {i : NodeInfo} {cs : List TreeNode} (h : UniqueNames (.mk i cs)) :
    (cs.map (fun c => c.info.name)).Nodup ∧ ∀ c ∈ cs, UniqueNames c := by
  cases h with
  | mk _ _ h1 h2 => exact ⟨h1, h2⟩

theorem uniqueNames_children {t : TreeNode} (h : UniqueNames t) :
    (t.children.map (fun c => c.info.name)).Nodup ∧ ∀ c ∈ t.children, UniqueNames c := by
  cases t with
  | mk i cs => exact uniqueNames_inv h

theorem findChild_mem :
    ∀ (cs : List TreeNode) (p : List Char) (c : TreeNode), findChild cs p = some c →
      c ∈ cs ∧ c.info.name = p := by
  intro cs
  induction cs with
  | nil => intro p c h; cases h
  | cons a rest ih =>
    intro p c h
    simp only [findChild] at h
    split at h
    · rename_i ha
      simp only [Option.some.injEq] at h
      subst h
      exact ⟨List.mem_cons_self _ _, ha⟩
    · obtain ⟨h1, h2⟩ := ih p c h
      exact ⟨List.mem_cons_of_mem _ h1, h2⟩

theorem findChild_none_iff (cs : List TreeNode) (p : List Char) :
    findChild cs p = none ↔ p ∉ cs.map (fun c => c.info.name) := by
  induction cs with
  | nil => simp [findChild]
  | cons a rest ih =>
    simp only [findChild, List.map_cons, List.mem_cons, not_or]
    split
    · rename_i ha
      simp [ha]
    · rename_i ha
      rw [ih]
      constructor
      · intro h
        exact ⟨fun e => ha e.symm, h⟩
      · intro h
        exact h.2

theorem findChild_modifyChild_ne (g : TreeNode → TreeNode)
    (hg : ∀ c, (g c).info.name = c.info.name) :
    ∀ (cs : List TreeNode) (p q : List Char), p ≠ q →
      findChild (modifyChild g cs q) p = findChild cs p := by
  intro cs
  induction cs with
  | nil => intro p q _; rfl
  | cons c cs ih =>
    intro p q hpq
    by_cases hc : c.info.name = q
    · have hcp : ¬ c.info.name = p := fun e => hpq (e.symm.trans hc)
      simp only [modifyChild, if_pos hc, findChild, hg, if_neg hcp]
    · simp only [modifyChild, if_neg hc, findChild, ih p q hpq]

theorem names_modifyChild (g : TreeNode → TreeNode)
    (hg : ∀ c, (g c).info.name = c.info.name) :
    ∀ (cs : List TreeNode) (q : List Char),
      (modifyChild g cs q).map (fun c => c.info.name) = cs.map (fun c => c.info.name) := by
  intro cs
  induction cs with
  | nil => intro q; rfl
  | cons c cs ih =>
    intro q
    by_cases hc : c.info.name = q
    · simp [modifyChild, hc, hg]
    · simp [modifyChild, hc, ih]

theorem mem_modifyChild (g : TreeNode → TreeNode) :
    ∀ (cs : List TreeNode) (q : List Char) (x : TreeNode), x ∈ modifyChild g cs q →
      x ∈ cs ∨ ∃ c, findChild cs q = some c ∧ x = g c := by
  intro cs
  induction cs with
  | nil => intro q x h; cases h
  | cons c cs ih =>
    intro q x h
    by_cases hc : c.info.name = q
    · simp only [modifyChild, if_pos hc, List.mem_cons] at h
      rcases h with h | h
      · right
        exact ⟨c, by simp [findChild, hc], h⟩
      · left
        exact List.mem_cons_of_mem _ h
    · simp only [modifyChild, if_neg hc, List.mem_cons] at h
      rcases h with h | h
      · left
        rw [h]
        exact List.mem_cons_self _ _
      · rcases ih q x h with h1 | ⟨c1, h1, h2⟩
        · left
          exact List.mem_cons_of_mem _ h1
        · right
          exact ⟨c1, by simp [findChild, hc, h1], h2⟩

theorem removeChild_sublist :
    ∀ (cs : List TreeNode) (x : List Char), (removeChild cs x).Sublist cs := by
  intro cs
  induction cs with
  | nil => intro x; exact List.Sublist.refl _
  | cons c cs ih =>
    intro x
    simp only [removeChild]
    split
    · exact List.sublist_cons_self _ _
    · exact (ih x).cons₂ _

theorem findChild_removeChild_ne :
    ∀ (cs : List TreeNode) (p x : List Char), p ≠ x →
      findChild (removeChild cs x) p = findChild cs p := by
  intro cs
  induction cs with
  | nil => intro p x _; rfl
  | cons c cs ih =>
    intro p x hpx
    by_cases hc : c.info.name = x
    · have hcp : ¬ c.info.name = p := fun e => hpx (e.symm.trans hc)
      simp only [removeChild, if_pos hc, findChild, if_neg hcp]
    · simp only [removeChild, if_neg hc, findChild, ih p x hpx]

theorem findChild_removeChild_self :
    ∀ (cs : List TreeNode) (x : List Char), (cs.map (fun c => c.info.name)).Nodup →
      findChild (removeChild cs x) x = none := by
  intro cs
  induction cs with
  | nil => intro x _; rfl
  | cons c cs ih =>
    intro x hnd
    simp only [List.map_cons, List.nodup_cons] at hnd
    by_cases hc : c.info.name = x
    · simp only [removeChild, if_pos hc]
      rw [findChild_none_iff, ← hc]
      exact hnd.1
    · simp only [removeChild, if_neg hc, findChild]
      exact ih x hnd.2

theorem uniqueNames_find :
    ∀ (r : List (List Char)) (t n : TreeNode), UniqueNames t → findNodeParts t r = some n →
      UniqueNames n := by
  intro r
  induction r with
  | nil =>
    intro t n h hf
    simp only [findNodeParts, Option.some.injEq] at hf
    rw [← hf]
    exact h
  | cons p ps ih =>
    intro t n h hf
    simp only [findNodeParts] at hf
    cases hc : findChild t.children p with
    | none => rw [hc] at hf; cases hf
    | some c =>
      rw [hc] at hf
      exact ih c n ((uniqueNames_children h).2 c (findChild_mem _ _ _ hc).1) hf

theorem modifyAt_unique (f : TreeNode → TreeNode)
    (hf : ∀ c, (f c).info.name = c.info.name) :
    ∀ (route : List (List Char)) (t : TreeNode), UniqueNames t →
      (∀ n, findNodeParts t route = some n → UniqueNames n → UniqueNames (f n)) →
      UniqueNames (modifyAt f route t) := by
  intro route
  induction route with
  | nil =>
    intro t h hn
    exact hn t rfl h
  | cons p ps ih =>
    intro t h hn
    cases t with
    | mk i cs =>
      obtain ⟨h1, h2⟩ := uniqueNames_inv h
      simp only [modifyAt]
      refine UniqueNames.mk _ _ ?_ ?_
      · rw [names_modifyChild _ (modifyAt_name f hf ps)]
        exact h1
      · intro x hx
        rcases mem_modifyChild _ cs p x hx with hx1 | ⟨c, hc, hx1⟩
        · exact h2 x hx1
        · rw [hx1]
          refine ih c (h2 c (findChild_mem _ _ _ hc).1) ?_
          intro n hfn hun
          refine hn n ?_ hun
          simp only [findNodeParts, TreeNode.children, hc]
          exact hfn

theorem attach_unique (i : NodeInfo) (n c : TreeNode) (hn : UniqueNames n)
    (hc : UniqueNames c) (hnew : findChild n.children c.info.name = none) :
    UniqueNames (.mk i (n.children ++ [c])) := by
  obtain ⟨h1, h2⟩ := uniqueNames_children hn
  refine UniqueNames.mk _ _ ?_ ?_
  · rw [List.map_append, List.nodup_append]
    refine ⟨h1, by simp, ?_⟩
    intro a ha hb
    simp only [List.map_cons, List.map_nil, List.mem_singleton] at hb
    rw [hb] at ha
    exact (findChild_none_iff _ _).mp hnew ha
  · intro x hx
    rcases List.mem_append.mp hx with hx | hx
    · exact h2 x hx
    · rw [List.mem_singleton.mp hx]
      exact hc

theorem detach_unique (i : NodeInfo) (n : TreeNode) (x : List Char) (hn : UniqueNames n) :
    UniqueNames (.mk i (removeChild n.children x)) := by
  obtain ⟨h1, h2⟩ := uniqueNames_children hn
  refine UniqueNames.mk _ _ ?_ ?_
  · exact List.Nodup.sublist ((removeChild_sublist _ x).map _) h1
  · intro c hc
    exact h2 c ((removeChild_sublist _ x).subset hc)

theorem findNodeParts_detach (g : TreeNode → TreeNode) (x : List Char)
    (hgname : ∀ c, (g c).info.name = c.info.name)
    (hgch : ∀ c, (g c).children = removeChild c.children x) :
    ∀ (r0 r : List (List Char)) (t n1 : TreeNode), UniqueNames t →
      findNodeParts (modifyAt g r0 t) r = some n1 →
      ∃ n, findNodeParts t r = some n
        ∧ ∀ y, y ∈ n1.children.map (fun c => c.info.name) →
            y ∈ n.children.map (fun c => c.info.name) := by
  intro r0
  induction r0 with
  | nil =>
    intro r t n1 hu h
    simp only [modifyAt] at h
    cases r with
    | nil =>
      simp only [findNodeParts, Option.some.injEq] at h
      refine ⟨t, rfl, ?_⟩
      intro y hy
      rw [← h, hgch t] at hy
      exact ((removeChild_sublist _ x).map _).subset hy
    | cons p ps =>
      simp only [findNodeParts, hgch t] at h
      by_cases hpx : p = x
      · rw [hpx, findChild_removeChild_self _ x (uniqueNames_children hu).1] at h
        cases h
      · rw [findChild_removeChild_ne _ p x hpx] at h
        refine ⟨n1, ?_, fun y hy => hy⟩
        simp only [findNodeParts]
        exact h
  | cons q qs ih =>
    intro r t n1 hu h
    cases t with
    | mk i cs =>
      obtain ⟨h1, h2⟩ := uniqueNames_inv hu
      simp only [modifyAt] at h
      cases r with
      | nil =>
        simp only [findNodeParts, Option.some.injEq] at h
        refine ⟨_, rfl, ?_⟩
        intro y hy
        rw [← h] at hy
        simp only [TreeNode.children] at hy ⊢
        rw [names_modifyChild _ (modifyAt_name g hgname qs)] at hy
        exact hy
      | cons p ps =>
        simp only [findNodeParts, TreeNode.children] at h ⊢
        by_cases hpq : p = q
        · subst hpq
          rw [findChild_modifyChild _ (modifyAt_name g hgname qs)] at h
          cases hc : findChild cs p with
          | none => rw [hc] at h; cases h
          | some c =>
            rw [hc] at h
            simp only [Option.map_some'] at h
            exact ih ps c n1 (h2 c (findChild_mem _ _ _ hc).1) h
        · rw [findChild_modifyChild_ne _ (modifyAt_name g hgname qs) cs p q hpq] at h
          exact ⟨n1, h, fun y hy => hy⟩

theorem findNodeParts_detach2 (g : TreeNode → TreeNode) (x : List Char)
    (r0 r : List (List Char)) (t n1 : TreeNode) (hu : UniqueNames t)
    (h : findNodeParts (modifyAt g r0 t) r = some n1)
    (hgname : ∀ c, (g c).info.name = c.info.name)
    (hgch : ∀ c, (g c).children = removeChild c.children x) :
    ∃ n, findNodeParts t r = some n
      ∧ ∀ y, y ∈ n1.children.map (fun c => c.info.name) →
          y ∈ n.children.map (fun c => c.info.name) :=
  findNodeParts_detach g x hgname hgch r0 r t n1 hu h

theorem findNode_route (t : FileTree) (path : List Char) :
    t.findNode path = findNodeParts t.root (routeOf path) := by
  rw [findNode_eq, routeOf_eq]

theorem createNode_unique (t : FileTree) (path : List Char) (isFile : Bool)
    (owner : List Char) (now : Nat) (t1 : FileTree) (node : List (List Char))
    (hu : UniqueNames t.root) (h : t.createNode path isFile owner now = some (t1, node)) :
    UniqueNames t1.root := by
  simp only [FileTree.createNode] at h
  split at h
  · cases h
  · split at h
    · cases h
    · split at h
      · cases h
      · rename_i parent hp
        split at h
        · cases h
        · split at h
          · cases h
          · rename_i hnone
            simp only [Option.some.injEq, Prod.mk.injEq] at h
            rw [← h.1]
            apply modifyAt_unique
            · intro c
              rfl
            · exact hu
            intro n hn hun
            rw [findNode_route, hn] at hp
            simp only [Option.some.injEq] at hp
            subst hp
            refine attach_unique _ n _ hun (UniqueNames.mk _ _ (by simp) (by simp)) ?_
            simpa using hnone

theorem deleteNode_unique (t : FileTree) (path : List Char) (t1 : FileTree)
    (hu : UniqueNames t.root) (h : t.deleteNode path = some t1) : UniqueNames t1.root := by
  simp only [FileTree.deleteNode] at h
  split at h
  · cases h
  · split at h
    · cases h
    · split at h
      · cases h
      · split at h
        · cases h
        · simp only [Option.some.injEq] at h
          rw [← h]
          apply modifyAt_unique
          · intro c
            rfl
          · exact hu
          intro n _ hun
          exact detach_unique _ n _ hun

theorem rename_unique (t : FileTree) (oldPath newPath : List Char) (now : Nat)
    (t1 : FileTree) (hu : UniqueNames t.root) (h : t.rename oldPath newPath now = some t1) :
    UniqueNames t1.root := by
  simp only [FileTree.rename] at h
  split at h
  · cases h
  · rename_i oldNode hold
    split at h
    · cases h
    · split at h
      · cases h
      · split at h
        · cases h
        · rename_i newParent hnp
          split at h
          · cases h
          · split at h
            · cases h
            · rename_i hnone
              split at h
              · cases h
              · simp only [Option.some.injEq] at h
                rw [← h]
                apply modifyAt_unique
                · intro c
                  rfl
                · apply modifyAt_unique
                  · intro c
                    rfl
                  · exact hu
                  intro n _ hun
                  exact detach_unique _ n _ hun
                intro n1 hn1 hun1
                obtain ⟨n, hn, hsub⟩ := findNodeParts_detach2 _ _ _ _ _ _ hu hn1
                  (fun c => rfl) (fun c => rfl)
                rw [findNode_route, hn] at hnp
                simp only [Option.some.injEq] at hnp
                subst hnp
                have hold2 : UniqueNames oldNode := by
                  rw [findNode_route] at hold
                  exact uniqueNames_find _ _ _ hu hold
                refine attach_unique _ n1 _ hun1 ?_ ?_
                · obtain ⟨h1, h2⟩ := uniqueNames_children hold2
                  exact UniqueNames.mk _ _ h1 h2
                · rw [findChild_none_iff]
                  intro hy
                  have := hsub _ hy
                  have hnone2 : findChild n.children (splitParentName newPath).2 = none := by
                    simpa using hnone
                  exact (findChild_none_iff _ _).mp hnone2 this

theorem uniqueNames_reaches {t : TreeNode} {r : List (List Char)} {n : TreeNode}
    (h : Reaches t r n) : UniqueNames t → UniqueNames n := by
  induction h with
  | here t => exact fun hu => hu
  | step t c n p ps hc _ _ ih => exact fun hu => ih ((uniqueNames_children hu).2 c hc)

theorem findNodeParts_of_reaches {t : TreeNode} {r : List (List Char)} {n : TreeNode}
    (h : Reaches t r n) : UniqueNames t → findNodeParts t r = some n := by
  induction h with
  | here t => exact fun _ => rfl
  | step t c n p ps hc hp _ ih =>
    intro hu
    obtain ⟨h1, h2⟩ := uniqueNames_children hu
    simp only [findNodeParts]
    cases hf : findChild t.children p with
    | none =>
      exfalso
      exact (findChild_none_iff _ _).mp hf (List.mem_map.mpr ⟨c, hc, hp⟩)
    | some c1 =>
      obtain ⟨hm, hn⟩ := findChild_mem _ _ _ hf
      have : c1 = c := List.inj_on_of_nodup_map h1 hm hc (hn.trans hp.symm)
      rw [this]
      exact ih (h2 c hc)

/-! ## Scattered allocation: all or nothing -/

theorem allocatedFrom_refl {m : FreeSpaceManager} (hwf : WellFormed m) :
    AllocatedFrom m 0 [] m :=
  ⟨rfl, List.nodup_nil, hwf, rfl, rfl, fun _ h => absurd h (List.not_mem_nil _),
   fun b => ⟨fun h => ⟨h, List.not_mem_nil _⟩, fun h => h.1⟩⟩

theorem allocatedFrom_trans {m0 m1 m2 : FreeSpaceManager} {a b : Nat} {A B : List Nat}
    (h1 : AllocatedFrom m0 a A m1) (h2 : AllocatedFrom m1 b B m2) :
    AllocatedFrom m0 (a + b) (A ++ B) m2 := by
  obtain ⟨a1, a2, a3, a4, a5, a6, a7⟩ := h1
  obtain ⟨b1, b2, b3, b4, b5, b6, b7⟩ := h2
  refine ⟨by rw [List.length_append, a1, b1], ?_, b3, b4.trans a4, by omega, ?_, ?_⟩
  · rw [List.nodup_append]
    refine ⟨a2, b2, ?_⟩
    intro x hxA hxB
    exact ((a7 x).mp (b6 x hxB)).2 hxA
  · intro x hx
    rcases List.mem_append.mp hx with hx | hx
    · exact a6 x hx
    · exact ((a7 x).mp (b6 x hx)).1
  · intro x
    rw [b7 x, a7 x, List.mem_append]
    tauto

theorem allocatedFrom_zero {m0 m1 : FreeSpaceManager} (hwf : WellFormed m0)
    (h : AllocatedFrom m0 0 [] m1) : m1 = m0 := by
  obtain ⟨_, _, a3, a4, a5, _, a7⟩ := h
  exact wellFormed_ext a3 hwf a4 (fun b => by rw [a7 b]; simp)

theorem allocateSingles_fail :
    ∀ (k : Nat) (fm : FreeSpaceManager) (acc : List Nat) (m0 : FreeSpaceManager),
      WellFormed m0 → AllocatedFrom m0 acc.length acc fm →
      (allocateSingles k fm acc).1 = [] → (allocateSingles k fm acc).2 = m0 := by
  intro k
  induction k with
  | zero =>
    intro fm acc m0 hwf hA h
    simp only [allocateSingles] at h ⊢
    subst h
    exact allocatedFrom_zero hwf hA
  | succ k ih =>
    intro fm acc m0 hwf hA h
    have hwfm : WellFormed fm := hA.2.2.1
    by_cases hfree : 1 ≤ fm.freeBlocks
    · obtain ⟨s, m1, he, hA1⟩ := allocateBlocks_one hwfm hfree
      simp only [allocateSingles, he] at h ⊢
      have hA2 := allocatedFrom_trans hA hA1
      have hlen : (acc ++ [s]).length = acc.length + 1 := by simp
      rw [← hlen] at hA2
      exact ih m1 (acc ++ [s]) m0 hwf hA2 h
    · have he : allocateBlocks fm 1 = ([], fm) := by
        rcases allocateBlocks_cases hwfm 1 with ⟨h1, _⟩ | ⟨pre, seg, post, hl, _, hle, _, _⟩
        · exact h1
        · exfalso
          have hsum : seg.blockCount ≤ segSum fm.freeSegments := by
            unfold segSum
            exact List.single_le_sum (fun _ _ => Nat.zero_le _) _
              (List.mem_map_of_mem (fun x : FreeSegment => x.blockCount) (by rw [hl]; simp))
          have := hwfm.2.2.2
          omega
      simp only [allocateSingles, he]
      cases acc with
      | nil => exact allocatedFrom_zero hwf hA
      | cons a rest => exact free_restores hwf hA

theorem allocateFileBlocks_fail {m : FreeSpaceManager} (hwf : WellFormed m) (n : Nat)
    (h : (allocateFileBlocks m n).1 = []) : (allocateFileBlocks m n).2 = m := by
  unfold allocateFileBlocks at h ⊢
  by_cases hn : n = 0
  · simp [hn]
  · simp only [if_neg hn] at h ⊢
    rcases allocateBlocks_cases hwf n with ⟨h1, _⟩ | ⟨pre, seg, post, hl, hn1, hle, _, h1⟩
    · rw [h1] at h ⊢
      exact allocateSingles_fail n m [] m hwf (allocatedFrom_refl hwf) h
    · rw [h1] at h ⊢
      cases hr : List.range' seg.startBlock n with
      | nil =>
        have := congrArg List.length hr
        simp at this
        omega
      | cons b bs =>
        rw [hr] at h
        simp at h

/-- C31: for every well-formed free-space manager and every `n`, `allocateFileBlocks(n)`
either returns exactly `n` (at least one) pairwise distinct non-zero ids, every one of them
free before the call and not free after it, with `freeBlocks` reduced by exactly `n` and
the free status of all other blocks unchanged; or it returns the empty list and the manager
(segment list, `freeBlocks`, `totalBlocks`) is exactly as before the call. -/
theorem scattered_all_or_nothing (m : FreeSpaceManager) (hwf : WellFormed m) (n : Nat) :
    (1 ≤ n ∧ (allocateFileBlocks m n).1.length = n
      ∧ (allocateFileBlocks m n).1.Nodup
      ∧ (∀ b ∈ (allocateFileBlocks m n).1, b ≠ 0 ∧ inSegments m.freeSegments b
          ∧ ¬ inSegments (allocateFileBlocks m n).2.freeSegments b)
      ∧ (∀ b, b ∉ (allocateFileBlocks m n).1 →
          (inSegments (allocateFileBlocks m n).2.freeSegments b ↔ inSegments m.freeSegments b))
      ∧ (allocateFileBlocks m n).2.freeBlocks + n = m.freeBlocks
      ∧ WellFormed (allocateFileBlocks m n).2)
    ∨ ((allocateFileBlocks m n).1 = [] ∧ (allocateFileBlocks m n).2 = m) := by
  rcases allocateFileBlocks_spec hwf n with ⟨h, _⟩ | ⟨hn, hA⟩
  · exact Or.inr ⟨h, allocateFileBlocks_fail hwf n h⟩
  · left
    obtain ⟨a1, a2, a3, a4, a5, a6, a7⟩ := hA
    refine ⟨hn, a1, a2, ?_, ?_, a5, a3⟩
    · intro b hb
      have hr := inSegments_range hwf (a6 b hb)
      refine ⟨by omega, a6 b hb, ?_⟩
      intro hin
      exact ((a7 b).mp hin).2 hb
    · intro b hb
      rw [a7 b]
      exact ⟨fun h => h.1, fun h => ⟨h, hb⟩⟩

/-- Witness for C31: two free segments of one block each; two blocks are handed out one by
one. -/
theorem scattered_all_or_nothing_witness :
    (1 ≤ 2 ∧ (allocateFileBlocks ⟨[⟨1, 1⟩, ⟨5, 1⟩], 8, 2⟩ 2).1.length = 2
      ∧ (allocateFileBlocks ⟨[⟨1, 1⟩, ⟨5, 1⟩], 8, 2⟩ 2).1.Nodup
      ∧ (∀ b ∈ (allocateFileBlocks ⟨[⟨1, 1⟩, ⟨5, 1⟩], 8, 2⟩ 2).1, b ≠ 0
          ∧ inSegments (⟨[⟨1, 1⟩, ⟨5, 1⟩], 8, 2⟩ : FreeSpaceManager).freeSegments b
          ∧ ¬ inSegments (allocateFileBlocks ⟨[⟨1, 1⟩, ⟨5, 1⟩], 8, 2⟩ 2).2.freeSegments b)
      ∧ (∀ b, b ∉ (allocateFileBlocks ⟨[⟨1, 1⟩, ⟨5, 1⟩], 8, 2⟩ 2).1 →
          (inSegments (allocateFileBlocks ⟨[⟨1, 1⟩, ⟨5, 1⟩], 8, 2⟩ 2).2.freeSegments b
            ↔ inSegments (⟨[⟨1, 1⟩, ⟨5, 1⟩], 8, 2⟩ : FreeSpaceManager).freeSegments b))
      ∧ (allocateFileBlocks ⟨[⟨1, 1⟩, ⟨5, 1⟩], 8, 2⟩ 2).2.freeBlocks + 2 = 2
      ∧ WellFormed (allocateFileBlocks ⟨[⟨1, 1⟩, ⟨5, 1⟩], 8, 2⟩ 2).2)
    ∨ ((allocateFileBlocks ⟨[⟨1, 1⟩, ⟨5, 1⟩], 8, 2⟩ 2).1 = []
      ∧ (allocateFileBlocks ⟨[⟨1, 1⟩, ⟨5, 1⟩], 8, 2⟩ 2).2 = ⟨[⟨1, 1⟩, ⟨5, 1⟩], 8, 2⟩) :=
  scattered_all_or_nothing ⟨[⟨1, 1⟩, ⟨5, 1⟩], 8, 2⟩ (by decide) 2

/-- C35: there are a well-formed manager (8 blocks, blocks 4 to 7 free) and id lists, one
repeating the allocated id 2 and one naming the free block 5, for which
`freeBlockSegments` raises `freeBlocks` by the full length of the list and leaves
duplicated or overlapping segments: `freeBlocks` then exceeds the number of distinct free
blocks, and two later `allocateBlocks` calls return the same id. -/
theorem double_free_undetected :
    ∃ (m : FreeSpaceManager) (ids1 ids2 : List Nat),
      WellFormed m
      ∧ ids1 = [2, 2] ∧ ids2 = [5] ∧ inSegments m.freeSegments 5
      ∧ (freeBlockSegments m ids1).freeBlocks = m.freeBlocks + ids1.length
      ∧ (freeBlockSegments m ids1).freeSegments = [⟨2, 1⟩, ⟨2, 1⟩, ⟨4, 4⟩]
      ∧ ((List.range m.totalBlocks).filter
          (fun b => decide (inSegments (freeBlockSegments m ids1).freeSegments b))).length
          < (freeBlockSegments m ids1).freeBlocks
      ∧ (allocateBlocks (freeBlockSegments m ids1) 1).1 = [2]
      ∧ (allocateBlocks (allocateBlocks (freeBlockSegments m ids1) 1).2 1).1 = [2]
      ∧ (freeBlockSegments m ids2).freeBlocks = m.freeBlocks + ids2.length
      ∧ (freeBlockSegments m ids2).freeSegments = [⟨4, 4⟩, ⟨5, 1⟩]
      ∧ ((List.range m.totalBlocks).filter
          (fun b => decide (inSegments (freeBlockSegments m ids2).freeSegments b))).length
          < (freeBlockSegments m ids2).freeBlocks
      ∧ (allocateBlocks (freeBlockSegments m ids2) 4).1 = [4, 5, 6, 7]
      ∧ (allocateBlocks (allocateBlocks (freeBlockSegments m ids2) 4).2 1).1 = [5] := by
  refine ⟨⟨[⟨4, 4⟩], 8, 4⟩, [2, 2], [5], ?_, rfl, rfl, ?_, ?_, ?_, ?_, ?_, ?_, ?_, ?_, ?_,
    ?_, ?_⟩ <;> decide

/-! ## A full session table, and the root aliases of `dir_delete` -/

theorem findFreeSlot_full {sm : SessionManager} {tbl : List ManagedSession}
    (ht : sm.sessions = some tbl)
    (hfull : ∀ s ∈ tbl.take sm.max_sessions, s.is_active = true) :
    SessionManager.findFreeSlot sm = none := by
  unfold SessionManager.findFreeSlot
  rw [ht]
  have h : (tbl.take sm.max_sessions).findIdx (fun s => !s.is_active)
      = (tbl.take sm.max_sessions).length := by
    rw [List.findIdx_eq_length]
    intro x hx
    simp [hfull x hx]
  simp only [h, lt_irrefl, if_false]

theorem findSessionIndex_empty_id {sm : SessionManager} {tbl : List ManagedSession}
    (ht : sm.sessions = some tbl)
    (hids : ∀ s ∈ tbl.take sm.max_sessions, s.is_active = true → s.session_id ≠ []) :
    SessionManager.findSessionIndex sm [] = none := by
  unfold SessionManager.findSessionIndex
  rw [ht]
  have h : (tbl.take sm.max_sessions).findIdx
      (fun s => s.is_active && decide (s.session_id = []))
      = (tbl.take sm.max_sessions).length := by
    rw [List.findIdx_eq_length]
    intro x hx
    cases ha : x.is_active with
    | false => simp
    | true => simp [hids x hx ha]
  simp only [h, lt_irrefl, if_false]

theorem createSession_full {sm : SessionManager} {tbl : List ManagedSession}
    (user : UserInfo) (idx : AVLTree SessionInfo) (now : Nat)
    (ht : sm.sessions = some tbl)
    (hfull : ∀ s ∈ tbl.take sm.max_sessions, s.is_active = true)
    (hnone : ∀ s ∈ tbl.take sm.max_sessions, s.info.user.username ≠ user.username) :
    SessionManager.createSession sm user idx now = ([], sm, idx) := by
  have hfind : (tbl.take sm.max_sessions).find?
      (fun s => s.is_active && decide (s.info.user.username = user.username)) = none := by
    rw [List.find?_eq_none]
    intro x hx
    simp [hnone x hx]
  unfold SessionManager.createSession
  simp only [ht, hfind, findFreeSlot_full ht hfull]

/-- Every id that `createSession` stores in the table is non-empty: an active slot keeps a
non-empty id when all active slots had one. -/
theorem createSession_ids_nonempty {sm : SessionManager} {tbl : List ManagedSession}
    (user : UserInfo) (idx : AVLTree SessionInfo) (now : Nat)
    (ht : sm.sessions = some tbl)
    (hids : ∀ s ∈ tbl, s.is_active = true → s.session_id ≠ []) :
    ∀ tbl1, (SessionManager.createSession sm user idx now).2.1.sessions = some tbl1 →
      ∀ s ∈ tbl1, s.is_active = true → s.session_id ≠ [] := by
  intro tbl1 h1
  unfold SessionManager.createSession at h1
  simp only [ht] at h1
  split at h1
  · rw [ht] at h1
    cases h1
    exact hids
  · split at h1
    · simp only [Option.some.injEq] at h1
      subst h1
      intro s hs hact
      rcases List.mem_or_eq_of_mem_set hs with h | h
      · exact hids s h hact
      · subst h
        simp
    · rw [ht] at h1
      cases h1
      exact hids

/-- C37: when every slot of the session table is active, no active session belongs to the
user and the password is right, `user_login` returns SUCCESS and hands back the empty
string as session id; the session table and the session index of the instance are
unchanged; `getSession` finds no session for the empty id (no active session has an empty
id), so that every session-taking operation answers ERROR_INVALID_SESSION, and so does
`user_logout`. -/
theorem login_with_full_table (sm : SessionManager) (fs : OFSInstance)
    (username password : List Char) (now : Nat) (tbl : List ManagedSession) (user : UserInfo)
    (hg : sm.hasGlobalInstance = true) (ht : sm.sessions = some tbl)
    (hfull : ∀ s ∈ tbl.take sm.max_sessions, s.is_active = true)
    (hids : ∀ s ∈ tbl.take sm.max_sessions, s.is_active = true → s.session_id ≠ [])
    (hu : fs.users.search username = some user)
    (hnone : ∀ s ∈ tbl.take sm.max_sessions, s.info.user.username ≠ user.username)
    (hp : simple_hash password = user.password_hash) :
    (user_login sm fs username password now).1 = OFSErrorCodes.SUCCESS
    ∧ (user_login sm fs username password now).2.2.2 = []
    ∧ (user_login sm fs username password now).2.1 = sm
    ∧ (user_login sm fs username password now).2.2.1.sessions = fs.sessions
    ∧ ∀ (t : Nat) (path path2 : List Char) (data : List Nat) (size index perms : Nat)
        (name pw : List Char) (role : UserRole) (count : Int),
      (SessionManager.getSession (user_login sm fs username password now).2.1
          (user_login sm fs username password now).2.2.2 t).1 = none
      ∧ (SessionManager.getSession (user_login sm fs username password now).2.1
          (user_login sm fs username password now).2.2.2 t).2 = sm
      ∧ (file_create (user_login sm fs username password now).2.2.1
          (SessionManager.getSession sm [] t).1 path (some data) size t).1
          = OFSErrorCodes.ERROR_INVALID_SESSION
      ∧ (file_read (user_login sm fs username password now).2.2.1
          (SessionManager.getSession sm [] t).1 path).map (fun r => r.1)
          = some OFSErrorCodes.ERROR_INVALID_SESSION
      ∧ (file_delete (user_login sm fs username password now).2.2.1
          (SessionManager.getSession sm [] t).1 path).map (fun r => r.1)
          = some OFSErrorCodes.ERROR_INVALID_SESSION
      ∧ file_exists (user_login sm fs username password now).2.2.1
          (SessionManager.getSession sm [] t).1 path = OFSErrorCodes.ERROR_INVALID_SESSION
      ∧ (file_rename (user_login sm fs username password now).2.2.1
          (SessionManager.getSession sm [] t).1 path path2 t).1
          = OFSErrorCodes.ERROR_INVALID_SESSION
      ∧ (file_edit (user_login sm fs username password now).2.2.1
          (SessionManager.getSession sm [] t).1 path data size index t).map (fun r => r.1)
          = some OFSErrorCodes.ERROR_INVALID_SESSION
      ∧ (file_truncate (user_login sm fs username password now).2.2.1
          (SessionManager.getSession sm [] t).1 path).map (fun r => r.1)
          = some OFSErrorCodes.ERROR_INVALID_SESSION
      ∧ (dir_create (user_login sm fs username password now).2.2.1
          (SessionManager.getSession sm [] t).1 path t).1 = OFSErrorCodes.ERROR_INVALID_SESSION
      ∧ (dir_list (user_login sm fs username password now).2.2.1
          (SessionManager.getSession sm [] t).1 path).1 = OFSErrorCodes.ERROR_INVALID_SESSION
      ∧ (dir_delete (user_login sm fs username password now).2.2.1
          (SessionManager.getSession sm [] t).1 path).1 = OFSErrorCodes.ERROR_INVALID_SESSION
      ∧ dir_exists (user_login sm fs username password now).2.2.1
          (SessionManager.getSession sm [] t).1 path = OFSErrorCodes.ERROR_INVALID_SESSION
      ∧ (set_permissions (user_login sm fs username password now).2.2.1
          (SessionManager.getSession sm [] t).1 path perms t).1
          = OFSErrorCodes.ERROR_INVALID_SESSION
      ∧ (get_stats (user_login sm fs username password now).2.2.1
          (SessionManager.getSession sm [] t).1 count).1 = OFSErrorCodes.ERROR_INVALID_SESSION
      ∧ (user_create (user_login sm fs username password now).2.2.1
          (SessionManager.getSession sm [] t).1 name pw role t).1
          = OFSErrorCodes.ERROR_INVALID_SESSION
      ∧ (user_delete (user_login sm fs username password now).2.2.1
          (SessionManager.getSession sm [] t).1 name).1 = OFSErrorCodes.ERROR_INVALID_SESSION
      ∧ (user_list (user_login sm fs username password now).2.2.1
          (SessionManager.getSession sm [] t).1).1 = OFSErrorCodes.ERROR_INVALID_SESSION
      ∧ (user_logout sm (user_login sm fs username password now).2.2.1 []).1
          = OFSErrorCodes.ERROR_INVALID_SESSION := by
  have hlogin : user_login sm fs username password now
      = (OFSErrorCodes.SUCCESS, sm,
          { fs with users := fs.users.modify username (fun u => { u with last_login := now }) },
          []) := by
    unfold user_login
    have hc := createSession_full { user with last_login := now } fs.sessions now ht hfull hnone
    simp only [hg, hu, hp, ne_eq, not_true_eq_false, if_false, Bool.true_eq_false, hc]
  have hidx := findSessionIndex_empty_id ht hids
  have hget : ∀ t, SessionManager.getSession sm [] t = (none, sm) := by
    intro t
    unfold SessionManager.getSession
    simp only [hidx]
  have hrem : ∀ idx, SessionManager.removeSession sm [] idx = (false, sm, idx) := by
    intro idx
    unfold SessionManager.removeSession
    simp only [hidx]
  rw [hlogin]
  refine ⟨rfl, rfl, rfl, rfl, ?_⟩
  intro t path path2 data size index perms name pw role count
  simp only [hget, hrem, file_create, file_read, file_delete, file_exists, file_rename,
    file_edit, file_truncate, dir_create, dir_list, dir_delete, dir_exists, set_permissions,
    get_stats, user_create, user_delete, user_list, user_logout, sessionUsable,
    Option.map_some', and_self]

set_option maxRecDepth 100000 in
/-- Witness for C37: one session slot, taken by the administrator; `bob` logs in. -/
theorem login_with_full_table_witness :
    (user_login fullSessions1.2.1 fullSessions2.2 "bob".toList "pw".toList 9).1
      = OFSErrorCodes.SUCCESS
    ∧ (user_login fullSessions1.2.1 fullSessions2.2 "bob".toList "pw".toList 9).2.2.2 = []
    ∧ (user_login fullSessions1.2.1 fullSessions2.2 "bob".toList "pw".toList 9).2.1
      = fullSessions1.2.1 :=
  have h := login_with_full_table fullSessions1.2.1 fullSessions2.2 "bob".toList "pw".toList 9
    (fullSessions1.2.1.sessions.getD [])
    (UserInfo.new "bob".toList (simple_hash "pw".toList) UserRole.NORMAL 8)
    (by decide) (by decide) (by decide) (by decide) (by decide) (by decide) (by decide)
  ⟨h.1, h.2.1, h.2.2.1⟩

/-- C38: `dir_delete` with the literal path `/` returns ERROR_INVALID_OPERATION and leaves
the instance, container included, as it was; for the empty path or `//`, which resolve to
the root, called by an administrator while the root is a directory without children whose
entry index is 1, `dir_delete` writes the root entry marked invalid into entry slot 1 of
the container and returns ERROR_IO_ERROR, with the in-memory tree, the counters and every
other field unchanged. -/
theorem dir_delete_root_aliases (fs : OFSInstance) (s : ManagedSession) (path : List Char)
    (hs : s.hasInstance = true) (hadmin : s.info.user.role = UserRole.ADMIN)
    (hpath : path = [] ∨ path = ['/', '/'])
    (hdir : fs.file_tree.root.info.isFile = false)
    (hch0 : fs.file_tree.root.children.isEmpty = true)
    (hidx : fs.file_tree.root.info.entryIndex = 1) :
    dir_delete fs (some s) ['/'] = (OFSErrorCodes.ERROR_INVALID_OPERATION, fs)
    ∧ dir_delete fs (some s) path
      = (OFSErrorCodes.ERROR_IO_ERROR,
          { fs with omni_file := (fs.omni_file.writeEntry 1
              ((fs.omni_file.entries 1).getD FileEntry.zero).markInvalid) })
    ∧ (dir_delete fs (some s) path).2.file_tree = fs.file_tree
    ∧ (dir_delete fs (some s) path).2.total_directories = fs.total_directories
    ∧ (dir_delete fs (some s) path).2.total_files = fs.total_files
    ∧ (dir_delete fs (some s) path).2.free_manager = fs.free_manager
    ∧ (((dir_delete fs (some s) path).2.omni_file.entries 1).map FileEntry.isValid
        = some false) := by
  have hch : fs.file_tree.root.children = [] := List.isEmpty_iff.mp hch0
  have hfind : fs.file_tree.findNode path = some fs.file_tree.root := by
    rcases hpath with h | h
    · subst h
      simp [FileTree.findNode]
    · subst h
      simp [FileTree.findNode, splitPath, splitPathLoop, findNodeParts]
  have hdel : fs.file_tree.deleteNode path = none := by
    unfold FileTree.deleteNode
    rcases hpath with h | h
    · subst h
      simp [FileTree.findNode, routeOf, hch]
    · subst h
      simp [FileTree.findNode, splitPath, splitPathLoop, findNodeParts, routeOf, hch]
  have hne : path ≠ ['/'] := by
    rcases hpath with h | h <;> subst h <;> simp
  have hmain : dir_delete fs (some s) path
      = (OFSErrorCodes.ERROR_IO_ERROR,
          { fs with omni_file := (fs.omni_file.writeEntry 1
              ((fs.omni_file.entries 1).getD FileEntry.zero).markInvalid) }) := by
    unfold dir_delete
    simp [sessionUsable, hs, hne, hfind, hdir, hch, notOwnerNorAdmin, hadmin, hidx, hdel]
  refine ⟨?_, hmain, ?_, ?_, ?_, ?_, ?_⟩
  · simp [dir_delete, sessionUsable, hs]
  · rw [hmain]
  · rw [hmain]
  · rw [hmain]
  · rw [hmain]
  · rw [hmain]
    simp [Container.writeEntry, FileEntry.markInvalid, FileEntry.isValid]

set_option maxRecDepth 100000 in
/-- Witness for C38: the administrator calls `dir_delete("//")` on the fresh demo mount. -/
theorem dir_delete_root_aliases_witness :
    rootAliasScenario.1 = OFSErrorCodes.ERROR_IO_ERROR
    ∧ rootAliasScenario.2.file_tree = demoMount.file_tree
    ∧ (demoMount.omni_file.entries 1).map FileEntry.isValid = some true
    ∧ (rootAliasScenario.2.omni_file.entries 1).map FileEntry.isValid = some false :=
  have h := dir_delete_root_aliases demoMount adminSession "//".toList (by decide) (by decide)
    (by decide) (by decide) (by decide) (by decide)
  ⟨congrArg Prod.fst h.2.1, h.2.2.1, by decide, h.2.2.2.2.2.2⟩

/-! ## `FileTree::createNode` -/

/-- The value of `createNode` for an absolute path: the cases of the source in one
equation. -/
theorem createNode_eq (t : FileTree) (path owner : List Char) (isFile : Bool) (now : Nat)
    (habs : path.head? = some '/') :
    t.createNode path isFile owner now
      = if path = ['/'] ∨ (splitParentName path).2 = [] then none
        else match t.findNode (splitParentName path).1 with
          | none => none
          | some parent =>
            if parent.info.isFile = true ∨
                (findChild parent.children (splitParentName path).2).isSome = true then none
            else some (⟨modifyAt (fun p => TreeNode.mk { p.info with modified_time := now }
                  (p.children ++ [TreeNode.mk
                    { name := (splitParentName path).2, isFile := isFile, entryIndex := 0,
                      startBlockIndex := 0, size := 0,
                      permissions := if isFile then 0o644 else 0o755, owner := owner,
                      created_time := now, modified_time := now } []]))
                  (routeOf (splitParentName path).1) t.root⟩,
                routeOf (splitParentName path).1 ++ [(splitParentName path).2]) := by
  have hslash := (splitParentName_spec path habs).1
  unfold FileTree.createNode
  by_cases h1 : path = ['/']
  · simp [h1]
  · simp only [if_neg h1, h1, false_or]
    by_cases h2 : (splitParentName path).2 = []
    · simp [h2]
    · simp only [h2, hslash, or_self, if_false]
      cases hp : t.findNode (splitParentName path).1 with
      | none => rfl
      | some parent =>
        simp only
        cases hf : parent.info.isFile with
        | true => simp
        | false =>
          cases hc : findChild parent.children (splitParentName path).2 with
          | none => simp
          | some c => simp

namespace AVLNode

variable {T : Type}

theorem searchHelper_insertHelper (t : AVLNode T) (ho : t.Ordered) (k1 k : List Char) (d : T) :
    searchHelper (insertHelper t k1 d) k = if k1 = k then some d else searchHelper t k := by
  obtain ⟨ho1, hm⟩ := insertHelper_spec k1 d t ho
  apply Option.ext
  intro x
  simp only [Option.mem_def]
  rw [searchHelper_spec k _ x ho1, hm]
  by_cases hk : k1 = k
  · subst hk
    simp only [if_true, Option.some.injEq, Prod.mk.injEq, true_and, ne_eq, not_true_eq_false,
      and_false, or_false]
    exact eq_comm
  · simp only [if_neg hk, Prod.mk.injEq, ne_eq]
    rw [searchHelper_spec k _ x ho]
    constructor
    · rintro (⟨h, _⟩ | ⟨h, _⟩)
      · exact absurd h.symm hk
      · exact h
    · intro h
      exact Or.inr ⟨h, fun e => hk e.symm⟩

theorem searchHelper_deleteHelper (t : AVLNode T) (ho : t.Ordered) (k1 k : List Char) :
    searchHelper (deleteHelper t k1) k = if k1 = k then none else searchHelper t k := by
  obtain ⟨ho1, hm⟩ := deleteHelper_spec t k1 ho
  apply Option.ext
  intro x
  simp only [Option.mem_def]
  rw [searchHelper_spec k _ x ho1, hm]
  by_cases hk : k1 = k
  · subst hk
    simp
  · simp only [if_neg hk, ne_eq]
    rw [searchHelper_spec k _ x ho]
    constructor
    · exact fun h => h.1
    · exact fun h => ⟨h, fun e => hk e.symm⟩

/-- An insertion on a key that is present replaces the data in place. -/
theorem entries_insertHelper_present (t : AVLNode T) (ho : t.Ordered) (k : List Char) (d : T)
    (hp : (searchHelper t k).isSome = true) :
    (insertHelper t k d).entries = t.entries.map (fun e => if e.1 = k then (k, d) else e) := by
  obtain ⟨ho1, hm⟩ := insertHelper_spec k d t ho
  obtain ⟨old, hold⟩ := Option.isSome_iff_exists.mp hp
  have hin : (k, old) ∈ t.entries := (searchHelper_spec k t old ho).mp hold
  apply entries_ext _ _ ho1
  · rw [List.pairwise_map]
    refine List.Pairwise.imp ?_ ho
    intro a b hab
    have ha : (if a.1 = k then (k, d) else a).1 = a.1 := by
      split
      · rename_i h
        exact h.symm
      · rfl
    have hb : (if b.1 = k then (k, d) else b).1 = b.1 := by
      split
      · rename_i h
        exact h.symm
      · rfl
    rw [ha, hb]
    exact hab
  · intro e
    rw [hm, List.mem_map]
    constructor
    · rintro (h | ⟨h1, h2⟩)
      · exact ⟨(k, old), hin, by simp [h]⟩
      · exact ⟨e, h1, by simp [h2]⟩
    · rintro ⟨a, ha, hae⟩
      by_cases hk : a.1 = k
      · rw [if_pos hk] at hae
        exact Or.inl hae.symm
      · rw [if_neg hk] at hae
        subst hae
        exact Or.inr ⟨ha, hk⟩

/-- An insertion on a key that is absent adds one entry. -/
theorem length_insertHelper_absent (t : AVLNode T) (ho : t.Ordered) (k : List Char) (d : T)
    (hp : searchHelper t k = none) :
    (insertHelper t k d).entries.length = t.entries.length + 1 := by
  obtain ⟨ho1, hm⟩ := insertHelper_spec k d t ho
  have habs : ∀ e ∈ t.entries, e.1 ≠ k := by
    intro e he hk
    have := (searchHelper_spec k t e.2 ho).mpr (by rw [← hk]; exact he)
    rw [hp] at this
    cases this
  have hperm : (insertHelper t k d).entries.Perm ((k, d) :: t.entries) := by
    rw [List.perm_ext_iff_of_nodup]
    · intro e
      rw [hm, List.mem_cons]
      constructor
      · rintro (h | h)
        · exact Or.inl h
        · exact Or.inr h.1
      · rintro (h | h)
        · exact Or.inl h
        · exact Or.inr ⟨h, habs e h⟩
    · exact ho1.imp (fun h e => by rw [e] at h; exact lt_irrefl _ h)
    · rw [List.nodup_cons]
      refine ⟨fun h => habs _ h rfl, ?_⟩
      exact ho.imp (fun h e => by rw [e] at h; exact lt_irrefl _ h)
  rw [hperm.length_eq, List.length_cons]

theorem filterMap_search_entries (t : AVLNode T) (ho : t.Ordered) :
    (t.entries.map Prod.fst).filterMap (searchHelper t) = t.entries.map Prod.snd := by
  rw [List.filterMap_map]
  have h : ∀ e ∈ t.entries, (searchHelper t ∘ Prod.fst) e = some e.2 := by
    intro e he
    exact (searchHelper_spec e.1 t e.2 ho).mpr he
  have h2 : t.entries.filterMap (searchHelper t ∘ Prod.fst)
      = t.entries.filterMap (fun e => some e.2) := by
    apply List.filterMap_congr
    intro e he
    exact h e he
  rw [h2]
  exact congrFun (List.filterMap_eq_map Prod.snd) t.entries

end AVLNode

theorem step_ordered {T : Type} (t : AVLTree T) (op : AVLOp T) (ho : t.root.Ordered) :
    (t.step op).root.Ordered := by
  cases op with
  | insert k d => exact (AVLNode.insertHelper_spec k d t.root ho).1
  | remove k =>
    simp only [AVLTree.step, AVLTree.remove]
    split
    · exact ho
    · exact (AVLNode.deleteHelper_spec t.root k ho).1

theorem runOps_ordered {T : Type} (ops : List (AVLOp T)) :
    ∀ t : AVLTree T, t.root.Ordered → (t.runOps ops).root.Ordered := by
  induction ops with
  | nil => intro t h; exact h
  | cons op ops ih =>
    intro t h
    exact ih (t.step op) (step_ordered t op h)

theorem runOps_snoc {T : Type} (t : AVLTree T) (ops : List (AVLOp T)) (op : AVLOp T) :
    t.runOps (ops ++ [op]) = (t.runOps ops).step op := by
  simp [AVLTree.runOps, List.foldl_append]

theorem empty_ordered {T : Type} : (AVLTree.empty : AVLTree T).root.Ordered := by
  simp [AVLTree.empty, AVLNode.Ordered, AVLNode.entries]

theorem search_step {T : Type} (t : AVLTree T) (ho : t.root.Ordered) (op : AVLOp T)
    (k : List Char) :
    (t.step op).search k
      = if op.key = k then (match op with | .insert _ d => some d | .remove _ => none)
        else t.search k := by
  cases op with
  | insert k1 d =>
    exact AVLNode.searchHelper_insertHelper t.root ho k1 k d
  | remove k1 =>
    simp only [AVLTree.step, AVLTree.remove, AVLOp.key]
    cases hs : t.search k1 with
    | none =>
      simp only
      split
      · rename_i h
        rw [← h]
        exact hs
      · rfl
    | some x =>
      exact AVLNode.searchHelper_deleteHelper t.root ho k1 k

theorem specSearch_snoc {T : Type} (ops : List (AVLOp T)) (op : AVLOp T) (k : List Char) :
    specSearch (ops ++ [op]) k
      = if op.key = k then (match op with | .insert _ d => some d | .remove _ => none)
        else specSearch ops k := by
  unfold specSearch
  rw [List.reverse_append, List.reverse_singleton, List.singleton_append, List.find?_cons]
  by_cases hk : op.key = k
  · simp only [hk, decide_True, if_true]
    cases op <;> rfl
  · simp only [hk, decide_False, if_false]

theorem search_runOps {T : Type} (ops : List (AVLOp T)) (k : List Char) :
    ((AVLTree.empty : AVLTree T).runOps ops).search k = specSearch ops k := by
  induction ops using List.reverseRecOn with
  | nil => rfl
  | append_singleton ops op ih =>
    rw [runOps_snoc, specSearch_snoc,
      search_step _ (runOps_ordered ops _ empty_ordered) op k, ih]

/-- C40: after every sequence of `insert` and `remove` calls on the empty tree,
`search(k)` is the data of the most recent `insert(k, _)` that no `remove(k)` follows and
nothing otherwise; a further `insert` on a present key replaces its data, leaves the other
keys and leaves `size()` as it is (on an absent key `size()` grows by one); `remove(k)`
returns true exactly when `k` is present, and afterwards `k` is absent and every other key
is as before; `getAllSorted` returns the data of exactly the present keys, in ascending
key order, and `size()` is their number. -/
theorem avl_refines_map {T : Type} (ops : List (AVLOp T)) :
    (∀ k, ((AVLTree.empty : AVLTree T).runOps ops).search k = specSearch ops k)
    ∧ (∀ k d, (specSearch ops k).isSome = true →
        (((AVLTree.empty : AVLTree T).runOps ops).insert k d).size
          = ((AVLTree.empty : AVLTree T).runOps ops).size)
    ∧ (∀ k d, specSearch ops k = none →
        (((AVLTree.empty : AVLTree T).runOps ops).insert k d).size
          = ((AVLTree.empty : AVLTree T).runOps ops).size + 1)
    ∧ (∀ k d k1, (((AVLTree.empty : AVLTree T).runOps ops).insert k d).search k1
        = if k = k1 then some d else specSearch ops k1)
    ∧ (∀ k, (((AVLTree.empty : AVLTree T).runOps ops).remove k).1 = true
        ↔ (specSearch ops k).isSome = true)
    ∧ (∀ k k1, (((AVLTree.empty : AVLTree T).runOps ops).remove k).2.search k1
        = if k = k1 then none else specSearch ops k1)
    ∧ ∃ keys : List (List Char),
        keys.Pairwise (fun a b => a < b)
        ∧ (∀ k, k ∈ keys ↔ (specSearch ops k).isSome = true)
        ∧ ((AVLTree.empty : AVLTree T).runOps ops).getAllSorted
            = keys.filterMap (specSearch ops)
        ∧ ((AVLTree.empty : AVLTree T).runOps ops).size = keys.length := by
  have ho := runOps_ordered ops (AVLTree.empty : AVLTree T) empty_ordered
  have hs := search_runOps (T := T) ops
  refine ⟨hs, ?_, ?_, ?_, ?_, ?_, ?_⟩
  · intro k d hp
    rw [← hs] at hp
    simp only [AVLTree.size, AVLTree.getAllSorted, AVLTree.insert, AVLNode.inOrderHelper_eq,
      List.length_map]
    rw [AVLNode.entries_insertHelper_present _ ho k d hp, List.length_map]
  · intro k d hp
    rw [← hs] at hp
    simp only [AVLTree.size, AVLTree.getAllSorted, AVLTree.insert, AVLNode.inOrderHelper_eq,
      List.length_map]
    exact AVLNode.length_insertHelper_absent _ ho k d hp
  · intro k d k1
    rw [← hs]
    exact AVLNode.searchHelper_insertHelper _ ho k k1 d
  · intro k
    rw [← hs]
    simp only [AVLTree.remove]
    cases ((AVLTree.empty : AVLTree T).runOps ops).search k <;> simp
  · intro k k1
    rw [← hs]
    exact search_step _ ho (AVLOp.remove k) k1
  · refine ⟨((AVLTree.empty : AVLTree T).runOps ops).root.entries.map Prod.fst, ?_, ?_, ?_, ?_⟩
    · rw [List.pairwise_map]
      exact ho
    · intro k
      rw [← hs, List.mem_map, Option.isSome_iff_exists]
      constructor
      · rintro ⟨e, he, hk⟩
        refine ⟨e.2, (AVLNode.searchHelper_spec k _ e.2 ho).mpr ?_⟩
        rw [← hk]
        exact he
      · rintro ⟨d, hd⟩
        exact ⟨(k, d), (AVLNode.searchHelper_spec k _ d ho).mp hd, rfl⟩
    · have hfun : specSearch ops = AVLNode.searchHelper
          ((AVLTree.empty : AVLTree T).runOps ops).root := by
        funext k
        exact (hs k).symm
      rw [hfun, AVLNode.filterMap_search_entries _ ho]
      exact AVLNode.inOrderHelper_eq _
    · simp only [AVLTree.size, AVLTree.getAllSorted, AVLNode.inOrderHelper_eq, List.length_map]

/-! ## The AVL shape invariant -/

namespace AVLNode

variable {T : Type}

theorem heightOf_nil : heightOf (nil : AVLNode T) = 0 := rfl

theorem heightOf_node (v : List Char) (d : T) (l r : AVLNode T) (h : Int) :
    heightOf (node v d l r h) = h := rfl

theorem getBalance_node (v : List Char) (d : T) (l r : AVLNode T) (h : Int) :
    getBalance (node v d l r h) = heightOf l - heightOf r := rfl

theorem valueOf_node (v : List Char) (d : T) (l r : AVLNode T) (h : Int) :
    valueOf (node v d l r h) = v := rfl

theorem updateHeight_node (v : List Char) (d : T) (l r : AVLNode T) (h : Int) :
    updateHeight (node v d l r h)
      = node v d l r (if heightOf l > heightOf r then 1 + heightOf l else 1 + heightOf r) :=
  rfl

theorem balanced_height_nonneg : ∀ t : AVLNode T, t.Balanced → 0 ≤ heightOf t := by
  intro t
  induction t with
  | nil => intro _; simp [heightOf_nil, heightOf_node]
  | node v d l r h ihl ihr =>
    intro hb
    simp only [Balanced] at hb
    obtain ⟨bl, br, hh, _, _⟩ := hb
    have := ihl bl
    have := ihr br
    simp only [heightOf_nil, heightOf_node]
    omega

/-- In a balanced tree the stored height of every node is its real height. -/
theorem balanced_depth : ∀ t : AVLNode T, t.Balanced → heightOf t = (depth t : Int) := by
  intro t
  induction t with
  | nil => intro _; simp [heightOf_nil, heightOf_node, depth]
  | node v d l r h ihl ihr =>
    intro hb
    simp only [Balanced] at hb
    obtain ⟨bl, br, hh, _, _⟩ := hb
    have e1 := ihl bl
    have e2 := ihr br
    simp only [heightOf_nil, heightOf_node, depth]
    push_cast
    omega

theorem ordered_isBST : ∀ t : AVLNode T, t.Ordered → t.IsBST := by
  intro t
  induction t with
  | nil => intro _; trivial
  | node v d l r h ihl ihr =>
    intro ho
    obtain ⟨hl, hr, hlv, hvr⟩ := ordered_node.mp ho
    exact ⟨ihl hl, ihr hr, hlv, hvr⟩

theorem balanced_rotateRight (v lv : List Char) (d ld : T) (ll lr r : AVLNode T) (h lh : Int)
    (bll : Balanced ll) (blr : Balanced lr) (br : Balanced r)
    (e1 : heightOf ll = heightOf r + 1)
    (e2 : heightOf lr = heightOf r ∨ heightOf lr = heightOf r + 1) :
    Balanced (rotateRight (node v d (node lv ld ll lr lh) r h))
    ∧ heightOf (rotateRight (node v d (node lv ld ll lr lh) r h)) = heightOf lr + 2 := by
  simp only [rotateRight, updateHeight_node, Balanced, heightOf_node]
  refine ⟨⟨bll, ⟨blr, br, ?_, ?_, ?_⟩, ?_, ?_, ?_⟩, ?_⟩ <;> omega

theorem balanced_rotateLeft (v rv : List Char) (d rd : T) (l rl rr : AVLNode T) (h rh : Int)
    (bl : Balanced l) (brl : Balanced rl) (brr : Balanced rr)
    (e1 : heightOf rr = heightOf l + 1)
    (e2 : heightOf rl = heightOf l ∨ heightOf rl = heightOf l + 1) :
    Balanced (rotateLeft (node v d l (node rv rd rl rr rh) h))
    ∧ heightOf (rotateLeft (node v d l (node rv rd rl rr rh) h)) = heightOf rl + 2 := by
  simp only [rotateLeft, updateHeight_node, Balanced, heightOf_node]
  refine ⟨⟨⟨bl, brl, ?_, ?_, ?_⟩, brr, ?_, ?_, ?_⟩, ?_⟩ <;> omega

theorem balanced_rotateLeftRight (v lv mv : List Char) (d ld md : T)
    (ll ml mr r : AVLNode T) (h lh mh : Int)
    (bll : Balanced ll) (bml : Balanced ml) (bmr : Balanced mr) (br : Balanced r)
    (e1 : heightOf ll = heightOf r) (e2 : heightOf ml ≤ heightOf r)
    (e3 : heightOf mr ≤ heightOf r) (e4 : heightOf r ≤ heightOf ml + 1)
    (e5 : heightOf r ≤ heightOf mr + 1) :
    Balanced (rotateRight (node v d (rotateLeft (node lv ld ll (node mv md ml mr mh) lh)) r h))
    ∧ heightOf (rotateRight
        (node v d (rotateLeft (node lv ld ll (node mv md ml mr mh) lh)) r h))
        = heightOf r + 2 := by
  simp only [rotateLeft, rotateRight, updateHeight_node, Balanced, heightOf_node]
  refine ⟨⟨⟨bll, bml, ?_, ?_, ?_⟩, ⟨bmr, br, ?_, ?_, ?_⟩, ?_, ?_, ?_⟩, ?_⟩ <;> omega

theorem balanced_rotateRightLeft (v rv mv : List Char) (d rd md : T)
    (l ml mr rr : AVLNode T) (h rh mh : Int)
    (bl : Balanced l) (bml : Balanced ml) (bmr : Balanced mr) (brr : Balanced rr)
    (e1 : heightOf rr = heightOf l) (e2 : heightOf ml ≤ heightOf l)
    (e3 : heightOf mr ≤ heightOf l) (e4 : heightOf l ≤ heightOf ml + 1)
    (e5 : heightOf l ≤ heightOf mr + 1) :
    Balanced (rotateLeft (node v d l (rotateRight (node rv rd (node mv md ml mr mh) rr rh)) h))
    ∧ heightOf (rotateLeft
        (node v d l (rotateRight (node rv rd (node mv md ml mr mh) rr rh)) h))
        = heightOf l + 2 := by
  simp only [rotateLeft, rotateRight, updateHeight_node, Balanced, heightOf_node]
  refine ⟨⟨⟨bl, bml, ?_, ?_, ?_⟩, ⟨bmr, brr, ?_, ?_, ?_⟩, ?_, ?_, ?_⟩, ?_⟩ <;> omega

/-- The rebalancing step of `deleteHelper` at a node whose subtrees are balanced and differ
in height by at most 2. -/
theorem rebalanceDelete_balanced (v : List Char) (d : T) (l r : AVLNode T) (h : Int)
    (bl : Balanced l) (br : Balanced r)
    (h1 : heightOf l - heightOf r ≤ 2) (h2 : heightOf r - heightOf l ≤ 2) :
    Balanced (rebalanceDelete (updateHeight (node v d l r h)))
    ∧ (heightOf (rebalanceDelete (updateHeight (node v d l r h)))
          = 1 + max (heightOf l) (heightOf r)
        ∨ heightOf (rebalanceDelete (updateHeight (node v d l r h)))
          = max (heightOf l) (heightOf r))
    ∧ (heightOf l - heightOf r ≤ 1 → heightOf r - heightOf l ≤ 1 →
        heightOf (rebalanceDelete (updateHeight (node v d l r h)))
          = 1 + max (heightOf l) (heightOf r)) := by
  have nl := balanced_height_nonneg l bl
  have nr := balanced_height_nonneg r br
  rw [updateHeight_node]
  generalize hgen : (if heightOf l > heightOf r then 1 + heightOf l else 1 + heightOf r) = h'
  simp only [rebalanceDelete, getBalance_node]
  split_ifs with c1 c2 c3 c4
  · cases l with
    | nil =>
      simp only [heightOf_nil] at c1
      omega
    | node lv ld ll lr lh =>
      simp only [Balanced] at bl
      obtain ⟨bll, blr, hlh, hb1, hb2⟩ := bl
      have nlr := balanced_height_nonneg lr blr
      simp only [getBalance_node, heightOf_node] at c1 h1 h2 nl ⊢
      obtain ⟨c11, c12⟩ := c1
      obtain ⟨b, e⟩ := balanced_rotateRight v lv d ld ll lr r h' lh bll blr br
        (by omega) (by omega)
      refine ⟨b, ?_, ?_⟩
      · rw [e]
        omega
      · intro _ _
        omega
  · cases l with
    | nil =>
      simp only [heightOf_nil] at c2
      omega
    | node lv ld ll lr lh =>
      simp only [Balanced] at bl
      obtain ⟨bll, blr, hlh, hb1, hb2⟩ := bl
      have nll := balanced_height_nonneg ll bll
      simp only [getBalance_node, heightOf_node] at c2 h1 h2 nl ⊢
      obtain ⟨c21, c22⟩ := c2
      cases lr with
      | nil =>
        simp only [heightOf_nil] at c22
        omega
      | node mv md ml mr mh =>
        simp only [Balanced] at blr
        obtain ⟨bml, bmr, hmh, hm1, hm2⟩ := blr
        simp only [heightOf_node] at c22 hlh hb1 hb2
        obtain ⟨b, e⟩ := balanced_rotateLeftRight v lv mv d ld md ll ml mr r h' lh mh
          bll bml bmr br (by omega) (by omega) (by omega) (by omega) (by omega)
        refine ⟨b, ?_, ?_⟩
        · rw [e]
          omega
        · intro _ _
          omega
  · cases r with
    | nil =>
      simp only [heightOf_nil] at c3
      omega
    | node rv rd rl rr rh =>
      simp only [Balanced] at br
      obtain ⟨brl, brr, hrh, hb1, hb2⟩ := br
      have nrl := balanced_height_nonneg rl brl
      simp only [getBalance_node, heightOf_node] at c3 h1 h2 nr ⊢
      obtain ⟨c31, c32⟩ := c3
      obtain ⟨b, e⟩ := balanced_rotateLeft v rv d rd l rl rr h' rh bl brl brr
        (by omega) (by omega)
      refine ⟨b, ?_, ?_⟩
      · rw [e]
        omega
      · intro _ _
        omega
  · cases r with
    | nil =>
      simp only [heightOf_nil] at c4
      omega
    | node rv rd rl rr rh =>
      simp only [Balanced] at br
      obtain ⟨brl, brr, hrh, hb1, hb2⟩ := br
      have nrr := balanced_height_nonneg rr brr
      simp only [getBalance_node, heightOf_node] at c4 h1 h2 nr ⊢
      obtain ⟨c41, c42⟩ := c4
      cases rl with
      | nil =>
        simp only [heightOf_nil] at c42
        omega
      | node mv md ml mr mh =>
        simp only [Balanced] at brl
        obtain ⟨bml, bmr, hmh, hm1, hm2⟩ := brl
        simp only [heightOf_node] at c42 hrh hb1 hb2
        obtain ⟨b, e⟩ := balanced_rotateRightLeft v rv mv d rd md l ml mr rr h' rh mh
          bl bml bmr brr (by omega) (by omega) (by omega) (by omega) (by omega)
        refine ⟨b, ?_, ?_⟩
        · rw [e]
          omega
        · intro _ _
          omega
  · have e1 : heightOf l - heightOf r ≤ 1 := by
      by_contra hc
      by_cases hg : getBalance l ≥ 0
      · exact c1 ⟨by omega, hg⟩
      · exact c2 ⟨by omega, by omega⟩
    have e2 : heightOf r - heightOf l ≤ 1 := by
      by_contra hc
      by_cases hg : getBalance r ≤ 0
      · exact c3 ⟨by omega, hg⟩
      · exact c4 ⟨by omega, by omega⟩
    simp only [Balanced, heightOf_node]
    refine ⟨⟨bl, br, ?_, ?_, ?_⟩, ?_, ?_⟩ <;> omega

/-- The shape of a grown subtree that is two higher than its sibling of height `hs`. -/
theorem grewAt_shape (k : List Char) (t : AVLNode T) (bt : Balanced t) (hg : GrewAt k t)
    (hbig : heightOf t ≥ 2) :
    ∃ tv td tl tr th, t = node tv td tl tr th
      ∧ ((k < tv ∧ heightOf tl = heightOf tr + 1) ∨ (tv < k ∧ heightOf tr = heightOf tl + 1)) := by
  cases t with
  | nil => simp [GrewAt] at hg
  | node tv td tl tr th =>
    refine ⟨tv, td, tl, tr, th, rfl, ?_⟩
    simp only [GrewAt] at hg
    simp only [Balanced] at bt
    obtain ⟨_, _, hth, _, _⟩ := bt
    simp only [heightOf_node] at hbig
    rcases hg with hz | hz | hz
    · omega
    · exact Or.inl hz
    · exact Or.inr hz

/-- The step of `insertHelper` at a node after the insertion went into the left subtree:
`hl` is the height of the left subtree before the insertion. -/
theorem insert_left_step (k v : List Char) (dv : T) (l1 r : AVLNode T) (h hl : Int)
    (bl1 : Balanced l1) (br : Balanced r) (nl : 0 ≤ hl)
    (hb1 : hl - heightOf r ≤ 1) (hb2 : heightOf r - hl ≤ 1)
    (hg : heightOf l1 = hl ∨ (heightOf l1 = hl + 1 ∧ GrewAt k l1)) (h1 : k < v) :
    Balanced (rebalanceInsert k (updateHeight (node v dv l1 r h)))
    ∧ (heightOf (rebalanceInsert k (updateHeight (node v dv l1 r h))) = 1 + max hl (heightOf r)
        ∨ (heightOf (rebalanceInsert k (updateHeight (node v dv l1 r h)))
              = 2 + max hl (heightOf r)
            ∧ GrewAt k (rebalanceInsert k (updateHeight (node v dv l1 r h))))) := by
  have nr := balanced_height_nonneg r br
  have harith : heightOf l1 = hl ∨ heightOf l1 = hl + 1 := by
    rcases hg with hg | hg
    · exact Or.inl hg
    · exact Or.inr hg.1
  have hshape : heightOf l1 - heightOf r > 1 →
      ∃ lv ld ll lr lh, l1 = node lv ld ll lr lh
        ∧ ((k < lv ∧ heightOf ll = heightOf lr + 1)
          ∨ (lv < k ∧ heightOf lr = heightOf ll + 1)) := by
    intro hbig
    rcases hg with hg | ⟨hg, hgrew⟩
    · omega
    · exact grewAt_shape k l1 bl1 hgrew (by omega)
  clear hg
  rw [updateHeight_node]
  generalize hgen :
    (if heightOf l1 > heightOf r then 1 + heightOf l1 else 1 + heightOf r) = h'
  simp only [rebalanceInsert, getBalance_node]
  split_ifs with c1 c2 c3 c4
  · obtain ⟨lv, ld, ll, lr, lh, rfl, hs⟩ := hshape c1.1
    clear hshape
    simp only [Balanced] at bl1
    obtain ⟨bll, blr, hlh, hc1, hc2⟩ := bl1
    simp only [heightOf_node, valueOf_node] at c1 harith
    have hkey : heightOf ll = heightOf lr + 1 := by
      rcases hs with hz | hz
      · exact hz.2
      · exact absurd c1.2 (lt_asymm hz.1)
    obtain ⟨c11, _⟩ := c1
    clear hs
    obtain ⟨b, e⟩ := balanced_rotateRight v lv dv ld ll lr r h' lh bll blr br
      (by omega) (by omega)
    refine ⟨b, Or.inl ?_⟩
    rw [e]
    omega
  · exfalso
    obtain ⟨c21, _⟩ := c2
    clear hshape
    omega
  · obtain ⟨lv, ld, ll, lr, lh, rfl, hs⟩ := hshape c3.1
    clear hshape
    simp only [Balanced] at bl1
    obtain ⟨bll, blr, hlh, hc1, hc2⟩ := bl1
    have nll := balanced_height_nonneg ll bll
    simp only [heightOf_node, valueOf_node] at c3 harith
    have hkey : heightOf lr = heightOf ll + 1 := by
      rcases hs with hz | hz
      · exact absurd c3.2 (lt_asymm hz.1)
      · exact hz.2
    obtain ⟨c31, _⟩ := c3
    clear hs
    cases lr with
    | nil =>
      simp only [heightOf_nil] at hkey
      omega
    | node mv md ml mr mh =>
      simp only [Balanced] at blr
      obtain ⟨bml, bmr, hmh, hm1, hm2⟩ := blr
      simp only [heightOf_node] at hkey hlh hc1 hc2
      obtain ⟨b, e⟩ := balanced_rotateLeftRight v lv mv dv ld md ll ml mr r h' lh mh
        bll bml bmr br (by omega) (by omega) (by omega) (by omega) (by omega)
      refine ⟨b, Or.inl ?_⟩
      rw [e]
      omega
  · exfalso
    obtain ⟨c41, _⟩ := c4
    clear hshape
    omega
  · have hbal : heightOf l1 - heightOf r ≤ 1 := by
      by_contra hcon
      obtain ⟨lv, ld, ll, lr, lh, rfl, hs⟩ := hshape (by omega)
      simp only [heightOf_node, valueOf_node] at c1 c3 hcon
      rcases hs with hz | hz
      · exact c1 ⟨by omega, hz.1⟩
      · exact c3 ⟨by omega, hz.1⟩
    clear hshape c1 c2 c3 c4
    simp only [Balanced, heightOf_node, GrewAt]
    refine ⟨⟨bl1, br, ?_, ?_, ?_⟩, ?_⟩
    · omega
    · omega
    · omega
    · by_cases hx : heightOf l1 = heightOf r + 1 ∧ hl = heightOf r
      · right
        exact ⟨by omega, Or.inr (Or.inl ⟨h1, hx.1⟩)⟩
      · left
        omega

/-- The step of `insertHelper` at a node after the insertion went into the right subtree:
`hr` is the height of the right subtree before the insertion. -/
theorem insert_right_step (k v : List Char) (dv : T) (l r1 : AVLNode T) (h hr : Int)
    (bl : Balanced l) (br1 : Balanced r1) (nr : 0 ≤ hr)
    (hb1 : heightOf l - hr ≤ 1) (hb2 : hr - heightOf l ≤ 1)
    (hg : heightOf r1 = hr ∨ (heightOf r1 = hr + 1 ∧ GrewAt k r1)) (h2 : v < k) :
    Balanced (rebalanceInsert k (updateHeight (node v dv l r1 h)))
    ∧ (heightOf (rebalanceInsert k (updateHeight (node v dv l r1 h))) = 1 + max (heightOf l) hr
        ∨ (heightOf (rebalanceInsert k (updateHeight (node v dv l r1 h)))
              = 2 + max (heightOf l) hr
            ∧ GrewAt k (rebalanceInsert k (updateHeight (node v dv l r1 h))))) := by
  have nl := balanced_height_nonneg l bl
  have harith : heightOf r1 = hr ∨ heightOf r1 = hr + 1 := by
    rcases hg with hg | hg
    · exact Or.inl hg
    · exact Or.inr hg.1
  have hshape : heightOf l - heightOf r1 < -1 →
      ∃ rv rd rl rr rh, r1 = node rv rd rl rr rh
        ∧ ((k < rv ∧ heightOf rl = heightOf rr + 1)
          ∨ (rv < k ∧ heightOf rr = heightOf rl + 1)) := by
    intro hbig
    rcases hg with hg | ⟨hg, hgrew⟩
    · omega
    · exact grewAt_shape k r1 br1 hgrew (by omega)
  clear hg
  rw [updateHeight_node]
  generalize hgen :
    (if heightOf l > heightOf r1 then 1 + heightOf l else 1 + heightOf r1) = h'
  simp only [rebalanceInsert, getBalance_node]
  split_ifs with c1 c2 c3 c4
  · exfalso
    obtain ⟨c11, _⟩ := c1
    clear hshape
    omega
  · obtain ⟨rv, rd, rl, rr, rh, rfl, hs⟩ := hshape c2.1
    clear hshape
    simp only [Balanced] at br1
    obtain ⟨brl, brr, hrh, hc1, hc2⟩ := br1
    simp only [heightOf_node, valueOf_node] at c2 harith
    have hkey : heightOf rr = heightOf rl + 1 := by
      rcases hs with hz | hz
      · exact absurd c2.2 (lt_asymm hz.1)
      · exact hz.2
    obtain ⟨c21, _⟩ := c2
    clear hs
    obtain ⟨b, e⟩ := balanced_rotateLeft v rv dv rd l rl rr h' rh bl brl brr
      (by omega) (by omega)
    refine ⟨b, Or.inl ?_⟩
    rw [e]
    omega
  · exfalso
    obtain ⟨c31, _⟩ := c3
    clear hshape
    omega
  · obtain ⟨rv, rd, rl, rr, rh, rfl, hs⟩ := hshape c4.1
    clear hshape
    simp only [Balanced] at br1
    obtain ⟨brl, brr, hrh, hc1, hc2⟩ := br1
    have nrr := balanced_height_nonneg rr brr
    simp only [heightOf_node, valueOf_node] at c4 harith
    have hkey : heightOf rl = heightOf rr + 1 := by
      rcases hs with hz | hz
      · exact hz.2
      · exact absurd c4.2 (lt_asymm hz.1)
    obtain ⟨c41, _⟩ := c4
    clear hs
    cases rl with
    | nil =>
      simp only [heightOf_nil] at hkey
      omega
    | node mv md ml mr mh =>
      simp only [Balanced] at brl
      obtain ⟨bml, bmr, hmh, hm1, hm2⟩ := brl
      simp only [heightOf_node] at hkey hrh hc1 hc2
      obtain ⟨b, e⟩ := balanced_rotateRightLeft v rv mv dv rd md l ml mr rr h' rh mh
        bl bml bmr brr (by omega) (by omega) (by omega) (by omega) (by omega)
      refine ⟨b, Or.inl ?_⟩
      rw [e]
      omega
  · have hbal : heightOf r1 - heightOf l ≤ 1 := by
      by_contra hcon
      obtain ⟨rv, rd, rl, rr, rh, rfl, hs⟩ := hshape (by omega)
      simp only [heightOf_node, valueOf_node] at c2 c4 hcon
      rcases hs with hz | hz
      · exact c4 ⟨by omega, hz.1⟩
      · exact c2 ⟨by omega, hz.1⟩
    clear hshape c1 c2 c3 c4
    simp only [Balanced, heightOf_node, GrewAt]
    refine ⟨⟨bl, br1, ?_, ?_, ?_⟩, ?_⟩
    · omega
    · omega
    · omega
    · by_cases hx : heightOf r1 = heightOf l + 1 ∧ heightOf l = hr
      · right
        exact ⟨by omega, Or.inr (Or.inr ⟨h2, hx.1⟩)⟩
      · left
        omega

theorem insertHelper_balanced (k : List Char) (d : T) :
    ∀ t : AVLNode T, t.Balanced →
      (insertHelper t k d).Balanced
      ∧ (heightOf (insertHelper t k d) = heightOf t
          ∨ (heightOf (insertHelper t k d) = heightOf t + 1 ∧ GrewAt k (insertHelper t k d))) := by
  intro t
  induction t with
  | nil =>
    intro _
    simp [insertHelper, Balanced, heightOf, GrewAt]
  | node v dv l r h ihl ihr =>
    intro hb
    simp only [Balanced] at hb
    obtain ⟨bl, br, hh, hb1, hb2⟩ := hb
    have nl := balanced_height_nonneg l bl
    have nr := balanced_height_nonneg r br
    by_cases h1 : k < v
    · obtain ⟨bl1, hg⟩ := ihl bl
      simp only [insertHelper, if_pos h1, heightOf_node]
      obtain ⟨b, e⟩ := insert_left_step k v dv (insertHelper l k d) r h (heightOf l)
        bl1 br nl hb1 hb2 hg h1
      refine ⟨b, ?_⟩
      rcases e with e | ⟨e, g⟩
      · exact Or.inl (by rw [e, hh])
      · exact Or.inr ⟨by rw [e, hh]; omega, g⟩
    · by_cases h2 : k > v
      · obtain ⟨br1, hg⟩ := ihr br
        simp only [insertHelper, if_neg h1, if_pos h2, heightOf_node]
        obtain ⟨b, e⟩ := insert_right_step k v dv l (insertHelper r k d) h (heightOf r)
          bl br1 nr hb1 hb2 hg h2
        refine ⟨b, ?_⟩
        rcases e with e | ⟨e, g⟩
        · exact Or.inl (by rw [e, hh])
        · exact Or.inr ⟨by rw [e, hh]; omega, g⟩
      · simp only [insertHelper, if_neg h1, if_neg h2, Balanced, heightOf_node]
        exact ⟨⟨bl, br, hh, hb1, hb2⟩, Or.inl trivial⟩

theorem deleteHelper_balanced :
    ∀ (t : AVLNode T) (k : List Char), t.Balanced →
      (deleteHelper t k).Balanced
      ∧ (heightOf (deleteHelper t k) = heightOf t
          ∨ heightOf (deleteHelper t k) = heightOf t - 1) := by
  intro t
  induction t with
  | nil =>
    intro k _
    simp [deleteHelper, Balanced]
  | node v dv l r h ihl ihr =>
    intro k hb
    have hb0 := hb
    simp only [Balanced] at hb
    obtain ⟨bl, br, hh, hb1, hb2⟩ := hb
    have nl := balanced_height_nonneg l bl
    have nr := balanced_height_nonneg r br
    by_cases h1 : k < v
    · obtain ⟨bl1, hg⟩ := ihl k bl
      have hred : deleteHelper (node v dv l r h) k
          = rebalanceDelete (updateHeight (node v dv (deleteHelper l k) r h)) := by
        cases l <;> cases r <;> simp only [deleteHelper, if_pos h1]
      rw [hred]
      obtain ⟨b, e1, e2⟩ := rebalanceDelete_balanced v dv (deleteHelper l k) r h bl1 br
        (by omega) (by omega)
      refine ⟨b, ?_⟩
      simp only [heightOf_nil, heightOf_node]
      rcases hg with hg | hg
      · left
        rw [e2 (by omega) (by omega)]
        omega
      · rcases e1 with e1 | e1 <;> omega
    · by_cases h2 : k > v
      · obtain ⟨br1, hg⟩ := ihr k br
        have hred : deleteHelper (node v dv l r h) k
            = rebalanceDelete (updateHeight (node v dv l (deleteHelper r k) h)) := by
          cases l <;> cases r <;> simp only [deleteHelper, if_neg h1, if_pos h2]
        rw [hred]
        obtain ⟨b, e1, e2⟩ := rebalanceDelete_balanced v dv l (deleteHelper r k) h bl br1
          (by omega) (by omega)
        refine ⟨b, ?_⟩
        simp only [heightOf_nil, heightOf_node]
        rcases hg with hg | hg
        · left
          rw [e2 (by omega) (by omega)]
          omega
        · rcases e1 with e1 | e1 <;> omega
      · cases l with
        | nil =>
          cases r with
          | nil =>
            simp only [deleteHelper, if_neg h1, if_neg h2, Balanced, heightOf_nil, heightOf_node] at hh ⊢
            exact ⟨trivial, by omega⟩
          | node rv rd rl rr rh =>
            simp only [Balanced] at br
            obtain ⟨brl, brr, hrh, hc1, hc2⟩ := br
            obtain ⟨b, _, e2⟩ := rebalanceDelete_balanced rv rd rl rr rh brl brr
              (by omega) (by omega)
            simp only [deleteHelper, if_neg h1, if_neg h2]
            refine ⟨b, ?_⟩
            rw [e2 hc1 hc2]
            simp only [heightOf_nil, heightOf_node] at hh nr ⊢
            omega
        | node lv ld ll lr lh =>
          cases r with
          | nil =>
            simp only [Balanced] at bl
            obtain ⟨bll, blr, hlh, hc1, hc2⟩ := bl
            obtain ⟨b, _, e2⟩ := rebalanceDelete_balanced lv ld ll lr lh bll blr
              (by omega) (by omega)
            simp only [deleteHelper, if_neg h1, if_neg h2]
            refine ⟨b, ?_⟩
            rw [e2 hc1 hc2]
            simp only [heightOf_nil, heightOf_node] at hh nl ⊢
            omega
          | node rv rd rl rr rh =>
            cases hm : findMin (node rv rd rl rr rh) with
            | none =>
              simp only [deleteHelper, if_neg h1, if_neg h2, hm]
              exact ⟨hb0, Or.inl trivial⟩
            | some m =>
              obtain ⟨mv, md⟩ := m
              obtain ⟨br1, hg⟩ := ihr mv br
              simp only [deleteHelper, if_neg h1, if_neg h2, hm]
              obtain ⟨b, e1, e2⟩ := rebalanceDelete_balanced mv md (node lv ld ll lr lh)
                (deleteHelper (node rv rd rl rr rh) mv) h bl br1 (by omega) (by omega)
              refine ⟨b, ?_⟩
              simp only [heightOf_nil, heightOf_node] at hh hb1 hb2 hg e1 e2 ⊢
              rcases hg with hg | hg
              · left
                rw [e2 (by omega) (by omega)]
                omega
              · rcases e1 with e1 | e1 <;> omega

end AVLNode

theorem step_balanced {T : Type} (t : AVLTree T) (op : AVLOp T) (hb : t.root.Balanced) :
    (t.step op).root.Balanced := by
  cases op with
  | insert k d => exact (AVLNode.insertHelper_balanced k d t.root hb).1
  | remove k =>
    simp only [AVLTree.step, AVLTree.remove]
    split
    · exact hb
    · exact (AVLNode.deleteHelper_balanced t.root k hb).1

theorem runOps_balanced {T : Type} (ops : List (AVLOp T)) :
    ∀ t : AVLTree T, t.root.Balanced → (t.runOps ops).root.Balanced := by
  induction ops with
  | nil => intro t h; exact h
  | cons op ops ih =>
    intro t h
    exact ih (t.step op) (step_balanced t op h)

/-- C39: after every sequence of `insert` and `remove` calls on the empty `AVLTree` the
tree is a binary search tree (node by node, and with strictly increasing keys in
in-order), every node's stored height equals 1 + the maximum of its children's heights,
and the heights of the two subtrees of every node differ by at most 1; the stored height
of the root is then the real height of the tree. -/
theorem avl_invariant {T : Type} (ops : List (AVLOp T)) :
    ((AVLTree.empty : AVLTree T).runOps ops).root.IsBST
    ∧ (((AVLTree.empty : AVLTree T).runOps ops).root.entries.map Prod.fst).Pairwise
        (fun a b => a < b)
    ∧ ((AVLTree.empty : AVLTree T).runOps ops).root.Balanced
    ∧ AVLNode.heightOf ((AVLTree.empty : AVLTree T).runOps ops).root
        = (AVLNode.depth ((AVLTree.empty : AVLTree T).runOps ops).root : Int) := by
  have ho := runOps_ordered ops (AVLTree.empty : AVLTree T) empty_ordered
  have hb := runOps_balanced ops (AVLTree.empty : AVLTree T) trivial
  refine ⟨AVLNode.ordered_isBST _ ho, ?_, hb, AVLNode.balanced_depth _ hb⟩
  rw [List.pairwise_map]
  exact ho

/-! ## The user index mirrors the on-disk user table -/

theorem loadUsers_succ (users : Nat → Option UserInfo) (n : Nat) :
    loadUsers users (n + 1)
      = (match users n with
        | some user =>
          if user.is_active ∧ user.username ≠ [] then
            (loadUsers users n).insert user.username user
          else loadUsers users n
        | none => loadUsers users n) := by
  unfold loadUsers
  rw [List.range_succ, List.foldl_append]
  rfl

theorem search_insert_isSome (t : AVLTree UserInfo) (ho : t.root.Ordered) (k1 k : List Char)
    (u : UserInfo) :
    ((t.insert k1 u).search k).isSome = true ↔ (k1 = k ∨ (t.search k).isSome = true) := by
  have h := AVLNode.searchHelper_insertHelper t.root ho k1 k u
  unfold AVLTree.search AVLTree.insert
  rw [h]
  by_cases hk : k1 = k
  · simp [hk]
  · simp [hk]

theorem zero_not_occupied : ¬ UserInfo.zero.Occupied := by
  intro h
  exact absurd h.1 (by decide)

theorem loadUsers_keys (users : Nat → Option UserInfo) :
    ∀ (n : Nat) (k : List Char),
      ((loadUsers users n).search k).isSome = true ↔
        ∃ i, i < n ∧ (slotUser users i).Occupied ∧ (slotUser users i).username = k := by
  intro n
  induction n with
  | zero =>
    intro k
    constructor
    · intro h
      simp [loadUsers, AVLTree.empty, AVLTree.search, AVLNode.searchHelper] at h
    · rintro ⟨i, hi, _⟩
      omega
  | succ n ih =>
    intro k
    have hsplit : (∃ i, i < n + 1 ∧ (slotUser users i).Occupied ∧ (slotUser users i).username = k)
        ↔ ((∃ i, i < n ∧ (slotUser users i).Occupied ∧ (slotUser users i).username = k)
          ∨ ((slotUser users n).Occupied ∧ (slotUser users n).username = k)) := by
      constructor
      · rintro ⟨i, hi, h⟩
        by_cases hin : i = n
        · subst hin
          exact Or.inr h
        · exact Or.inl ⟨i, by omega, h⟩
      · rintro (⟨i, hi, h⟩ | h)
        · exact ⟨i, by omega, h⟩
        · exact ⟨n, by omega, h⟩
    rw [hsplit, loadUsers_succ]
    cases hu : users n with
    | none =>
      have hz : slotUser users n = UserInfo.zero := by
        unfold slotUser
        rw [hu]
        rfl
      rw [hz]
      simp only
      rw [ih k]
      constructor
      · exact Or.inl
      · rintro (h | h)
        · exact h
        · exact absurd h.1 zero_not_occupied
    | some user =>
      have hz : slotUser users n = user := by
        unfold slotUser
        rw [hu]
        rfl
      rw [hz]
      simp only
      by_cases hocc : user.is_active = true ∧ user.username ≠ []
      · rw [if_pos hocc, search_insert_isSome _ (usersOK_loadUsers users n).1, ih k]
        constructor
        · rintro (h | h)
          · exact Or.inr ⟨hocc, h⟩
          · exact Or.inl h
        · rintro (h | h)
          · exact Or.inr h
          · exact Or.inl h.2
      · rw [if_neg hocc, ih k]
        constructor
        · exact Or.inl
        · rintro (h | h)
          · exact h
          · exact absurd h.1 hocc

theorem findFreeUserSlot_spec (users : Nat → Option UserInfo) :
    ∀ (remaining i0 i : Nat), findFreeUserSlot users remaining i0 = some i →
      i0 ≤ i ∧ i < i0 + remaining ∧ ¬ (slotUser users i).Occupied
      ∧ ∀ j, i0 ≤ j → j < i → (slotUser users j).Occupied := by
  intro remaining
  induction remaining with
  | zero =>
    intro i0 i h
    simp [findFreeUserSlot] at h
  | succ n ih =>
    intro i0 i h
    simp only [findFreeUserSlot] at h
    split at h
    · rename_i hfree
      simp only [Option.some.injEq] at h
      subst h
      refine ⟨le_refl _, by omega, ?_, fun j h1 h2 => by omega⟩
      intro hocc
      rcases hfree with hf | hf
      · have := hocc.1
        unfold slotUser at this
        rw [hf] at this
        cases this
      · exact hocc.2 hf
    · rename_i hfree
      obtain ⟨h1, h2, h3, h4⟩ := ih (i0 + 1) i h
      refine ⟨by omega, by omega, h3, ?_⟩
      intro j hj1 hj2
      by_cases hj : j = i0
      · subst hj
        push_neg at hfree
        exact ⟨by simpa using hfree.1, hfree.2⟩
      · exact h4 j (by omega) hj2

theorem findUserSlot_first (users : Nat → Option UserInfo) (u : List Char) :
    ∀ (remaining i0 : Nat),
      (∃ j, i0 ≤ j ∧ j < i0 + remaining ∧ (slotUser users j).username = u) →
      ∃ i, findUserSlot users u remaining i0 = some i ∧ i0 ≤ i ∧ i < i0 + remaining
        ∧ (slotUser users i).username = u
        ∧ ∀ j, i0 ≤ j → j < i → (slotUser users j).username ≠ u := by
  intro remaining
  induction remaining with
  | zero =>
    rintro i0 ⟨j, h1, h2, _⟩
    omega
  | succ n ih =>
    rintro i0 ⟨j, h1, h2, h3⟩
    simp only [findUserSlot]
    by_cases hhere : (slotUser users i0).username = u
    · refine ⟨i0, ?_, le_refl _, by omega, hhere, fun j h1 h2 => by omega⟩
      unfold slotUser at hhere
      rw [if_pos hhere]
    · have hj : j ≠ i0 := by
        rintro rfl
        exact hhere h3
      obtain ⟨i, e1, e2, e3, e4, e5⟩ := ih (i0 + 1) ⟨j, by omega, by omega, h3⟩
      refine ⟨i, ?_, by omega, by omega, e4, ?_⟩
      · have hh := hhere
        unfold slotUser at hh
        rw [if_neg hh]
        exact e1
      · intro j2 hj1 hj2
        by_cases hj0 : j2 = i0
        · subst hj0
          exact hhere
        · exact e5 j2 (by omega) hj2

theorem slotUser_writeUser (c : Container) (i j : Nat) (u : UserInfo) :
    slotUser (c.writeUser i u).users j = if j = i then u else slotUser c.users j := by
  unfold slotUser Container.writeUser
  simp only
  split <;> rfl

theorem diskUsersOK_distinct {users : Nat → Option UserInfo} {n : Nat}
    (h : DiskUsersOK users n) (i j : Nat) (hi : i < n) (hj : j < n)
    (oi : (slotUser users i).Occupied) (oj : (slotUser users j).Occupied)
    (he : (slotUser users i).username = (slotUser users j).username) : i = j := by
  rcases Nat.lt_trichotomy i j with hlt | heq | hgt
  · exact absurd he (h j hj oj i hlt)
  · exact heq
  · exact absurd he.symm (h i hi oi j hgt)

theorem mirror_user_create (fs : OFSInstance) (ms : Option ManagedSession)
    (username password : List Char) (role : UserRole) (now : Nat) (hname : username ≠ [])
    (hfit : username.length ≤ UserInfo.usernameCapacity) (hm : UsersMirror fs) :
    UsersMirror (user_create fs ms username password role now).2 := by
  obtain ⟨ho, hh, hk, hd⟩ := hm
  have hn := new_username_fit username (simple_hash password) role now hfit
  unfold user_create
  split
  · exact ⟨ho, hh, hk, hd⟩
  · split
    · exact ⟨ho, hh, hk, hd⟩
    · split
      · exact ⟨ho, hh, hk, hd⟩
      · rename_i hsome
        have hnone : fs.users.search username = none := by
          cases hs : fs.users.search username with
          | none => rfl
          | some x => simp [hs] at hsome
        simp only
        split
        · rename_i i hslot
          obtain ⟨_, hi, hfree, hbefore⟩ := findFreeUserSlot_spec _ _ _ _ hslot
          simp only [Nat.zero_add] at hi
          have hnew : (UserInfo.new username (simple_hash password) role now).Occupied :=
            ⟨rfl, by rw [hn]; exact hname⟩
          have hnotkey : ∀ j, j < fs.header.max_users → (slotUser fs.omni_file.users j).Occupied →
              (slotUser fs.omni_file.users j).username ≠ username := by
            intro j hj hocc he
            have := (hk username).mpr ⟨j, hj, hocc, he⟩
            rw [hnone] at this
            cases this
          refine ⟨(AVLNode.insertHelper_spec username _ fs.users.root ho).1, hh, ?_, ?_⟩
          · intro k
            simp only
            rw [search_insert_isSome _ ho, hk k]
            constructor
            · rintro (h | ⟨j, hj, hocc, he⟩)
              · refine ⟨i, hi, ?_⟩
                rw [slotUser_writeUser, if_pos rfl]
                exact ⟨hnew, hn.trans h⟩
              · have hji : j ≠ i := by
                  rintro rfl
                  exact hfree hocc
                refine ⟨j, hj, ?_⟩
                rw [slotUser_writeUser, if_neg hji]
                exact ⟨hocc, he⟩
            · rintro ⟨j, hj, hocc, he⟩
              rw [slotUser_writeUser] at hocc he
              by_cases hji : j = i
              · rw [if_pos hji] at he
                exact Or.inl (hn.symm.trans he)
              · rw [if_neg hji] at hocc he
                exact Or.inr ⟨j, hj, hocc, he⟩
          · intro i1 hi1 hocc j hj
            simp only at hocc ⊢
            rw [slotUser_writeUser] at hocc ⊢
            rw [slotUser_writeUser]
            by_cases h1 : i1 = i
            · subst h1
              rw [if_pos rfl, if_neg (by omega), hn]
              exact hnotkey j (by omega) (hbefore j (Nat.zero_le _) hj)
            · rw [if_neg h1] at hocc ⊢
              by_cases h2 : j = i
              · rw [if_pos h2, hn]
                exact fun e => hnotkey i1 hi1 hocc e.symm
              · rw [if_neg h2]
                exact hd i1 hi1 hocc j hj
        · obtain ⟨h1, h2⟩ := insert_remove_entries fs.users username
            (UserInfo.new username (simple_hash password) role now) ho hnone
          refine ⟨h1, hh, ?_, hd⟩
          intro k
          simp only
          have := search_congr _ _ h1 ho h2 k
          unfold AVLTree.search
          rw [this]
          exact hk k

theorem mirror_user_delete (fs : OFSInstance) (ms : Option ManagedSession)
    (username : List Char) (hm : UsersMirror fs) :
    UsersMirror (user_delete fs ms username).2 := by
  obtain ⟨ho, hh, hk, hd⟩ := hm
  unfold user_delete
  split
  · exact ⟨ho, hh, hk, hd⟩
  · split
    · exact ⟨ho, hh, hk, hd⟩
    · split
      · exact ⟨ho, hh, hk, hd⟩
      · cases hs : fs.users.search username with
        | none =>
          have hrem : fs.users.remove username = (false, fs.users) := by
            unfold AVLTree.remove
            rw [hs]
          rw [hrem]
          exact ⟨ho, hh, hk, hd⟩
        | some x =>
          have hrem : fs.users.remove username
              = (true, ⟨fs.users.root.deleteHelper username⟩) := by
            unfold AVLTree.remove
            rw [hs]
          rw [hrem]
          simp only
          obtain ⟨i0, hi0, hocc0, hn0⟩ := (hk username).mp (by rw [hs]; rfl)
          obtain ⟨i, e1, _, e3, e4, e5⟩ := findUserSlot_first fs.omni_file.users username
            fs.header.max_users 0 ⟨i0, Nat.zero_le _, by omega, hn0⟩
          have hii : i = i0 := by
            rcases Nat.lt_trichotomy i i0 with hlt | heq | hgt
            · exact absurd (e4.trans hn0.symm) (hd i0 hi0 hocc0 i hlt)
            · exact heq
            · exact absurd hn0 (e5 i0 (Nat.zero_le _) hgt)
          subst hii
          rw [e1]
          simp only
          have hsearch : ∀ k, (AVLTree.search ⟨fs.users.root.deleteHelper username⟩ k)
              = if username = k then none else fs.users.search k :=
            fun k => AVLNode.searchHelper_deleteHelper fs.users.root ho username k
          have hdead : ¬ (UserInfo.Occupied
              { (fs.omni_file.users i).getD UserInfo.zero with is_active := false }) := by
            intro h
            exact absurd h.1 (by simp)
          refine ⟨(AVLNode.deleteHelper_spec fs.users.root username ho).1, hh, ?_, ?_⟩
          · intro k
            rw [hsearch k]
            constructor
            · intro h
              by_cases hku : username = k
              · rw [if_pos hku] at h
                cases h
              · rw [if_neg hku] at h
                obtain ⟨j, hj, hocc, he⟩ := (hk k).mp h
                have hji : j ≠ i := by
                  rintro rfl
                  exact hku (hn0.symm.trans he)
                refine ⟨j, hj, ?_⟩
                rw [slotUser_writeUser, if_neg hji]
                exact ⟨hocc, he⟩
            · rintro ⟨j, hj, hocc, he⟩
              rw [slotUser_writeUser] at hocc he
              by_cases hji : j = i
              · rw [if_pos hji] at hocc
                exact absurd hocc hdead
              · rw [if_neg hji] at hocc he
                have hku : username ≠ k := by
                  intro e
                  apply hji
                  exact diskUsersOK_distinct hd j i hj hi0 hocc hocc0
                    (he.trans (e.symm.trans hn0.symm))
                rw [if_neg hku]
                exact (hk k).mpr ⟨j, hj, hocc, he⟩
          · intro i1 hi1 hocc j hj
            rw [slotUser_writeUser] at hocc ⊢
            rw [slotUser_writeUser]
            have hname : ∀ j2, (if j2 = i then
                ({ (fs.omni_file.users i).getD UserInfo.zero with is_active := false } : UserInfo)
                else slotUser fs.omni_file.users j2).username
                = (slotUser fs.omni_file.users j2).username := by
              intro j2
              by_cases h : j2 = i
              · rw [if_pos h, h]
                rfl
              · rw [if_neg h]
            rw [hname, hname]
            by_cases h1 : i1 = i
            · rw [if_pos h1] at hocc
              exact absurd hocc hdead
            · rw [if_neg h1] at hocc
              exact hd i1 hi1 hocc j hj

theorem fs_init_facts (sz : RecordSizes) (sm sm1 : SessionManager) (c : Container)
    (config : FileSystemConfig) (now : Nat) (code : OFSErrorCodes) (fs : OFSInstance)
    (h : fs_init sz sm (some c) config now = (code, sm1, some fs)) :
    c.header = some fs.header ∧ fs.omni_file = c
      ∧ fs.users = loadUsers c.users fs.header.max_users := by
  simp only [fs_init] at h
  split at h
  · cases h
  · rename_i header hhead
    split at h
    · cases h
    · simp only [Prod.mk.injEq, Option.some.injEq] at h
      rw [← h.2.2]
      exact ⟨hhead, rfl, rfl⟩

theorem mirror_fs_init (sz : RecordSizes) (sm sm1 : SessionManager) (c : Container)
    (config : FileSystemConfig) (now : Nat) (code : OFSErrorCodes) (fs : OFSInstance)
    (hd : ∀ header, c.header = some header → DiskUsersOK c.users header.max_users)
    (h : fs_init sz sm (some c) config now = (code, sm1, some fs)) : UsersMirror fs := by
  obtain ⟨h1, h2, h3⟩ := fs_init_facts sz sm sm1 c config now code fs h
  refine ⟨?_, ?_, ?_, ?_⟩
  · rw [h3]
    exact (usersOK_loadUsers _ _).1
  · rw [h2]
    exact h1
  · intro k
    rw [h3, h2]
    exact loadUsers_keys c.users fs.header.max_users k
  · rw [h2]
    exact hd fs.header h1

theorem mirror_of_reachable {fs : OFSInstance} (h : MirrorReachable fs) : UsersMirror fs := by
  induction h with
  | mounted sz sm c config now sm1 fs hd h =>
    exact mirror_fs_init sz sm sm1 c config now _ fs hd h
  | create fs ms username password role now hname hfit _ ih =>
    exact mirror_user_create fs ms username password role now hname hfit ih
  | delete fs ms username _ ih => exact mirror_user_delete fs ms username ih

/-- The user table of a formatted container is in order: only slot 0 can be occupied. -/
theorem formatted_diskUsersOK (sz : RecordSizes) (config : FileSystemConfig) (now : Nat)
    (snapshot : List Nat) (n : Nat) :
    DiskUsersOK (formattedContainer sz config now snapshot).users n := by
  intro i _ hocc j hj
  exfalso
  have hi : 1 ≤ i := by omega
  cases hu : (formattedContainer sz config now snapshot).users i with
  | none =>
    unfold slotUser at hocc
    rw [hu] at hocc
    exact zero_not_occupied hocc
  | some u =>
    have := formatted_users_inactive sz config now snapshot i hi u hu
    unfold slotUser at hocc
    rw [hu] at hocc
    have h1 := hocc.1
    simp only [Option.getD_some] at h1
    rw [this] at h1
    cases h1

theorem user_delete_success_search (fs : OFSInstance) (ms : Option ManagedSession)
    (username : List Char) (ho : fs.users.root.Ordered)
    (h : (user_delete fs ms username).1 = OFSErrorCodes.SUCCESS) :
    (user_delete fs ms username).2.users.search username = none := by
  unfold user_delete at h ⊢
  cases hsu : sessionUsable ms with
  | none =>
    simp only [hsu] at h
    cases h
  | some s =>
    simp only [hsu] at h ⊢
    by_cases hr : s.info.user.role ≠ UserRole.ADMIN
    · rw [if_pos hr] at h
      cases h
    · rw [if_neg hr] at h ⊢
      by_cases hself : username = s.info.user.username
      · rw [if_pos hself] at h
        cases h
      · rw [if_neg hself] at h ⊢
        cases hs : fs.users.search username with
        | none =>
          have hrem : fs.users.remove username = (false, fs.users) := by
            unfold AVLTree.remove
            rw [hs]
          rw [hrem] at h
          cases h
        | some x =>
          have hrem : fs.users.remove username
              = (true, ⟨fs.users.root.deleteHelper username⟩) := by
            unfold AVLTree.remove
            rw [hs]
          have hsearch : (AVLTree.search ⟨fs.users.root.deleteHelper username⟩ username)
              = none := by
            have := AVLNode.searchHelper_deleteHelper fs.users.root ho username username
            rw [if_pos rfl] at this
            exact this
          rw [hrem]
          simp only
          split <;> exact hsearch

theorem foldl_invariant_mem {α β : Type} (P : α → Prop) (f : α → β → α) :
    ∀ (l : List β) (a : α), (∀ a b, b ∈ l → P a → P (f a b)) → P a → P (l.foldl f a) := by
  intro l
  induction l with
  | nil => intro a _ h; exact h
  | cons x rest ih =>
    intro a hf h
    exact ih _ (fun a b hb => hf a b (List.mem_cons_of_mem _ hb))
      (hf a x (List.mem_cons_self _ _) h)

theorem hasEntryIndex_inv {e : Nat} {i : NodeInfo} {cs : List TreeNode}
    (h : HasEntryIndex e (.mk i cs)) :
    i.entryIndex = e ∨ ∃ c, c ∈ cs ∧ HasEntryIndex e c := by
  cases h with
  | atNode _ _ h => exact Or.inl h
  | inChild _ _ c hc h => exact Or.inr ⟨c, hc, h⟩

theorem hasEntryIndex_modifyAt (e : Nat) (Q : Prop) (f : TreeNode → TreeNode)
    (hf : ∀ n, HasEntryIndex e (f n) → HasEntryIndex e n ∨ Q) :
    ∀ (route : List (List Char)) (t : TreeNode),
      HasEntryIndex e (modifyAt f route t) → HasEntryIndex e t ∨ Q := by
  intro route
  induction route with
  | nil =>
    intro t h
    exact hf t h
  | cons p ps ih =>
    intro t h
    cases t with
    | mk i cs =>
      simp only [modifyAt] at h
      rcases hasEntryIndex_inv h with h1 | ⟨x, hx, h1⟩
      · exact Or.inl (HasEntryIndex.atNode _ _ h1)
      · rcases mem_modifyChild _ cs p x hx with hx1 | ⟨c, hc, hx1⟩
        · exact Or.inl (HasEntryIndex.inChild _ _ x hx1 h1)
        · rw [hx1] at h1
          rcases ih c h1 with h2 | h2
          · exact Or.inl (HasEntryIndex.inChild _ _ c (findChild_mem _ _ _ hc).1 h2)
          · exact Or.inr h2

theorem ancestorAt_succ (entries : Nat → Option FileEntry) (e : Nat) :
    ∀ n, ancestorAt entries e (n + 1)
      = ancestorAt entries ((entries e).getD FileEntry.zero).parent_index n := by
  intro n
  induction n with
  | zero => rfl
  | succ n ih =>
    rw [ancestorAt, ih]
    rfl

theorem rooted_not_unrooted (entries : Nat → Option FileEntry) (e : Nat)
    (hr : RootedChain entries e) : ¬ UnrootedChain entries e := by
  obtain ⟨n, hend, hval⟩ := hr
  rintro (hu | ⟨k, hk1, hk2⟩)
  · rcases hend with h | h
    · exact (hu (n + 1)).1 h
    · exact (hu (n + 1)).2 h
  · by_cases hkn : k ≤ n
    · have := (hval k hkn).1
      rw [hk2] at this
      cases this
    · have hk := hk1 (n + 1) (by omega)
      rcases hend with h | h
      · exact hk.1 h
      · exact hk.2 h

theorem rooted_step (entries : Nat → Option FileEntry) (e : Nat)
    (hv : slotValid entries e = true) (h0 : e ≠ 0) (h1 : e ≠ 1)
    (hp : ((entries e).getD FileEntry.zero).parent_index = 0
      ∨ ((entries e).getD FileEntry.zero).parent_index = 1
      ∨ RootedChain entries ((entries e).getD FileEntry.zero).parent_index) :
    RootedChain entries e := by
  rcases hp with hp | hp | ⟨n, hend, hval⟩
  · refine ⟨0, Or.inl hp, ?_⟩
    intro m hm
    have : m = 0 := by omega
    subst this
    exact ⟨hv, h0, h1⟩
  · refine ⟨0, Or.inr hp, ?_⟩
    intro m hm
    have : m = 0 := by omega
    subst this
    exact ⟨hv, h0, h1⟩
  · refine ⟨n + 1, ?_, ?_⟩
    · rw [ancestorAt_succ]
      exact hend
    · intro m hm
      cases m with
      | zero => exact ⟨hv, h0, h1⟩
      | succ m =>
        rw [ancestorAt_succ]
        exact hval m (by omega)

/-- One visit either leaves the state as it is or marks `entry_idx`, whose slot is valid,
which was not marked and whose parent is slot 1 or marked, and hangs one node with that
entry index into the tree. -/
theorem mountVisit_cases (fs : OFSInstance) (max_entries now : Nat) (st : MountState)
    (idx : Nat) :
    mountVisit fs max_entries now st idx = st
    ∨ (slotValid fs.omni_file.entries idx = true ∧ idx ∉ st.processed
        ∧ (((fs.omni_file.entries idx).getD FileEntry.zero).parent_index = 1
          ∨ ((fs.omni_file.entries idx).getD FileEntry.zero).parent_index ∈ st.processed)
        ∧ (mountVisit fs max_entries now st idx).processed = idx :: st.processed
        ∧ (mountVisit fs max_entries now st idx).total_processed = st.total_processed + 1
        ∧ (mountVisit fs max_entries now st idx).progress = true
        ∧ ∃ path isFile owner tree1 node fi,
            st.file_tree.createNode path isFile owner now = some (tree1, node)
            ∧ (mountVisit fs max_entries now st idx).file_tree = tree1.update node fi
            ∧ (∀ i : NodeInfo, (fi i).entryIndex = idx)) := by
  unfold mountVisit
  simp only
  split
  · exact Or.inl rfl
  · rename_i hv
    push_neg at hv
    split
    · rename_i hp
      split
      · exact Or.inl rfl
      · split
        · exact Or.inl rfl
        · rename_i tree1 node hc
          right
          refine ⟨?_, hv.2, hp, rfl, rfl, rfl, _, _, _, tree1, node,
            (fun i : NodeInfo =>
              { i with
                entryIndex := idx
                size := ((fs.omni_file.entries idx).getD FileEntry.zero).size
                permissions := ((fs.omni_file.entries idx).getD FileEntry.zero).permissions
                created_time := ((fs.omni_file.entries idx).getD FileEntry.zero).created_time
                modified_time := ((fs.omni_file.entries idx).getD FileEntry.zero).modified_time
                startBlockIndex :=
                  if decide (((fs.omni_file.entries idx).getD FileEntry.zero).type
                      = EntryType.FILE) = true
                  then ((fs.omni_file.entries idx).getD FileEntry.zero).inode else 0 }),
            hc, rfl, ?_⟩
          · have h1 := hv.1
            unfold slotValid
            cases he : fs.omni_file.entries idx with
            | none => simp [he] at h1
            | some x =>
              simp only [he, Option.isSome_some, Option.getD_some, Bool.true_and, ne_eq,
                Bool.not_eq_false, Bool.and_eq_true, decide_eq_true_eq] at h1
              exact h1.1.1
          · intro i
            rfl
    · exact Or.inl rfl

theorem hasEntryIndex_update (e idx : Nat) (fi : NodeInfo → NodeInfo)
    (hfi : ∀ i, (fi i).entryIndex = idx) (route : List (List Char)) (t : FileTree)
    (h : HasEntryIndex e (t.update route fi).root) : HasEntryIndex e t.root ∨ e = idx := by
  unfold FileTree.update at h
  refine hasEntryIndex_modifyAt e (e = idx) _ ?_ route t.root h
  intro n hn
  cases n with
  | mk i cs =>
    simp only [info_mk, children_mk] at hn
    rcases hasEntryIndex_inv hn with h1 | ⟨c, hc, h1⟩
    · right
      rw [← h1, hfi]
    · exact Or.inl (HasEntryIndex.inChild _ _ c hc h1)

theorem hasEntryIndex_createNode (e : Nat) (t t1 : FileTree) (path owner : List Char)
    (isFile : Bool) (now : Nat) (node : List (List Char))
    (hc : t.createNode path isFile owner now = some (t1, node))
    (h : HasEntryIndex e t1.root) : HasEntryIndex e t.root ∨ e = 0 := by
  unfold FileTree.createNode at hc
  split at hc
  · cases hc
  · simp only at hc
    split at hc
    · cases hc
    · split at hc
      · cases hc
      · split at hc
        · cases hc
        · split at hc
          · cases hc
          · simp only [Option.some.injEq, Prod.mk.injEq] at hc
            rw [← hc.1] at h
            simp only at h
            refine hasEntryIndex_modifyAt e (e = 0) _ ?_ _ t.root h
            intro n hn
            cases n with
            | mk i cs =>
              simp only [info_mk, children_mk] at hn
              rcases hasEntryIndex_inv hn with h1 | ⟨c, hc1, h1⟩
              · exact Or.inl (HasEntryIndex.atNode _ _ h1)
              · rcases List.mem_append.mp hc1 with h2 | h2
                · exact Or.inl (HasEntryIndex.inChild _ _ c h2 h1)
                · rw [List.mem_singleton] at h2
                  rw [h2] at h1
                  rcases hasEntryIndex_inv h1 with h3 | ⟨c2, hc2, _⟩
                  · exact Or.inr h3.symm
                  · cases hc2

theorem mountInv_visit (fs : OFSInstance) (max_entries now : Nat) (st : MountState)
    (idx : Nat) (h2 : 2 ≤ idx) (hinv : MountInv fs.omni_file.entries st) :
    MountInv fs.omni_file.entries (mountVisit fs max_entries now st idx) := by
  rcases mountVisit_cases fs max_entries now st idx with h | ⟨hv, hnew, hp, e1, _, _, hex⟩
  · rw [h]
    exact hinv
  · obtain ⟨i0, i1, ir, it⟩ := hinv
    obtain ⟨path, isFile, owner, tree1, node, fi, hc, e4, hfi⟩ := hex
    refine ⟨?_, ?_, ?_, ?_⟩
    · rw [e1]
      exact List.mem_cons_of_mem _ i0
    · rw [e1]
      exact List.mem_cons_of_mem _ i1
    · intro x hx
      rw [e1] at hx
      rcases List.mem_cons.mp hx with hx | hx
      · subst hx
        right
        right
        refine rooted_step _ _ hv (by omega) (by omega) ?_
        rcases hp with hp | hp
        · exact Or.inr (Or.inl hp)
        · exact ir _ hp
      · exact ir x hx
    · intro e he
      rw [e4] at he
      rw [e1]
      rcases hasEntryIndex_update e idx fi hfi node tree1 he with h5 | h5
      · rcases hasEntryIndex_createNode e st.file_tree tree1 path owner isFile now node hc h5
          with h6 | h6
        · exact List.mem_cons_of_mem _ (it e h6)
        · rw [h6]
          exact List.mem_cons_of_mem _ i0
      · rw [h5]
        exact List.mem_cons_self _ _

theorem mem_range_two {max_entries idx : Nat} (h : idx ∈ List.range' 2 (max_entries - 2)) :
    2 ≤ idx := by
  rw [List.mem_range'_1] at h
  exact h.1

theorem mountInv_pass (fs : OFSInstance) (max_entries now : Nat) (st : MountState)
    (hinv : MountInv fs.omni_file.entries st) :
    MountInv fs.omni_file.entries (mountPass fs max_entries now st) := by
  unfold mountPass
  apply foldl_invariant_mem (MountInv fs.omni_file.entries)
  · intro a b hb ha
    exact mountInv_visit fs max_entries now a b (mem_range_two hb) ha
  · exact hinv

theorem mountInv_loop (fs : OFSInstance) (max_entries valid_count now : Nat) :
    ∀ (fuel : Nat) (st : MountState), MountInv fs.omni_file.entries st →
      MountInv fs.omni_file.entries (mountLoop fs max_entries valid_count now fuel st) := by
  intro fuel
  induction fuel with
  | zero => intro st h; exact h
  | succ fuel ih =>
    intro st h
    simp only [mountLoop]
    split
    · exact ih _ (mountInv_pass fs max_entries now _ h)
    · exact h

theorem mountInv_start (entries : Nat → Option FileEntry) (now : Nat) :
    MountInv entries (mountStart now) := by
  refine ⟨by simp [mountStart], by simp [mountStart], ?_, ?_⟩
  · intro x hx
    simp only [mountStart, List.mem_cons, List.mem_singleton, List.not_mem_nil,
      or_false] at hx
    rcases hx with hx | hx
    · exact Or.inl hx
    · exact Or.inr (Or.inl hx)
  · intro e he
    simp only [mountStart, FileTree.new] at he
    rcases hasEntryIndex_inv he with h | ⟨c, hc, _⟩
    · simp only [mountStart]
      rw [← h]
      simp
    · cases hc

/-- A pass never lowers `total_processed`, and a pass that ends with `progress` set has
raised it. -/
theorem mountPass_progress (fs : OFSInstance) (max_entries now : Nat) (st : MountState) :
    st.total_processed ≤ (mountPass fs max_entries now { st with progress := false }).total_processed
    ∧ ((mountPass fs max_entries now { st with progress := false }).progress = true →
        st.total_processed + 1
          ≤ (mountPass fs max_entries now { st with progress := false }).total_processed) := by
  unfold mountPass
  apply foldl_invariant_mem
    (fun s : MountState => st.total_processed ≤ s.total_processed
      ∧ (s.progress = true → st.total_processed + 1 ≤ s.total_processed))
  · intro a b _ ha
    rcases mountVisit_cases fs max_entries now a b with h | ⟨_, _, _, _, e2, _, _⟩
    · rw [h]
      exact ha
    · rw [e2]
      exact ⟨by omega, fun _ => by omega⟩
  · exact ⟨le_refl _, fun h => by simp at h⟩

theorem mountLoopPasses_fst (fs : OFSInstance) (max_entries valid_count now : Nat) :
    ∀ (fuel : Nat) (st : MountState) (pass : Nat),
      (mountLoopPasses fs max_entries valid_count now fuel st pass).1
        = mountLoop fs max_entries valid_count now fuel st := by
  intro fuel
  induction fuel with
  | zero => intro st pass; rfl
  | succ fuel ih =>
    intro st pass
    simp only [mountLoopPasses, mountLoop]
    split
    · exact ih _ _
    · rfl

/-- The pass counter: from a state with `total_processed = t` the loop makes at most
`valid_count + 2 - t + 1` further passes. -/
theorem mountLoopPasses_bound (fs : OFSInstance) (max_entries valid_count now : Nat) :
    ∀ (fuel : Nat) (st : MountState) (pass : Nat),
      (mountLoopPasses fs max_entries valid_count now fuel st pass).2
        ≤ pass + (if st.progress = true then valid_count + 2 - st.total_processed + 1 else 0) := by
  intro fuel
  induction fuel with
  | zero =>
    intro st pass
    simp only [mountLoopPasses]
    omega
  | succ fuel ih =>
    intro st pass
    simp only [mountLoopPasses]
    split
    · rename_i hc
      obtain ⟨m1, m2⟩ := mountPass_progress fs max_entries now st
      have hrec := ih (mountPass fs max_entries now { st with progress := false }) (pass + 1)
      rw [if_pos hc.1]
      by_cases hp : (mountPass fs max_entries now { st with progress := false }).progress = true
      · rw [if_pos hp] at hrec
        have := m2 hp
        omega
      · rw [if_neg hp] at hrec
        omega
    · omega

/-- With enough fuel the loop ends because its condition fails. -/
theorem mountLoop_ends (fs : OFSInstance) (max_entries valid_count now : Nat) :
    ∀ (fuel : Nat) (st : MountState),
      (if st.continues valid_count = true then valid_count + 2 - st.total_processed + 1 else 0)
        ≤ fuel →
      (mountLoop fs max_entries valid_count now fuel st).continues valid_count = false := by
  intro fuel
  induction fuel with
  | zero =>
    intro st h
    simp only [mountLoop]
    by_cases hc : st.continues valid_count = true
    · rw [if_pos hc] at h
      omega
    · simpa using hc
  | succ fuel ih =>
    intro st h
    simp only [mountLoop]
    split
    · rename_i hc
      have hcont : st.continues valid_count = true := by
        simp [MountState.continues, hc.1, hc.2]
      rw [if_pos hcont] at h
      obtain ⟨m1, m2⟩ := mountPass_progress fs max_entries now st
      apply ih
      by_cases hc1 : (mountPass fs max_entries now { st with progress := false }).continues
          valid_count = true
      · rw [if_pos hc1]
        have hp : (mountPass fs max_entries now { st with progress := false }).progress
            = true := by
          simp only [MountState.continues, Bool.and_eq_true] at hc1
          exact hc1.1
        have := m2 hp
        omega
      · rw [if_neg hc1]
        omega
    · rename_i hc
      simp only [MountState.continues, Bool.and_eq_true, decide_eq_true_eq]
      cases hx : (st.progress && decide (st.total_processed < valid_count + 2)) with
      | false => rfl
      | true =>
        simp only [Bool.and_eq_true, decide_eq_true_eq] at hx
        exact absurd hx hc

/-- Past the point where the condition fails, more fuel changes nothing. -/
theorem mountLoop_fuel (fs : OFSInstance) (max_entries valid_count now : Nat) :
    ∀ (fuel extra : Nat) (st : MountState),
      (if st.continues valid_count = true then valid_count + 2 - st.total_processed + 1 else 0)
        ≤ fuel →
      mountLoop fs max_entries valid_count now (fuel + extra) st
        = mountLoop fs max_entries valid_count now fuel st := by
  intro fuel
  induction fuel with
  | zero =>
    intro extra st h
    have hc : ¬ st.continues valid_count = true := by
      intro hc
      rw [if_pos hc] at h
      omega
    cases extra with
    | zero => rfl
    | succ extra =>
      simp only [Nat.zero_add, mountLoop]
      rw [if_neg]
      intro hx
      apply hc
      simp [MountState.continues, hx.1, hx.2]
  | succ fuel ih =>
    intro extra st h
    have e : fuel + 1 + extra = (fuel + extra) + 1 := by omega
    rw [e]
    simp only [mountLoop]
    split
    · rename_i hc
      have hcont : st.continues valid_count = true := by
        simp [MountState.continues, hc.1, hc.2]
      rw [if_pos hcont] at h
      obtain ⟨m1, m2⟩ := mountPass_progress fs max_entries now st
      apply ih
      by_cases hc1 : (mountPass fs max_entries now { st with progress := false }).continues
          valid_count = true
      · rw [if_pos hc1]
        have hp : (mountPass fs max_entries now { st with progress := false }).progress
            = true := by
          simp only [MountState.continues, Bool.and_eq_true] at hc1
          exact hc1.1
        have := m2 hp
        omega
      · rw [if_neg hc1]
        omega
    · rfl

theorem countValidEntries_le (entries : Nat → Option FileEntry) (n : Nat) :
    countValidEntries entries n ≤ n := by
  unfold countValidEntries
  exact (List.length_filter_le _ _).trans (by rw [List.length_range])

theorem fs_init_tree (sz : RecordSizes) (sm sm1 : SessionManager) (c : Container)
    (config : FileSystemConfig) (now : Nat) (code : OFSErrorCodes) (fs : OFSInstance)
    (h : fs_init sz sm (some c) config now = (code, sm1, some fs)) :
    ∃ fs0 : OFSInstance, fs0.omni_file = c ∧ fs.omni_file = c
      ∧ fs.file_tree = (mountLoop fs0 config.max_files
          (countValidEntries c.entries config.max_files) now (config.max_files + 1)
          (mountStart now)).file_tree := by
  simp only [fs_init] at h
  split at h
  · cases h
  · split at h
    · cases h
    · simp only [Prod.mk.injEq, Option.some.injEq] at h
      rw [← h.2.2]
      exact ⟨_, rfl, rfl, rfl⟩

/-- C32 as the code has it: for every entry table whose `parent_index` values are below
`max_files` (cyclic parent links, self-parenting entries and invalid parents included),
the reconstruction loop of a successful `fs_init` makes at most (number of valid entries
+ 1) passes and ends because its condition fails (more fuel changes nothing); an entry
whose parent chain never arrives at slot 0 or slot 1, or passes through an invalid slot
before it arrives there, is not marked processed and no node of the mounted tree carries
its index; and the container of the mounted instance is the one that was read.  Slot 1
ends a chain like slot 0 does, whether or not the root entry is valid.  The bound on
`parent_index` is where the list of marked entries agrees with the `entry_processed` array
of the source; the proof does not need it. -/
theorem mount_reconstruction_terminates (sz : RecordSizes) (sm sm1 : SessionManager)
    (c : Container) (config : FileSystemConfig) (now : Nat) (fs : OFSInstance)
    (hpar : ∀ i, i < config.max_files →
      ((c.entries i).getD FileEntry.zero).parent_index < config.max_files)
    (h : fs_init sz sm (some c) config now = (OFSErrorCodes.SUCCESS, sm1, some fs)) :
    ∃ fs0 : OFSInstance, fs0.omni_file = c
      ∧ (mountLoopPasses fs0 config.max_files (countValidEntries c.entries config.max_files)
          now (config.max_files + 1) (mountStart now) 0).2
          ≤ countValidEntries c.entries config.max_files + 1
      ∧ (mountLoopPasses fs0 config.max_files (countValidEntries c.entries config.max_files)
          now (config.max_files + 1) (mountStart now) 0).1.continues
            (countValidEntries c.entries config.max_files) = false
      ∧ (∀ extra, mountLoop fs0 config.max_files
            (countValidEntries c.entries config.max_files) now
            (countValidEntries c.entries config.max_files + 1 + extra) (mountStart now)
          = mountLoop fs0 config.max_files (countValidEntries c.entries config.max_files) now
            (countValidEntries c.entries config.max_files + 1) (mountStart now))
      ∧ fs.file_tree = (mountLoopPasses fs0 config.max_files
          (countValidEntries c.entries config.max_files) now (config.max_files + 1)
          (mountStart now) 0).1.file_tree
      ∧ (∀ e, UnrootedChain c.entries e →
          e ∉ (mountLoopPasses fs0 config.max_files
            (countValidEntries c.entries config.max_files) now (config.max_files + 1)
            (mountStart now) 0).1.processed
          ∧ ¬ HasEntryIndex e fs.file_tree.root)
      ∧ fs.omni_file = c := by
  obtain ⟨fs0, h0, h1, h2⟩ := fs_init_tree sz sm sm1 c config now _ fs h
  have hle := countValidEntries_le c.entries config.max_files
  have hneed : (if (mountStart now).continues (countValidEntries c.entries config.max_files)
      = true then countValidEntries c.entries config.max_files + 2
        - (mountStart now).total_processed + 1 else 0)
      ≤ countValidEntries c.entries config.max_files + 1 := by
    split
    · simp only [mountStart]
      omega
    · omega
  have hinv := mountInv_loop fs0 config.max_files
    (countValidEntries c.entries config.max_files) now (config.max_files + 1) (mountStart now)
    (mountInv_start fs0.omni_file.entries now)
  rw [h0] at hinv
  obtain ⟨_, _, ir, it⟩ := hinv
  have hproc : ∀ e, UnrootedChain c.entries e →
      e ∉ (mountLoop fs0 config.max_files (countValidEntries c.entries config.max_files) now
        (config.max_files + 1) (mountStart now)).processed := by
    intro e hu he
    rcases ir e he with hx | hx | hx
    · rcases hu with hu | ⟨n, hn, _⟩
      · exact (hu 0).1 hx
      · exact (hn 0 (Nat.zero_le _)).1 hx
    · rcases hu with hu | ⟨n, hn, _⟩
      · exact (hu 0).2 hx
      · exact (hn 0 (Nat.zero_le _)).2 hx
    · exact rooted_not_unrooted _ _ hx hu
  refine ⟨fs0, h0, ?_, ?_, ?_, ?_, ?_, h1⟩
  · have hb := mountLoopPasses_bound fs0 config.max_files
      (countValidEntries c.entries config.max_files) now (config.max_files + 1)
      (mountStart now) 0
    have e1 : (mountStart now).progress = true := rfl
    have e2 : (mountStart now).total_processed = 2 := rfl
    rw [if_pos e1, e2] at hb
    omega
  · rw [mountLoopPasses_fst]
    apply mountLoop_ends
    exact hneed.trans (by omega)
  · intro extra
    exact mountLoop_fuel fs0 config.max_files _ now _ extra (mountStart now) hneed
  · rw [mountLoopPasses_fst]
    exact h2
  · intro e hu
    rw [mountLoopPasses_fst]
    refine ⟨hproc e hu, ?_⟩
    intro hn
    rw [h2] at hn
    exact hproc e hu (it e hn)

set_option maxRecDepth 100000 in
/-- Witness for C32: `dir_create("/d")` and `file_create("/d/f")` on the demo mount, then
shutdown and mount. -/
theorem mount_reconstruction_terminates_witness :
    ∃ fs0 : OFSInstance, fs0.omni_file = (fs_shutdown noSessions mountTimeScenario2.2).2.2
      ∧ (mountLoopPasses fs0 demoConfig.max_files
          (countValidEntries (fs_shutdown noSessions mountTimeScenario2.2).2.2.entries
            demoConfig.max_files) 9 (demoConfig.max_files + 1) (mountStart 9) 0).2
          ≤ countValidEntries (fs_shutdown noSessions mountTimeScenario2.2).2.2.entries
              demoConfig.max_files + 1
      ∧ mountTimeScenario3.omni_file = (fs_shutdown noSessions mountTimeScenario2.2).2.2 :=
  have h := mount_reconstruction_terminates demoSizes noSessions
    (fs_init demoSizes noSessions (some (fs_shutdown noSessions mountTimeScenario2.2).2.2)
      demoConfig 9).2.1
    (fs_shutdown noSessions mountTimeScenario2.2).2.2 demoConfig 9 mountTimeScenario3
    (by decide) rfl
  h.elim (fun fs0 hx => ⟨fs0, hx.1, hx.2.1, hx.2.2.2.2.2.2⟩)

set_option maxRecDepth 100000 in
/-- C32, the sentence as written fails: after `dir_delete("//")` has marked the root entry
invalid, `dir_create("/d")` stores entry 2 with `parent_index` 1; the parent chain of
entry 2 passes through slot 1, an invalid slot other than slot 0, and the next mount still
builds the node `/d` with entry index 2. -/
theorem invalid_root_slot_still_mounts :
    rootInvalidScenario1.1 = OFSErrorCodes.SUCCESS
    ∧ slotValid rootInvalidScenario1.2.omni_file.entries 2 = true
    ∧ ancestorAt rootInvalidScenario1.2.omni_file.entries 2 1 = 1
    ∧ slotValid rootInvalidScenario1.2.omni_file.entries 1 = false
    ∧ (∀ i, i < rootInvalidScenario1.2.config.max_files →
        ((rootInvalidScenario1.2.omni_file.entries i).getD FileEntry.zero).parent_index
          < rootInvalidScenario1.2.config.max_files)
    ∧ (rootInvalidScenario2.file_tree.findNode "/d".toList).map (fun n => n.info.entryIndex)
        = some 2 := by
  refine ⟨?_, ?_, ?_, ?_, ?_, ?_⟩ <;> decide

/-! ## Sibling names on the heap -/

namespace HeapTree

theorem update_objects (h : HeapTree) (a : Nat) (f : HeapNode → HeapNode) (k : Nat) :
    (h.update a f).objects k = if k = a then (h.objects k).map f else h.objects k := rfl

theorem findChildIn_none (h : HeapTree) :
    ∀ (cs : List Nat) (name : List Char), h.findChildIn cs name = none →
      ∀ c ∈ cs, h.nameAt c ≠ some name := by
  intro cs
  induction cs with
  | nil => intro name _ c hc; cases hc
  | cons a rest ih =>
    intro name hf c hc
    simp only [findChildIn] at hf
    split at hf
    · cases hf
    · rename_i hne
      rcases List.mem_cons.mp hc with h1 | h1
      · rw [h1]
        exact hne
      · exact ih name hf c h1

theorem findChildIn_unique (h : HeapTree) :
    ∀ (cs : List Nat) (name : List Char) (c : Nat), (cs.map h.nameAt).Nodup → c ∈ cs →
      h.nameAt c = some name → h.findChildIn cs name = some c := by
  intro cs
  induction cs with
  | nil => intro name c _ hc; cases hc
  | cons a rest ih =>
    intro name c hnd hc hname
    rw [List.map_cons, List.nodup_cons] at hnd
    simp only [findChildIn]
    rcases List.mem_cons.mp hc with h1 | h1
    · subst h1
      rw [if_pos hname]
    · have hne : h.nameAt a ≠ some name := by
        intro e
        apply hnd.1
        rw [e, ← hname]
        exact List.mem_map_of_mem _ h1
      rw [if_neg hne]
      exact ih name c hnd.2 h1 hname

theorem relink_objects (h : HeapTree) (o q : Nat) (op : Option Nat) (newName : List Char)
    (now : Nat) (k : Nat) :
    (h.relink o q op newName now).objects k
      = (h.objects k).map (relinked o q op newName now k) := by
  unfold relink relinked
  cases op with
  | none =>
    by_cases h1 : k = o <;> by_cases h2 : k = q <;> cases hk : h.objects k <;>
      (try subst h1) <;> (try subst h2) <;> simp [update_objects, hk, *]
  | some p =>
    by_cases h1 : k = o <;> by_cases h2 : k = q <;> by_cases h3 : p = k <;>
      cases hk : h.objects k <;>
      (try subst h1) <;> (try subst h2) <;> (try subst h3) <;>
      (try have h3b : ¬ k = p := fun e => h3 e.symm) <;>
      simp [update_objects, hk, *]

theorem relink_next (h : HeapTree) (o q : Nat) (op : Option Nat) (newName : List Char)
    (now : Nat) : (h.relink o q op newName now).next = h.next := by
  cases op <;> rfl

theorem relink_root (h : HeapTree) (o q : Nat) (op : Option Nat) (newName : List Char)
    (now : Nat) : (h.relink o q op newName now).root = h.root := by
  cases op <;> rfl

theorem attach_objects (h : HeapTree) (p : Nat) (name : List Char) (isFile : Bool)
    (owner : List Char) (now : Nat) (hp : p ≠ h.next) (k : Nat) :
    (h.attach p name isFile owner now).objects k
      = if k = h.next then some
          { info := { name := name, isFile := isFile, entryIndex := 0, startBlockIndex := 0,
                      size := 0, permissions := if isFile then 0o644 else 0o755,
                      owner := owner, created_time := now, modified_time := now }
            parent := some p, children := [] }
        else (h.objects k).map (fun n =>
          if k = p then
            { n with children := n.children ++ [h.next]
                     info := { n.info with modified_time := now } }
          else n) := by
  unfold attach
  by_cases h1 : k = h.next
  · subst h1
    have h2 : ¬ h.next = p := fun e => hp e.symm
    simp [update_objects, h2]
  · by_cases h2 : k = p
    · subst h2
      cases hk : h.objects k <;> simp [update_objects, hk, h1]
    · cases hk : h.objects k <;> simp [update_objects, hk, h1, h2]

theorem destroy_leaf (fuel : Nat) (h : HeapTree) (a : Nat) (n : HeapNode)
    (hn : h.objects a = some n) (hc : n.children = []) :
    destroy (fuel + 1) h a
      = { h with objects := fun k => if k = a then none else h.objects k } := by
  simp [destroy, hn, hc]

theorem children_nodup {h : HeapTree} (hinv : HeapInv h) {p : Nat} {pn : HeapNode}
    (hp : h.objects p = some pn) : pn.children.Nodup :=
  List.Nodup.of_map _ (hinv.2.2.2.1 p pn hp)

theorem inv_new (now : Nat) : HeapInv (HeapTree.new now) := by
  have hobj : ∀ p pn, (HeapTree.new now).objects p = some pn → pn.children = []
      ∧ pn.parent = none := by
    intro p pn hp
    simp only [HeapTree.new] at hp
    split at hp
    · cases hp
      exact ⟨rfl, rfl⟩
    · cases hp
  refine ⟨?_, ?_, ?_, ?_, ?_⟩
  · intro a ha
    simp only [HeapTree.new] at ha ⊢
    rw [if_neg (by omega)]
  · intro p pn hp c hc
    rw [(hobj p pn hp).1] at hc
    cases hc
  · intro c cn p hc hpar
    rw [(hobj c cn hc).2] at hpar
    cases hpar
  · intro p pn hp
    rw [(hobj p pn hp).1]
    exact List.nodup_nil
  · intro p pn hp _
    exact (hobj p pn hp).1

theorem inv_relink (h : HeapTree) (o q : Nat) (ob qb : HeapNode) (newName : List Char)
    (now : Nat) (hinv : HeapInv h) (ho : h.objects o = some ob) (hq : h.objects q = some qb)
    (hqf : qb.info.isFile = false) (hfree : h.findChild q newName = none) :
    HeapInv (h.relink o q ob.parent newName now) := by
  obtain ⟨iF, iA, iE, iB, iD⟩ := hinv
  have hobj := relink_objects h o q ob.parent newName now
  have fwd : ∀ k n1, (h.relink o q ob.parent newName now).objects k = some n1 →
      ∃ n, h.objects k = some n ∧ n1 = relinked o q ob.parent newName now k n := by
    intro k n1 hk
    rw [hobj] at hk
    cases hx : h.objects k with
    | none =>
      rw [hx] at hk
      cases hk
    | some n =>
      rw [hx] at hk
      exact ⟨n, rfl, (Option.some.inj hk).symm⟩
  have bwd : ∀ k n, h.objects k = some n →
      (h.relink o q ob.parent newName now).objects k
        = some (relinked o q ob.parent newName now k n) := by
    intro k n hk
    rw [hobj, hk]
    rfl
  have hnames : ∀ c, c ≠ o →
      (h.relink o q ob.parent newName now).nameAt c = h.nameAt c := by
    intro c hc
    unfold nameAt
    rw [hobj]
    cases h.objects c <;> simp [relinked, hc]
  have hnameo : (h.relink o q ob.parent newName now).nameAt o = some newName := by
    unfold nameAt
    rw [hobj, ho]
    simp [relinked]
  have hqfree : ∀ c ∈ qb.children, h.nameAt c ≠ some newName := by
    unfold findChild at hfree
    rw [hq] at hfree
    exact findChildIn_none h _ _ hfree
  have hbase : ∀ k n, h.objects k = some n → ∀ c,
      c ∈ (if ob.parent = some k then n.children.erase o else n.children) →
      c ∈ n.children ∧ c ≠ o := by
    intro k n hk c hc
    have hnd : n.children.Nodup := List.Nodup.of_map _ (iB k n hk)
    by_cases hp : ob.parent = some k
    · rw [if_pos hp] at hc
      have := (hnd.mem_erase_iff).mp hc
      exact ⟨this.2, this.1⟩
    · rw [if_neg hp] at hc
      refine ⟨hc, ?_⟩
      intro hco
      subst hco
      obtain ⟨cn, hcn, hpar⟩ := iA k n hk c hc
      rw [ho] at hcn
      cases hcn
      exact hp hpar
  refine ⟨?_, ?_, ?_, ?_, ?_⟩
  · intro a ha
    rw [relink_next] at ha
    rw [hobj, iF a ha]
    rfl
  · intro p pn1 hp c hc
    obtain ⟨pn, hpn, rfl⟩ := fwd p pn1 hp
    simp only [relinked, List.mem_append] at hc
    rcases hc with hc | hc
    · obtain ⟨hc1, hc2⟩ := hbase p pn hpn c hc
      obtain ⟨cn, hcn, hpar⟩ := iA p pn hpn c hc1
      refine ⟨_, bwd c cn hcn, ?_⟩
      simp only [relinked, if_neg hc2]
      exact hpar
    · by_cases hpq : p = q
      · rw [if_pos hpq, List.mem_singleton] at hc
        subst hc
        subst hpq
        refine ⟨_, bwd c ob ho, ?_⟩
        simp [relinked]
      · rw [if_neg hpq] at hc
        cases hc
  · intro c cn1 p hc hpar
    obtain ⟨cn, hcn, rfl⟩ := fwd c cn1 hc
    simp only [relinked] at hpar
    by_cases hco : c = o
    · rw [if_pos hco, Option.some.injEq] at hpar
      subst hpar
      subst hco
      refine ⟨_, bwd q qb hq, ?_⟩
      simp [relinked]
    · rw [if_neg hco] at hpar
      obtain ⟨pn, hpn, hmem⟩ := iE c cn p hcn hpar
      refine ⟨_, bwd p pn hpn, ?_⟩
      simp only [relinked, List.mem_append]
      left
      split
      · exact (List.mem_erase_of_ne hco).mpr hmem
      · exact hmem
  · intro p pn1 hp
    obtain ⟨pn, hpn, rfl⟩ := fwd p pn1 hp
    simp only [relinked, List.map_append]
    have hbasenames :
        (if ob.parent = some p then pn.children.erase o else pn.children).map
            (h.relink o q ob.parent newName now).nameAt
          = (if ob.parent = some p then pn.children.erase o else pn.children).map
            h.nameAt :=
      List.map_congr_left (fun c hc => hnames c (hbase p pn hpn c hc).2)
    rw [hbasenames]
    have hsub : ((if ob.parent = some p then pn.children.erase o else pn.children).map
        h.nameAt).Nodup := by
      apply List.Nodup.sublist _ (iB p pn hpn)
      apply List.Sublist.map
      split
      · exact List.erase_sublist _ _
      · exact List.Sublist.refl _
    by_cases hpq : p = q
    · subst hpq
      rw [if_pos rfl]
      simp only [List.map_cons, List.map_nil, hnameo]
      rw [List.nodup_append]
      refine ⟨hsub, List.nodup_singleton _, ?_⟩
      intro x hx hx2
      rw [List.mem_singleton] at hx2
      subst hx2
      obtain ⟨c, hc, hcn⟩ := List.mem_map.mp hx
      have hpnq : pn = qb := by
        rw [hq] at hpn
        exact (Option.some.inj hpn).symm
      subst hpnq
      exact hqfree c (hbase p pn hpn c hc).1 hcn
    · rw [if_neg hpq]
      simpa using hsub
  · intro p pn1 hp hfile
    obtain ⟨pn, hpn, rfl⟩ := fwd p pn1 hp
    simp only [relinked] at hfile ⊢
    have hnil := iD p pn hpn hfile
    by_cases hpq : p = q
    · subst hpq
      rw [hq] at hpn
      cases hpn
      rw [hqf] at hfile
      cases hfile
    · rw [if_neg hpq, hnil]
      split <;> rfl

theorem inv_attach (h : HeapTree) (p : Nat) (pn : HeapNode) (name : List Char)
    (isFile : Bool) (owner : List Char) (now : Nat) (hinv : HeapInv h)
    (hp : h.objects p = some pn) (hpf : pn.info.isFile = false)
    (hfree : h.findChild p name = none) :
    HeapInv (h.attach p name isFile owner now) := by
  obtain ⟨iF, iA, iE, iB, iD⟩ := hinv
  have hpa : p ≠ h.next := by
    intro e
    rw [e, iF h.next (le_refl _)] at hp
    cases hp
  have hobj := attach_objects h p name isFile owner now hpa
  have hlive : ∀ k n, h.objects k = some n → k ≠ h.next := by
    intro k n hk e
    rw [e, iF h.next (le_refl _)] at hk
    cases hk
  have fwd : ∀ k n1, k ≠ h.next → (h.attach p name isFile owner now).objects k = some n1 →
      ∃ n, h.objects k = some n
        ∧ n1.parent = n.parent ∧ n1.info.name = n.info.name
        ∧ n1.info.isFile = n.info.isFile
        ∧ n1.children = n.children ++ (if k = p then [h.next] else []) := by
    intro k n1 hk hx
    rw [hobj, if_neg hk] at hx
    cases hy : h.objects k with
    | none =>
      rw [hy] at hx
      cases hx
    | some n =>
      rw [hy] at hx
      simp only [Option.map_some', Option.some.injEq] at hx
      subst hx
      by_cases hkp : k = p
      · simp [hkp]
      · simp [hkp]
  have bwd : ∀ k n, h.objects k = some n →
      ∃ n1, (h.attach p name isFile owner now).objects k = some n1
        ∧ n1.parent = n.parent ∧ n1.info.name = n.info.name
        ∧ n1.children = n.children ++ (if k = p then [h.next] else []) := by
    intro k n hk
    rw [hobj, if_neg (hlive k n hk), hk]
    by_cases hkp : k = p
    · exact ⟨_, rfl, by simp [hkp], by simp [hkp], by simp [hkp]⟩
    · exact ⟨_, rfl, by simp [hkp], by simp [hkp], by simp [hkp]⟩
  have hnew : ∃ n1, (h.attach p name isFile owner now).objects h.next = some n1
      ∧ n1.parent = some p ∧ n1.info.name = name ∧ n1.children = [] := by
    rw [hobj, if_pos rfl]
    exact ⟨_, rfl, rfl, rfl, rfl⟩
  have hnames : ∀ c cn, h.objects c = some cn →
      (h.attach p name isFile owner now).nameAt c = h.nameAt c := by
    intro c cn hc
    obtain ⟨n1, h1, _, h3, _⟩ := bwd c cn hc
    unfold nameAt
    rw [h1, hc]
    simp [h3]
  have hnamenew : (h.attach p name isFile owner now).nameAt h.next = some name := by
    obtain ⟨n1, h1, _, h3, _⟩ := hnew
    unfold nameAt
    rw [h1]
    simp [h3]
  have hpfree : ∀ c ∈ pn.children, h.nameAt c ≠ some name := by
    unfold findChild at hfree
    rw [hp] at hfree
    exact findChildIn_none h _ _ hfree
  refine ⟨?_, ?_, ?_, ?_, ?_⟩
  · intro a ha
    have e : (h.attach p name isFile owner now).next = h.next + 1 := rfl
    rw [e] at ha
    rw [hobj, if_neg (by omega), iF a (by omega)]
    rfl
  · intro k n1 hk c hc
    by_cases hka : k = h.next
    · subst hka
      obtain ⟨n2, h2, _, _, h5⟩ := hnew
      rw [h2] at hk
      cases hk
      rw [h5] at hc
      cases hc
    · obtain ⟨n, hn, _, _, _, h5⟩ := fwd k n1 hka hk
      rw [h5, List.mem_append] at hc
      rcases hc with hc | hc
      · obtain ⟨cn, hcn, hpar⟩ := iA k n hn c hc
        obtain ⟨c1, hc1, hc2, _, _⟩ := bwd c cn hcn
        exact ⟨c1, hc1, hc2.trans hpar⟩
      · by_cases hkp : k = p
        · rw [if_pos hkp, List.mem_singleton] at hc
          subst hc
          obtain ⟨n2, h2, h3, _, _⟩ := hnew
          exact ⟨n2, h2, by rw [h3, hkp]⟩
        · rw [if_neg hkp] at hc
          cases hc
  · intro c cn1 k hc hpar
    by_cases hca : c = h.next
    · subst hca
      obtain ⟨n2, h2, h3, _, _⟩ := hnew
      rw [h2] at hc
      cases hc
      rw [h3] at hpar
      cases hpar
      obtain ⟨p1, hp1, _, _, hp3⟩ := bwd p pn hp
      refine ⟨p1, hp1, ?_⟩
      rw [hp3, if_pos rfl]
      simp
    · obtain ⟨cn, hcn, h2, _, _, _⟩ := fwd c cn1 hca hc
      rw [h2] at hpar
      obtain ⟨kn, hkn, hmem⟩ := iE c cn k hcn hpar
      obtain ⟨k1, hk1, _, _, hk3⟩ := bwd k kn hkn
      refine ⟨k1, hk1, ?_⟩
      rw [hk3]
      exact List.mem_append_left _ hmem
  · intro k n1 hk
    by_cases hka : k = h.next
    · subst hka
      obtain ⟨n2, h2, _, _, h5⟩ := hnew
      rw [h2] at hk
      cases hk
      rw [h5]
      exact List.nodup_nil
    · obtain ⟨n, hn, _, _, _, h5⟩ := fwd k n1 hka hk
      rw [h5, List.map_append]
      have hold : n.children.map (h.attach p name isFile owner now).nameAt
          = n.children.map h.nameAt := by
        apply List.map_congr_left
        intro c hc
        obtain ⟨cn, hcn, _⟩ := iA k n hn c hc
        exact hnames c cn hcn
      rw [hold]
      by_cases hkp : k = p
      · subst hkp
        rw [if_pos rfl]
        simp only [List.map_cons, List.map_nil, hnamenew]
        rw [List.nodup_append]
        refine ⟨iB k n hn, List.nodup_singleton _, ?_⟩
        intro x hx hx2
        rw [List.mem_singleton] at hx2
        subst hx2
        obtain ⟨c, hc, hcn⟩ := List.mem_map.mp hx
        rw [hp] at hn
        cases hn
        exact hpfree c hc hcn
      · rw [if_neg hkp]
        simpa using iB k n hn
  · intro k n1 hk hfile
    by_cases hka : k = h.next
    · subst hka
      obtain ⟨n2, h2, _, _, h5⟩ := hnew
      rw [h2] at hk
      cases hk
      exact h5
    · obtain ⟨n, hn, _, _, h4, h5⟩ := fwd k n1 hka hk
      rw [h4] at hfile
      rw [h5, iD k n hn hfile]
      by_cases hkp : k = p
      · subst hkp
        rw [hp] at hn
        cases hn
        rw [hpf] at hfile
        cases hfile
      · rw [if_neg hkp]
        rfl

/-- The heap after the pointer writes of a successful `deleteNode` on a childless node. -/
theorem unlink_objects (h : HeapTree) (node p : Nat) (n : HeapNode) (fuel : Nat)
    (hn : h.objects node = some n) (hc : n.children = []) (hpn : p ≠ node) (k : Nat) :
    (destroy (fuel + 1)
        (h.update p (fun x => { x with children := x.children.erase node })) node).objects k
      = if k = node then none
        else (h.objects k).map (fun x =>
          if k = p then { x with children := x.children.erase node } else x) := by
  have h1 : (h.update p (fun x => { x with children := x.children.erase node })).objects node
      = some n := by
    rw [update_objects, if_neg (fun e => hpn e.symm)]
    exact hn
  rw [destroy_leaf fuel _ node n h1 hc]
  simp only [update_objects]
  by_cases hk : k = node
  · simp [hk]
  · by_cases hkp : k = p
    · cases hx : h.objects k <;> simp [hk, hkp, hx]
    · cases hx : h.objects k <;> simp [hk, hkp, hx]

theorem inv_unlink (h : HeapTree) (node p : Nat) (n pn : HeapNode) (fuel : Nat)
    (hinv : HeapInv h) (hn : h.objects node = some n) (hc : n.children = [])
    (hpar : n.parent = some p) (hp : h.objects p = some pn) :
    HeapInv (destroy (fuel + 1)
      (h.update p (fun x => { x with children := x.children.erase node })) node) := by
  obtain ⟨iF, iA, iE, iB, iD⟩ := hinv
  have hmemp : node ∈ pn.children := by
    obtain ⟨pn2, h2, h3⟩ := iE node n p hn hpar
    rw [hp] at h2
    cases h2
    exact h3
  have hpn : p ≠ node := by
    intro e
    subst e
    rw [hn] at hp
    cases hp
    rw [hc] at hmemp
    cases hmemp
  have hobj := unlink_objects h node p n fuel hn hc hpn
  have fwd : ∀ k n1, (destroy (fuel + 1)
        (h.update p (fun x => { x with children := x.children.erase node })) node).objects k
        = some n1 →
      k ≠ node ∧ ∃ x, h.objects k = some x ∧ n1.parent = x.parent
        ∧ n1.info = x.info
        ∧ n1.children = if k = p then x.children.erase node else x.children := by
    intro k n1 hk
    rw [hobj] at hk
    by_cases hkn : k = node
    · rw [if_pos hkn] at hk
      cases hk
    · rw [if_neg hkn] at hk
      refine ⟨hkn, ?_⟩
      cases hx : h.objects k with
      | none =>
        rw [hx] at hk
        cases hk
      | some x =>
        rw [hx] at hk
        simp only [Option.map_some', Option.some.injEq] at hk
        subst hk
        by_cases hkp : k = p
        · simp [hkp]
        · simp [hkp]
  have bwd : ∀ k x, k ≠ node → h.objects k = some x →
      ∃ n1, (destroy (fuel + 1)
        (h.update p (fun x => { x with children := x.children.erase node })) node).objects k
        = some n1 ∧ n1.parent = x.parent ∧ n1.info = x.info
        ∧ n1.children = if k = p then x.children.erase node else x.children := by
    intro k x hk hx
    rw [hobj, if_neg hk, hx]
    by_cases hkp : k = p
    · exact ⟨_, rfl, by simp [hkp], by simp [hkp], by simp [hkp]⟩
    · exact ⟨_, rfl, by simp [hkp], by simp [hkp], by simp [hkp]⟩
  have hnames : ∀ c, c ≠ node → (destroy (fuel + 1)
        (h.update p (fun x => { x with children := x.children.erase node })) node).nameAt c
        = h.nameAt c := by
    intro c hcn
    unfold nameAt
    cases hx : h.objects c with
    | none =>
      rw [hobj, if_neg hcn, hx]
      rfl
    | some x =>
      obtain ⟨n1, h1, _, h3, _⟩ := bwd c x hcn hx
      rw [h1]
      simp [h3]
  have hbase : ∀ k x, h.objects k = some x → ∀ c,
      c ∈ (if k = p then x.children.erase node else x.children) →
      c ∈ x.children ∧ c ≠ node := by
    intro k x hk c hcm
    have hnd : x.children.Nodup := List.Nodup.of_map _ (iB k x hk)
    by_cases hkp : k = p
    · rw [if_pos hkp] at hcm
      have := (hnd.mem_erase_iff).mp hcm
      exact ⟨this.2, this.1⟩
    · rw [if_neg hkp] at hcm
      refine ⟨hcm, ?_⟩
      intro e
      subst e
      obtain ⟨cn, hcn, hpar2⟩ := iA k x hk c hcm
      rw [hn] at hcn
      cases hcn
      rw [hpar] at hpar2
      exact hkp (Option.some.inj hpar2).symm
  refine ⟨?_, ?_, ?_, ?_, ?_⟩
  · intro a ha
    have e : (destroy (fuel + 1)
        (h.update p (fun x => { x with children := x.children.erase node })) node).next
        = h.next := by
      have h1 : (h.update p (fun x => { x with children := x.children.erase node })).objects
          node = some n := by
        rw [update_objects, if_neg (fun e => hpn e.symm)]
        exact hn
      rw [destroy_leaf fuel _ node n h1 hc]
      rfl
    rw [e] at ha
    rw [hobj, iF a ha]
    split <;> rfl
  · intro k n1 hk c hcm
    obtain ⟨hkn, x, hx, _, _, h5⟩ := fwd k n1 hk
    rw [h5] at hcm
    obtain ⟨hc1, hc2⟩ := hbase k x hx c hcm
    obtain ⟨cn, hcn, hpar2⟩ := iA k x hx c hc1
    obtain ⟨c1, e1, e2, _, _⟩ := bwd c cn hc2 hcn
    exact ⟨c1, e1, e2.trans hpar2⟩
  · intro c cn1 k hcl hpar2
    obtain ⟨hcn, x, hx, h3, _, _⟩ := fwd c cn1 hcl
    rw [h3] at hpar2
    obtain ⟨kn, hkn, hmem⟩ := iE c x k hx hpar2
    have hk : k ≠ node := by
      intro e
      subst e
      rw [hn] at hkn
      cases hkn
      rw [hc] at hmem
      cases hmem
    obtain ⟨k1, e1, _, _, e4⟩ := bwd k kn hk hkn
    refine ⟨k1, e1, ?_⟩
    rw [e4]
    split
    · exact (List.mem_erase_of_ne hcn).mpr hmem
    · exact hmem
  · intro k n1 hk
    obtain ⟨hkn, x, hx, _, _, h5⟩ := fwd k n1 hk
    rw [h5]
    have hcongr : (if k = p then x.children.erase node else x.children).map
        (destroy (fuel + 1)
          (h.update p (fun x => { x with children := x.children.erase node })) node).nameAt
        = (if k = p then x.children.erase node else x.children).map h.nameAt :=
      List.map_congr_left (fun c hcm => hnames c (hbase k x hx c hcm).2)
    rw [hcongr]
    apply List.Nodup.sublist _ (iB k x hx)
    apply List.Sublist.map
    split
    · exact List.erase_sublist _ _
    · exact List.Sublist.refl _
  · intro k n1 hk hfile
    obtain ⟨hkn, x, hx, _, h4, h5⟩ := fwd k n1 hk
    rw [h4] at hfile
    rw [h5, iD k x hx hfile]
    split <;> rfl

theorem inv_afterCreate (h : HeapTree) (path : List Char) (isFile : Bool)
    (owner : List Char) (now : Nat) (hinv : HeapInv h) :
    HeapInv (h.afterCreate path isFile owner now) := by
  unfold afterCreate createNode
  split
  · rename_i r hr
    split at hr
    · cases hr
    · simp only at hr
      split at hr
      · cases hr
      · split at hr
        · cases hr
        · rename_i parent hfind
          split at hr
          · cases hr
          · rename_i pn hpn
            split at hr
            · cases hr
            · rename_i hpf
              split at hr
              · cases hr
              · rename_i hfree
                simp only [Option.some.injEq] at hr
                rw [← hr]
                refine inv_attach h parent pn _ isFile owner now hinv hpn (by simpa using hpf)
                  ?_
                cases hx : h.findChild parent (splitParentName path).2 with
                | none => rfl
                | some c => simp [hx] at hfree
  · exact hinv

theorem inv_afterDelete (h : HeapTree) (path : List Char) (hinv : HeapInv h) :
    HeapInv (h.afterDelete path) := by
  unfold afterDelete
  cases hd : h.deleteNode path with
  | none => exact hinv
  | some h1 =>
    simp only [Option.getD_some]
    unfold deleteNode at hd
    split at hd
    · cases hd
    · split at hd
      · cases hd
      · rename_i node hfind
        split at hd
        · cases hd
        · rename_i n hn
          split at hd
          · cases hd
          · rename_i hcond
            split at hd
            · cases hd
            · rename_i p hpar
              split at hd
              · cases hd
              · rename_i pn hp
                split at hd
                · simp only [Option.some.injEq] at hd
                  rw [← hd]
                  have hc : n.children = [] := by
                    by_cases hf : n.info.isFile = true
                    · exact hinv.2.2.2.2 node n hn hf
                    · have hf2 : n.info.isFile = false := by simpa using hf
                      have : ¬ n.children.isEmpty = false := fun e => hcond ⟨hf2, e⟩
                      have h3 : n.children.isEmpty = true := by simpa using this
                      exact List.isEmpty_iff.mp h3
                  exact inv_unlink h node p n pn h.next hinv hn hc hpar hp
                · cases hd

theorem inv_afterRename (h : HeapTree) (oldPath newPath : List Char) (now : Nat)
    (hinv : HeapInv h) : HeapInv (h.afterRename oldPath newPath now) := by
  unfold afterRename
  cases hd : h.rename oldPath newPath now with
  | none => exact hinv
  | some h1 =>
    simp only [Option.getD_some]
    unfold rename at hd
    split at hd
    · cases hd
    · rename_i oldNode hfind
      split at hd
      · cases hd
      · simp only at hd
        split at hd
        · cases hd
        · split at hd
          · cases hd
          · rename_i newParent hfind2
            split at hd
            · rename_i newObj oldObj hq ho
              split at hd
              · cases hd
              · rename_i hqf
                split at hd
                · cases hd
                · rename_i hfree
                  simp only [Option.some.injEq] at hd
                  rw [← hd]
                  refine inv_relink h oldNode newParent oldObj newObj _ now hinv ho hq
                    (by simpa using hqf) ?_
                  cases hx : h.findChild newParent (splitParentName newPath).2 with
                  | none => rfl
                  | some c => simp [hx] at hfree
            · cases hd

theorem inv_of_reachable {h : HeapTree} (hr : HeapReachable h) : HeapInv h := by
  induction hr with
  | init now => exact inv_new now
  | create h path isFile owner now _ _ ih => exact inv_afterCreate h path isFile owner now ih
  | delete h path _ _ ih => exact inv_afterDelete h path ih
  | rename h oldPath newPath now _ _ ih => exact inv_afterRename h oldPath newPath now ih

theorem walk_of_reaches {h : HeapTree} (hinv : HeapInv h) :
    ∀ (parts : List (List Char)) (current n : Nat), HeapReaches h current parts n →
      h.walk current parts = some n := by
  intro parts current n hr
  induction hr with
  | here current => rfl
  | step current c n part rest pn hp hc hname _ ih =>
    have hfind : h.findChild current part = some c := by
      unfold findChild
      rw [hp]
      exact findChildIn_unique h _ _ c (hinv.2.2.2.1 current pn hp) hc hname
    simp only [walk, hfind]
    exact ih

end HeapTree

set_option maxRecDepth 100000 in
/-- The calls `createNode("/d")`, `rename("", "/d/r")`, `rename("/d", "/d/z")`,
`deleteNode("")` all succeed and the last one deletes the root object: the root pointer of
the tree dangles afterwards, and any further call would read freed memory. -/
theorem root_deleted_by_calls :
    (((HeapTree.new 1).afterCreate "/d".toList false "admin".toList 2).afterRename []
        "/d/r".toList 3).objects 0 ≠ none
    ∧ (((((HeapTree.new 1).afterCreate "/d".toList false "admin".toList 2).afterRename []
        "/d/r".toList 3).afterRename "/d".toList "/d/z".toList 4).deleteNode []).isSome = true
    ∧ heapRootDeleted.root = 0
    ∧ heapRootDeleted.objects 0 = none
    ∧ (heapRootDeleted.objects 1).map (fun n => (n.info.name, n.parent, n.children))
        = some ("z".toList, some 1, [1]) := by
  refine ⟨?_, ?_, ?_, ?_, ?_⟩ <;> decide

end OFS
